import Mathlib

/-!
# Load-generation system: the manager's attack service

A shallow embedding of `internal/service/attack` (the attack service of the
manager, with its goroutines `handleLinear` and the removal timer) and of the
node controller `internal/service/node` it drives, of the broadcaster
`pkg/broadcast`, of the load generator of a worker
(`internal/service/generator`), of the stream handler of the manager
(`api/grpc/handlers`) and of the REST boundary (`api/rest/manager`), followed
by theorems about attack and increment bookkeeping, scenario validation, the
split of a workload across nodes, the recovery of nodes, the linear ramp and
the validation of requests.

Conventions of the embedding.

* A Go `map[K]V` is the list of its entries (`GoMap`); a well-formed map has
  pairwise distinct keys (`GoMap.WF`).
* Go does not fix the order in which `range` visits a map and may change it
  from one loop to the next.  A loop whose order can be observed takes a list
  of choices and visits the entries in the order `rangeOrder choices entries`;
  every order is obtained from some list of choices (`rangeOrder_complete`).
* `int64` values are integers; additions of caller-supplied amounts wrap
  (`wrap64`).  The sequence counters start at zero and grow by one per call,
  so they stay far below `2^63` and are not wrapped.
* A `float64` or a time stamp that is only stored and copied is carried as an
  uninterpreted natural number; the `float64` arithmetic of `handleLinear` is
  taken over the exact rationals.
* Maps are values.  The scenarios map of a start operation is kept in two
  places by the node controller, in its mirror and in the operation that waits
  in its queue, and written later; this sharing is recorded next to the value:
  a waiting start is marked when its map is the map of a mirror increment
  (`queued`).
* A Go panic (integer division by zero, nil dereference, closing a nil or
  closed channel, writing into a nil map) is the result `none`.
* Calls made on node controllers, broadcasts and started goroutines are
  returned as a list of `Effect`s next to the new state.
-/

namespace LoadGen

/-! ## Go maps -/

/-- A Go map, as the list of its entries. -/
abbrev GoMap (κ : Type) (ν : Type) := List (κ × ν)

namespace GoMap

variable {κ ν : Type} [DecidableEq κ]

/-- The keys of the map, in entry order. -/
def keys (m : GoMap κ ν) : List κ := m.map Prod.fst

/-- Well-formed maps have pairwise distinct keys. -/
def WF (m : GoMap κ ν) : Prop := (m.map Prod.fst).Nodup

instance (m : GoMap κ ν) : Decidable (WF m) :=
  inferInstanceAs (Decidable (m.map Prod.fst).Nodup)

/-- The comma-ok lookup `v, ok := m[k]`. -/
def get? : GoMap κ ν → κ → Option ν
  | [], _ => none
  | (k', v) :: rest, k => if k' = k then some v else get? rest k

/-- The plain lookup `m[k]`, which yields the zero value `d` for a missing key. -/
def getD (m : GoMap κ ν) (k : κ) (d : ν) : ν := (m.get? k).getD d

/-- Whether `_, ok := m[k]` reports `ok`. -/
def contains (m : GoMap κ ν) (k : κ) : Bool := (m.get? k).isSome

/-- The assignment `m[k] = v`. -/
def set : GoMap κ ν → κ → ν → GoMap κ ν
  | [], k, v => [(k, v)]
  | (k', v') :: rest, k, v => if k' = k then (k, v) :: rest else (k', v') :: set rest k v

/-- The builtin `delete(m, k)`. -/
def delete (m : GoMap κ ν) (k : κ) : GoMap κ ν := m.filter (fun e => decide (e.1 ≠ k))

end GoMap

/-- The order in which one `range` loop visits the entries `l` of a map, as
driven by a list of choices: each choice picks, among the entries not yet
visited, the one to visit next. -/
def rangeOrder {α : Type} : List Nat → List α → List α
  | _, [] => []
  | [], a :: l => a :: l
  | c :: cs, a :: l =>
    (a :: l).getD (c % (l.length + 1)) a :: rangeOrder cs ((a :: l).eraseIdx (c % (l.length + 1)))

/-- The value an `int64` holds after an arithmetic result `x` (two's complement). -/
def wrap64 (x : Int) : Int := (x + 2 ^ 63) % 2 ^ 64 - 2 ^ 63

/-! ## Core types (`internal/core`) -/

/-- The error values of `core/errors.go` that the attack service and the node
controller return. -/
inductive GoError
  | ErrNoActiveNodes
  | ErrAttackNotFound
  | ErrIncrementNotFound
  | ErrScenarioNotFound
  | ErrEmptyAttack
  | ErrBadConfig
  | ErrNodeAlreadyExists
  deriving DecidableEq, Repr

/-- `core.Scenario`; `Counter` is a pointer and may be nil. -/
structure Scenario where
  Name : String
  Counter : Option Int
  deriving DecidableEq, Repr

/-- `core.ConstConfig`. -/
structure ConstConfig where
  Scenarios : List Scenario
  deriving DecidableEq, Repr

/-- `core.LinearConfig`. -/
structure LinearConfig where
  WarmUpSec : Option Int
  StartCounter : Int
  EndCounter : Int
  CounterStep : Option Int
  StepIntervalSec : Option Int
  Scenarios : List Scenario
  deriving DecidableEq, Repr

/-- `core.StartAttack`. -/
structure StartAttack where
  Name : String
  WaitTimeSec : Nat
  DurationSec : Option Int
  ConstConfig : Option ConstConfig
  LinearConfig : Option LinearConfig
  deriving DecidableEq, Repr

/-- `core.ScenarioDetails`. -/
structure ScenarioDetails where
  Name : String
  Description : String
  deriving DecidableEq, Repr

/-- `core.IncrementDetails`. -/
structure IncrementDetails where
  ID : Int
  AttackID : Int
  Scenarios : GoMap String Int
  deriving DecidableEq, Repr

/-- `core.AttackDetails`. -/
structure AttackDetails where
  ID : Int
  Name : String
  WaitTimeSec : Nat
  CreatedAt : Nat
  DurationSec : Option Int
  ConstConfig : Option ConstConfig
  LinearConfig : Option LinearConfig
  Increments : List IncrementDetails
  deriving DecidableEq, Repr

/-- `core.NodeDetails`. -/
structure NodeDetails where
  Name : String
  IsActive : Bool
  Scenarios : List ScenarioDetails
  Attacks : List AttackDetails
  deriving DecidableEq, Repr

/-- `core.OperationStart`. -/
structure OperationStart where
  ID : String
  AttackID : Int
  IncrementID : Int
  WaitTimeSec : Nat
  Scenarios : GoMap String Int
  deriving DecidableEq, Repr

/-- `core.OperationStop`; `IncrementID` is a pointer and may be nil. -/
structure OperationStop where
  AttackID : Int
  IncrementID : Option Int
  deriving DecidableEq, Repr

/-- `core.Operation`, the tagged union of start, stop and kill. -/
inductive Operation
  | Start (op : OperationStart)
  | Stop (op : OperationStop)
  | Kill
  deriving DecidableEq, Repr


/-! ## The node controller (`internal/service/node/node.go`) -/

/-- An operation that waits in the queue of a node controller.  A Go map is a
pointer, and `StartAttack` puts one and the same map into the mirror increment
it creates (`Scenarios: start.Scenarios`) and into the operation it queues
(`Start: &start`).  `op` is the operation as it reads at present, and `shared`
tells that its scenarios map is the map of the mirror increment with its
attack and increment ids, so that an addition into that increment is an
addition into the queued operation too. -/
structure queued where
  op : Operation
  shared : Bool
  deriving DecidableEq, Repr

/-- The node controller: its advertised scenarios, its mirror of the attacks
it runs and the queue of operations waiting to be sent to the worker.  The
queue is a buffered channel; a send into it is modelled as an append. -/
structure node where
  name : String
  scenarios : GoMap String ScenarioDetails
  attacks : GoMap Int AttackDetails
  isActive : Bool
  opQueue : List queued
  deriving DecidableEq, Repr

namespace node

/-- The constructor `New`: no attack, an empty queue, not yet active. -/
def New (name : String) (scenarios : GoMap String ScenarioDetails) : node :=
  { name := name, scenarios := scenarios, attacks := [], isActive := false, opQueue := [] }

/-- The state change of `Start`: the node is marked active. -/
def Start (n : node) : node := { n with isActive := true }

/-- The loop `for name, counter := range start.Scenarios` of `StartAttack`
that adds the counters of an operation into those of an existing increment. -/
def addCounters (existing : GoMap String Int) : List (String × Int) → GoMap String Int
  | [] => existing
  | (name, counter) :: rest =>
    addCounters (existing.set name (wrap64 (existing.getD name 0 + counter))) rest

/-- The search for the first increment with the given id, with the counters
of `scenarios` added into it; `none` when no increment has that id. -/
def addToIncrement (incrementID : Int) (scenarios : GoMap String Int) :
    List IncrementDetails → Option (List IncrementDetails)
  | [] => none
  | increment :: rest =>
    if increment.ID = incrementID then
      some ({ increment with Scenarios := addCounters increment.Scenarios scenarios } :: rest)
    else (addToIncrement incrementID scenarios rest).map (fun r => increment :: r)

/-- The first part of `StartAttack`: the update of the mirror. -/
def updateMirror (n : node) (start : OperationStart) : GoMap Int AttackDetails :=
  let increment : IncrementDetails :=
    { ID := start.IncrementID, AttackID := start.AttackID, Scenarios := start.Scenarios }
  match n.attacks.get? start.AttackID with
  | some attack =>
    match addToIncrement start.IncrementID start.Scenarios attack.Increments with
    | some increments => n.attacks.set start.AttackID { attack with Increments := increments }
    | none =>
      n.attacks.set start.AttackID { attack with Increments := attack.Increments ++ [increment] }
  | none =>
    n.attacks.set start.AttackID
      { ID := start.AttackID, Name := "", WaitTimeSec := 0, CreatedAt := 0, DurationSec := none,
        ConstConfig := none, LinearConfig := none, Increments := [increment] }

/-- Whether the search of `StartAttack` finds an increment with the ids of the
operation in the mirror (`incrementDetails != nil`). -/
def found (n : node) (start : OperationStart) : Bool :=
  match n.attacks.get? start.AttackID with
  | some attack => (addToIncrement start.IncrementID start.Scenarios attack.Increments).isSome
  | none => false

/-- What the write `incrementDetails.Scenarios[name] = scenarioCounter` into
the map of the increment found does to a waiting operation: a start that
shares this map shows the counters added. -/
def addShared (start : OperationStart) (q : queued) : queued :=
  match q.op with
  | Operation.Start op =>
    if q.shared = true ∧ op.AttackID = start.AttackID ∧ op.IncrementID = start.IncrementID then
      { q with
        op := Operation.Start { op with Scenarios := addCounters op.Scenarios start.Scenarios } }
    else q
  | _ => q

/-- The waiting operations after the mirror update of `StartAttack`: the
counters are added in place when an increment was found, and no map held by
the queue is written otherwise. -/
def afterUpdate (n : node) (start : OperationStart) : List queued :=
  if found n start then n.opQueue.map (addShared start) else n.opQueue

/-- The method `StartAttack`: the mirror is updated, then a `Kill` is queued
and `ErrScenarioNotFound` returned when some scenario of the operation is not
a key of the node's scenarios, and the start operation is queued otherwise.
The map `start.Scenarios` is a map the controller does not hold yet, as at
every call of the method: `divideTasks` makes a map for each operation it
sends, and `AddNode` passes the maps of the controller it has unregistered to
a controller whose mirror and queue are empty.  The queued start shares this
map with the mirror when the mirror keeps it, that is, when the operation made
a new increment. -/
def StartAttack (n : node) (start : OperationStart) : node × Option GoError :=
  let attacks := updateMirror n start
  if start.Scenarios.all (fun e => n.scenarios.contains e.1) then
    ({ n with
        attacks := attacks,
        opQueue := afterUpdate n start
          ++ [{ op := Operation.Start start, shared := !found n start }] }, none)
  else
    ({ n with
        attacks := attacks,
        opQueue := afterUpdate n start ++ [{ op := Operation.Kill, shared := false }] },
      some GoError.ErrScenarioNotFound)

/-- The position of the first increment with the given id. -/
def findIncrement (incrementID : Int) : List IncrementDetails → Option Nat
  | [] => none
  | increment :: rest =>
    if increment.ID = incrementID then some 0
    else (findIncrement incrementID rest).map Nat.succ

/-- What the removal of an increment (of every increment of the attack when
`incrementID` is `none`) from the mirror does to a waiting operation: the map
of a start with these ids is no longer a map of the mirror. -/
def unshare (attackID : Int) (incrementID : Option Int) (q : queued) : queued :=
  match q.op with
  | Operation.Start op =>
    if op.AttackID = attackID ∧ (incrementID = none ∨ incrementID = some op.IncrementID) then
      { q with shared := false }
    else q
  | _ => q

/-- The method `StopAttack`. -/
def StopAttack (n : node) (stop : OperationStop) : node × Option GoError :=
  match n.attacks.get? stop.AttackID with
  | none => (n, some GoError.ErrAttackNotFound)
  | some attack =>
    match stop.IncrementID with
    | some incrementID =>
      match findIncrement incrementID attack.Increments with
      | none => (n, some GoError.ErrIncrementNotFound)
      | some i =>
        if attack.Increments.length > 1 then
          ({ n with
              attacks := n.attacks.set stop.AttackID
                { attack with Increments := attack.Increments.eraseIdx i },
              opQueue := n.opQueue.map (unshare stop.AttackID (some incrementID))
                ++ [{ op := Operation.Stop stop, shared := false }] }, none)
        else
          ({ n with attacks := n.attacks.delete stop.AttackID,
                    opQueue := n.opQueue.map (unshare stop.AttackID none)
                      ++ [{ op := Operation.Stop stop, shared := false }] }, none)
    | none =>
      ({ n with attacks := n.attacks.delete stop.AttackID,
                opQueue := n.opQueue.map (unshare stop.AttackID none)
                  ++ [{ op := Operation.Stop stop, shared := false }] }, none)

/-- The operations that wait in the queue, oldest first, as they read at
present. -/
def pending (n : node) : List Operation := n.opQueue.map (fun q => q.op)

/-- The method `GetDetails`; the two lists of choices give the orders in which
the mirror and the scenarios are visited. -/
def GetDetails (n : node) (attacksOrder scenariosOrder : List Nat) : NodeDetails :=
  { Name := n.name,
    IsActive := n.isActive,
    Scenarios := (rangeOrder scenariosOrder n.scenarios).map Prod.snd,
    Attacks := (rangeOrder attacksOrder n.attacks).map Prod.snd }

end node

/-! ## The attack service (`internal/service/attack`) -/

/-- The record `attack` kept per live attack.  `stopBr` points to the
broadcaster made for the attack by `StartAttack`; one is made per attack, and
it is named here by the id of its attack. -/
structure attack where
  details : AttackDetails
  stopBr : Int
  deriving DecidableEq, Repr

/-- The struct `attackService`.  `removingCancels` holds channels, named by
the number they got when made.  The last two fields are the part of the Go
runtime the service depends on: which channels have been closed and how many
have been made. -/
structure attackService where
  nodes : GoMap String node
  removingCancels : GoMap String Nat
  attacks : GoMap Int attack
  attackSeq : Int
  incrementSeqs : GoMap Int Int
  recoveryInterval : Int
  closedChans : List Nat
  chanSeq : Nat
  deriving DecidableEq, Repr

/-- What a method of the service does besides changing its state. -/
inductive Effect
  | nodeStartAttack (nodeName : String) (op : OperationStart)
  | nodeStopAttack (nodeName : String) (op : OperationStop)
  | broadcast (stopBr : Int)
  | goHandleDuration (a : attack)
  | goHandleLinear (a : attack)
  | goRemovingTimer (nodeName : String) (cancel : Nat)
  | closeChan (c : Nat)
  deriving DecidableEq, Repr

/-- What a method returns: its value, or the error. -/
inductive Ret (α : Type)
  | ok (val : α)
  | fail (err : GoError)
  deriving DecidableEq, Repr

/-- The result of a method call on the service. -/
structure Outcome (α : Type) where
  ret : Ret α
  state : attackService
  effects : List Effect

/-- The orders chosen by the runtime for the `range` loops over maps in one
call of `distributeStart`. -/
structure Choices where
  validate : List Nat
  scenarios : List Nat
  nodesFor : String → List Nat
  dispatch : List Nat

namespace attackService

/-- The constructor `NewService`. -/
def NewService (recoveryIntervalSec : Int) : attackService :=
  { nodes := [], removingCancels := [], attacks := [], attackSeq := 0, incrementSeqs := [],
    recoveryInterval := recoveryIntervalSec, closedChans := [], chanSeq := 0 }

/-- The helper `getScenarios` of `info.go`: the scenarios of all nodes, keyed
by name.  Its callers in the service only test keys for presence. -/
def getScenarios (s : attackService) : GoMap String ScenarioDetails :=
  s.nodes.foldl
    (fun uniqueScenarios e =>
      (e.2.GetDetails [] []).Scenarios.foldl
        (fun u scenario => u.set scenario.Name scenario) uniqueScenarios)
    []

/-- The loop of `mapStartAttackToOperationStart` over the constant
configuration; dereferencing a nil `Counter` panics. -/
def mapConst : List Scenario → GoMap String Int → Option (GoMap String Int)
  | [], resultScenarios => some resultScenarios
  | scenario :: rest, resultScenarios =>
    match scenario.Counter with
    | none => none
    | some counter => mapConst rest (resultScenarios.set scenario.Name counter)

/-- The loop of `mapStartAttackToOperationStart` over the linear
configuration. -/
def mapLinear (startCounter : Int) : List Scenario → GoMap String Int → GoMap String Int
  | [], resultScenarios => resultScenarios
  | scenario :: rest, resultScenarios =>
    mapLinear startCounter rest
      (resultScenarios.set scenario.Name
        (wrap64 (resultScenarios.getD scenario.Name 0 + startCounter)))

/-- The mapper `mapStartAttackToOperationStart` of `mappers.go`. -/
def mapStartAttackToOperationStart (start : LoadGen.StartAttack) (attackID incrementID : Int) :
    Option OperationStart :=
  let afterConst : Option (GoMap String Int) :=
    match start.ConstConfig with
    | some constConfig => mapConst constConfig.Scenarios []
    | none => some []
  match afterConst with
  | none => none
  | some resultScenarios =>
    let resultScenarios :=
      match start.LinearConfig with
      | some linearConfig =>
        mapLinear linearConfig.StartCounter linearConfig.Scenarios resultScenarios
      | none => resultScenarios
    some { ID := "", AttackID := attackID, IncrementID := incrementID,
           WaitTimeSec := start.WaitTimeSec, Scenarios := resultScenarios }

/-- The loop of `validateScenarios` over the entries in visiting order; the
second component is the map as the loop leaves it. -/
def validateLoop (uniqueScenarios : GoMap String ScenarioDetails) :
    List (String × Int) → GoMap String Int → Option GoError × GoMap String Int
  | [], scenarios => (none, scenarios)
  | (scenario, amount) :: rest, scenarios =>
    if uniqueScenarios.contains scenario then
      if amount ≤ 0 then validateLoop uniqueScenarios rest (scenarios.delete scenario)
      else validateLoop uniqueScenarios rest scenarios
    else (some GoError.ErrScenarioNotFound, scenarios)

/-- The method `validateScenarios`; it changes the map it is given, so the
map is returned next to the error. -/
def validateScenarios (s : attackService) (scenarios : GoMap String Int) (order : List Nat) :
    Option GoError × GoMap String Int :=
  match validateLoop s.getScenarios (rangeOrder order scenarios) scenarios with
  | (some err, scenarios) => (some err, scenarios)
  | (none, scenarios) =>
    if scenarios.length = 0 then (some GoError.ErrEmptyAttack, scenarios) else (none, scenarios)

/-- The inner loop of that search: whether the details of a node list a
scenario of the given name. -/
def supports (n : node) (scenario : String) : Bool :=
  (n.GetDetails [] []).Scenarios.any
    (fun scenarioDetails => decide (scenarioDetails.Name = scenario))

/-- The search of `divideTasks` for the nodes that support a scenario, over
the nodes in visiting order. -/
def actualNodes (nodes : List (String × node)) (scenario : String) : List String :=
  (nodes.filter (fun e => supports e.2 scenario)).map Prod.fst

/-- The loop of `divideTasks` that hands the slices of one scenario to the
nodes supporting it.  `operations[node]` of a missing key has a nil scenarios
map, and writing into it panics. -/
def assignLoop (scenario : String) (splitAmount remainder : Int) :
    List String → Int → GoMap String OperationStart → Option (GoMap String OperationStart)
  | [], _, operations => some operations
  | nodeName :: rest, index, operations =>
    let resultAmount := if index < remainder then splitAmount + 1 else splitAmount
    let index := if index < remainder then index + 1 else index
    if resultAmount ≠ 0 then
      match operations.get? nodeName with
      | none => none
      | some operation =>
        assignLoop scenario splitAmount remainder rest index
          (operations.set nodeName
            { operation with Scenarios := operation.Scenarios.set scenario resultAmount })
    else assignLoop scenario splitAmount remainder rest index operations

/-- The loop of `divideTasks` over the scenarios in visiting order; a scenario
that no node supports makes the division panic. -/
def splitLoop (s : attackService) (nodesFor : String → List Nat) :
    List (String × Int) → GoMap String OperationStart → Option (GoMap String OperationStart)
  | [], operations => some operations
  | (scenario, amount) :: rest, operations =>
    let actual := actualNodes (rangeOrder (nodesFor scenario) s.nodes) scenario
    if actual.length = 0 then none
    else
      match assignLoop scenario (Int.tdiv amount actual.length) (Int.tmod amount actual.length)
          actual 0 operations with
      | none => none
      | some operations => splitLoop s nodesFor rest operations

/-- The last loop of `divideTasks`: every operation with a non-empty scenarios
map is started on its node. -/
def dispatchLoop :
    List (String × OperationStart) → GoMap String node → Option (GoMap String node × List Effect)
  | [], nodes => some (nodes, [])
  | (nodeName, operation) :: rest, nodes =>
    if operation.Scenarios.length ≠ 0 then
      match nodes.get? nodeName with
      | none => none
      | some n =>
        match dispatchLoop rest (nodes.set nodeName (n.StartAttack operation).1) with
        | none => none
        | some (nodes, effects) => some (nodes, Effect.nodeStartAttack nodeName operation :: effects)
    else dispatchLoop rest nodes

/-- The operations `divideTasks` prepares before the split: one per node, with
an empty scenarios map; `ids` gives the fresh id made for each node. -/
def emptyOperations (s : attackService) (start : OperationStart) (ids : String → String) :
    GoMap String OperationStart :=
  s.nodes.map (fun e =>
    (e.1, { ID := ids e.1, AttackID := start.AttackID, IncrementID := start.IncrementID,
            WaitTimeSec := start.WaitTimeSec, Scenarios := [] }))

/-- The method `divideTasks`. -/
def divideTasks (s : attackService) (start : OperationStart) (ids : String → String)
    (ch : Choices) : Option (attackService × List Effect) :=
  match splitLoop s ch.nodesFor (rangeOrder ch.scenarios start.Scenarios)
      (emptyOperations s start ids) with
  | none => none
  | some operations =>
    match dispatchLoop (rangeOrder ch.dispatch operations) s.nodes with
    | none => none
    | some (nodes, effects) => some ({ s with nodes := nodes }, effects)

/-- The method `distributeStart`; the second component is the scenarios map of
`start` as validation leaves it. -/
def distributeStart (s : attackService) (start : OperationStart) (ids : String → String)
    (ch : Choices) : Option (Option GoError × GoMap String Int × attackService × List Effect) :=
  match validateScenarios s start.Scenarios ch.validate with
  | (some err, scenarios) => some (some err, scenarios, s, [])
  | (none, scenarios) =>
    match divideTasks s { start with Scenarios := scenarios } ids ch with
    | none => none
    | some (s, effects) => some (none, scenarios, s, effects)

/-- The method `distributeStop`: the stop is sent to every node, in visiting
order; errors of the nodes are only logged. -/
def distributeStop (s : attackService) (stop : OperationStop) (order : List Nat) :
    attackService × List Effect :=
  let visited := rangeOrder order s.nodes
  (visited.foldl
      (fun (acc : attackService) e =>
        { acc with nodes := acc.nodes.set e.1 (e.2.StopAttack stop).1 })
      s,
    visited.map (fun e => Effect.nodeStopAttack e.1 stop))

/-- The method `StartAttack`; `now` is the reading of the clock, truncated to
seconds. -/
def StartAttack (s : attackService) (start : LoadGen.StartAttack) (now : Nat)
    (ids : String → String) (ch : Choices) : Option (Outcome AttackDetails) :=
  match mapStartAttackToOperationStart start s.attackSeq 0 with
  | none => none
  | some operationStart =>
    match distributeStart s operationStart ids ch with
    | none => none
    | some (some err, _, s, effects) => some { ret := Ret.fail err, state := s, effects := effects }
    | some (none, scenarios, s, effects) =>
      let incrementDetails : IncrementDetails :=
        { ID := operationStart.IncrementID, AttackID := operationStart.AttackID,
          Scenarios := scenarios }
      let attackDetails : AttackDetails :=
        { ID := operationStart.AttackID, Name := start.Name, WaitTimeSec := start.WaitTimeSec,
          CreatedAt := now, DurationSec := start.DurationSec, ConstConfig := start.ConstConfig,
          LinearConfig := start.LinearConfig, Increments := [incrementDetails] }
      let attack : LoadGen.attack :=
        { details := attackDetails, stopBr := operationStart.AttackID }
      some
        { ret := Ret.ok attackDetails,
          state :=
            { s with
              attackSeq := s.attackSeq + 1,
              incrementSeqs :=
                s.incrementSeqs.set operationStart.AttackID
                  (s.incrementSeqs.getD operationStart.AttackID 0 + 1),
              attacks := s.attacks.set operationStart.AttackID attack },
          effects :=
            effects
              ++ (if start.DurationSec.isSome then [Effect.goHandleDuration attack] else [])
              ++ (if start.LinearConfig.isSome then [Effect.goHandleLinear attack] else []) }

/-- The method `StartIncrement`. -/
def StartIncrement (s : attackService) (start : OperationStart) (ids : String → String)
    (ch : Choices) : Option (Outcome IncrementDetails) :=
  match s.attacks.get? start.AttackID with
  | none => some { ret := Ret.fail GoError.ErrAttackNotFound, state := s, effects := [] }
  | some attack =>
    let start : OperationStart :=
      { start with
        AttackID := attack.details.ID,
        IncrementID := s.incrementSeqs.getD attack.details.ID 0,
        WaitTimeSec := attack.details.WaitTimeSec }
    match distributeStart s start ids ch with
    | none => none
    | some (some err, _, s, effects) => some { ret := Ret.fail err, state := s, effects := effects }
    | some (none, scenarios, s, effects) =>
      let incrementDetails : IncrementDetails :=
        { ID := start.IncrementID, AttackID := start.AttackID, Scenarios := scenarios }
      let attack : LoadGen.attack :=
        { attack with
          details :=
            { attack.details with Increments := attack.details.Increments ++ [incrementDetails] } }
      some
        { ret := Ret.ok incrementDetails,
          state :=
            { s with
              incrementSeqs :=
                s.incrementSeqs.set attack.details.ID
                  (s.incrementSeqs.getD attack.details.ID 0 + 1),
              attacks := s.attacks.set start.AttackID attack },
          effects := effects }

/-- The method `StopAttack`. -/
def StopAttack (s : attackService) (attackID : Int) (order : List Nat) : Outcome Unit :=
  match s.attacks.get? attackID with
  | none => { ret := Ret.fail GoError.ErrAttackNotFound, state := s, effects := [] }
  | some attack =>
    let stopped := distributeStop s { AttackID := attackID, IncrementID := none } order
    { ret := Ret.ok (),
      state := { stopped.1 with attacks := stopped.1.attacks.delete attackID },
      effects := stopped.2 ++ [Effect.broadcast attack.stopBr] }

/-- The loop of `stopIncrement` that records the position of every increment
under its id; for an id that occurs twice the later position stays. -/
def incrementPositions : List IncrementDetails → Nat → GoMap Int Nat → GoMap Int Nat
  | [], _, increments => increments
  | increment :: rest, i, increments =>
    incrementPositions rest (i + 1) (increments.set increment.ID i)

/-- The method `stopIncrement`. -/
def stopIncrement (s : attackService) (attackID incrementID : Int) (order : List Nat) :
    Outcome Unit :=
  match s.attacks.get? attackID with
  | none => { ret := Ret.fail GoError.ErrAttackNotFound, state := s, effects := [] }
  | some attack =>
    match (incrementPositions attack.details.Increments 0 []).get? incrementID with
    | none => { ret := Ret.fail GoError.ErrIncrementNotFound, state := s, effects := [] }
    | some i =>
      let stopped :=
        distributeStop s { AttackID := attackID, IncrementID := some incrementID } order
      { ret := Ret.ok (),
        state :=
          if attack.details.Increments.length > 1 then
            { stopped.1 with
              attacks :=
                stopped.1.attacks.set attackID
                  { attack with
                    details :=
                      { attack.details with
                        Increments := attack.details.Increments.eraseIdx i } } }
          else { stopped.1 with attacks := stopped.1.attacks.delete attackID },
        effects := stopped.2 }

/-- The method `StopIncrement`. -/
def StopIncrement (s : attackService) (attackID incrementID : Int) (order : List Nat) :
    Outcome Unit :=
  stopIncrement s attackID incrementID order

/-- The method `retrieveOperations` of `node.go`: the operations of the
mirror of the node registered under `nodeName`, which is then unregistered
and whose removal channel is closed.  Closing a nil channel (no entry in
`removingCancels`) or a closed one panics. -/
def retrieveOperations (s : attackService) (nodeName : String) (mirrorOrder : List Nat) :
    Option (List OperationStart × attackService × List Effect) :=
  match s.nodes.get? nodeName with
  | none => some ([], s, [])
  | some n =>
    let nodeDetails := n.GetDetails mirrorOrder []
    let operations : List OperationStart :=
      nodeDetails.Attacks.flatMap (fun attack =>
        let waitTimeSec :=
          match s.attacks.get? attack.ID with
          | some a => a.details.WaitTimeSec
          | none => 0
        attack.Increments.map (fun increment =>
          { ID := "", AttackID := attack.ID, IncrementID := increment.ID,
            WaitTimeSec := waitTimeSec, Scenarios := increment.Scenarios }))
    match s.removingCancels.get? nodeName with
    | none => none
    | some cancel =>
      if cancel ∈ s.closedChans then none
      else
        some (operations,
          { s with closedChans := cancel :: s.closedChans, nodes := s.nodes.delete nodeName },
          [Effect.closeChan cancel])

/-- The loop of `AddNode` that replays the retrieved operations on the
newcomer; an operation the newcomer refuses is cleaned up with
`stopIncrement`.  `stopOrders` gives the visiting order of each clean-up. -/
def replayLoop : List OperationStart → List (List Nat) → node → attackService →
    node × attackService × List Effect
  | [], _, n, s => (n, s, [])
  | operation :: rest, stopOrders, n, s =>
    let started := n.StartAttack operation
    match started.2 with
    | some _ =>
      let cleaned := stopIncrement s operation.AttackID operation.IncrementID (stopOrders.headD [])
      let r := replayLoop rest stopOrders.tail started.1 cleaned.state
      (r.1, r.2.1, Effect.nodeStartAttack n.name operation :: (cleaned.effects ++ r.2.2))
    | none =>
      let r := replayLoop rest stopOrders started.1 s
      (r.1, r.2.1, Effect.nodeStartAttack n.name operation :: r.2.2)

/-- The method `AddNode`. -/
def AddNode (s : attackService) (n : node) (mirrorOrder : List Nat)
    (stopOrders : List (List Nat)) : Option (Outcome Unit) :=
  let nodeDetails := n.GetDetails [] []
  let isRemoved := s.removingCancels.contains nodeDetails.Name
  if s.nodes.contains nodeDetails.Name && !isRemoved then
    some { ret := Ret.fail GoError.ErrNodeAlreadyExists, state := s, effects := [] }
  else
    match retrieveOperations s nodeDetails.Name mirrorOrder with
    | none => none
    | some (operations, s, effects) =>
      let r := replayLoop operations stopOrders n s
      some
        { ret := Ret.ok (),
          state := { r.2.1 with nodes := r.2.1.nodes.set nodeDetails.Name r.1 },
          effects := effects ++ r.2.2 }

/-- The part of `startRemovingTimer` that runs in the caller: a channel is
made and recorded, and the goroutine that waits for it or for the timer is
started. -/
def startRemovingTimer (s : attackService) (nodeName : String) : attackService × List Effect :=
  ({ s with removingCancels := s.removingCancels.set nodeName s.chanSeq,
            chanSeq := s.chanSeq + 1 },
    [Effect.goRemovingTimer nodeName s.chanSeq])

/-- The method `RemoveNode`; only the name of the node is used. -/
def RemoveNode (s : attackService) (n : node) : Outcome Unit :=
  let started := startRemovingTimer s (n.GetDetails [] []).Name
  { ret := Ret.ok (), state := started.1, effects := started.2 }

/-- The loop of the removal goroutine that redistributes the retrieved
operations; an operation that cannot be redistributed is cleaned up with
`stopIncrement`. -/
def redistributeLoop : List OperationStart → List (String → String) → List Choices →
    List (List Nat) → attackService → Option (attackService × List Effect)
  | [], _, _, _, s => some (s, [])
  | operation :: rest, ids, chs, stopOrders, s =>
    match distributeStart s operation (ids.headD (fun _ => ""))
        (chs.headD { validate := [], scenarios := [], nodesFor := fun _ => [], dispatch := [] }) with
    | none => none
    | some (some _, _, s, effects) =>
      let cleaned := stopIncrement s operation.AttackID operation.IncrementID (stopOrders.headD [])
      match redistributeLoop rest ids.tail chs.tail stopOrders.tail cleaned.state with
      | none => none
      | some (s, more) => some (s, effects ++ cleaned.effects ++ more)
    | some (none, _, s, effects) =>
      match redistributeLoop rest ids.tail chs.tail stopOrders s with
      | none => none
      | some (s, more) => some (s, effects ++ more)

/-- The branch `case <-timer.C` of the removal goroutine: the recovery
interval has elapsed. -/
def removingTimerFired (s : attackService) (nodeName : String) (mirrorOrder : List Nat)
    (ids : List (String → String)) (chs : List Choices) (stopOrders : List (List Nat)) :
    Option (attackService × List Effect) :=
  match retrieveOperations s nodeName mirrorOrder with
  | none => none
  | some (operations, s, effects) =>
    match redistributeLoop operations ids chs stopOrders s with
    | none => none
    | some (s, more) => some (s, effects ++ more)

/-- The deferred function of the removal goroutine, run when it ends (after
the timer branch, or when its channel was closed). -/
def removingTimerDone (s : attackService) (nodeName : String) : attackService :=
  { s with removingCancels := s.removingCancels.delete nodeName }

end attackService

/-! ## The running manager

The service is driven by the REST handlers, by the stream handler
`StreamAttack` of `api/grpc/handlers/manager.go` (one per connected worker),
by the goroutines `handleDuration` and `handleLinear` (which call `StopAttack`
and `StartIncrement`), by the removal goroutines and by the node controllers'
own loops.  Every method runs under the lock of the service, so a run of the
manager is a sequence of the following actions. -/

/-- A goroutine started by `startRemovingTimer`: the name it was started for,
its channel, and whether its timer branch has run (only the deferred function
is then left to run). -/
structure removingTimer where
  nodeName : String
  cancel : Nat
  fired : Bool
  deriving DecidableEq, Repr

/-- The manager: the attack service and the removal goroutines still alive. -/
structure System where
  svc : attackService
  timers : List removingTimer

/-- One atomic action of the running manager. -/
inductive Action
  /-- A call of `StartAttack`. -/
  | startAttack (start : LoadGen.StartAttack) (now : Nat) (ids : String → String) (ch : Choices)
  /-- A call of `StartIncrement` (by a REST client or by `handleLinear`). -/
  | startIncrement (start : OperationStart) (ids : String → String) (ch : Choices)
  /-- A call of `StopAttack` (by a REST client or by `handleDuration`). -/
  | stopAttack (attackID : Int) (order : List Nat)
  /-- A call of `StopIncrement`. -/
  | stopIncrement (attackID incrementID : Int) (order : List Nat)
  /-- A worker connects: `StreamAttack` builds a node controller from the
  handshake, starts it and calls `AddNode`. -/
  | connect (nodeName : String) (scenarios : List ScenarioDetails) (mirrorOrder : List Nat)
      (stopOrders : List (List Nat))
  /-- A stream ends: `StreamAttack` calls `RemoveNode` for its node. -/
  | disconnect (nodeName : String)
  /-- The recovery interval of the `i`-th removal goroutine elapses. -/
  | timerFired (i : Nat) (mirrorOrder : List Nat) (ids : List (String → String))
      (chs : List Choices) (stopOrders : List (List Nat))
  /-- The `i`-th removal goroutine ends: its deferred function runs. -/
  | timerDone (i : Nat)
  /-- The loop of a registered node controller takes the next operation from
  its queue. -/
  | nodeDequeue (nodeName : String)
  /-- The loop of a registered node controller ends: the node is inactive. -/
  | nodeStopped (nodeName : String)

/-- The node controller `StreamAttack` builds from a handshake. -/
def handshakeNode (nodeName : String) (scenarios : List ScenarioDetails) : node :=
  (node.New nodeName
    (scenarios.foldl (fun (m : GoMap String ScenarioDetails) scenario =>
      m.set scenario.Name scenario) [])).Start

/-- The goroutines named in a list of effects. -/
def startedTimers : List Effect → List removingTimer
  | [] => []
  | Effect.goRemovingTimer nodeName cancel :: rest =>
    { nodeName := nodeName, cancel := cancel, fired := false } :: startedTimers rest
  | _ :: rest => startedTimers rest

/-- One action of the manager: the new state and what the action did, or
`none` when the action panics or cannot happen in this state. -/
def System.step (sys : System) : Action → Option (System × List Effect)
  | Action.startAttack start now ids ch =>
    (sys.svc.StartAttack start now ids ch).map
      (fun o => ({ sys with svc := o.state }, o.effects))
  | Action.startIncrement start ids ch =>
    (sys.svc.StartIncrement start ids ch).map
      (fun o => ({ sys with svc := o.state }, o.effects))
  | Action.stopAttack attackID order =>
    let o := sys.svc.StopAttack attackID order
    some ({ sys with svc := o.state }, o.effects)
  | Action.stopIncrement attackID incrementID order =>
    let o := sys.svc.StopIncrement attackID incrementID order
    some ({ sys with svc := o.state }, o.effects)
  | Action.connect nodeName scenarios mirrorOrder stopOrders =>
    (sys.svc.AddNode (handshakeNode nodeName scenarios) mirrorOrder stopOrders).map
      (fun o => ({ sys with svc := o.state }, o.effects))
  | Action.disconnect nodeName =>
    let o := sys.svc.RemoveNode (handshakeNode nodeName [])
    some ({ svc := o.state, timers := sys.timers ++ startedTimers o.effects }, o.effects)
  | Action.timerFired i mirrorOrder ids chs stopOrders =>
    match sys.timers.get? i with
    | none => none
    | some t =>
      if t.fired then none
      else
        (sys.svc.removingTimerFired t.nodeName mirrorOrder ids chs stopOrders).map
          (fun r => ({ svc := r.1, timers := sys.timers.set i { t with fired := true } }, r.2))
  | Action.timerDone i =>
    match sys.timers.get? i with
    | none => none
    | some t =>
      if t.fired || decide (t.cancel ∈ sys.svc.closedChans) then
        some ({ svc := sys.svc.removingTimerDone t.nodeName, timers := sys.timers.eraseIdx i }, [])
      else none
  | Action.nodeDequeue nodeName =>
    match sys.svc.nodes.get? nodeName with
    | none => none
    | some n =>
      some ({ sys with
              svc := { sys.svc with
                       nodes := sys.svc.nodes.set nodeName { n with opQueue := n.opQueue.tail } } },
            [])
  | Action.nodeStopped nodeName =>
    match sys.svc.nodes.get? nodeName with
    | none => none
    | some n =>
      some ({ sys with
              svc := { sys.svc with nodes := sys.svc.nodes.set nodeName { n with isActive := false } } },
            [])

/-- A run: the actions are taken one after the other; the result is the last
state and the effects of every action, in order. -/
def System.run (sys : System) : List Action → Option (System × List (List Effect))
  | [] => some (sys, [])
  | a :: rest =>
    match sys.step a with
    | none => none
    | some (sys, effects) =>
      match System.run sys rest with
      | none => none
      | some (sys, more) => some (sys, effects :: more)

/-- The manager right after `NewService`. -/
def System.init (recoveryIntervalSec : Int) : System :=
  { svc := attackService.NewService recoveryIntervalSec, timers := [] }

/-- The states the manager can be in. -/
def System.Reachable (sys : System) : Prop :=
  ∃ (recoveryIntervalSec : Int) (actions : List Action) (effects : List (List Effect)),
    (System.init recoveryIntervalSec).run actions = some (sys, effects)

/-! ## Notions used to state the properties -/

/-- The operations started on nodes, with the name of the node, as recorded
in a list of effects. -/
def dispatched : List Effect → List (String × OperationStart)
  | [] => []
  | Effect.nodeStartAttack nodeName op :: rest => (nodeName, op) :: dispatched rest
  | _ :: rest => dispatched rest

/-- The stops sent to nodes, with the name of the node, as recorded in a list
of effects. -/
def stopped : List Effect → List (String × OperationStop)
  | [] => []
  | Effect.nodeStopAttack nodeName op :: rest => (nodeName, op) :: stopped rest
  | _ :: rest => stopped rest

/-- The amount of a scenario a node receives in a list of effects: the entry
of the operation started on it, and zero when no operation is started on it or
its operation has no entry for the scenario. -/
def received (effects : List Effect) (nodeName scenario : String) : Int :=
  match GoMap.get? (dispatched effects) nodeName with
  | some op => op.Scenarios.getD scenario 0
  | none => 0

/-- The slice the split loop of `divideTasks` computes for a node, given the
supporting nodes in visiting order, the quotient, the remainder and the
running index: zero for a node that is not among them. -/
def sliceAt (splitAmount remainder : Int) : List String → Int → String → Int
  | [], _, _ => 0
  | n :: rest, index, nodeName =>
    if n = nodeName then (if index < remainder then splitAmount + 1 else splitAmount)
    else sliceAt splitAmount remainder rest (if index < remainder then index + 1 else index) nodeName

/-- The number of registered nodes that support a scenario. -/
def supporters (s : attackService) (scenario : String) : Nat :=
  (s.nodes.filter (fun e => attackService.supports e.2 scenario)).length

/-- The scenarios map the split loop of `divideTasks` builds for one node:
for every scenario in visiting order, the slice of the node is stored unless
it is zero. -/
def nodeScenarios (s : attackService) (nodesFor : String → List Nat) (nodeName : String) :
    List (String × Int) → GoMap String Int → GoMap String Int
  | [], scenarios => scenarios
  | (scenario, amount) :: rest, scenarios =>
    let actual := attackService.actualNodes (rangeOrder (nodesFor scenario) s.nodes) scenario
    let slice :=
      sliceAt (Int.tdiv amount actual.length) (Int.tmod amount actual.length) actual 0 nodeName
    nodeScenarios s nodesFor nodeName rest
      (if slice ≠ 0 then scenarios.set scenario slice else scenarios)

/-- The operations `divideTasks` has prepared when the split loop ends: one
per registered node. -/
def plannedOperations (s : attackService) (start : OperationStart) (ids : String → String)
    (ch : Choices) : GoMap String OperationStart :=
  s.nodes.map (fun e =>
    (e.1, { ID := ids e.1, AttackID := start.AttackID, IncrementID := start.IncrementID,
            WaitTimeSec := start.WaitTimeSec,
            Scenarios :=
              nodeScenarios s ch.nodesFor e.1 (rangeOrder ch.scenarios start.Scenarios) [] }))

/-! ## Concrete states used to exercise the theorems -/

/-- A scenario description with the given name. -/
def demoScenario (name : String) : ScenarioDetails := { Name := name, Description := "" }

/-- Three nodes: all advertise `X`, the third also `Y`. -/
def demoService : attackService :=
  { attackService.NewService 60 with
    nodes :=
      [("n1", handshakeNode "n1" [demoScenario "X"]),
       ("n2", handshakeNode "n2" [demoScenario "X"]),
       ("n3", handshakeNode "n3" [demoScenario "X", demoScenario "Y"])] }

/-- Visiting orders: every map in its entry order. -/
def demoChoices : Choices :=
  { validate := [], scenarios := [], nodesFor := fun _ => [], dispatch := [] }

/-- Other visiting orders: the nodes are visited from the third on when a
scenario is split. -/
def demoChoices2 : Choices :=
  { validate := [1], scenarios := [1], nodesFor := fun _ => [2, 1], dispatch := [1] }

/-- An operation asking for seven users of `X` and two of `Y`. -/
def demoStart : OperationStart :=
  { ID := "", AttackID := 0, IncrementID := 0, WaitTimeSec := 1,
    Scenarios := [("X", 7), ("Y", 2)] }

/-- An operation asking for seven users of `X`. -/
def demoStartX : OperationStart :=
  { ID := "", AttackID := 0, IncrementID := 0, WaitTimeSec := 1, Scenarios := [("X", 7)] }

/-- A request for a constant attack with four users of `X`, limited to five
seconds, with a linear ramp of `X` starting at two users. -/
def demoAttack : LoadGen.StartAttack :=
  { Name := "a", WaitTimeSec := 1, DurationSec := some 5,
    ConstConfig := some { Scenarios := [{ Name := "X", Counter := some 4 },
                                        { Name := "Y", Counter := some 0 }] },
    LinearConfig := some { WarmUpSec := none, StartCounter := 2, EndCounter := 12,
                           CounterStep := some 2, StepIntervalSec := none,
                           Scenarios := [{ Name := "X", Counter := none }] } }

/-- A request naming a scenario `Z` that no node of `demoService` supports. -/
def demoAttackUnknown : LoadGen.StartAttack :=
  { Name := "b", WaitTimeSec := 1, DurationSec := some 5,
    ConstConfig := some { Scenarios := [{ Name := "Z", Counter := some 4 }] },
    LinearConfig := none }

/-- The counter the constant configuration of a request gives a scenario
name: that of the last scenario listed under the name, and zero when the
request has no constant configuration or does not list the name. -/
def constCounter (start : LoadGen.StartAttack) (name : String) : Int :=
  match start.ConstConfig with
  | none => 0
  | some constConfig =>
    match constConfig.Scenarios.reverse.find? (fun scenario => decide (scenario.Name = name)) with
    | some scenario => scenario.Counter.getD 0
    | none => 0

/-- Whether the linear configuration of a request lists a scenario name. -/
def linearLists (start : LoadGen.StartAttack) (name : String) : Bool :=
  match start.LinearConfig with
  | none => false
  | some linearConfig => decide (name ∈ linearConfig.Scenarios.map (fun scenario => scenario.Name))

/-- The start counter of the linear configuration for the names it lists, and
zero for the other names. -/
def linearCounter (start : LoadGen.StartAttack) (name : String) : Int :=
  match start.LinearConfig with
  | none => 0
  | some linearConfig => if linearLists start name then linearConfig.StartCounter else 0

/-- The amount increment 0 is seeded with for a scenario name: the constant
counter, plus (in `int64` arithmetic) the start counter when the linear
configuration lists the name. -/
def seedAmount (start : LoadGen.StartAttack) (name : String) : Int :=
  if linearLists start name then wrap64 (constCounter start name + linearCounter start name)
  else constCounter start name

/-- The service `demoService` after a successful `StartAttack demoAttack`:
attack 0 is live with its increment 0. -/
def demoStarted : attackService :=
  match demoService.StartAttack demoAttack 100 (fun n => n) demoChoices with
  | some o => o.state
  | none => demoService

/-- A request for a further increment of attack 0 with three users of `X`;
the increment id and the wait time given here are overwritten by
`StartIncrement`. -/
def demoIncrement : OperationStart :=
  { ID := "", AttackID := 0, IncrementID := 41, WaitTimeSec := 9, Scenarios := [("X", 3)] }

/-- The service `demoStarted` after a successful `StartIncrement
demoIncrement`: attack 0 has the increments 0 and 1. -/
def demoStarted2 : attackService :=
  match demoStarted.StartIncrement demoIncrement (fun n => n) demoChoices2 with
  | some o => o.state
  | none => demoStarted

/-! ## Invariants of the running manager -/

/-- The bookkeeping invariant of the attack service: live attacks have
pairwise distinct ids, each is recorded under its own id, which is below
`attackSeq`; its increments have pairwise distinct ids, all below the
increment counter of the attack; no increment counter is negative. -/
def attackService.Inv (s : attackService) : Prop :=
  GoMap.WF s.attacks ∧
  (∀ e ∈ s.attacks,
    e.2.details.ID = e.1 ∧ e.1 < s.attackSeq ∧
    (e.2.details.Increments.map (fun inc => inc.ID)).Nodup ∧
    ∀ inc ∈ e.2.details.Increments, inc.ID < s.incrementSeqs.getD e.1 0) ∧
  (∀ k, 0 ≤ s.incrementSeqs.getD k 0)

/-- The sequences of `s'` are at least those of `s`. -/
def attackService.Grows (s s' : attackService) : Prop :=
  s.attackSeq ≤ s'.attackSeq ∧
  ∀ k, s.incrementSeqs.getD k 0 ≤ s'.incrementSeqs.getD k 0

/-- The id a `StartAttack` action returns in a state, if it succeeds. -/
def returnedAttackID (sys : System) : Action → Option Int
  | Action.startAttack start now ids ch =>
    match sys.svc.StartAttack start now ids ch with
    | some o =>
      match o.ret with
      | Ret.ok details => some details.ID
      | Ret.fail _ => none
    | none => none
  | _ => none

/-- The ids returned by the successful `StartAttack` calls of a run, in the
order of the calls. -/
def returnedAttackIDs (sys : System) : List Action → List Int
  | [] => []
  | a :: rest =>
    match sys.step a with
    | none => []
    | some (sys', _) =>
      match returnedAttackID sys a with
      | some id => id :: returnedAttackIDs sys' rest
      | none => returnedAttackIDs sys' rest

/-- A run that connects a worker, starts two attacks, adds an increment to
the first and stops it. -/
def demoActions : List Action :=
  [Action.connect "n1" [demoScenario "X", demoScenario "Y"] [] [],
   Action.startAttack demoAttack 100 (fun n => n) demoChoices,
   Action.startIncrement demoIncrement (fun n => n) demoChoices,
   Action.stopAttack 0 [],
   Action.startAttack demoAttack 101 (fun n => n) demoChoices,
   Action.disconnect "n1",
   Action.timerFired 0 [] [fun n => n] [demoChoices] [[]],
   Action.timerDone 0]

/-- The mirror of a node records every attack under its own id. -/
def node.mirrorOK (n : node) : Prop := ∀ x ∈ n.attacks, x.2.ID = x.1

/-- A property `P` of node controllers that only depends on the mirror, is
kept by `StopAttack`, is kept by `StartAttack` for the operations whose attack
id satisfies `B`, and makes every attack id of the mirror satisfy `B`. -/
def Closed (P : node → Prop) (B : Int → Prop) : Prop :=
  (∀ n op, P n → B op.AttackID → P (n.StartAttack op).1) ∧
  (∀ n stop, P n → P (n.StopAttack stop).1) ∧
  (∀ n n', n'.attacks = n.attacks → P n → P n') ∧
  (∀ n, P n → ∀ x ∈ n.attacks, B x.2.ID) ∧
  (∀ n, n.attacks = [] → P n)

/-- The registered nodes have pairwise distinct names and all satisfy `P`. -/
def attackService.AllNodes (P : node → Prop) (s : attackService) : Prop :=
  GoMap.WF s.nodes ∧ ∀ e ∈ s.nodes, P e.2

/-- Attack `id` is over: it is not live, its id has been given out, and the
mirror of no registered node holds it. -/
def attackService.Over (s : attackService) (id : Int) : Prop :=
  s.attacks.get? id = none ∧ id < s.attackSeq ∧
  attackService.AllNodes (fun n => n.mirrorOK ∧ id ∉ GoMap.keys n.attacks) s

/-- The manager after the first three actions of `demoActions`: the worker
`n1` is connected and attack 0 is live with the increments 0 and 1. -/
def demoLive : System :=
  match (System.init 60).run (demoActions.take 3) with
  | some r => r.1
  | none => System.init 60

/-- What happens after attack 0 has been stopped: a second attack is started,
the worker drops and reconnects within the recovery window (its operations
are replayed), a further increment is asked for the stopped attack, and the
removal goroutine ends. -/
def demoAfterStop : List Action :=
  [Action.startAttack demoAttack 101 (fun n => n) demoChoices,
   Action.disconnect "n1",
   Action.connect "n1" [demoScenario "X", demoScenario "Y"] [] [],
   Action.startIncrement demoIncrement (fun n => n) demoChoices,
   Action.timerDone 0]

/-! ## The counters of a mirror -/

/-- The first increment of a list with the given id. -/
def findIncrementDetails (incrementID : Int) (increments : List IncrementDetails) :
    Option IncrementDetails :=
  increments.find? (fun increment => decide (increment.ID = incrementID))

/-- The counter the mirror of a node holds for a scenario in an increment of
an attack: that of the first increment with the id in the attack recorded
under the attack id, and zero when the attack, the increment or the scenario
is absent. -/
def node.counter (n : node) (attackID incrementID : Int) (scenario : String) : Int :=
  match n.attacks.get? attackID with
  | none => 0
  | some attack =>
    match findIncrementDetails incrementID attack.Increments with
    | none => 0
    | some increment => increment.Scenarios.getD scenario 0

/-- Whether the mirror of a node holds an increment of an attack. -/
def node.hasIncrement (n : node) (attackID incrementID : Int) : Bool :=
  match n.attacks.get? attackID with
  | none => false
  | some attack => (findIncrementDetails incrementID attack.Increments).isSome

/-- The increments the mirror of a node holds for an attack: none when the
attack is absent. -/
def node.increments (n : node) (attackID : Int) : List IncrementDetails :=
  match n.attacks.get? attackID with
  | none => []
  | some attack => attack.Increments

/-- The meaning of `shared`: a waiting operation that is marked as sharing its
map is a start, the mirror holds the increment with its ids, and the increment
and the start read the same map. -/
def node.queueOK (n : node) : Prop :=
  ∀ q ∈ n.opQueue, q.shared = true →
    ∃ start, q.op = Operation.Start start ∧
      ∃ increment,
        findIncrementDetails start.IncrementID (n.increments start.AttackID) = some increment ∧
        increment.Scenarios = start.Scenarios

/-- A node controller with an empty mirror that advertises `X`. -/
def demoNode : node := handshakeNode "n1" [demoScenario "X"]

/-- An operation for increment 2 of attack 5: three users of `X`. -/
def demoOp : OperationStart :=
  { ID := "op-1", AttackID := 5, IncrementID := 2, WaitTimeSec := 1, Scenarios := [("X", 3)] }

/-- A buffered channel of the Go runtime: the values waiting in its buffer
(oldest first), its capacity and whether it has been closed. -/
structure Chan (T : Type) where
  buf : List T
  cap : Nat
  closed : Bool
  deriving DecidableEq, Repr

/-- The struct `Broadcaster`.  Channels are named by the number they got when
made; `subscribers` is the set of the subscribed channels (a map whose values
are all nil).  The last two fields are the part of the Go runtime the
broadcaster depends on: the channels made so far and how many there are.  A
name that is not a key of `chans` stands for the nil channel. -/
structure Broadcaster (T : Type) where
  subscribers : GoMap Nat Unit
  chans : GoMap Nat (Chan T)
  chanSeq : Nat
  deriving DecidableEq, Repr

/-- The constant `defaultBroadcastCapacity`. -/
def defaultBroadcastCapacity : Nat := 10

/-- The constructor `NewBroadcaster`. -/
def NewBroadcaster (T : Type) : Broadcaster T :=
  { subscribers := [], chans := [], chanSeq := 0 }

namespace Broadcaster

variable {T : Type}

/-- The method `Subscribe`: a channel of capacity `defaultBroadcastCapacity`
is made, recorded and returned. -/
def Subscribe (b : Broadcaster T) : Broadcaster T × Nat :=
  ({ subscribers := b.subscribers.set b.chanSeq (),
     chans := b.chans.set b.chanSeq { buf := [], cap := defaultBroadcastCapacity, closed := false },
     chanSeq := b.chanSeq + 1 },
    b.chanSeq)

/-- The method `Unsubscribe`: the channel is deleted from the subscribers and
closed; closing a nil channel or a closed channel panics. -/
def Unsubscribe (b : Broadcaster T) (ch : Nat) : Option (Broadcaster T) :=
  match b.chans.get? ch with
  | none => none
  | some c =>
    if c.closed then none
    else
      some { b with subscribers := b.subscribers.delete ch,
                    chans := b.chans.set ch { c with closed := true } }

/-- The loop of `Broadcast` over the subscribers in visiting order.  The send
of the `select` is taken when the buffer has room; the `default` branch is
taken when the buffer is full or the channel is nil; a send on a closed
channel panics. -/
def broadcastLoop (value : T) : List Nat → GoMap Nat (Chan T) → Option (GoMap Nat (Chan T))
  | [], chans => some chans
  | ch :: rest, chans =>
    match chans.get? ch with
    | none => broadcastLoop value rest chans
    | some c =>
      if c.closed then none
      else if c.buf.length < c.cap then
        broadcastLoop value rest (chans.set ch { c with buf := c.buf ++ [value] })
      else broadcastLoop value rest chans

/-- The method `Broadcast`; `order` gives the order in which the subscribers
are visited. -/
def Broadcast (b : Broadcaster T) (value : T) (order : List Nat) : Option (Broadcaster T) :=
  match broadcastLoop value (GoMap.keys (rangeOrder order b.subscribers)) b.chans with
  | none => none
  | some chans => some { b with chans := chans }

/-- The values waiting in a channel; none for a name that is no channel. -/
def queue (b : Broadcaster T) (ch : Nat) : List T :=
  match b.chans.get? ch with
  | none => []
  | some c => c.buf

/-- What holds of a broadcaster as long as only its methods touch its
channels: the subscribers are pairwise distinct channels made by `Subscribe`
(of capacity `defaultBroadcastCapacity`) that are not closed, and the names of
the channels made so far are distinct and below `chanSeq`. -/
def OK (b : Broadcaster T) : Prop :=
  GoMap.WF b.subscribers ∧ GoMap.WF b.chans ∧
  (∀ ch ∈ GoMap.keys b.chans, ch < b.chanSeq) ∧
  ∀ ch ∈ GoMap.keys b.subscribers,
    ∃ c, b.chans.get? ch = some c ∧ c.closed = false ∧ c.cap = defaultBroadcastCapacity

end Broadcaster

/-- A broadcaster with two subscribers: channel 0 holds ten values and is
full, channel 1 holds one value. -/
def demoBroadcaster : Broadcaster Nat :=
  { subscribers := [(0, ()), (1, ())],
    chans := [(0, { buf := [1, 2, 3, 4, 5, 6, 7, 8, 9, 10], cap := 10, closed := false }),
              (1, { buf := [7], cap := 10, closed := false })],
    chanSeq := 2 }

/-! ## The load generator of a worker (`internal/service/generator`)

The contexts and cancel functions kept with the generator, its attacks and
its increments only serve cancellation and are left out. -/

/-- The keys of the map `AvailableScenarios` of `internal/scenarios`. -/
def scenarios.AvailableScenarios : List String := ["test_http"]

namespace Generator

/-- The part of `scheduler.Scheduler` the generator depends on: the registered
jobs by id, with their interval, and whether the scheduler has been stopped. -/
structure Scheduler where
  jobs : GoMap String Nat
  stopped : Bool
  deriving DecidableEq, Repr

/-- The method `NewJob` of the scheduler: a stopped scheduler refuses;
otherwise a job with a fresh id is registered and its id returned. -/
def Scheduler.NewJob (s : Scheduler) (intervalSec : Nat) (jobID : String) :
    Scheduler × Option String :=
  if s.stopped then (s, none)
  else ({ s with jobs := s.jobs.set jobID intervalSec }, some jobID)

/-- The struct `user`: its name, the name of its scenario and the HTTP client
its caller uses; clients are named by the number they got when made. -/
structure user where
  name : String
  scenario : String
  client : Nat
  deriving DecidableEq, Repr

/-- The struct `increment`. -/
structure increment where
  operationID : String
  users : List user
  deriving DecidableEq, Repr

/-- The struct `attack` of the generator. -/
structure attack where
  increments : GoMap Int increment
  jobID : String
  deriving DecidableEq, Repr

/-- The struct `Config`. -/
structure Config where
  UsersPerClient : Int
  MinIdleConnTimeoutSec : Int
  MaxIdleConnTimeoutSec : Int
  deriving DecidableEq, Repr

/-- The struct `generator`: `stop` is the counter of the wait group of that
name, `clients` the number of HTTP clients made so far. -/
structure generator where
  attacks : GoMap Int attack
  stop : Int
  scheduler : Scheduler
  config : Config
  clients : Nat
  deriving DecidableEq, Repr

/-- The errors `StartAttack` builds with `fmt.Errorf`: the job could not be
scheduled, or the increment has already been created by the same operation. -/
inductive Error
  | failedToSchedule
  | alreadyCreated
  deriving DecidableEq, Repr

/-- The constructor `New`. -/
def New (config : Config) : generator :=
  { attacks := [], stop := 0, scheduler := { jobs := [], stopped := false }, config := config,
    clients := 0 }

/-- The inner loop of `StartAttack` that creates the users of one scenario:
a new HTTP client is made whenever `i % UsersPerClient == 0` (which panics for
`UsersPerClient = 0`), and the wait group is incremented once per user. -/
def spawnUsers (config : Config) (name : String) :
    List Nat → List user × Int × Nat → Option (List user × Int × Nat)
  | [], acc => some acc
  | i :: rest, (users, stop, clients) =>
    if config.UsersPerClient = 0 then none
    else
      let clients := if Int.tmod i config.UsersPerClient = 0 then clients + 1 else clients
      spawnUsers config name rest
        (users ++ [{ name := "user for " ++ name ++ " #" ++ toString i, scenario := name,
                     client := clients - 1 }],
          stop + 1, clients)

/-- The loop of `StartAttack` over the scenarios of the operation in visiting
order; a scenario that is not available is skipped. -/
def usersLoop (config : Config) :
    List (String × Int) → List user × Int × Nat → Option (List user × Int × Nat)
  | [], acc => some acc
  | (name, count) :: rest, acc =>
    if name ∈ scenarios.AvailableScenarios then
      match spawnUsers config name (List.range count.toNat) acc with
      | none => none
      | some acc => usersLoop config rest acc
    else usersLoop config rest acc

/-- The method `StartAttack` of the generator; `jobID` is the fresh id a new
job would get and `order` the order in which the scenarios are visited. -/
def generator.StartAttack (g : generator) (start : OperationStart) (jobID : String) (order : List Nat) :
    Option (generator × Option Error) :=
  let scheduled : Option (generator × attack) :=
    match g.attacks.get? start.AttackID with
    | some att => some (g, att)
    | none =>
      match g.scheduler.NewJob start.WaitTimeSec jobID with
      | (_, none) => none
      | (scheduler, some jobID) =>
        let att : attack := { increments := [], jobID := jobID }
        some ({ g with scheduler := scheduler, attacks := g.attacks.set start.AttackID att }, att)
  match scheduled with
  | none => some (g, some Error.failedToSchedule)
  | some (g, att) =>
    let duplicate : Bool :=
      match att.increments.get? start.IncrementID with
      | some increment => decide (increment.operationID = start.ID)
      | none => false
    if duplicate then some (g, some Error.alreadyCreated)
    else
      match usersLoop g.config (rangeOrder order start.Scenarios) ([], g.stop, g.clients) with
      | none => none
      | some (users, stop, clients) =>
        some
          ({ g with
              stop := stop, clients := clients,
              attacks :=
                g.attacks.set start.AttackID
                  { att with
                    increments :=
                      att.increments.set start.IncrementID
                        { operationID := start.ID, users := users } } },
            none)

end Generator

/-- An operation for increment 2 of attack 5: three users of `test_http`. -/
def demoGenOp : OperationStart :=
  { ID := "op-1", AttackID := 5, IncrementID := 2, WaitTimeSec := 1,
    Scenarios := [("test_http", 3)] }

/-- A generator, two users per client, after `demoGenOp` has been started. -/
def demoGenerator : Generator.generator :=
  match (Generator.New { UsersPerClient := 2, MinIdleConnTimeoutSec := 1,
                         MaxIdleConnTimeoutSec := 2 }).StartAttack demoGenOp "job-1" [] with
  | some r => r.1
  | none => Generator.New { UsersPerClient := 2, MinIdleConnTimeoutSec := 1,
                            MaxIdleConnTimeoutSec := 2 }

/-- The increment `demoGenerator` holds: three users that share two clients. -/
def demoGenIncrement : Generator.increment :=
  { operationID := "op-1",
    users := [{ name := "user for test_http #0", scenario := "test_http", client := 0 },
              { name := "user for test_http #1", scenario := "test_http", client := 0 },
              { name := "user for test_http #2", scenario := "test_http", client := 1 }] }

/-- The attack `demoGenerator` holds. -/
def demoGenAttack : Generator.attack :=
  { increments := [(2, demoGenIncrement)], jobID := "job-1" }

/-! ## Notions used to state the recovery of a node -/

/-- The operations `retrieveOperations` composes from the attacks of a mirror:
one per increment of each attack, with the id the mirror records for the
attack, the scenarios of the increment and the wait time of the record the
service keeps for the attack (zero when it keeps none). -/
def mirrorOperations (s : attackService) (attacks : List AttackDetails) : List OperationStart :=
  attacks.flatMap (fun attack =>
    let waitTimeSec :=
      match s.attacks.get? attack.ID with
      | some a => a.details.WaitTimeSec
      | none => 0
    attack.Increments.map (fun increment =>
      { ID := "", AttackID := attack.ID, IncrementID := increment.ID,
        WaitTimeSec := waitTimeSec, Scenarios := increment.Scenarios }))

/-- Whether a node controller that advertises `scenarios` refuses an
operation: some scenario of the operation is not advertised. -/
def refused (scenarios : GoMap String ScenarioDetails) (op : OperationStart) : Bool :=
  !(op.Scenarios.all (fun e => scenarios.contains e.1))

/-- The service after `stopIncrement` has been called, in order, for each of
the given operations; `stopOrders` gives the visiting order of each call. -/
def compensated (s : attackService) (stopOrders : List (List Nat))
    (ops : List OperationStart) : attackService :=
  (ops.foldl
    (fun (acc : attackService × List (List Nat)) op =>
      ((attackService.stopIncrement acc.1 op.AttackID op.IncrementID (acc.2.headD [])).state,
        acc.2.tail))
    (s, stopOrders)).1

/-- The service `demoStarted2` after the worker `n3` has dropped: attack 0
has the increments 0 and 1, `n3` holds a share of both and its removal is
pending. -/
def demoDropped : attackService :=
  (demoStarted2.RemoveNode (handshakeNode "n3" [])).state

/-- Whether the record the service keeps of an attack lists an increment. -/
def attackService.records (s : attackService) (attackID incrementID : Int) : Bool :=
  match s.attacks.get? attackID with
  | none => false
  | some a => decide (incrementID ∈ a.details.Increments.map (fun increment => increment.ID))

/-! ## The delivery loop of the node controller (`processOps`)

The loop of `processOps` runs next to the callers of `StartAttack` and
`StopAttack`, which send into `opQueue`, to the stream sender, which takes the
operations sent on `ops` and passes them to the worker in order, and to the
stream receiver, which calls `AckOperation` for every acknowledgement of the
worker.  A run of the delivery is a sequence of the events below.  The timer
only decides when the retry branch runs; that branch is an event of its
own.  An operation stands here for the operation that was queued; what its
scenarios map reads when it is sent is the matter of `queued`. -/

/-- The state of the delivery of one node controller.  `ops` is the log of
the messages sent on the channel `ops`, oldest first (the sender passes them
on in this order), each with the number of its operation: the how-manieth
operation taken from the queue it is.  `taken`, `enqueued` and the numbers in
`ops` are only kept to state properties. -/
structure pipeline where
  /-- The operations waiting in the channel `opQueue`, oldest first. -/
  opQueue : List Operation
  /-- The capacity of `opQueue`. -/
  capacity : Nat
  /-- The variable `currentOp` of the loop; `none` is nil. -/
  currentOp : Option Operation
  /-- The number of values waiting in the channel `ack`, of capacity 1. -/
  ack : Nat
  /-- The loop is in its inner `select`, waiting for the next operation. -/
  waiting : Bool
  /-- The loop has returned (its context was cancelled). -/
  done : Bool
  /-- The number of operations taken from the queue so far. -/
  taken : Nat
  /-- Every operation ever sent into the queue, oldest first. -/
  enqueued : List Operation
  /-- The messages sent on `ops` so far. -/
  ops : List (Nat × Operation)
  /-- The number of messages the worker has received and acknowledged. -/
  received : Nat
  /-- The acknowledgements of the worker the receiver has not yet passed to
  `AckOperation`. -/
  acks : Nat
  deriving DecidableEq, Repr

/-- One event of the delivery. -/
inductive pipelineEvent
  /-- `StartAttack` or `StopAttack` sends an operation into `opQueue`. -/
  | enqueue (op : Operation)
  /-- The branch `case <-timer.C` of the loop. -/
  | retryFire
  /-- The branch `case <-n.ack` of the loop. -/
  | ackReceived
  /-- The branch `case op := <-n.opQueue` of the inner `select`. -/
  | dequeue
  /-- A branch `case <-ctx.Done()`: the loop returns. -/
  | cancel
  /-- The worker receives the next message and acknowledges it. -/
  | workerAck
  /-- The receiver passes an acknowledgement on: `AckOperation`. -/
  | ackOperation
  deriving DecidableEq, Repr

namespace pipeline

/-- The delivery when `processOps` has started: the channel `ack` holds the
value sent into it by the first statement of the loop. -/
def init (capacity : Nat) : pipeline :=
  { opQueue := [], capacity := capacity, currentOp := none, ack := 1, waiting := false,
    done := false, taken := 0, enqueued := [], ops := [], received := 0, acks := 0 }

/-- One event; `none` when the event cannot happen in the state (a send or a
receive that blocks, a branch of a `select` the loop is not at). -/
def step (p : pipeline) : pipelineEvent → Option pipeline
  | pipelineEvent.enqueue op =>
    if p.opQueue.length < p.capacity then
      some { p with opQueue := p.opQueue ++ [op], enqueued := p.enqueued ++ [op] }
    else none
  | pipelineEvent.retryFire =>
    if p.done || p.waiting then none
    else
      match p.currentOp with
      | some op => some { p with ops := p.ops ++ [(p.taken - 1, op)] }
      | none => some p
  | pipelineEvent.ackReceived =>
    if p.done || p.waiting then none
    else if 0 < p.ack then some { p with ack := p.ack - 1, currentOp := none, waiting := true }
    else none
  | pipelineEvent.dequeue =>
    if p.done || !p.waiting then none
    else
      match p.opQueue with
      | [] => none
      | op :: rest =>
        some { p with opQueue := rest, currentOp := some op, ops := p.ops ++ [(p.taken, op)],
                      taken := p.taken + 1, waiting := false }
  | pipelineEvent.cancel => if p.done then none else some { p with done := true }
  | pipelineEvent.workerAck =>
    if p.received < p.ops.length then
      some { p with received := p.received + 1, acks := p.acks + 1 }
    else none
  | pipelineEvent.ackOperation =>
    if 0 < p.acks ∧ p.ack < 1 then some { p with acks := p.acks - 1, ack := p.ack + 1 }
    else none

/-- A run: the events are taken one after the other. -/
def run (p : pipeline) : List pipelineEvent → Option pipeline
  | [] => some p
  | e :: rest =>
    match p.step e with
    | none => none
    | some p => run p rest

/-- The operations, by number, that have been sent to the worker and that the
worker has not acknowledged: no message carrying them is among the messages
the worker has received. -/
def unacknowledged (p : pipeline) : List Nat :=
  (List.range p.taken).filter
    (fun k => decide (k ∉ (p.ops.take p.received).map Prod.fst))

end pipeline

/-- What a log of operation numbers must look like when every message is the
current operation again or the next operation: starting with `cur` operations
taken, the number of operations taken at the end, and `none` for any other
log. -/
def emissionOrder (cur : Nat) : List Nat → Option Nat
  | [] => some cur
  | x :: rest =>
    if x + 1 = cur then emissionOrder cur rest
    else if x = cur then emissionOrder (cur + 1) rest
    else none

/-- Three operations for the delivery examples. -/
def demoOpA : Operation := Operation.Start demoOp

/-- The stop of attack 5. -/
def demoOpB : Operation := Operation.Stop { AttackID := 5, IncrementID := none }

/-- The stop of increment 2 of attack 5. -/
def demoOpC : Operation := Operation.Stop { AttackID := 5, IncrementID := some 2 }

/-- A run in which the first operation is sent twice (the retry fires before
the worker answers) and the worker acknowledges both messages. -/
def demoEvents : List pipelineEvent :=
  [pipelineEvent.enqueue demoOpA, pipelineEvent.enqueue demoOpB, pipelineEvent.enqueue demoOpC,
   pipelineEvent.ackReceived, pipelineEvent.dequeue, pipelineEvent.retryFire,
   pipelineEvent.workerAck, pipelineEvent.ackOperation, pipelineEvent.ackReceived,
   pipelineEvent.dequeue,
   pipelineEvent.workerAck, pipelineEvent.ackOperation, pipelineEvent.ackReceived,
   pipelineEvent.dequeue]

/-- What holds of the delivery in every run: every message of the log is the
current operation again or the next operation; the message numbered `k`
carries the `k`-th operation sent into the queue; the queue holds the
operations not yet taken; the current operation is the last one taken; the
operations taken, the acknowledgements on their way and the acknowledgement
the loop has consumed but not yet used add up to one more than the messages
the worker has acknowledged. -/
def pipeline.Good (p : pipeline) : Prop :=
  emissionOrder 0 (p.ops.map Prod.fst) = some p.taken ∧
  (∀ x ∈ p.ops, p.enqueued.get? x.1 = some x.2) ∧
  p.taken ≤ p.enqueued.length ∧ p.enqueued.drop p.taken = p.opQueue ∧
  (∀ op, p.currentOp = some op → 0 < p.taken ∧ p.enqueued.get? (p.taken - 1) = some op) ∧
  p.taken + (if p.waiting then 1 else 0) + p.ack + p.acks = p.received + 1 ∧
  p.received ≤ p.ops.length

/-- The delivery after the run `demoEvents`. -/
def demoDelivered : pipeline :=
  match (pipeline.init 3).run demoEvents with
  | some p => p
  | none => pipeline.init 3

/-! ## Notions used to state the redistribution of a removed node -/

/-- The sum, over the given nodes, of the counters their mirrors hold for a
scenario in an increment of an attack. -/
def mirrorSum (nodes : GoMap String node) (attackID incrementID : Int) (scenario : String) :
    Int :=
  (nodes.map (fun e => e.2.counter attackID incrementID scenario)).sum

/-- What holds of a mirror that was built from operations dispatched by
`divideTasks`: its attacks have distinct ids and are recorded under their id,
the increments of an attack have distinct ids, and every increment has a
scenarios map with distinct keys that is not empty and holds only positive
counters. -/
def node.mirrorSound (n : node) : Prop :=
  GoMap.WF n.attacks ∧ n.mirrorOK ∧
  ∀ e ∈ n.attacks,
    (e.2.Increments.map (fun increment => increment.ID)).Nodup ∧
    ∀ increment ∈ e.2.Increments,
      GoMap.WF increment.Scenarios ∧ increment.Scenarios ≠ [] ∧
      ∀ x ∈ increment.Scenarios, 0 < x.2

/-- The operations whose redistribution fails in the loop of the removal
goroutine: those for which `distributeStart` returns an error when their turn
comes. -/
def redistributeFailures : List OperationStart → List (String → String) → List Choices →
    List (List Nat) → attackService → List OperationStart
  | [], _, _, _, _ => []
  | operation :: rest, ids, chs, stopOrders, s =>
    match attackService.distributeStart s operation (ids.headD (fun _ => ""))
        (chs.headD { validate := [], scenarios := [], nodesFor := fun _ => [], dispatch := [] }) with
    | none => []
    | some (some _, _, s, _) =>
      operation :: redistributeFailures rest ids.tail chs.tail stopOrders.tail
        (attackService.stopIncrement s operation.AttackID operation.IncrementID
          (stopOrders.headD [])).state
    | some (none, _, s, _) => redistributeFailures rest ids.tail chs.tail stopOrders s

/-- A request for a constant attack with four users of `X` and two of `Y`. -/
def demoAttackY : LoadGen.StartAttack :=
  { Name := "c", WaitTimeSec := 1, DurationSec := none,
    ConstConfig := some { Scenarios := [{ Name := "X", Counter := some 4 },
                                        { Name := "Y", Counter := some 2 }] },
    LinearConfig := none }

/-- The service `demoService` after a successful `StartAttack demoAttackY` and
the drop of the worker `n3`, the only one that advertises `Y`: attack 0 has
the increment 0, `n3` holds a share of `X` and all of `Y`, and its removal is
pending. -/
def demoDroppedY : attackService :=
  match demoService.StartAttack demoAttackY 100 (fun n => n) demoChoices with
  | some o => (o.state.RemoveNode (handshakeNode "n3" [])).state
  | none => demoService

/-- The mirror a node is registered with in a service; an empty node when
the name is not registered. -/
def attackService.nodeOf (s : attackService) (nodeName : String) : node :=
  match s.nodes.get? nodeName with
  | some n => n
  | none => handshakeNode nodeName []

/-! ## The linear ramp (`handleLinear` of `handlers.go`)

The goroutine `handleLinear` of an attack waits, in a loop, for its timer or
for the stop broadcast of the attack.  A run of it is driven by the list of
the events it meets.  The `float64` values of the code (the interval, the
elapsed time and the quotient the step is computed from) are taken over the
exact rationals, `math.Ceil` is the ceiling, and the conversion of its result
to `int64` is taken to be exact; a timer runs for exactly the interval it is
set to.  The `int64` subtractions and additions wrap. -/

/-- The local variables of `handleLinear` that change in its loop. -/
structure linearState where
  computedStep : Int
  computedInterval : ℚ
  currentCounter : Int
  totalElapsedTime : ℚ
  deriving DecidableEq

/-- What `handleLinear` meets when it waits in its `select`: the stop
broadcast of the attack, or its timer; `ok` tells whether the call of
`StartIncrement` made in that pass returned without error. -/
inductive linearEvent
  | stop
  | tick (ok : Bool)
  deriving DecidableEq, Repr

/-- One call of `StartIncrement` made by `handleLinear`: the interval the
timer had been set to, the elapsed time and the counter when the timer fired,
the step, and the operation handed to `StartIncrement`. -/
structure linearIssue where
  waited : ℚ
  elapsed : ℚ
  current : Int
  step : Int
  request : OperationStart
  deriving DecidableEq

/-- The result of a run of `handleLinear`: the calls of `StartIncrement` it
made, in order, whether it has returned, and its variables at that point.
The variables are `none` when it returned before its loop. -/
structure linearRun where
  issued : List linearIssue
  returned : Bool
  final : Option linearState
  deriving DecidableEq

/-- The part of `handleLinear` before its loop: the step and the interval are
computed from the configuration; `none` when neither a warm-up time nor a
step is given (the goroutine returns at once). -/
def linearStart (c : LinearConfig) : Option linearState :=
  let rangeVal : Int := wrap64 (c.EndCounter - c.StartCounter)
  match c.WarmUpSec, c.CounterStep with
  | none, none => none
  | some duration, some step =>
    some { computedStep := step,
           computedInterval := (duration : ℚ) * (step : ℚ) / (rangeVal : ℚ),
           currentCounter := c.StartCounter, totalElapsedTime := 0 }
  | some duration, none =>
    let computedInterval : ℚ :=
      match c.StepIntervalSec with
      | some interval => (interval : ℚ)
      | none => 1
    some { computedStep := ⌈(rangeVal : ℚ) * computedInterval / (duration : ℚ)⌉,
           computedInterval := computedInterval,
           currentCounter := c.StartCounter, totalElapsedTime := 0 }
  | none, some step =>
    let computedInterval : ℚ :=
      match c.StepIntervalSec with
      | some interval => (interval : ℚ)
      | none => 1
    some { computedStep := step, computedInterval := computedInterval,
           currentCounter := c.StartCounter, totalElapsedTime := 0 }

/-- The scenarios map `handleLinear` builds for an increment: every scenario
of the linear configuration with the step. -/
def linearScenarios (c : LinearConfig) (computedStep : Int) : GoMap String Int :=
  c.Scenarios.foldl (fun (scenarios : GoMap String Int) scenario =>
    scenarios.set scenario.Name computedStep) []

/-- The step of one pass through the timer branch: recomputed from the
remaining range and time when no step is configured (dereferencing a nil
warm-up time panics), and cut down to the remaining range otherwise. -/
def linearStep (c : LinearConfig) (st : linearState) : Option Int :=
  match c.CounterStep with
  | none =>
    match c.WarmUpSec with
    | none => none
    | some duration =>
      some ⌈((wrap64 (c.EndCounter - st.currentCounter) : Int) : ℚ) * st.computedInterval
              / ((duration : ℚ) - st.totalElapsedTime)⌉
  | some _ =>
    if st.computedStep > wrap64 (c.EndCounter - st.currentCounter) then
      some (wrap64 (c.EndCounter - st.currentCounter))
    else some st.computedStep

/-- The variables after a pass in which `StartIncrement` succeeded: time and
counter advance, and the interval is shortened to the rest of the warm-up time
when the next pass would end after it. -/
def linearAdvance (c : LinearConfig) (st : linearState) (computedStep : Int) : linearState :=
  let totalElapsedTime := st.totalElapsedTime + st.computedInterval
  { computedStep := computedStep,
    computedInterval :=
      match c.WarmUpSec with
      | some duration =>
        if totalElapsedTime + st.computedInterval > (duration : ℚ) then
          (duration : ℚ) - totalElapsedTime
        else st.computedInterval
      | none => st.computedInterval,
    currentCounter := wrap64 (st.currentCounter + computedStep),
    totalElapsedTime := totalElapsedTime }

/-- The loop of `handleLinear` for the attack with the given id, over the
events it meets; `none` when it panics.  When the events run out the
goroutine is still waiting. -/
def linearLoop (attackID : Int) (c : LinearConfig) :
    List linearEvent → linearState → Option linearRun
  | [], st => some { issued := [], returned := false, final := some st }
  | linearEvent.stop :: _, st => some { issued := [], returned := true, final := some st }
  | linearEvent.tick ok :: rest, st =>
    if st.currentCounter ≥ c.EndCounter then
      some { issued := [], returned := true, final := some st }
    else
      match linearStep c st with
      | none => none
      | some computedStep =>
        let issue : linearIssue :=
          { waited := st.computedInterval, elapsed := st.totalElapsedTime,
            current := st.currentCounter, step := computedStep,
            request := { ID := "", AttackID := attackID, IncrementID := 0, WaitTimeSec := 0,
                         Scenarios := linearScenarios c computedStep } }
        if ok then
          match linearLoop attackID c rest (linearAdvance c st computedStep) with
          | none => none
          | some run => some { run with issued := issue :: run.issued }
        else
          some { issued := [issue], returned := true,
                 final := some { st with computedStep := computedStep } }

/-- The goroutine `handleLinear` of an attack; dereferencing a nil linear
configuration panics. -/
def handleLinear (a : attack) (events : List linearEvent) : Option linearRun :=
  match a.details.LinearConfig with
  | none => none
  | some c =>
    match linearStart c with
    | none => some { issued := [], returned := true, final := none }
    | some st => linearLoop a.details.ID c events st

/-- The attack record of a ramp from one to ten users of `http` in steps of
three. -/
def demoRampStep : attack :=
  { details :=
      { ID := 0, Name := "ramp", WaitTimeSec := 1, CreatedAt := 0, DurationSec := none,
        ConstConfig := none,
        LinearConfig := some { WarmUpSec := none, StartCounter := 1, EndCounter := 10,
                               CounterStep := some 3, StepIntervalSec := none,
                               Scenarios := [{ Name := "http", Counter := none }] },
        Increments := [{ ID := 0, AttackID := 0, Scenarios := [("http", 1)] }] },
    stopBr := 0 }

/-- The request of a ramp from two to twelve users of `http` in steps of two
over a warm-up time of ten seconds. -/
def demoRampRequest : LoadGen.StartAttack :=
  { Name := "ramp", WaitTimeSec := 1, DurationSec := none, ConstConfig := none,
    LinearConfig := some { WarmUpSec := some 10, StartCounter := 2, EndCounter := 12,
                           CounterStep := some 2, StepIntervalSec := none,
                           Scenarios := [{ Name := "http", Counter := none }] } }

/-- The attack record `StartAttack` makes for `demoRampRequest`. -/
def demoRampWarm : attack :=
  { details :=
      { ID := 0, Name := "ramp", WaitTimeSec := 1, CreatedAt := 0, DurationSec := none,
        ConstConfig := none, LinearConfig := demoRampRequest.LinearConfig,
        Increments := [{ ID := 0, AttackID := 0, Scenarios := [("http", 2)] }] },
    stopBr := 0 }

/-- The attack record of a ramp from one to eleven users of `http` over a
warm-up time of seven seconds, with a step every three seconds and no
configured step. -/
def demoRampDrift : attack :=
  { details :=
      { ID := 0, Name := "ramp", WaitTimeSec := 1, CreatedAt := 0, DurationSec := none,
        ConstConfig := none,
        LinearConfig := some { WarmUpSec := some 7, StartCounter := 1, EndCounter := 11,
                               CounterStep := none, StepIntervalSec := some 3,
                               Scenarios := [{ Name := "http", Counter := none }] },
        Increments := [{ ID := 0, AttackID := 0, Scenarios := [("http", 1)] }] },
    stopBr := 0 }

/-- What the validation of a request leaves of a linear configuration: the
counters are `int64` values with `1 ≤ start < end`, the warm-up time, the step
and the step interval are at least one where present, the step interval is at
most the warm-up time, and a warm-up time or a step is given. -/
def linearValid (c : LinearConfig) : Prop :=
  1 ≤ c.StartCounter ∧ c.StartCounter < c.EndCounter ∧ c.EndCounter < 2 ^ 63 ∧
  (∀ w, c.WarmUpSec = some w → 1 ≤ w) ∧
  (∀ s, c.CounterStep = some s → 1 ≤ s) ∧
  (∀ i, c.StepIntervalSec = some i → 1 ≤ i) ∧
  (∀ i w, c.StepIntervalSec = some i → c.WarmUpSec = some w → i ≤ w) ∧
  (c.WarmUpSec ≠ none ∨ c.CounterStep ≠ none)

/-- What holds of the variables of `handleLinear` whenever it waits: the
counter lies between the start and the end counter; a configured step stays at
least one; and without a configured step, as long as the end counter is not
reached, the interval is positive and at most the rest of the warm-up time. -/
def rampInv (c : LinearConfig) (st : linearState) : Prop :=
  c.StartCounter ≤ st.currentCounter ∧ st.currentCounter ≤ c.EndCounter ∧
  (∀ s, c.CounterStep = some s → 1 ≤ st.computedStep) ∧
  (c.CounterStep = none → ∀ w, c.WarmUpSec = some w → st.currentCounter < c.EndCounter →
    0 < st.computedInterval ∧ st.computedInterval ≤ (w : ℚ) - st.totalElapsedTime)

/-- The request of a ramp from one to ten users of `http` in steps of three. -/
def demoRampStepRequest : LoadGen.StartAttack :=
  { Name := "ramp", WaitTimeSec := 1, DurationSec := none, ConstConfig := none,
    LinearConfig := demoRampStep.details.LinearConfig }

/-- A service with one node, which advertises `http`. -/
def demoHttpService : attackService :=
  { attackService.NewService 60 with
    nodes := [("n1", handshakeNode "n1" [demoScenario "http"])] }

/-- The service after the given operations have been handed to
`StartIncrement` one after the other, when every call succeeds. -/
def startIncrements (s : attackService) : List OperationStart → Option attackService
  | [] => some s
  | op :: rest =>
    match s.StartIncrement op (fun n => n) demoChoices with
    | some o =>
      match o.ret with
      | Ret.ok _ => startIncrements o.state rest
      | Ret.fail _ => none
    | none => none

/-! ## The REST boundary of the manager (`api/rest/manager`)

The handler `startAttack` parses the body of the request, checks it against
the `validate` tags of `model.go`, converts it with `ToCore` and calls the
service.  The body is taken as parsed; the `float64` wait time is carried as
in `core.StartAttack`, and the reading of its tag is a parameter. -/

/-- `model.ConstConfig`; the map is nil when the body does not give it. -/
structure model.ConstConfig where
  Scenarios : Option (GoMap String Int)
  deriving DecidableEq, Repr

/-- `model.LinearConfig`; the slice is nil when the body does not give it. -/
structure model.LinearConfig where
  WarmUpSec : Option Int
  StartCounter : Int
  EndCounter : Int
  CounterStep : Option Int
  StepIntervalSec : Option Int
  Scenarios : Option (List String)
  deriving DecidableEq, Repr

/-- `model.StartAttackRequestBody`. -/
structure model.StartAttackRequestBody where
  Name : String
  WaitTimeSec : Nat
  DurationSec : Option Int
  ConstConfig : Option model.ConstConfig
  LinearConfig : Option model.LinearConfig
  deriving DecidableEq, Repr

/-- The `validate` tags of `model.LinearConfig`: `omitempty,min=1` on the
warm-up time, the step and the step interval, `min=1` on the two counters and
`required` on the scenarios. -/
def model.LinearConfig.fieldRules (l : model.LinearConfig) : Bool :=
  l.WarmUpSec.all (fun w => decide (1 ≤ w)) && decide (1 ≤ l.StartCounter) &&
    decide (1 ≤ l.EndCounter) && l.CounterStep.all (fun s => decide (1 ≤ s)) &&
    l.StepIntervalSec.all (fun i => decide (1 ≤ i)) && l.Scenarios.isSome

/-- The `validate` tags of `model.StartAttackRequestBody` and of the
structures it points to: `required` on the name, `min=0.1,max=30` on the wait
time (`waitTimeInRange` tells whether the carried `float64` satisfies it),
`omitempty,min=1,max=2592000` on the duration, and `required` on the scenarios
of the constant configuration. -/
def model.StartAttackRequestBody.fieldRules (waitTimeInRange : Nat → Bool)
    (b : model.StartAttackRequestBody) : Bool :=
  decide (b.Name ≠ "") && waitTimeInRange b.WaitTimeSec &&
    b.DurationSec.all (fun d => decide (1 ≤ d) && decide (d ≤ 2592000)) &&
    b.ConstConfig.all (fun constConfig => constConfig.Scenarios.isSome) &&
    b.LinearConfig.all (fun linearConfig => linearConfig.fieldRules)

/-- The scenarios `ToCore` builds from the entries of the constant
configuration in visiting order.  Each scenario stores the address of the
loop variable `counter`: with a loop variable per iteration (the semantics of
Go 1.22 and later; `perIteration = true`) it holds the counter of its entry,
and with one loop variable for the whole loop (the semantics before, chosen
by the `go` directive of the module) every scenario holds the counter of the
entry visited last. -/
def constScenarios (perIteration : Bool) (visited : List (String × Int)) : List Scenario :=
  visited.map (fun e =>
    { Name := e.1,
      Counter := if perIteration then some e.2 else visited.getLast?.map Prod.snd })

/-- The method `ToCore` of `StartAttackPresenter`; `constOrder` gives the
order in which the constant configuration is visited.  The quotient of the
cross-field check is an `int64` division (it panics for a zero divisor) of an
`int64` product. -/
def StartAttackPresenter.ToCore (sa : model.StartAttackRequestBody) (constOrder : List Nat)
    (perIteration : Bool) : Option (Ret LoadGen.StartAttack) :=
  if sa.ConstConfig.isNone && sa.LinearConfig.isNone then some (Ret.fail GoError.ErrBadConfig)
  else
    let constConfig : Option LoadGen.ConstConfig :=
      sa.ConstConfig.map (fun constConfig =>
        { Scenarios :=
            constScenarios perIteration (rangeOrder constOrder (constConfig.Scenarios.getD [])) })
    match sa.LinearConfig with
    | none =>
      some (Ret.ok { Name := sa.Name, WaitTimeSec := sa.WaitTimeSec, DurationSec := sa.DurationSec,
                     ConstConfig := constConfig, LinearConfig := none })
    | some l =>
      if l.WarmUpSec.isNone && l.CounterStep.isNone then some (Ret.fail GoError.ErrBadConfig)
      else if l.EndCounter ≤ l.StartCounter then some (Ret.fail GoError.ErrBadConfig)
      else
        let computedInterval : Option (Option Int) :=
          match l.WarmUpSec, l.CounterStep with
          | some warmUpSec, some counterStep =>
            if wrap64 (l.EndCounter - l.StartCounter) = 0 then none
            else some (some (wrap64 (Int.tdiv (wrap64 (warmUpSec * counterStep))
              (wrap64 (l.EndCounter - l.StartCounter)))))
          | _, _ => some none
        match computedInterval with
        | none => none
        | some computedInterval =>
          if computedInterval.any (fun q => decide (q < 1)) then some (Ret.fail GoError.ErrBadConfig)
          else if (match l.WarmUpSec, sa.DurationSec with
                   | some warmUpSec, some durationSec => decide (warmUpSec ≥ durationSec)
                   | _, _ => false) then some (Ret.fail GoError.ErrBadConfig)
          else if (match l.WarmUpSec, l.StepIntervalSec with
                   | some warmUpSec, some stepIntervalSec => decide (stepIntervalSec > warmUpSec)
                   | _, _ => false) then some (Ret.fail GoError.ErrBadConfig)
          else if (match sa.DurationSec, l.StepIntervalSec with
                   | some durationSec, some stepIntervalSec => decide (stepIntervalSec ≥ durationSec)
                   | _, _ => false) then some (Ret.fail GoError.ErrBadConfig)
          else
            some (Ret.ok
              { Name := sa.Name, WaitTimeSec := sa.WaitTimeSec, DurationSec := sa.DurationSec,
                ConstConfig := constConfig,
                LinearConfig := some
                  { WarmUpSec := l.WarmUpSec, StartCounter := l.StartCounter,
                    EndCounter := l.EndCounter, CounterStep := l.CounterStep,
                    StepIntervalSec := l.StepIntervalSec,
                    Scenarios := (l.Scenarios.getD []).map (fun scenario =>
                      { Name := scenario, Counter := none }) } })

/-- The status `model.MapError` gives the errors of the service. -/
def model.MapError : GoError → Nat
  | GoError.ErrAttackNotFound => 404
  | GoError.ErrIncrementNotFound => 404
  | GoError.ErrScenarioNotFound => 404
  | GoError.ErrEmptyAttack => 400
  | GoError.ErrBadConfig => 400
  | _ => 500

/-- The handler `startAttack` of the manager, for a parsed body: the status of
the response, with the state of the service and what the call did.  A body
that violates a `validate` tag is answered with 422, an error of `ToCore` or
of the service with the status `MapError` gives it, and a started attack with
201. -/
def Resolver.startAttack (s : attackService) (waitTimeInRange : Nat → Bool)
    (body : model.StartAttackRequestBody) (constOrder : List Nat) (perIteration : Bool)
    (now : Nat) (ids : String → String) (ch : Choices) :
    Option (Nat × attackService × List Effect) :=
  if body.fieldRules waitTimeInRange then
    match StartAttackPresenter.ToCore body constOrder perIteration with
    | none => none
    | some (Ret.fail err) => some (model.MapError err, s, [])
    | some (Ret.ok start) =>
      match s.StartAttack start now ids ch with
      | none => none
      | some o =>
        match o.ret with
        | Ret.fail err => some (model.MapError err, o.state, o.effects)
        | Ret.ok _ => some (201, o.state, o.effects)
  else some (422, s, [])

/-- The cross-field rules of a start-attack request, as the specification
words them; one of them is violated when: neither configuration is given; the
linear configuration gives neither a warm-up time nor a step; it gives both
and the exact quotient `warmUpSec * counterStep / (end - start)` is below one;
the step interval exceeds the warm-up time; the step interval is at least the
duration; the warm-up time is at least the duration. -/
def crossFieldViolated (b : model.StartAttackRequestBody) : Prop :=
  (b.ConstConfig = none ∧ b.LinearConfig = none) ∨
  ∃ l, b.LinearConfig = some l ∧
    ((l.WarmUpSec = none ∧ l.CounterStep = none) ∨
     (∃ w s, l.WarmUpSec = some w ∧ l.CounterStep = some s ∧
        ((w : ℚ) * (s : ℚ)) / ((l.EndCounter : ℚ) - (l.StartCounter : ℚ)) < 1) ∨
     (∃ i w, l.StepIntervalSec = some i ∧ l.WarmUpSec = some w ∧ i > w) ∨
     (∃ i d, l.StepIntervalSec = some i ∧ b.DurationSec = some d ∧ i ≥ d) ∨
     (∃ w d, l.WarmUpSec = some w ∧ b.DurationSec = some d ∧ w ≥ d))

/-- A request for a ramp of `http` over ten seconds, from two to twelve users
in steps of two, next to three constant users of `http` and one of `ftp`. -/
def demoBody : model.StartAttackRequestBody :=
  { Name := "ramp", WaitTimeSec := 1, DurationSec := some 60,
    ConstConfig := some { Scenarios := some [("http", 3), ("ftp", 1)] },
    LinearConfig := some { WarmUpSec := some 10, StartCounter := 2, EndCounter := 12,
                           CounterStep := some 2, StepIntervalSec := none,
                           Scenarios := some ["http"] } }

/-- The request `demoBody` with the end counter below the start counter. -/
def demoBodyDescending : model.StartAttackRequestBody :=
  { demoBody with
    LinearConfig := some { WarmUpSec := some 10, StartCounter := 5, EndCounter := 3,
                           CounterStep := some 2, StepIntervalSec := none,
                           Scenarios := some ["http"] } }

/-! ## Stopping the load generator

The wait group `stop` of the generator is incremented once per user created;
its `Done` runs in the goroutine that destroys a user.  The counter `stop` of
the model is the number of users created and not yet handed to `Destroy`; a
`Done` that would make it negative panics. -/

namespace Generator

/-- The errors of `RemoveJob`: the scheduler is stopped, or it has no job with
the id. -/
inductive SchedulerError
  | ErrSchedulerStopped
  | ErrJobNotFound
  deriving DecidableEq, Repr

/-- The method `RemoveJob` of the scheduler. -/
def Scheduler.RemoveJob (s : Scheduler) (jobID : String) : Scheduler × Option SchedulerError :=
  if s.stopped then (s, some SchedulerError.ErrSchedulerStopped)
  else
    match s.jobs.get? jobID with
    | none => (s, some SchedulerError.ErrJobNotFound)
    | some _ => ({ s with jobs := s.jobs.delete jobID }, none)

/-- The method `Shutdown` of the scheduler: it is marked stopped; the calls of
`RemoveJob` it then makes are all refused, since it is stopped. -/
def Scheduler.Shutdown (s : Scheduler) : Scheduler := { s with stopped := true }

/-- The errors of `StopAttack`: `core.ErrAttackNotFound` (also returned for a
missing increment), or the job of the attack could not be removed. -/
inductive StopError
  | ErrAttackNotFound
  | unableToRemoveJob
  deriving DecidableEq, Repr

/-- The number of users an attack of the generator holds. -/
def attack.userCount (a : attack) : Nat :=
  (a.increments.map (fun e => e.2.users.length)).sum

/-- The number of users held in all increments of all attacks. -/
def generator.heldUsers (g : generator) : Nat :=
  (g.attacks.map (fun e => e.2.userCount)).sum

/-- The users held in all increments of all attacks. -/
def generator.allUsers (g : generator) : List user :=
  g.attacks.flatMap (fun e => e.2.increments.flatMap (fun i => i.2.users))

/-- The wait group after `n` users have been handed to `Destroy`; `none` when
the counter would become negative. -/
def release (stop : Int) (n : Nat) : Option Int :=
  if stop < n then none else some (stop - n)

/-- The method `StopAttack` of the generator; `none` when it panics. -/
def generator.StopAttack (g : generator) (stop : OperationStop) :
    Option (generator × Option StopError) :=
  match g.attacks.get? stop.AttackID with
  | none => some (g, some StopError.ErrAttackNotFound)
  | some att =>
    match stop.IncrementID with
    | some incrementID =>
      match att.increments.get? incrementID with
      | none => some (g, some StopError.ErrAttackNotFound)
      | some increment =>
        let increments := att.increments.delete incrementID
        match release g.stop increment.users.length with
        | none => none
        | some count =>
          let g : generator :=
            { g with
              stop := count,
              attacks := g.attacks.set stop.AttackID { att with increments := increments } }
          if increments.length = 0 then
            match g.scheduler.RemoveJob att.jobID with
            | (scheduler, some _) =>
              some ({ g with scheduler := scheduler }, some StopError.unableToRemoveJob)
            | (scheduler, none) =>
              some ({ g with scheduler := scheduler,
                             attacks := g.attacks.delete stop.AttackID }, none)
          else some (g, none)
    | none =>
      match g.scheduler.RemoveJob att.jobID with
      | (scheduler, some _) =>
        some ({ g with scheduler := scheduler }, some StopError.unableToRemoveJob)
      | (scheduler, none) =>
        match release g.stop att.userCount with
        | none => none
        | some count =>
          some ({ g with scheduler := scheduler, stop := count,
                         attacks := g.attacks.delete stop.AttackID }, none)

/-- The method `Stop` of the generator: the scheduler is shut down and every
user still held is handed to `Destroy`; the second component tells whether
the final `Wait` on the wait group returns, which it does when the counter is
zero.  `none` when it panics. -/
def generator.Stop (g : generator) : Option (generator × Bool) :=
  match release g.stop g.heldUsers with
  | none => none
  | some count =>
    some ({ g with scheduler := g.scheduler.Shutdown, stop := count }, decide (count = 0))

/-- One call on the generator. -/
inductive Call
  | start (op : OperationStart) (jobID : String) (order : List Nat)
  | stop (op : OperationStop)

/-- The generator after a sequence of calls of `StartAttack` and `StopAttack`,
whatever they return; `none` when one panics. -/
def generator.calls (g : generator) : List Call → Option generator
  | [] => some g
  | Call.start op jobID order :: rest =>
    match g.StartAttack op jobID order with
    | none => none
    | some r => generator.calls r.1 rest
  | Call.stop op :: rest =>
    match g.StopAttack op with
    | none => none
    | some r => generator.calls r.1 rest

/-- The names and scenarios of the users `StartAttack` creates for the
entries of an operation in visiting order: for an available scenario, one user
per unit of its count, and none for the other names. -/
def createdFor (visited : List (String × Int)) : List (String × String) :=
  visited.flatMap (fun e =>
    if e.1 ∈ scenarios.AvailableScenarios then
      (List.range e.2.toNat).map (fun i =>
        ("user for " ++ e.1 ++ " #" ++ toString i, e.1))
    else [])

end Generator

/-- An operation for the increment `demoGenerator` holds, under another
operation id: two users of `test_http` and four of a scenario the worker does
not know. -/
def demoGenOp2 : OperationStart :=
  { ID := "op-2", AttackID := 5, IncrementID := 2, WaitTimeSec := 1,
    Scenarios := [("test_http", 2), ("unknown", 4)] }

/-! ## The stream handler of the manager (`api/grpc/handlers/manager.go`) -/

/-- What the first `Recv` on the stream of a worker yields: the end of the
stream, an error, a message that is no handshake, or a handshake. -/
inductive firstMessage
  | eof
  | recvError
  | notHandshake
  | handshake (nodeName : String) (scenarios : List ScenarioDetails)
  deriving DecidableEq, Repr

/-- The steps of `StreamAttack` after the handshake: the node controller is
started, `AddNode` is called (with the error it returned, if any), the call
of `RemoveNode` for the controller is deferred to the return of the handler,
the receiver goroutine is started, the sender is run; and the two ways the
handler returns before them. -/
inductive streamStep
  | nodeStart (nodeName : String)
  | addNode (err : Option GoError)
  | deferRemoveNode (nodeName : String)
  | goRunReceiver
  | runSender
  | returnNil
  | returnError
  deriving DecidableEq, Repr

/-- The error a call returned, if any. -/
def Ret.error {α : Type} : Ret α → Option GoError
  | Ret.ok _ => none
  | Ret.fail err => some err

/-- The handler `StreamAttack`, up to the point where it runs the sender: the
service after it, what `AddNode` did, and the steps the handler took, in
order.  The handler returns when the sender returns, and the deferred
`RemoveNode` runs then. -/
def Service.StreamAttack (s : attackService) (first : firstMessage) (mirrorOrder : List Nat)
    (stopOrders : List (List Nat)) : Option (attackService × List Effect × List streamStep) :=
  match first with
  | firstMessage.eof => some (s, [], [streamStep.returnNil])
  | firstMessage.recvError => some (s, [], [streamStep.returnError])
  | firstMessage.notHandshake => some (s, [], [streamStep.returnError])
  | firstMessage.handshake nodeName scenarios =>
    match s.AddNode (handshakeNode nodeName scenarios) mirrorOrder stopOrders with
    | none => none
    | some o =>
      some (o.state, o.effects,
        [streamStep.nodeStart nodeName, streamStep.addNode o.ret.error,
         streamStep.deferRemoveNode nodeName, streamStep.goRunReceiver, streamStep.runSender])

/-! ## Mirrors and the record of the service -/

/-- Every increment in the mirror of a registered node is an increment of a
live attack in the record of the service. -/
def attackService.mirrorsLive (s : attackService) : Prop :=
  ∀ e ∈ s.nodes, ∀ attackID incrementID,
    e.2.hasIncrement attackID incrementID = true → s.records attackID incrementID = true

/-- A run in which three workers connect, an attack is started, the worker
`n3` drops and reconnects within the recovery window, now advertising only
`Y`. -/
def demoRefusal : List Action :=
  [Action.connect "n1" [demoScenario "X"] [] [],
   Action.connect "n2" [demoScenario "X"] [] [],
   Action.connect "n3" [demoScenario "X", demoScenario "Y"] [] [],
   Action.startAttack demoAttack 100 (fun n => n) demoChoices,
   Action.disconnect "n3",
   Action.connect "n3" [demoScenario "Y"] [] []]

/-- The manager after the run `demoRefusal`. -/
def demoRefused : System :=
  match (System.init 60).run demoRefusal with
  | some r => r.1
  | none => System.init 60

/-- Every user the generator holds uses an HTTP client made before: the
clients are numbered in the order they are made, and `clients` is the number
made so far. -/
def Generator.generator.clientsBelow (g : Generator.generator) : Prop :=
  ∀ e ∈ g.attacks, ∀ i ∈ e.2.increments, ∀ u ∈ i.2.users, u.client < g.clients

/-! ## Lemmas on maps and visiting orders -/

open attackService

namespace GoMap
variable {κ ν : Type} [DecidableEq κ]

theorem get?_set_self (m : GoMap κ ν) (k : κ) (v : ν) : (m.set k v).get? k = some v := by
  induction m with
  | nil => simp [set, get?]
  | cons e rest ih =>
    obtain ⟨k', v'⟩ := e
    by_cases h : k' = k
    · simp [set, get?, h]
    · simp [set, get?, h, ih]

theorem get?_set_ne (m : GoMap κ ν) {k k' : κ} (v : ν) (h : k' ≠ k) :
    (m.set k v).get? k' = m.get? k' := by
  induction m with
  | nil => simp [set, get?, Ne.symm h]
  | cons e rest ih =>
    obtain ⟨k₀, v₀⟩ := e
    by_cases h₀ : k₀ = k
    · subst h₀
      simp [set, get?, Ne.symm h]
    · by_cases h₁ : k₀ = k'
      · subst h₁
        simp [set, get?, h₀]
      · simp [set, get?, h₀, h₁, ih]

theorem get?_delete_self (m : GoMap κ ν) (k : κ) : (m.delete k).get? k = none := by
  induction m with
  | nil => simp [delete, get?]
  | cons e rest ih =>
    obtain ⟨k₀, v₀⟩ := e
    by_cases h₀ : k₀ = k
    · simpa [delete, h₀] using ih
    · simpa [delete, get?, h₀] using ih

theorem get?_delete_ne (m : GoMap κ ν) {k k' : κ} (h : k' ≠ k) :
    (m.delete k).get? k' = m.get? k' := by
  induction m with
  | nil => simp [delete, get?]
  | cons e rest ih =>
    obtain ⟨k₀, v₀⟩ := e
    by_cases h₀ : k₀ = k
    · subst h₀
      simpa [delete, get?, Ne.symm h] using ih
    · by_cases h₁ : k₀ = k'
      · subst h₁
        simp [delete, get?, h₀]
      · simpa [delete, get?, h₀, h₁] using ih

theorem get?_eq_none_iff (m : GoMap κ ν) (k : κ) : m.get? k = none ↔ k ∉ m.keys := by
  induction m with
  | nil => simp [get?, keys]
  | cons e rest ih =>
    obtain ⟨k₀, v₀⟩ := e
    by_cases h₀ : k₀ = k
    · simp [get?, keys, h₀]
    · simpa [get?, keys, h₀, Ne.symm h₀] using ih

theorem mem_of_get? {m : GoMap κ ν} {k : κ} {v : ν} (h : m.get? k = some v) : (k, v) ∈ m := by
  induction m with
  | nil => simp [get?] at h
  | cons e rest ih =>
    obtain ⟨k₀, v₀⟩ := e
    by_cases h₀ : k₀ = k
    · simp [get?, h₀] at h
      simp [h₀, h]
    · simp [get?, h₀] at h
      exact List.mem_cons_of_mem _ (ih h)

theorem get?_of_mem {m : GoMap κ ν} (hwf : m.WF) {k : κ} {v : ν} (h : (k, v) ∈ m) :
    m.get? k = some v := by
  induction m with
  | nil => simp at h
  | cons e rest ih =>
    obtain ⟨k₀, v₀⟩ := e
    simp only [WF, List.map_cons, List.nodup_cons] at hwf
    rcases List.mem_cons.1 h with h | h
    · cases h
      simp [get?]
    · have hne : k₀ ≠ k := by
        rintro rfl
        exact hwf.1 (List.mem_map_of_mem Prod.fst h)
      simp [get?, hne]
      exact ih hwf.2 h

theorem keys_set_of_mem (m : GoMap κ ν) {k : κ} (v : ν) (h : k ∈ m.keys) :
    (m.set k v).keys = m.keys := by
  induction m with
  | nil => simp [keys] at h
  | cons e rest ih =>
    obtain ⟨k₀, v₀⟩ := e
    by_cases h₀ : k₀ = k
    · simp [set, keys, h₀]
    · have : k ∈ keys rest := by
        simpa [keys, Ne.symm h₀] using h
      simpa [set, keys, h₀] using ih this

theorem keys_set_of_not_mem (m : GoMap κ ν) {k : κ} (v : ν) (h : k ∉ m.keys) :
    (m.set k v).keys = m.keys ++ [k] := by
  induction m with
  | nil => simp [set, keys]
  | cons e rest ih =>
    obtain ⟨k₀, v₀⟩ := e
    have h₀ : k₀ ≠ k := by
      rintro rfl
      exact h (by simp [keys])
    have : k ∉ keys rest := fun hk => h (by simp [keys] at hk ⊢; exact Or.inr hk)
    simpa [set, keys, h₀] using ih this

theorem mem_keys_set (m : GoMap κ ν) (k k' : κ) (v : ν) :
    k' ∈ (m.set k v).keys ↔ k' = k ∨ k' ∈ m.keys := by
  by_cases h : k ∈ m.keys
  · rw [keys_set_of_mem m v h]
    constructor
    · exact Or.inr
    · rintro (rfl | h')
      · exact h
      · exact h'
  · rw [keys_set_of_not_mem m v h]
    simp [or_comm]

theorem WF_set {m : GoMap κ ν} (hwf : m.WF) (k : κ) (v : ν) : (m.set k v).WF := by
  by_cases h : k ∈ m.keys
  · have := keys_set_of_mem m v h
    unfold WF keys at *
    rw [this]; exact hwf
  · have := keys_set_of_not_mem m v h
    unfold WF keys at *
    rw [this]
    exact List.Nodup.append hwf (List.nodup_singleton k) (by simpa using h)

theorem keys_delete (m : GoMap κ ν) (k : κ) : (m.delete k).keys = m.keys.filter (fun x => decide (x ≠ k)) := by
  induction m with
  | nil => simp [delete, keys]
  | cons e rest ih =>
    obtain ⟨k₀, v₀⟩ := e
    by_cases h₀ : k₀ = k
    · simpa [delete, keys, h₀] using ih
    · simpa [delete, keys, h₀] using ih

theorem WF_delete {m : GoMap κ ν} (hwf : m.WF) (k : κ) : (m.delete k).WF := by
  have := keys_delete m k
  unfold WF keys at *
  rw [this]
  exact hwf.filter _

theorem mem_keys_delete (m : GoMap κ ν) (k k' : κ) :
    k' ∈ (m.delete k).keys ↔ k' ≠ k ∧ k' ∈ m.keys := by
  rw [keys_delete]; simp [and_comm]

end GoMap

theorem getD_cons_eraseIdx_perm {α : Type} (l : List α) (i : Nat) (d : α) (h : i < l.length) :
    (l.getD i d :: l.eraseIdx i).Perm l := by
  induction l generalizing i with
  | nil => simp at h
  | cons a l ih =>
    cases i with
    | zero => simp
    | succ i =>
      have h' : i < l.length := by simpa using h
      simp only [List.getD_cons_succ, List.eraseIdx_cons_succ]
      exact (List.Perm.swap _ _ _).trans (List.Perm.cons a (ih i h'))

theorem rangeOrder_perm {α : Type} (cs : List Nat) (l : List α) : (rangeOrder cs l).Perm l := by
  induction cs generalizing l with
  | nil => cases l <;> simp [rangeOrder]
  | cons c cs ih =>
    cases l with
    | nil => simp [rangeOrder]
    | cons a l =>
      simp only [rangeOrder]
      have hlt : c % (l.length + 1) < (a :: l).length := by
        simp only [List.length_cons]; exact Nat.mod_lt _ (Nat.succ_pos _)
      exact (List.Perm.cons _ (ih _)).trans (getD_cons_eraseIdx_perm _ _ _ hlt)

theorem rangeOrder_complete {α : Type} (l l' : List α) (h : l'.Perm l) :
    ∃ cs, rangeOrder cs l = l' := by
  induction l' generalizing l with
  | nil =>
    have : l = [] := by simpa using h.symm
    exact ⟨[], by subst this; rfl⟩
  | cons b t ih =>
    have hb : b ∈ l := h.subset (List.mem_cons_self b t)
    obtain ⟨i, hi, hib⟩ := List.getElem_of_mem hb
    cases l with
    | nil => simp at hb
    | cons a l₀ =>
      have ht : t.Perm ((a :: l₀).eraseIdx i) := by
        have h1 : ((a :: l₀).getD i a :: (a :: l₀).eraseIdx i).Perm (b :: t) :=
          (getD_cons_eraseIdx_perm _ i a hi).trans h.symm
        have h2 : (a :: l₀).getD i a = b := by
          rw [List.getD_eq_getElem _ _ hi]; exact hib
        rw [h2] at h1
        exact (List.Perm.cons_inv h1).symm
      obtain ⟨cs, hcs⟩ := ih _ ht
      refine ⟨i :: cs, ?_⟩
      have hmod : i % (l₀.length + 1) = i := Nat.mod_eq_of_lt (by simpa using hi)
      simp only [rangeOrder, hmod, hcs]
      rw [List.getD_eq_getElem _ _ hi, hib]

/-! ## The split of a workload across nodes -/

theorem sliceAt_of_not_mem (q r : Int) (actual : List String) (idx : Int) (nm : String)
    (h : nm ∉ actual) : sliceAt q r actual idx nm = 0 := by
  induction actual generalizing idx with
  | nil => rfl
  | cons n rest ih =>
    have hne : n ≠ nm := fun e => h (by simp [e])
    have hrest : nm ∉ rest := fun e => h (List.mem_cons_of_mem _ e)
    simp only [sliceAt, hne, if_false]
    exact ih _ hrest

theorem get?_isSome_of_mem_keys {κ ν : Type} [DecidableEq κ] (m : GoMap κ ν) (k : κ)
    (h : k ∈ m.keys) : ∃ v, m.get? k = some v := by
  cases hg : m.get? k with
  | none => exact absurd h ((GoMap.get?_eq_none_iff m k).1 hg)
  | some v => exact ⟨v, rfl⟩

theorem assignLoop_spec (scenario : String) (q r : Int) (actual : List String)
    (hnd : actual.Nodup) (idx : Int) (ops : GoMap String OperationStart)
    (hsub : ∀ n ∈ actual, n ∈ ops.keys) :
    ∃ ops', assignLoop scenario q r actual idx ops = some ops' ∧ ops'.keys = ops.keys ∧
      ∀ nm, ops'.get? nm = (ops.get? nm).map (fun op =>
        if sliceAt q r actual idx nm ≠ 0 then
          { op with Scenarios := op.Scenarios.set scenario (sliceAt q r actual idx nm) }
        else op) := by
  induction actual generalizing idx ops with
  | nil =>
    refine ⟨ops, rfl, rfl, fun nm => ?_⟩
    simp [sliceAt]
  | cons n rest ih =>
    have hn : n ∉ rest := (List.nodup_cons.1 hnd).1
    have hrest : rest.Nodup := (List.nodup_cons.1 hnd).2
    obtain ⟨op, hop⟩ := get?_isSome_of_mem_keys ops n (hsub n (List.mem_cons_self _ _))
    by_cases hv : (if idx < r then q + 1 else q) = 0
    · -- zero slice: nothing is written
      obtain ⟨ops', h1, h2, h3⟩ := ih hrest (if idx < r then idx + 1 else idx) ops
        (fun m hm => hsub m (List.mem_cons_of_mem _ hm))
      refine ⟨ops', ?_, h2, fun nm => ?_⟩
      · simp only [assignLoop, hv, ne_eq, not_true_eq_false, if_false]
        exact h1
      · rw [h3 nm]
        by_cases hnm : n = nm
        · subst hnm
          simp [sliceAt, hv, sliceAt_of_not_mem _ _ _ _ _ hn]
        · simp [sliceAt, hnm]
    · obtain ⟨ops', h1, h2, h3⟩ := ih hrest (if idx < r then idx + 1 else idx)
        (ops.set n { op with Scenarios := op.Scenarios.set scenario (if idx < r then q + 1 else q) })
        (fun m hm => by
          rw [GoMap.mem_keys_set]
          exact Or.inr (hsub m (List.mem_cons_of_mem _ hm)))
      refine ⟨ops', ?_, ?_, fun nm => ?_⟩
      · simp only [assignLoop, ne_eq, hv, not_false_eq_true, if_true, hop]
        exact h1
      · rw [h2, GoMap.keys_set_of_mem _ _ (hsub n (List.mem_cons_self _ _))]
      · rw [h3 nm]
        by_cases hnm : n = nm
        · subst hnm
          simp [sliceAt, hv, sliceAt_of_not_mem _ _ _ _ _ hn, GoMap.get?_set_self, hop]
        · rw [GoMap.get?_set_ne _ _ (Ne.symm hnm)]
          simp [sliceAt, hnm]

theorem actualNodes_nodup (nodes : List (String × node)) (hwf : GoMap.WF nodes)
    (scenario : String) : (actualNodes nodes scenario).Nodup := by
  unfold actualNodes
  have : ((nodes.filter (fun e => supports e.2 scenario)).map Prod.fst).Sublist
      (nodes.map Prod.fst) := (List.filter_sublist nodes).map _
  exact this.nodup hwf

theorem actualNodes_subset (nodes : List (String × node)) (scenario : String) (n : String)
    (h : n ∈ actualNodes nodes scenario) : n ∈ GoMap.keys nodes := by
  unfold actualNodes at h
  have : ((nodes.filter (fun e => supports e.2 scenario)).map Prod.fst).Sublist
      (nodes.map Prod.fst) := (List.filter_sublist nodes).map _
  exact this.subset h

theorem rangeOrder_WF {ν : Type} (cs : List Nat) (m : GoMap String ν) (h : GoMap.WF m) :
    GoMap.WF (rangeOrder cs m) := by
  unfold GoMap.WF at *
  exact (((rangeOrder_perm cs m).map Prod.fst).nodup_iff).2 h

theorem rangeOrder_keys_mem {ν : Type} (cs : List Nat) (m : GoMap String ν) (k : String) :
    k ∈ GoMap.keys (rangeOrder cs m) ↔ k ∈ GoMap.keys m := by
  unfold GoMap.keys
  exact ((rangeOrder_perm cs m).map Prod.fst).mem_iff

theorem actualNodes_length (cs : List Nat) (nodes : List (String × node)) (scenario : String) :
    (actualNodes (rangeOrder cs nodes) scenario).length
      = (nodes.filter (fun e => supports e.2 scenario)).length := by
  unfold actualNodes
  rw [List.length_map]
  exact ((rangeOrder_perm cs nodes).filter _).length_eq

theorem actualNodes_ne_nil (cs : List Nat) (nodes : List (String × node)) (scenario : String)
    (h : ∃ e ∈ nodes, supports e.2 scenario = true) :
    (actualNodes (rangeOrder cs nodes) scenario).length ≠ 0 := by
  rw [actualNodes_length]
  obtain ⟨e, he, hs⟩ := h
  have : e ∈ nodes.filter (fun e => supports e.2 scenario) := List.mem_filter.2 ⟨he, hs⟩
  intro h0
  rw [List.length_eq_zero] at h0
  rw [h0] at this
  simp at this

theorem splitLoop_spec (s : attackService) (nodesFor : String → List Nat)
    (L : List (String × Int)) (ops : GoMap String OperationStart)
    (hwf : GoMap.WF s.nodes) (hkeys : ops.keys = GoMap.keys s.nodes)
    (hadv : ∀ e ∈ L, ∃ n ∈ s.nodes, supports n.2 e.1 = true) :
    ∃ ops', splitLoop s nodesFor L ops = some ops' ∧ ops'.keys = ops.keys ∧
      ∀ nm, ops'.get? nm = (ops.get? nm).map (fun op =>
        { op with Scenarios := nodeScenarios s nodesFor nm L op.Scenarios }) := by
  induction L generalizing ops with
  | nil =>
    refine ⟨ops, rfl, rfl, fun nm => ?_⟩
    cases ops.get? nm <;> simp [nodeScenarios]
  | cons e rest ih =>
    obtain ⟨scenario, amount⟩ := e
    have hne := actualNodes_ne_nil (nodesFor scenario) s.nodes scenario
      (hadv (scenario, amount) (List.mem_cons_self _ _))
    have hnd := actualNodes_nodup _ (rangeOrder_WF (nodesFor scenario) s.nodes hwf) scenario
    obtain ⟨ops₁, h1, h2, h3⟩ := assignLoop_spec scenario
      (Int.tdiv amount (actualNodes (rangeOrder (nodesFor scenario) s.nodes) scenario).length)
      (Int.tmod amount (actualNodes (rangeOrder (nodesFor scenario) s.nodes) scenario).length)
      _ hnd 0 ops
      (fun n hn => by
        rw [hkeys]
        exact (rangeOrder_keys_mem _ _ _).1 (actualNodes_subset _ _ _ hn))
    obtain ⟨ops', h4, h5, h6⟩ := ih ops₁ (h2.trans hkeys)
      (fun e he => hadv e (List.mem_cons_of_mem _ he))
    refine ⟨ops', ?_, h5.trans h2, fun nm => ?_⟩
    · simp only [splitLoop, hne, if_false, h1]
      exact h4
    · rw [h6 nm, h3 nm]
      cases ops.get? nm with
      | none => rfl
      | some op =>
        simp only [Option.map_some', nodeScenarios]
        split <;> rfl

theorem GoMap.eq_of_keys_of_get? {κ ν : Type} [DecidableEq κ] (m₁ m₂ : GoMap κ ν)
    (hk : m₁.keys = m₂.keys) (hwf : m₁.WF) (hg : ∀ k, m₁.get? k = m₂.get? k) : m₁ = m₂ := by
  induction m₁ generalizing m₂ with
  | nil =>
    cases m₂ with
    | nil => rfl
    | cons e t => simp [GoMap.keys] at hk
  | cons e₁ t₁ ih =>
    cases m₂ with
    | nil => simp [GoMap.keys] at hk
    | cons e₂ t₂ =>
      obtain ⟨k₁, v₁⟩ := e₁
      obtain ⟨k₂, v₂⟩ := e₂
      simp only [GoMap.keys, List.map_cons, List.cons.injEq] at hk
      obtain ⟨hk1, hk2⟩ := hk
      subst hk1
      have hv : v₁ = v₂ := by
        have := hg k₁
        simpa [GoMap.get?] using this
      subst hv
      simp only [GoMap.WF, List.map_cons, List.nodup_cons] at hwf
      have ht : t₁ = t₂ := by
        refine ih t₂ hk2 hwf.2 (fun k => ?_)
        by_cases hkk : k₁ = k
        · subst hkk
          have h1 : GoMap.get? t₁ k₁ = none := (GoMap.get?_eq_none_iff t₁ k₁).2 hwf.1
          have h2 : GoMap.get? t₂ k₁ = none :=
            (GoMap.get?_eq_none_iff t₂ k₁).2 (by unfold GoMap.keys; rw [← hk2]; exact hwf.1)
          rw [h1, h2]
        · have := hg k
          simpa [GoMap.get?, hkk] using this
      rw [ht]

theorem get?_map_entries {ν μ : Type} (m : GoMap String ν) (g : String × ν → μ) (k : String) :
    GoMap.get? (m.map (fun e => (e.1, g e))) k = (GoMap.get? m k).map (fun v => g (k, v)) := by
  induction m with
  | nil => rfl
  | cons e t ih =>
    obtain ⟨k₀, v₀⟩ := e
    by_cases h : k₀ = k
    · subst h
      simp [GoMap.get?]
    · simp [GoMap.get?, h, ih]

theorem keys_map_entries {ν μ : Type} (m : GoMap String ν) (g : String × ν → μ) :
    GoMap.keys (m.map (fun e => (e.1, g e))) = GoMap.keys m := by
  simp [GoMap.keys, List.map_map, Function.comp_def]

theorem splitLoop_planned (s : attackService) (start : OperationStart) (ids : String → String)
    (ch : Choices) (hwf : GoMap.WF s.nodes)
    (hadv : ∀ e ∈ start.Scenarios, ∃ n ∈ s.nodes, supports n.2 e.1 = true) :
    splitLoop s ch.nodesFor (rangeOrder ch.scenarios start.Scenarios)
        (emptyOperations s start ids) = some (plannedOperations s start ids ch) := by
  have hkeys : GoMap.keys (emptyOperations s start ids) = GoMap.keys s.nodes := by
    unfold emptyOperations
    exact keys_map_entries s.nodes _
  obtain ⟨ops', h1, h2, h3⟩ := splitLoop_spec s ch.nodesFor
    (rangeOrder ch.scenarios start.Scenarios) (emptyOperations s start ids) hwf hkeys
    (fun e he => hadv e ((rangeOrder_perm _ _).mem_iff.1 he))
  rw [h1]
  congr 1
  apply GoMap.eq_of_keys_of_get?
  · rw [h2, hkeys]
    unfold plannedOperations
    exact (keys_map_entries s.nodes _).symm
  · unfold GoMap.WF
    have : ops'.keys = GoMap.keys s.nodes := h2.trans hkeys
    unfold GoMap.keys at this
    rw [this]
    exact hwf
  · intro k
    rw [h3 k]
    unfold emptyOperations plannedOperations
    rw [get?_map_entries s.nodes _ k, get?_map_entries s.nodes _ k]
    cases GoMap.get? s.nodes k <;> rfl

theorem dispatchLoop_spec (D : List (String × OperationStart)) (nodes : GoMap String node)
    (hD : GoMap.WF D) (hsub : ∀ k ∈ GoMap.keys D, k ∈ GoMap.keys nodes) :
    ∃ nodes', dispatchLoop D nodes
        = some (nodes',
            (D.filter (fun e => decide (e.2.Scenarios.length ≠ 0))).map
              (fun e => Effect.nodeStartAttack e.1 e.2)) ∧
      GoMap.keys nodes' = GoMap.keys nodes ∧
      ∀ k, GoMap.get? nodes' k = (GoMap.get? nodes k).map (fun n =>
        match GoMap.get? (D.filter (fun e => decide (e.2.Scenarios.length ≠ 0))) k with
        | some op => (n.StartAttack op).1
        | none => n) := by
  induction D generalizing nodes with
  | nil =>
    refine ⟨nodes, rfl, rfl, fun k => ?_⟩
    cases GoMap.get? nodes k <;> simp [GoMap.get?]
  | cons e rest ih =>
    obtain ⟨nodeName, operation⟩ := e
    simp only [GoMap.WF, List.map_cons, List.nodup_cons] at hD
    have hsub' : ∀ k ∈ GoMap.keys rest, k ∈ GoMap.keys nodes :=
      fun k hk => hsub k (by simp [GoMap.keys] at hk ⊢; exact Or.inr hk)
    by_cases hlen : operation.Scenarios.length ≠ 0
    · have hf : List.filter (fun e : String × OperationStart => decide (e.2.Scenarios.length ≠ 0))
          ((nodeName, operation) :: rest) = (nodeName, operation)
            :: List.filter (fun e => decide (e.2.Scenarios.length ≠ 0)) rest :=
        List.filter_cons_of_pos (decide_eq_true hlen)
      obtain ⟨n, hn⟩ := get?_isSome_of_mem_keys nodes nodeName (hsub nodeName (by simp [GoMap.keys]))
      obtain ⟨nodes', h1, h2, h3⟩ := ih (nodes.set nodeName (n.StartAttack operation).1) hD.2
        (fun k hk => (GoMap.mem_keys_set _ _ _ _).2 (Or.inr (hsub' k hk)))
      refine ⟨nodes', ?_, ?_, fun k => ?_⟩
      · rw [hf]
        simp only [dispatchLoop, hlen, if_true, hn, h1, List.map_cons, ne_eq, not_false_eq_true]
      · rw [h2, GoMap.keys_set_of_mem _ _ (hsub nodeName (by simp [GoMap.keys]))]
      · rw [h3 k, hf]
        by_cases hk : nodeName = k
        · subst hk
          have hnone : GoMap.get? (rest.filter (fun e => decide (e.2.Scenarios.length ≠ 0)))
              nodeName = none := by
            rw [GoMap.get?_eq_none_iff]
            intro hmem
            exact hD.1 (((List.filter_sublist rest).map Prod.fst).subset hmem)
          rw [GoMap.get?_set_self, hn, hnone]
          simp only [Option.map_some', GoMap.get?, if_true]
        · rw [GoMap.get?_set_ne _ _ (Ne.symm hk)]
          simp only [GoMap.get?, hk, if_false]
    · have hf : List.filter (fun e : String × OperationStart => decide (e.2.Scenarios.length ≠ 0))
          ((nodeName, operation) :: rest)
            = List.filter (fun e => decide (e.2.Scenarios.length ≠ 0)) rest :=
        List.filter_cons_of_neg (by simpa using hlen)
      obtain ⟨nodes', h1, h2, h3⟩ := ih nodes hD.2 hsub'
      refine ⟨nodes', ?_, h2, fun k => ?_⟩
      · rw [hf]
        simp only [dispatchLoop, hlen, if_false, h1]
      · rw [h3 k, hf]

theorem dispatched_map (l : List (String × OperationStart)) :
    dispatched (l.map (fun e => Effect.nodeStartAttack e.1 e.2)) = l := by
  induction l with
  | nil => rfl
  | cons e t ih => simp [dispatched, ih]

theorem divideTasks_spec (s : attackService) (start : OperationStart) (ids : String → String)
    (ch : Choices) (hwf : GoMap.WF s.nodes)
    (hadv : ∀ e ∈ start.Scenarios, ∃ n ∈ s.nodes, supports n.2 e.1 = true) :
    ∃ nodes', divideTasks s start ids ch
        = some ({ s with nodes := nodes' },
            ((rangeOrder ch.dispatch (plannedOperations s start ids ch)).filter
              (fun e => decide (e.2.Scenarios.length ≠ 0))).map
              (fun e => Effect.nodeStartAttack e.1 e.2)) ∧
      GoMap.keys nodes' = GoMap.keys s.nodes ∧
      ∀ k, GoMap.get? nodes' k = (GoMap.get? s.nodes k).map (fun n =>
        match GoMap.get? ((rangeOrder ch.dispatch (plannedOperations s start ids ch)).filter
            (fun e => decide (e.2.Scenarios.length ≠ 0))) k with
        | some op => (n.StartAttack op).1
        | none => n) := by
  have hpk : GoMap.keys (plannedOperations s start ids ch) = GoMap.keys s.nodes := by
    unfold plannedOperations
    exact keys_map_entries s.nodes _
  have hpwf : GoMap.WF (plannedOperations s start ids ch) := by
    unfold GoMap.WF
    unfold GoMap.keys at hpk
    rw [hpk]
    exact hwf
  obtain ⟨nodes', h1, h2, h3⟩ := dispatchLoop_spec
    (rangeOrder ch.dispatch (plannedOperations s start ids ch)) s.nodes
    (rangeOrder_WF _ _ hpwf)
    (fun k hk => by
      rw [rangeOrder_keys_mem] at hk
      rw [← hpk]
      exact hk)
  refine ⟨nodes', ?_, h2, h3⟩
  simp only [divideTasks, splitLoop_planned s start ids ch hwf hadv, h1]

theorem mem_set {κ ν : Type} [DecidableEq κ] (m : GoMap κ ν) (k : κ) (v : ν) (e : κ × ν)
    (h : e ∈ m.set k v) : e = (k, v) ∨ e ∈ m := by
  induction m with
  | nil =>
    simp only [GoMap.set, List.mem_singleton] at h
    exact Or.inl h
  | cons e₀ t ih =>
    obtain ⟨k₀, v₀⟩ := e₀
    by_cases h₀ : k₀ = k
    · simp only [GoMap.set, h₀, if_true, List.mem_cons] at h
      rcases h with h | h
      · exact Or.inl h
      · exact Or.inr (List.mem_cons_of_mem _ h)
    · simp only [GoMap.set, h₀, if_false, List.mem_cons] at h
      rcases h with h | h
      · exact Or.inr (by rw [h]; exact List.mem_cons_self _ _)
      · rcases ih h with h' | h'
        · exact Or.inl h'
        · exact Or.inr (List.mem_cons_of_mem _ h')

theorem nodeScenarios_get?_of_not_mem (s : attackService) (nodesFor : String → List Nat)
    (nm : String) (L : List (String × Int)) (m : GoMap String Int) (sc : String)
    (h : sc ∉ GoMap.keys L) : (nodeScenarios s nodesFor nm L m).get? sc = m.get? sc := by
  induction L generalizing m with
  | nil => rfl
  | cons e rest ih =>
    obtain ⟨scenario, amount⟩ := e
    have hne : sc ≠ scenario := fun e => h (by simp [GoMap.keys, e])
    have hrest : sc ∉ GoMap.keys rest := fun hm => h (by simp [GoMap.keys] at hm ⊢; exact Or.inr hm)
    simp only [nodeScenarios]
    rw [ih _ hrest]
    split
    · exact GoMap.get?_set_ne _ _ hne
    · rfl

theorem nodeScenarios_get?_of_mem (s : attackService) (nodesFor : String → List Nat)
    (nm : String) (L : List (String × Int)) (m : GoMap String Int) (sc : String) (amount : Int)
    (hwf : GoMap.WF L) (h : (sc, amount) ∈ L) :
    (nodeScenarios s nodesFor nm L m).get? sc
      = if sliceAt
            (Int.tdiv amount (actualNodes (rangeOrder (nodesFor sc) s.nodes) sc).length)
            (Int.tmod amount (actualNodes (rangeOrder (nodesFor sc) s.nodes) sc).length)
            (actualNodes (rangeOrder (nodesFor sc) s.nodes) sc) 0 nm ≠ 0
        then some (sliceAt
            (Int.tdiv amount (actualNodes (rangeOrder (nodesFor sc) s.nodes) sc).length)
            (Int.tmod amount (actualNodes (rangeOrder (nodesFor sc) s.nodes) sc).length)
            (actualNodes (rangeOrder (nodesFor sc) s.nodes) sc) 0 nm)
        else m.get? sc := by
  induction L generalizing m with
  | nil => simp at h
  | cons e rest ih =>
    obtain ⟨scenario, amount'⟩ := e
    simp only [GoMap.WF, List.map_cons, List.nodup_cons] at hwf
    rcases List.mem_cons.1 h with h₁ | h₂
    · cases h₁
      simp only [nodeScenarios]
      rw [nodeScenarios_get?_of_not_mem _ _ _ _ _ _ hwf.1]
      split
      · exact GoMap.get?_set_self _ _ _
      · rfl
    · have hne : sc ≠ scenario := by
        intro hsc
        apply hwf.1
        rw [← hsc]
        exact List.mem_map_of_mem Prod.fst h₂
      simp only [nodeScenarios]
      rw [ih _ hwf.2 h₂]
      have : ∀ v, GoMap.get? (if v ≠ 0 then GoMap.set m scenario v else m) sc = m.get? sc := by
        intro v
        split
        · exact GoMap.get?_set_ne _ _ hne
        · rfl
      rw [this]

theorem nodeScenarios_ne_zero (s : attackService) (nodesFor : String → List Nat)
    (nm : String) (L : List (String × Int)) (m : GoMap String Int)
    (hm : ∀ e ∈ m, e.2 ≠ 0) : ∀ e ∈ nodeScenarios s nodesFor nm L m, e.2 ≠ 0 := by
  induction L generalizing m with
  | nil => exact hm
  | cons e rest ih =>
    obtain ⟨scenario, amount⟩ := e
    simp only [nodeScenarios]
    apply ih
    split
    · rename_i hv
      intro e he
      rcases mem_set _ _ _ _ he with h | h
      · rw [h]; exact hv
      · exact hm e h
    · exact hm

theorem map_sliceAt_cons (q r : Int) (n : String) (rest : List String) (idx : Int)
    (hn : n ∉ rest) :
    rest.map (sliceAt q r (n :: rest) idx)
      = rest.map (sliceAt q r rest (if idx < r then idx + 1 else idx)) := by
  apply List.map_congr_left
  intro nm hnm
  have hne : n ≠ nm := fun e => hn (e ▸ hnm)
  simp only [sliceAt, hne, if_false]

theorem sum_sliceAt (q r : Int) (actual : List String) (hnd : actual.Nodup) (idx : Int)
    (h1 : idx ≤ r) (h2 : r - idx ≤ actual.length) :
    (actual.map (sliceAt q r actual idx)).sum = actual.length * q + (r - idx) := by
  induction actual generalizing idx with
  | nil =>
    simp only [List.map_nil, List.sum_nil, List.length_nil, Nat.cast_zero] at h2 ⊢
    omega
  | cons n rest ih =>
    have hn : n ∉ rest := (List.nodup_cons.1 hnd).1
    have hrest : rest.Nodup := (List.nodup_cons.1 hnd).2
    rw [List.map_cons, List.sum_cons, map_sliceAt_cons q r n rest idx hn]
    simp only [List.length_cons, Nat.cast_add, Nat.cast_one] at h2 ⊢
    by_cases hlt : idx < r
    · simp only [sliceAt, hlt, if_true]
      rw [ih hrest (idx + 1) (by omega) (by omega)]
      ring
    · simp only [sliceAt, hlt, if_false, if_true]
      rw [ih hrest idx h1 (by omega)]
      have : r - idx = 0 := by omega
      rw [this]
      ring

theorem sum_map_of_support (names actual : List String) (f : String → Int)
    (hnames : names.Nodup) (hactual : actual.Nodup) (hsub : ∀ n ∈ actual, n ∈ names)
    (hzero : ∀ n, n ∉ actual → f n = 0) :
    (names.map f).sum = (actual.map f).sum := by
  rw [← List.sum_toFinset f hnames, ← List.sum_toFinset f hactual]
  symm
  apply Finset.sum_subset
  · intro x hx
    rw [List.mem_toFinset] at hx ⊢
    exact hsub x hx
  · intro x _ hx
    rw [List.mem_toFinset] at hx
    exact hzero x hx

theorem sum_sliceAt_names (names actual : List String) (amount : Int)
    (hnames : names.Nodup) (hactual : actual.Nodup) (hsub : ∀ n ∈ actual, n ∈ names)
    (hlen : actual.length ≠ 0) (hpos : 0 ≤ amount) :
    (names.map (sliceAt (Int.tdiv amount actual.length) (Int.tmod amount actual.length)
      actual 0)).sum = amount := by
  rw [sum_map_of_support names actual _ hnames hactual hsub
    (fun n hn => sliceAt_of_not_mem _ _ _ _ _ hn)]
  have hk : (0 : Int) < actual.length := by
    have : 0 < actual.length := Nat.pos_of_ne_zero hlen
    exact_mod_cast this
  have hr0 : 0 ≤ Int.tmod amount actual.length := Int.tmod_nonneg _ hpos
  have hr1 : Int.tmod amount actual.length < actual.length := Int.tmod_lt_of_pos _ hk
  rw [sum_sliceAt _ _ actual hactual 0 hr0 (by omega)]
  have := Int.tdiv_add_tmod amount actual.length
  linarith

theorem sum_map_filter_of_zero {α : Type} (l : List α) (p : α → Bool) (g : α → Int)
    (h : ∀ a ∈ l, p a = false → g a = 0) :
    ((l.filter p).map g).sum = (l.map g).sum := by
  induction l with
  | nil => rfl
  | cons a t ih =>
    have ht : ∀ a ∈ t, p a = false → g a = 0 := fun b hb => h b (List.mem_cons_of_mem _ hb)
    by_cases hp : p a = true
    · rw [List.filter_cons_of_pos hp]
      simp only [List.map_cons, List.sum_cons, ih ht]
    · rw [List.filter_cons_of_neg hp]
      simp only [List.map_cons, List.sum_cons, ih ht]
      have := h a (List.mem_cons_self _ _) (by simpa using hp)
      omega

theorem planned_amount (s : attackService) (start : OperationStart)
    (ch : Choices) (hsc : GoMap.WF start.Scenarios) (nm scenario : String) :
    (nodeScenarios s ch.nodesFor nm (rangeOrder ch.scenarios start.Scenarios) []).getD scenario 0
      = match start.Scenarios.get? scenario with
        | some amount =>
          sliceAt
            (Int.tdiv amount
              (actualNodes (rangeOrder (ch.nodesFor scenario) s.nodes) scenario).length)
            (Int.tmod amount
              (actualNodes (rangeOrder (ch.nodesFor scenario) s.nodes) scenario).length)
            (actualNodes (rangeOrder (ch.nodesFor scenario) s.nodes) scenario) 0 nm
        | none => 0 := by
  cases hg : start.Scenarios.get? scenario with
  | none =>
    have hnot : scenario ∉ GoMap.keys (rangeOrder ch.scenarios start.Scenarios) := by
      rw [rangeOrder_keys_mem]
      exact (GoMap.get?_eq_none_iff _ _).1 hg
    simp only [GoMap.getD, nodeScenarios_get?_of_not_mem _ _ _ _ _ _ hnot]
    rfl
  | some amount =>
    have hmem : (scenario, amount) ∈ rangeOrder ch.scenarios start.Scenarios :=
      (rangeOrder_perm _ _).mem_iff.2 (GoMap.mem_of_get? hg)
    simp only [GoMap.getD, nodeScenarios_get?_of_mem _ _ _ _ _ _ amount
      (rangeOrder_WF _ _ hsc) hmem]
    split
    · rfl
    · rename_i h
      simp only [ne_eq, not_not] at h
      rw [h]
      rfl

theorem sum_dispatched (s : attackService) (start : OperationStart) (ids : String → String)
    (ch : Choices) (scenario : String) :
    (((rangeOrder ch.dispatch (plannedOperations s start ids ch)).filter
        (fun e => decide (e.2.Scenarios.length ≠ 0))).map
        (fun e => e.2.Scenarios.getD scenario 0)).sum
      = ((GoMap.keys s.nodes).map (fun nm =>
          (nodeScenarios s ch.nodesFor nm (rangeOrder ch.scenarios start.Scenarios) []).getD
            scenario 0)).sum := by
  rw [sum_map_filter_of_zero]
  · rw [((rangeOrder_perm ch.dispatch (plannedOperations s start ids ch)).map _).sum_eq]
    unfold plannedOperations GoMap.keys
    simp only [List.map_map, Function.comp_def]
  · intro e _ he
    have : e.2.Scenarios = [] := by simpa using he
    rw [this]
    rfl

/-- C1. When the node names and the scenario names are pairwise distinct,
every scenario of the operation is supported by at least one registered node
and every amount is positive, `divideTasks` never divides by zero (it returns
a result) and, for every scenario, the amounts of the operations it starts on
the nodes add up to the requested amount. -/
theorem divideTasks_sum_eq_requested (s : attackService) (start : OperationStart)
    (ids : String → String) (ch : Choices)
    (hnodes : GoMap.WF s.nodes) (hsc : GoMap.WF start.Scenarios)
    (hadv : ∀ e ∈ start.Scenarios, ∃ n ∈ s.nodes, supports n.2 e.1 = true)
    (hpos : ∀ e ∈ start.Scenarios, 0 < e.2) :
    (∀ e ∈ start.Scenarios,
      (actualNodes (rangeOrder (ch.nodesFor e.1) s.nodes) e.1).length ≠ 0) ∧
    ∃ s' effects, divideTasks s start ids ch = some (s', effects) ∧
      ∀ scenario,
        ((dispatched effects).map (fun e => e.2.Scenarios.getD scenario 0)).sum
          = start.Scenarios.getD scenario 0 := by
  refine ⟨fun e he => actualNodes_ne_nil _ _ _ (hadv e he), ?_⟩
  obtain ⟨nodes', h1, -, -⟩ := divideTasks_spec s start ids ch hnodes hadv
  refine ⟨_, _, h1, fun scenario => ?_⟩
  rw [dispatched_map, sum_dispatched]
  simp only [planned_amount s start ch hsc]
  cases hg : start.Scenarios.get? scenario with
  | none =>
    simp only [GoMap.getD, hg, Option.getD_none]
    simp
  | some amount =>
    simp only [GoMap.getD, hg, Option.getD_some]
    have hmem := GoMap.mem_of_get? hg
    exact sum_sliceAt_names (GoMap.keys s.nodes) _ amount hnodes
      (actualNodes_nodup _ (rangeOrder_WF _ _ hnodes) scenario)
      (fun n hn => (rangeOrder_keys_mem _ _ _).1 (actualNodes_subset _ _ _ hn))
      (actualNodes_ne_nil _ _ _ (hadv _ hmem))
      (le_of_lt (hpos _ hmem))

/-- C1 at a concrete state: three nodes, seven users of `X` and two of `Y`. -/
theorem divideTasks_sum_eq_requested_witness :
    (GoMap.WF demoService.nodes ∧ GoMap.WF demoStart.Scenarios ∧
      (∀ e ∈ demoStart.Scenarios, ∃ n ∈ demoService.nodes, supports n.2 e.1 = true) ∧
      (∀ e ∈ demoStart.Scenarios, 0 < e.2)) ∧
    ((∀ e ∈ demoStart.Scenarios,
      (actualNodes (rangeOrder (demoChoices2.nodesFor e.1) demoService.nodes) e.1).length ≠ 0) ∧
    ∃ s' effects, divideTasks demoService demoStart (fun n => n) demoChoices2
        = some (s', effects) ∧
      ∀ scenario,
        ((dispatched effects).map (fun e => e.2.Scenarios.getD scenario 0)).sum
          = demoStart.Scenarios.getD scenario 0) :=
  ⟨⟨by decide, by decide, by decide, by decide⟩,
    divideTasks_sum_eq_requested demoService demoStart (fun n => n) demoChoices2
      (by decide) (by decide) (by decide) (by decide)⟩

theorem GoMap.get?_perm {κ ν : Type} [DecidableEq κ] {m₁ m₂ : GoMap κ ν} (h : m₁.Perm m₂)
    (hwf : m₁.WF) (k : κ) : m₁.get? k = m₂.get? k := by
  cases hg : m₂.get? k with
  | none =>
    rw [GoMap.get?_eq_none_iff] at hg ⊢
    intro hk
    exact hg ((h.map Prod.fst).mem_iff.1 hk)
  | some v =>
    exact GoMap.get?_of_mem hwf (h.mem_iff.2 (GoMap.mem_of_get? hg))

theorem GoMap.get?_filter {κ ν : Type} [DecidableEq κ] (m : GoMap κ ν) (hwf : m.WF)
    (p : κ × ν → Bool) (k : κ) :
    GoMap.get? (m.filter p) k = (m.get? k).filter (fun v => p (k, v)) := by
  induction m with
  | nil => rfl
  | cons e t ih =>
    obtain ⟨k₀, v₀⟩ := e
    simp only [GoMap.WF, List.map_cons, List.nodup_cons] at hwf
    by_cases hk : k₀ = k
    · subst hk
      have hnone : GoMap.get? (t.filter p) k₀ = none := by
        rw [GoMap.get?_eq_none_iff]
        intro hmem
        exact hwf.1 (((List.filter_sublist t).map Prod.fst).subset hmem)
      by_cases hp : p (k₀, v₀) = true
      · rw [List.filter_cons_of_pos hp]
        simp [GoMap.get?, Option.filter, hp]
      · rw [List.filter_cons_of_neg hp, hnone]
        simp [GoMap.get?, Option.filter, hp]
    · by_cases hp : p (k₀, v₀) = true
      · rw [List.filter_cons_of_pos hp]
        simp only [GoMap.get?, hk, if_false]
        exact ih hwf.2
      · rw [List.filter_cons_of_neg hp]
        simp only [GoMap.get?, hk, if_false]
        exact ih hwf.2

theorem sliceAt_get (q r : Int) (actual : List String) (hnd : actual.Nodup) (idx : Int)
    (j : Nat) (hj : j < actual.length) :
    sliceAt q r actual idx (actual.get ⟨j, hj⟩) = if idx + j < r then q + 1 else q := by
  induction actual generalizing idx j with
  | nil => simp at hj
  | cons n rest ih =>
    have hn : n ∉ rest := (List.nodup_cons.1 hnd).1
    have hrest : rest.Nodup := (List.nodup_cons.1 hnd).2
    cases j with
    | zero => simp [sliceAt]
    | succ j =>
      have hj' : j < rest.length := by simpa using hj
      have hmem : rest.get ⟨j, hj'⟩ ∈ rest := List.get_mem _ _ _
      have hne : n ≠ rest.get ⟨j, hj'⟩ := fun e => hn (e ▸ hmem)
      simp only [List.get_cons_succ, sliceAt, hne, if_false]
      rw [ih hrest _ j hj']
      by_cases hlt : idx < r
      · simp only [hlt, if_true, Nat.cast_add, Nat.cast_one]
        congr 1
        apply propext
        constructor <;> intro h <;> omega
      · simp only [hlt, if_false, Nat.cast_add, Nat.cast_one]
        have h1 : ¬ (idx + (j : Int) < r) := by omega
        have h2 : ¬ (idx + ((j : Int) + 1) < r) := by omega
        simp only [h1, h2, if_false]

theorem received_planned (s : attackService) (start : OperationStart) (ids : String → String)
    (ch : Choices) (hnodes : GoMap.WF s.nodes) (nm scenario : String)
    (hnm : nm ∈ GoMap.keys s.nodes) :
    received
        (((rangeOrder ch.dispatch (plannedOperations s start ids ch)).filter
          (fun e => decide (e.2.Scenarios.length ≠ 0))).map
          (fun e => Effect.nodeStartAttack e.1 e.2)) nm scenario
      = (nodeScenarios s ch.nodesFor nm (rangeOrder ch.scenarios start.Scenarios) []).getD
          scenario 0 := by
  have hpk : GoMap.keys (plannedOperations s start ids ch) = GoMap.keys s.nodes := by
    unfold plannedOperations
    exact keys_map_entries s.nodes _
  have hpwf : GoMap.WF (plannedOperations s start ids ch) := by
    unfold GoMap.WF
    unfold GoMap.keys at hpk
    rw [hpk]
    exact hnodes
  obtain ⟨n, hn⟩ := get?_isSome_of_mem_keys s.nodes nm hnm
  unfold received
  rw [dispatched_map, GoMap.get?_filter _ (rangeOrder_WF _ _ hpwf),
    GoMap.get?_perm (rangeOrder_perm _ _) (rangeOrder_WF _ _ hpwf)]
  unfold plannedOperations
  rw [get?_map_entries s.nodes _ nm, hn]
  simp only [Option.map_some', Option.filter]
  by_cases hnil : nodeScenarios s ch.nodesFor nm (rangeOrder ch.scenarios start.Scenarios) [] = []
  · simp [hnil, GoMap.getD, GoMap.get?]
  · simp [hnil]

theorem tdiv_tmod_unique (amount q r : Int) (k : Nat) (hpos : 0 ≤ amount)
    (h : amount = q * k + r) (h0 : 0 ≤ r) (h1 : r < k) :
    Int.tdiv amount k = q ∧ Int.tmod amount k = r := by
  have hk : (0 : Int) < k := lt_of_le_of_lt h0 h1
  rw [Int.tdiv_eq_ediv hpos (le_of_lt hk), Int.tmod_eq_emod hpos (le_of_lt hk)]
  rw [Int.ediv_emod_unique hk]
  refine ⟨?_, h0, h1⟩
  rw [h]; ring

theorem countP_slices (l : List String) (g : String → Int) (q r base : Int)
    (h : ∀ j (hj : j < l.length), g (l.get ⟨j, hj⟩) = if base + j < r then q + 1 else q)
    (hb : base ≤ r) (hr : r - base ≤ l.length) :
    ((l.countP (fun n => decide (g n = q + 1)) : Nat) : Int) = r - base ∧
    ((l.countP (fun n => decide (g n = q)) : Nat) : Int) = l.length - (r - base) := by
  induction l generalizing base with
  | nil =>
    simp only [List.countP_nil, List.length_nil, Nat.cast_zero] at hr ⊢
    omega
  | cons n rest ih =>
    have hhead := h 0 (by simp)
    simp only [List.get_eq_getElem, List.getElem_cons_zero, Nat.cast_zero, add_zero] at hhead
    have htail : ∀ j (hj : j < rest.length),
        g (rest.get ⟨j, hj⟩) = if base + ((j + 1 : Nat) : Int) < r then q + 1 else q := by
      intro j hj
      have := h (j + 1) (by simpa using hj)
      simpa using this
    simp only [List.length_cons, Nat.cast_add, Nat.cast_one] at hr ⊢
    by_cases hlt : base < r
    · rw [if_pos hlt] at hhead
      have h' : ∀ j (hj : j < rest.length),
          g (rest.get ⟨j, hj⟩) = if base + 1 + (j : Int) < r then q + 1 else q := by
        intro j hj
        rw [htail j hj]
        congr 1
        apply propext
        constructor <;> intro h <;> push_cast at h ⊢ <;> omega
      obtain ⟨i1, i2⟩ := ih (base + 1) h' (by omega) (by omega)
      have e1 : decide (g n = q + 1) = true := by simp [hhead]
      have e2 : decide (g n = q) = false := by simp [hhead]
      rw [List.countP_cons, List.countP_cons]
      simp only [e1, e2]
      push_cast
      constructor <;> omega
    · rw [if_neg hlt] at hhead
      have h' : ∀ j (hj : j < rest.length),
          g (rest.get ⟨j, hj⟩) = if base + (j : Int) < r then q + 1 else q := by
        intro j hj
        rw [htail j hj]
        have h1 : ¬ (base + ((j + 1 : Nat) : Int) < r) := by push_cast; omega
        have h2 : ¬ (base + (j : Int) < r) := by omega
        rw [if_neg h1, if_neg h2]
      obtain ⟨i1, i2⟩ := ih base h' hb (by omega)
      have e1 : decide (g n = q + 1) = false := by simp [hhead]
      have e2 : decide (g n = q) = true := by simp [hhead]
      rw [List.countP_cons, List.countP_cons]
      simp only [e1, e2]
      push_cast
      constructor <;> omega

theorem actualNodes_perm (cs : List Nat) (nodes : List (String × node)) (scenario : String) :
    (actualNodes (rangeOrder cs nodes) scenario).Perm (actualNodes nodes scenario) := by
  unfold actualNodes
  exact ((rangeOrder_perm cs nodes).filter _).map _

theorem mem_planned (s : attackService) (start : OperationStart) (ids : String → String)
    (ch : Choices) (e : String × OperationStart) (h : e ∈ plannedOperations s start ids ch) :
    e.2.Scenarios
      = nodeScenarios s ch.nodesFor e.1 (rangeOrder ch.scenarios start.Scenarios) [] ∧
    e.2.AttackID = start.AttackID ∧ e.2.IncrementID = start.IncrementID ∧
    e.2.WaitTimeSec = start.WaitTimeSec ∧ e.2.ID = ids e.1 ∧ e.1 ∈ GoMap.keys s.nodes := by
  unfold plannedOperations at h
  obtain ⟨x, hx, rfl⟩ := List.mem_map.1 h
  exact ⟨rfl, rfl, rfl, rfl, rfl, List.mem_map_of_mem Prod.fst hx⟩

/-- C2. Under the preconditions of C1, `divideTasks` starts at most one
operation on a node, never an operation with an empty scenarios map, and no
operation holds a zero amount.  For a scenario with
`amount = q * k + r`, `0 ≤ r < k`, `k` the number of registered nodes that
support it: `k` nodes are found; in visiting order the first `r` of them
receive `q + 1` and the others `q`, so exactly `r` supporting nodes receive
`q + 1` and `k - r` receive `q`; the operation of a node that does not support
the scenario has no entry for it.  Seven users of `X` over three nodes that
all support `X` are split 3, 2, 2. -/
theorem divideTasks_slices (s : attackService) (start : OperationStart)
    (ids : String → String) (ch : Choices)
    (hnodes : GoMap.WF s.nodes) (hsc : GoMap.WF start.Scenarios)
    (hadv : ∀ e ∈ start.Scenarios, ∃ n ∈ s.nodes, supports n.2 e.1 = true)
    (hpos : ∀ e ∈ start.Scenarios, 0 < e.2) :
    ∃ s' effects, divideTasks s start ids ch = some (s', effects) ∧
      GoMap.WF (dispatched effects) ∧
      (∀ e ∈ dispatched effects, e.2.Scenarios ≠ [] ∧ ∀ x ∈ e.2.Scenarios, x.2 ≠ 0) ∧
      (∀ scenario amount q r, (scenario, amount) ∈ start.Scenarios →
        amount = q * (supporters s scenario) + r → 0 ≤ r → r < supporters s scenario →
        (actualNodes (rangeOrder (ch.nodesFor scenario) s.nodes) scenario).length
          = supporters s scenario ∧
        (∀ j (hj : j < (actualNodes (rangeOrder (ch.nodesFor scenario) s.nodes) scenario).length),
          received effects
              ((actualNodes (rangeOrder (ch.nodesFor scenario) s.nodes) scenario).get ⟨j, hj⟩)
              scenario
            = if (j : Int) < r then q + 1 else q) ∧
        (((actualNodes s.nodes scenario).countP
            (fun n => decide (received effects n scenario = q + 1)) : Nat) : Int) = r ∧
        (((actualNodes s.nodes scenario).countP
            (fun n => decide (received effects n scenario = q)) : Nat) : Int)
          = supporters s scenario - r ∧
        (∀ nodeName op, nodeName ∉ actualNodes s.nodes scenario →
          (nodeName, op) ∈ dispatched effects → op.Scenarios.get? scenario = none)) ∧
      (start.Scenarios = [("X", 7)] → supporters s "X" = 3 →
        (actualNodes (rangeOrder (ch.nodesFor "X") s.nodes) "X").map
          (fun n => received effects n "X") = [3, 2, 2]) := by
  obtain ⟨nodes', h1, -, -⟩ := divideTasks_spec s start ids ch hnodes hadv
  have hpk : GoMap.keys (plannedOperations s start ids ch) = GoMap.keys s.nodes := by
    unfold plannedOperations
    exact keys_map_entries s.nodes _
  have hpwf : GoMap.WF (plannedOperations s start ids ch) := by
    unfold GoMap.WF
    unfold GoMap.keys at hpk
    rw [hpk]
    exact hnodes
  -- the slices of one scenario, in visiting order
  have hslices : ∀ scenario amount q r, (scenario, amount) ∈ start.Scenarios →
      amount = q * (supporters s scenario) + r → 0 ≤ r → r < supporters s scenario →
      ∀ j (hj : j < (actualNodes (rangeOrder (ch.nodesFor scenario) s.nodes) scenario).length),
        received
            (((rangeOrder ch.dispatch (plannedOperations s start ids ch)).filter
              (fun e => decide (e.2.Scenarios.length ≠ 0))).map
              (fun e => Effect.nodeStartAttack e.1 e.2))
            ((actualNodes (rangeOrder (ch.nodesFor scenario) s.nodes) scenario).get ⟨j, hj⟩)
            scenario
          = if (0 : Int) + (j : Int) < r then q + 1 else q := by
    intro scenario amount q r hmem hqr h0 h1 j hj
    have hlen := actualNodes_length (ch.nodesFor scenario) s.nodes scenario
    have hk : (actualNodes (rangeOrder (ch.nodesFor scenario) s.nodes) scenario).length
        = supporters s scenario := hlen
    obtain ⟨hq, hr⟩ := tdiv_tmod_unique amount q r (supporters s scenario)
      (le_of_lt (hpos _ hmem)) hqr h0 h1
    rw [received_planned s start ids ch hnodes _ scenario
      ((rangeOrder_keys_mem _ _ _).1 (actualNodes_subset _ _ _ (List.get_mem _ _ _)))]
    rw [planned_amount s start ch hsc, GoMap.get?_of_mem hsc hmem]
    simp only [hk, hq, hr]
    exact sliceAt_get q r _ (actualNodes_nodup _ (rangeOrder_WF _ _ hnodes) scenario) 0 j hj
  refine ⟨_, _, h1, ?_, ?_, ?_, ?_⟩
  · rw [dispatched_map]
    unfold GoMap.WF
    exact ((List.filter_sublist _).map Prod.fst).nodup (rangeOrder_WF _ _ hpwf)
  · intro e he
    rw [dispatched_map] at he
    obtain ⟨he1, he2⟩ := List.mem_filter.1 he
    have hpl := (mem_planned s start ids ch e ((rangeOrder_perm _ _).mem_iff.1 he1)).1
    refine ⟨fun hnil => ?_, ?_⟩
    · simp [hnil] at he2
    · rw [hpl]
      exact nodeScenarios_ne_zero _ _ _ _ [] (fun x hx => by simp at hx)
  · intro scenario amount q r hmem hqr h0 h1
    have hlen := actualNodes_length (ch.nodesFor scenario) s.nodes scenario
    have hk : (actualNodes (rangeOrder (ch.nodesFor scenario) s.nodes) scenario).length
        = supporters s scenario := hlen
    have hpos' := hslices scenario amount q r hmem hqr h0 h1
    refine ⟨hk, fun j hj => ?_, ?_, ?_, ?_⟩
    · rw [hpos' j hj]; simp
    · have hc := (countP_slices _ (fun n => received _ n scenario) q r 0 hpos' h0
        (by rw [hk]; omega)).1
      rw [← (actualNodes_perm (ch.nodesFor scenario) s.nodes scenario).countP_eq]
      rw [hc]; ring
    · have hc := (countP_slices _ (fun n => received _ n scenario) q r 0 hpos' h0
        (by rw [hk]; omega)).2
      rw [← (actualNodes_perm (ch.nodesFor scenario) s.nodes scenario).countP_eq]
      rw [hc, hk]; ring
    · intro nodeName op hnot hop
      rw [dispatched_map] at hop
      have hpl := (mem_planned s start ids ch (nodeName, op)
        ((rangeOrder_perm _ _).mem_iff.1 (List.mem_filter.1 hop).1)).1
      simp only at hpl
      rw [hpl, nodeScenarios_get?_of_mem _ _ _ _ _ _ amount (rangeOrder_WF _ _ hsc)
        ((rangeOrder_perm _ _).mem_iff.2 hmem)]
      have hnot' : nodeName ∉ actualNodes (rangeOrder (ch.nodesFor scenario) s.nodes) scenario :=
        fun hin => hnot ((actualNodes_perm _ _ _).mem_iff.1 hin)
      rw [sliceAt_of_not_mem _ _ _ _ _ hnot']
      simp [GoMap.get?]
  · intro hX h3
    have hmem : (("X" : String), (7 : Int)) ∈ start.Scenarios := by rw [hX]; simp
    have hlen := actualNodes_length (ch.nodesFor "X") s.nodes "X"
    have hk : (actualNodes (rangeOrder (ch.nodesFor "X") s.nodes) "X").length = 3 :=
      hlen.trans h3
    have hpos' := hslices "X" 7 2 1 hmem (by rw [h3]; norm_num) (by norm_num)
      (by rw [h3]; norm_num)
    apply List.ext_get
    · simp [hk]
    · intro j hj1 hj2
      have hj : j < (actualNodes (rangeOrder (ch.nodesFor "X") s.nodes) "X").length := by
        simpa using hj1
      have hj3 : j < 3 := hk ▸ hj
      simp only [List.get_eq_getElem, List.getElem_map]
      have := hpos' j hj
      simp only [List.get_eq_getElem] at this
      rw [this]
      interval_cases j <;> simp

/-- C2 at a concrete state: seven users of `X` over the three nodes, the
nodes being visited from the third on; the third node gets 3, the others 2. -/
theorem divideTasks_slices_witness :
    (GoMap.WF demoService.nodes ∧ GoMap.WF demoStartX.Scenarios ∧
      (∀ e ∈ demoStartX.Scenarios, ∃ n ∈ demoService.nodes, supports n.2 e.1 = true) ∧
      (∀ e ∈ demoStartX.Scenarios, 0 < e.2)) ∧
    (∃ s' effects, divideTasks demoService demoStartX (fun n => n) demoChoices2
        = some (s', effects) ∧
      (actualNodes (rangeOrder (demoChoices2.nodesFor "X") demoService.nodes) "X").map
        (fun n => received effects n "X") = [3, 2, 2]) ∧
    (divideTasks demoService demoStartX (fun n => n) demoChoices2).map
        (fun r => (dispatched r.2).map (fun e => (e.1, e.2.Scenarios)))
      = some [("n2", [("X", 2)]), ("n1", [("X", 2)]), ("n3", [("X", 3)])] := by
  refine ⟨⟨by decide, by decide, by decide, by decide⟩, ?_, by decide⟩
  obtain ⟨s', effects, h1, -, -, -, h5⟩ :=
    divideTasks_slices demoService demoStartX (fun n => n) demoChoices2
      (by decide) (by decide) (by decide) (by decide)
  exact ⟨s', effects, h1, h5 rfl (by decide)⟩

/-! ## Validation of the scenarios -/

theorem GoMap.contains_iff_mem_keys {κ ν : Type} [DecidableEq κ] (m : GoMap κ ν) (k : κ) :
    m.contains k = true ↔ k ∈ m.keys := by
  unfold GoMap.contains
  cases hg : m.get? k with
  | none =>
    have := (GoMap.get?_eq_none_iff m k).1 hg
    simp [this]
  | some v =>
    have : k ∈ m.keys := by
      by_contra hk
      rw [(GoMap.get?_eq_none_iff m k).2 hk] at hg
      cases hg
    simp [this]

theorem mem_keys_foldl_set (L : List ScenarioDetails) (u : GoMap String ScenarioDetails)
    (k : String) :
    k ∈ GoMap.keys (L.foldl (fun u scenario => u.set scenario.Name scenario) u)
      ↔ k ∈ GoMap.keys u ∨ ∃ sc ∈ L, sc.Name = k := by
  induction L generalizing u with
  | nil => simp
  | cons a t ih =>
    rw [List.foldl_cons, ih, GoMap.mem_keys_set]
    constructor
    · rintro ((h | h) | ⟨sc, hsc, h⟩)
      · exact Or.inr ⟨a, List.mem_cons_self _ _, h.symm⟩
      · exact Or.inl h
      · exact Or.inr ⟨sc, List.mem_cons_of_mem _ hsc, h⟩
    · rintro (h | ⟨sc, hsc, h⟩)
      · exact Or.inl (Or.inr h)
      · rcases List.mem_cons.1 hsc with h' | h'
        · subst h'
          exact Or.inl (Or.inl h.symm)
        · exact Or.inr ⟨sc, h', h⟩

theorem supports_iff (n : node) (k : String) :
    supports n k = true ↔ ∃ sc ∈ (n.GetDetails [] []).Scenarios, sc.Name = k := by
  unfold supports
  simp [List.any_eq_true]

theorem mem_keys_foldl_nodes (nodes : List (String × node)) (u : GoMap String ScenarioDetails)
    (k : String) :
    k ∈ GoMap.keys (nodes.foldl
        (fun uniqueScenarios e =>
          (e.2.GetDetails [] []).Scenarios.foldl
            (fun u scenario => u.set scenario.Name scenario) uniqueScenarios) u)
      ↔ k ∈ GoMap.keys u ∨ ∃ e ∈ nodes, supports e.2 k = true := by
  induction nodes generalizing u with
  | nil => simp
  | cons a t ih =>
    rw [List.foldl_cons, ih, mem_keys_foldl_set]
    constructor
    · rintro ((h | h) | ⟨e, he, h⟩)
      · exact Or.inl h
      · exact Or.inr ⟨a, List.mem_cons_self _ _, (supports_iff _ _).2 h⟩
      · exact Or.inr ⟨e, List.mem_cons_of_mem _ he, h⟩
    · rintro (h | ⟨e, he, h⟩)
      · exact Or.inl (Or.inl h)
      · rcases List.mem_cons.1 he with h' | h'
        · subst h'
          exact Or.inl (Or.inr ((supports_iff _ _).1 h))
        · exact Or.inr ⟨e, h', h⟩

theorem getScenarios_contains (s : attackService) (k : String) :
    s.getScenarios.contains k = true ↔ ∃ e ∈ s.nodes, supports e.2 k = true := by
  rw [GoMap.contains_iff_mem_keys]
  unfold getScenarios
  rw [mem_keys_foldl_nodes]
  simp [GoMap.keys]

theorem validateLoop_err (uniq : GoMap String ScenarioDetails) (L : List (String × Int))
    (m : GoMap String Int) (h : ∃ e ∈ L, uniq.contains e.1 = false) :
    (validateLoop uniq L m).1 = some GoError.ErrScenarioNotFound := by
  induction L generalizing m with
  | nil => simp at h
  | cons a t ih =>
    obtain ⟨scenario, amount⟩ := a
    by_cases hc : uniq.contains scenario = true
    · have ht : ∃ e ∈ t, uniq.contains e.1 = false := by
        obtain ⟨e, he, hf⟩ := h
        rcases List.mem_cons.1 he with h' | h'
        · subst h'
          rw [hc] at hf
          cases hf
        · exact ⟨e, h', hf⟩
      simp only [validateLoop, hc, if_true]
      split
      · exact ih _ ht
      · exact ih _ ht
    · simp only [validateLoop, hc]
      rfl

theorem validateLoop_ok (uniq : GoMap String ScenarioDetails) (L : List (String × Int))
    (m : GoMap String Int) (h : ∀ e ∈ L, uniq.contains e.1 = true) :
    validateLoop uniq L m
      = (none, m.filter (fun e =>
          decide (e.1 ∉ (L.filter (fun x => decide (x.2 ≤ 0))).map Prod.fst))) := by
  induction L generalizing m with
  | nil => simp [validateLoop]
  | cons a t ih =>
    obtain ⟨scenario, amount⟩ := a
    have hc : uniq.contains scenario = true := h _ (List.mem_cons_self _ _)
    have ht : ∀ e ∈ t, uniq.contains e.1 = true := fun e he => h e (List.mem_cons_of_mem _ he)
    simp only [validateLoop, hc, if_true]
    by_cases hle : amount ≤ 0
    · simp only [hle, if_true]
      rw [ih _ ht]
      congr 1
      unfold GoMap.delete
      rw [List.filter_filter]
      apply List.filter_congr
      intro e _
      have hf : List.filter (fun x : String × Int => decide (x.2 ≤ 0)) ((scenario, amount) :: t)
          = (scenario, amount) :: List.filter (fun x => decide (x.2 ≤ 0)) t :=
        List.filter_cons_of_pos (by simpa using hle)
      rw [hf]
      by_cases h1 : e.1 = scenario <;>
        by_cases h2 : e.1 ∈ (List.filter (fun x : String × Int => decide (x.2 ≤ 0)) t).map Prod.fst <;>
        simp [h1, h2]
    · simp only [hle, if_false]
      rw [ih _ ht]
      congr 1
      apply List.filter_congr
      intro e _
      have hf : List.filter (fun x : String × Int => decide (x.2 ≤ 0)) ((scenario, amount) :: t)
          = List.filter (fun x => decide (x.2 ≤ 0)) t :=
        List.filter_cons_of_neg (by simpa using hle)
      rw [hf]

theorem filter_nonpositive_keys (scenarios L : GoMap String Int) (hp : L.Perm scenarios)
    (hwf : GoMap.WF scenarios) :
    scenarios.filter (fun e =>
        decide (e.1 ∉ (L.filter (fun x => decide (x.2 ≤ 0))).map Prod.fst))
      = scenarios.filter (fun e => decide (0 < e.2)) := by
  apply List.filter_congr
  intro e he
  have key : e.1 ∈ (L.filter (fun x => decide (x.2 ≤ 0))).map Prod.fst ↔ e.2 ≤ 0 := by
    constructor
    · intro hmem
      obtain ⟨x, hx, hx1⟩ := List.mem_map.1 hmem
      obtain ⟨hxL, hxle⟩ := List.mem_filter.1 hx
      have hxs : x ∈ scenarios := hp.mem_iff.1 hxL
      have h1 : GoMap.get? scenarios x.1 = some x.2 := GoMap.get?_of_mem hwf hxs
      have h2 : GoMap.get? scenarios e.1 = some e.2 := GoMap.get?_of_mem hwf he
      rw [hx1, h2] at h1
      have : e.2 = x.2 := Option.some.inj h1
      rw [this]
      simpa using hxle
    · intro hle
      exact List.mem_map.2 ⟨e, List.mem_filter.2 ⟨hp.mem_iff.2 he, by simpa using hle⟩, rfl⟩
  by_cases hle : e.2 ≤ 0
  · have := key.2 hle
    simp [this, hle]
  · have : ¬ e.1 ∈ (L.filter (fun x => decide (x.2 ≤ 0))).map Prod.fst := fun h => hle (key.1 h)
    have hlt : 0 < e.2 := by omega
    simp only [this, not_false_eq_true, decide_True, hlt]

theorem validateScenarios_unknown (s : attackService) (scenarios : GoMap String Int)
    (order : List Nat) (h : ∃ e ∈ scenarios, ∀ n ∈ s.nodes, supports n.2 e.1 = false) :
    (validateScenarios s scenarios order).1 = some GoError.ErrScenarioNotFound := by
  have herr : ∃ e ∈ rangeOrder order scenarios, s.getScenarios.contains e.1 = false := by
    obtain ⟨e, he, hn⟩ := h
    refine ⟨e, (rangeOrder_perm _ _).mem_iff.2 he, ?_⟩
    cases hc : s.getScenarios.contains e.1 with
    | false => rfl
    | true =>
      obtain ⟨n, hn1, hn2⟩ := (getScenarios_contains s e.1).1 hc
      rw [hn n hn1] at hn2
      cases hn2
  have h1 := validateLoop_err s.getScenarios (rangeOrder order scenarios) scenarios herr
  unfold validateScenarios
  cases hres : validateLoop s.getScenarios (rangeOrder order scenarios) scenarios with
  | mk r1 r2 =>
    rw [hres] at h1
    simp only at h1
    subst h1
    rfl

theorem validateScenarios_known (s : attackService) (scenarios : GoMap String Int)
    (order : List Nat) (hwf : GoMap.WF scenarios)
    (h : ∀ e ∈ scenarios, ∃ n ∈ s.nodes, supports n.2 e.1 = true) :
    validateScenarios s scenarios order
      = if (scenarios.filter (fun e => decide (0 < e.2))).length = 0
        then (some GoError.ErrEmptyAttack, scenarios.filter (fun e => decide (0 < e.2)))
        else (none, scenarios.filter (fun e => decide (0 < e.2))) := by
  have hok : ∀ e ∈ rangeOrder order scenarios, s.getScenarios.contains e.1 = true :=
    fun e he => (getScenarios_contains s e.1).2 (h e ((rangeOrder_perm _ _).mem_iff.1 he))
  unfold validateScenarios
  rw [validateLoop_ok _ _ _ hok, filter_nonpositive_keys scenarios _ (rangeOrder_perm _ _) hwf]

/-- C3. For a scenarios map with distinct keys and any visiting order,
`validateScenarios` returns `ErrScenarioNotFound` exactly when some key is
supported by no registered node, whatever its amount; when every key is
supported it returns `ErrEmptyAttack` exactly when every amount is at most
zero; and otherwise it succeeds and leaves in the map exactly the entries with
a positive amount, unchanged.  The returned error is the same for every
visiting order, and so is the map left by a call that does not return
`ErrScenarioNotFound`. -/
theorem validateScenarios_outcome (s : attackService) (scenarios : GoMap String Int)
    (order : List Nat) (hwf : GoMap.WF scenarios) :
    ((validateScenarios s scenarios order).1 = some GoError.ErrScenarioNotFound
      ↔ ∃ e ∈ scenarios, ∀ n ∈ s.nodes, supports n.2 e.1 = false) ∧
    ((∀ e ∈ scenarios, ∃ n ∈ s.nodes, supports n.2 e.1 = true) →
      ((validateScenarios s scenarios order).1 = some GoError.ErrEmptyAttack
        ↔ ∀ e ∈ scenarios, e.2 ≤ 0) ∧
      ((∃ e ∈ scenarios, 0 < e.2) →
        validateScenarios s scenarios order
          = (none, scenarios.filter (fun e => decide (0 < e.2))))) ∧
    (∀ order', (validateScenarios s scenarios order').1 = (validateScenarios s scenarios order).1 ∧
      ((validateScenarios s scenarios order).1 ≠ some GoError.ErrScenarioNotFound →
        validateScenarios s scenarios order' = validateScenarios s scenarios order)) := by
  have hempty : (scenarios.filter (fun e => decide (0 < e.2))).length = 0
      ↔ ∀ e ∈ scenarios, e.2 ≤ 0 := by
    rw [List.length_eq_zero, List.filter_eq_nil_iff]
    constructor
    · intro h e he
      have := h e he
      simpa using this
    · intro h e he
      have := h e he
      simpa using this
  by_cases hunk : ∃ e ∈ scenarios, ∀ n ∈ s.nodes, supports n.2 e.1 = false
  · have h1 := fun o => validateScenarios_unknown s scenarios o hunk
    refine ⟨⟨fun _ => hunk, fun _ => h1 order⟩, fun hall => ?_, fun order' => ⟨?_, fun hne => ?_⟩⟩
    · obtain ⟨e, he, hn⟩ := hunk
      obtain ⟨n, hn1, hn2⟩ := hall e he
      rw [hn n hn1] at hn2
      cases hn2
    · rw [h1 order', h1 order]
    · exact absurd (h1 order) hne
  · have hall : ∀ e ∈ scenarios, ∃ n ∈ s.nodes, supports n.2 e.1 = true := by
      intro e he
      by_contra hcon
      apply hunk
      refine ⟨e, he, fun n hn => ?_⟩
      cases hs : supports n.2 e.1 with
      | false => rfl
      | true => exact absurd ⟨n, hn, hs⟩ hcon
    have h1 := fun o => validateScenarios_known s scenarios o hwf hall
    refine ⟨⟨fun h => ?_, fun h => absurd h hunk⟩, fun _ => ⟨⟨fun h => ?_, fun h => ?_⟩, fun h => ?_⟩,
      fun order' => ⟨by rw [h1 order', h1 order], fun _ => by rw [h1 order', h1 order]⟩⟩
    · rw [h1 order] at h
      split at h <;> simp at h
    · rw [h1 order] at h
      split at h
      · rename_i h0
        exact hempty.1 h0
      · simp at h
    · rw [h1 order, if_pos (hempty.2 h)]
    · rw [h1 order, if_neg]
      intro h0
      obtain ⟨e, he, hpos⟩ := h
      have := hempty.1 h0 e he
      omega

/-- C3 at a concrete map: `Y` has amount zero and is dropped, `X` stays. -/
theorem validateScenarios_outcome_witness :
    GoMap.WF [("X", (7 : Int)), ("Y", 0)] ∧
    validateScenarios demoService [("X", 7), ("Y", 0)] [1] = (none, [("X", 7)]) ∧
    (validateScenarios demoService [("X", 7), ("Z", 0)] [1]).1
      = some GoError.ErrScenarioNotFound ∧
    (validateScenarios demoService [("X", 0), ("Y", -1)] [1]).1
      = some GoError.ErrEmptyAttack := by
  refine ⟨by decide, ?_, by decide, by decide⟩
  exact ((validateScenarios_outcome demoService [("X", 7), ("Y", 0)] [1] (by decide)).2.1
    (by decide)).2 ⟨("X", 7), by decide, by decide⟩

/-! ## Starting attacks and increments -/

theorem distributeStart_error (s : attackService) (start : OperationStart)
    (ids : String → String) (ch : Choices) (err : GoError) (scenarios : GoMap String Int)
    (s' : attackService) (effects : List Effect)
    (h : distributeStart s start ids ch = some (some err, scenarios, s', effects)) :
    (validateScenarios s start.Scenarios ch.validate).1 = some err ∧ s' = s ∧ effects = [] := by
  unfold distributeStart at h
  cases hv : validateScenarios s start.Scenarios ch.validate with
  | mk e m =>
    rw [hv] at h
    cases e with
    | some e' =>
      simp only [Option.some.injEq, Prod.mk.injEq] at h
      obtain ⟨h1, -, h3, h4⟩ := h
      exact ⟨by rw [h1], h3.symm, h4.symm⟩
    | none =>
      simp only at h
      cases hd : divideTasks s { start with Scenarios := m } ids ch with
      | none => rw [hd] at h; cases h
      | some r =>
        obtain ⟨s₁, fx⟩ := r
        rw [hd] at h
        simp at h

theorem validateScenarios_error_kind (s : attackService) (scenarios : GoMap String Int)
    (order : List Nat) (err : GoError)
    (h : (validateScenarios s scenarios order).1 = some err) :
    err = GoError.ErrScenarioNotFound ∨ err = GoError.ErrEmptyAttack := by
  unfold validateScenarios at h
  cases hres : validateLoop s.getScenarios (rangeOrder order scenarios) scenarios with
  | mk r1 r2 =>
    rw [hres] at h
    cases r1 with
    | some e =>
      simp only [Option.some.injEq] at h
      subst h
      have : ∀ (L : List (String × Int)) (m : GoMap String Int) e' m',
          validateLoop s.getScenarios L m = (some e', m') → e' = GoError.ErrScenarioNotFound := by
        intro L
        induction L with
        | nil => intro m e' m' h'; simp [validateLoop] at h'
        | cons a t ih =>
          intro m e' m' h'
          obtain ⟨sc, amount⟩ := a
          simp only [validateLoop] at h'
          split at h'
          · split at h'
            · exact ih _ _ _ h'
            · exact ih _ _ _ h'
          · simp only [Prod.mk.injEq, Option.some.injEq] at h'
            exact h'.1.symm
      exact Or.inl (this _ _ _ _ hres)
    | none =>
      simp only at h
      split at h
      · simp only [Option.some.injEq] at h
        exact Or.inr h.symm
      · cases h

/-- C4. When `StartAttack` returns an error, the error is
`ErrScenarioNotFound` or `ErrEmptyAttack`, the service is exactly as before
the call (its attacks, `attackSeq`, `incrementSeqs` and its nodes with their
mirrors and queues) and the call had no effect: no `StartAttack` on a node and
no `handleDuration` or `handleLinear` goroutine. -/
theorem StartAttack_error_unchanged (s : attackService) (start : LoadGen.StartAttack)
    (now : Nat) (ids : String → String) (ch : Choices) (o : Outcome AttackDetails)
    (err : GoError) (h : s.StartAttack start now ids ch = some o) (herr : o.ret = Ret.fail err) :
    (err = GoError.ErrScenarioNotFound ∨ err = GoError.ErrEmptyAttack) ∧
    o.state = s ∧ o.state.attacks = s.attacks ∧ o.state.attackSeq = s.attackSeq ∧
    o.state.incrementSeqs = s.incrementSeqs ∧ o.state.nodes = s.nodes ∧ o.effects = [] := by
  unfold attackService.StartAttack at h
  cases hm : mapStartAttackToOperationStart start s.attackSeq 0 with
  | none => rw [hm] at h; cases h
  | some operationStart =>
    rw [hm] at h
    simp only at h
    cases hd : distributeStart s operationStart ids ch with
    | none => rw [hd] at h; cases h
    | some r =>
      obtain ⟨e, scenarios, s', effects⟩ := r
      rw [hd] at h
      cases e with
      | none =>
        simp only [Option.some.injEq] at h
        subst h
        cases herr
      | some e' =>
        simp only [Option.some.injEq] at h
        subst h
        simp only [Ret.fail.injEq] at herr
        subst herr
        obtain ⟨h1, h2, h3⟩ := distributeStart_error _ _ _ _ _ _ _ _ hd
        subst h2 h3
        exact ⟨validateScenarios_error_kind _ _ _ _ h1, rfl, rfl, rfl, rfl, rfl, rfl⟩

/-- C4 at a concrete state: a request for an unknown scenario. -/
theorem StartAttack_error_unchanged_witness :
    demoService.StartAttack demoAttackUnknown 100 (fun n => n) demoChoices
        = some { ret := Ret.fail GoError.ErrScenarioNotFound, state := demoService,
                 effects := [] } ∧
      (GoError.ErrScenarioNotFound = GoError.ErrScenarioNotFound ∨
        GoError.ErrScenarioNotFound = GoError.ErrEmptyAttack) ∧
      demoService = demoService ∧ demoService.attacks = demoService.attacks ∧
      demoService.attackSeq = demoService.attackSeq ∧
      demoService.incrementSeqs = demoService.incrementSeqs ∧
      demoService.nodes = demoService.nodes ∧ ([] : List Effect) = [] :=
  ⟨rfl, StartAttack_error_unchanged demoService demoAttackUnknown 100 (fun n => n) demoChoices
    { ret := Ret.fail GoError.ErrScenarioNotFound, state := demoService, effects := [] }
    GoError.ErrScenarioNotFound rfl rfl⟩

theorem mapConst_spec (L : List Scenario) (m m' : GoMap String Int)
    (h : mapConst L m = some m') (hwf : GoMap.WF m) :
    GoMap.WF m' ∧ ∀ n, m'.get? n
      = match L.reverse.find? (fun scenario => decide (scenario.Name = n)) with
        | some scenario => some (scenario.Counter.getD 0)
        | none => m.get? n := by
  induction L generalizing m with
  | nil =>
    simp only [mapConst, Option.some.injEq] at h
    subst h
    exact ⟨hwf, fun n => rfl⟩
  | cons a t ih =>
    cases hc : a.Counter with
    | none => simp [mapConst, hc] at h
    | some c =>
      simp only [mapConst, hc] at h
      obtain ⟨h1, h2⟩ := ih _ h (GoMap.WF_set hwf _ _)
      refine ⟨h1, fun n => ?_⟩
      rw [h2 n, List.reverse_cons, List.find?_append]
      cases hf : t.reverse.find? (fun scenario => decide (scenario.Name = n)) with
      | some sc => rfl
      | none =>
        by_cases hn : a.Name = n
        · subst hn
          simp [GoMap.get?_set_self, hc]
        · have hn' : n ≠ a.Name := fun e => hn e.symm
          simp [GoMap.get?_set_ne _ _ hn', hn]

theorem mapLinear_spec (startCounter : Int) (L : List Scenario) (m : GoMap String Int)
    (hnd : (L.map (fun scenario => scenario.Name)).Nodup) (hwf : GoMap.WF m) :
    GoMap.WF (mapLinear startCounter L m) ∧ ∀ n, (mapLinear startCounter L m).get? n
      = if n ∈ L.map (fun scenario => scenario.Name)
        then some (wrap64 (m.getD n 0 + startCounter))
        else m.get? n := by
  induction L generalizing m with
  | nil => exact ⟨hwf, fun n => by simp [mapLinear]⟩
  | cons a t ih =>
    simp only [List.map_cons, List.nodup_cons] at hnd
    obtain ⟨h1, h2⟩ := ih (m.set a.Name (wrap64 (m.getD a.Name 0 + startCounter))) hnd.2
      (GoMap.WF_set hwf _ _)
    refine ⟨h1, fun n => ?_⟩
    simp only [mapLinear]
    rw [h2 n]
    by_cases hn : n = a.Name
    · subst hn
      simp [hnd.1, GoMap.get?_set_self]
    · have hmem : (n ∈ List.map (fun scenario => scenario.Name) (a :: t))
          ↔ n ∈ List.map (fun scenario => scenario.Name) t := by
        simp [hn]
      by_cases ht : n ∈ List.map (fun scenario => scenario.Name) t
      · rw [if_pos ht, if_pos (hmem.2 ht)]
        simp only [GoMap.getD, GoMap.get?_set_ne _ _ hn]
      · rw [if_neg ht, if_neg (fun h => ht (hmem.1 h)), GoMap.get?_set_ne _ _ hn]

theorem seed_after_linear (start : LoadGen.StartAttack) (m : GoMap String Int)
    (hlin : ∀ l, start.LinearConfig = some l → (l.Scenarios.map (fun sc => sc.Name)).Nodup)
    (hmwf : GoMap.WF m)
    (hmget : ∀ n, (m.get? n).getD 0 = constCounter start n ∧
        ((m.get? n).filter (fun v => decide (0 < v))
          = if 0 < constCounter start n then some (constCounter start n) else none)) :
    GoMap.WF (match start.LinearConfig with
      | some linearConfig => mapLinear linearConfig.StartCounter linearConfig.Scenarios m
      | none => m) ∧
    ∀ n, (GoMap.get? (match start.LinearConfig with
        | some linearConfig => mapLinear linearConfig.StartCounter linearConfig.Scenarios m
        | none => m) n).filter (fun v => decide (0 < v))
      = if 0 < seedAmount start n then some (seedAmount start n) else none := by
  constructor
  · cases hl : start.LinearConfig with
    | none => exact hmwf
    | some l => exact (mapLinear_spec l.StartCounter l.Scenarios m (hlin l hl) hmwf).1
  · intro n
    cases hl : start.LinearConfig with
    | none =>
      have : seedAmount start n = constCounter start n := by
        simp [seedAmount, linearLists, hl]
      rw [this]
      exact (hmget n).2
    | some l =>
      dsimp only
      rw [(mapLinear_spec l.StartCounter l.Scenarios m (hlin l hl) hmwf).2 n]
      by_cases hin : n ∈ l.Scenarios.map (fun scenario => scenario.Name)
      · have hs : seedAmount start n = wrap64 (constCounter start n + l.StartCounter) := by
          simp [seedAmount, linearLists, linearCounter, hl, hin]
        rw [if_pos hin, hs, GoMap.getD, (hmget n).1]
        by_cases hp : 0 < wrap64 (constCounter start n + l.StartCounter) <;>
          simp [Option.filter, hp]
      · have hs : seedAmount start n = constCounter start n := by
          simp [seedAmount, linearLists, hl, hin]
        rw [if_neg hin, hs]
        exact (hmget n).2

theorem mapStartAttack_spec (start : LoadGen.StartAttack) (attackID incrementID : Int)
    (op : OperationStart)
    (hlin : ∀ l, start.LinearConfig = some l → (l.Scenarios.map (fun sc => sc.Name)).Nodup)
    (h : mapStartAttackToOperationStart start attackID incrementID = some op) :
    op.ID = "" ∧ op.AttackID = attackID ∧ op.IncrementID = incrementID ∧
    op.WaitTimeSec = start.WaitTimeSec ∧ GoMap.WF op.Scenarios ∧
    ∀ n, (op.Scenarios.get? n).filter (fun v => decide (0 < v))
      = if 0 < seedAmount start n then some (seedAmount start n) else none := by
  unfold mapStartAttackToOperationStart at h
  dsimp only at h
  cases hc : start.ConstConfig with
  | none =>
    rw [hc] at h
    simp only [Option.some.injEq] at h
    subst h
    have := seed_after_linear start [] hlin (by simp [GoMap.WF])
      (fun n => by simp [constCounter, hc, GoMap.get?])
    exact ⟨rfl, rfl, rfl, rfl, this.1, this.2⟩
  | some constConfig =>
    rw [hc] at h
    dsimp only at h
    cases hm : mapConst constConfig.Scenarios [] with
    | none => rw [hm] at h; simp at h
    | some m =>
      rw [hm] at h
      simp only [Option.some.injEq] at h
      subst h
      obtain ⟨h1, h2⟩ := mapConst_spec _ _ _ hm (by simp [GoMap.WF])
      have := seed_after_linear start m hlin h1 (fun n => by
        rw [h2 n]
        unfold constCounter
        rw [hc]
        dsimp only
        cases constConfig.Scenarios.reverse.find? (fun scenario => decide (scenario.Name = n)) with
        | none => simp [GoMap.get?]
        | some sc =>
          simp only [Option.getD_some, Option.filter, true_and]
          by_cases hp : 0 < sc.Counter.getD 0 <;> simp [hp])
      exact ⟨rfl, rfl, rfl, rfl, this.1, this.2⟩

theorem validateScenarios_ok (s : attackService) (scenarios m : GoMap String Int)
    (order : List Nat) (hwf : GoMap.WF scenarios)
    (h : validateScenarios s scenarios order = (none, m)) :
    m = scenarios.filter (fun e => decide (0 < e.2)) ∧ m ≠ [] ∧
    ∀ e ∈ scenarios, ∃ n ∈ s.nodes, supports n.2 e.1 = true := by
  have hall : ∀ e ∈ scenarios, ∃ n ∈ s.nodes, supports n.2 e.1 = true := by
    intro e he
    by_contra hcon
    have hunk : ∃ e ∈ scenarios, ∀ n ∈ s.nodes, supports n.2 e.1 = false := by
      refine ⟨e, he, fun n hn => ?_⟩
      cases hs : supports n.2 e.1 with
      | false => rfl
      | true => exact absurd ⟨n, hn, hs⟩ hcon
    have := validateScenarios_unknown s scenarios order hunk
    rw [h] at this
    cases this
  rw [validateScenarios_known s scenarios order hwf hall] at h
  split at h
  · simp at h
  · rename_i hlen
    simp only [Prod.mk.injEq, true_and] at h
    refine ⟨h.symm, ?_, hall⟩
    rw [← h]
    intro hnil
    exact hlen (by rw [hnil]; rfl)

theorem distributeStart_ok (s : attackService) (start : OperationStart)
    (ids : String → String) (ch : Choices) (scenarios : GoMap String Int)
    (s' : attackService) (effects : List Effect)
    (h : distributeStart s start ids ch = some (none, scenarios, s', effects)) :
    validateScenarios s start.Scenarios ch.validate = (none, scenarios) ∧
    divideTasks s { start with Scenarios := scenarios } ids ch = some (s', effects) := by
  unfold distributeStart at h
  cases hv : validateScenarios s start.Scenarios ch.validate with
  | mk e m =>
    rw [hv] at h
    cases e with
    | some e' => simp at h
    | none =>
      dsimp only at h
      cases hd : divideTasks s { start with Scenarios := m } ids ch with
      | none => rw [hd] at h; cases h
      | some r =>
        obtain ⟨s₁, fx⟩ := r
        rw [hd] at h
        simp only [Option.some.injEq, Prod.mk.injEq, true_and] at h
        obtain ⟨h1, h2, h3⟩ := h
        subst h1 h2 h3
        exact ⟨rfl, hd⟩

theorem wrap64_of_range (x : Int) (h0 : -2 ^ 63 ≤ x) (h1 : x < 2 ^ 63) : wrap64 x = x := by
  unfold wrap64
  rw [Int.emod_eq_of_lt (by omega) (by omega)]
  omega

theorem StartAttack_success_shape (s : attackService) (start : LoadGen.StartAttack) (now : Nat)
    (ids : String → String) (ch : Choices) (o : Outcome AttackDetails) (details : AttackDetails)
    (h : s.StartAttack start now ids ch = some o) (hok : o.ret = Ret.ok details) :
    ∃ op scenarios s' effects,
      mapStartAttackToOperationStart start s.attackSeq 0 = some op ∧
      distributeStart s op ids ch = some (none, scenarios, s', effects) ∧
      details =
        { ID := op.AttackID, Name := start.Name, WaitTimeSec := start.WaitTimeSec,
          CreatedAt := now, DurationSec := start.DurationSec, ConstConfig := start.ConstConfig,
          LinearConfig := start.LinearConfig,
          Increments := [{ ID := op.IncrementID, AttackID := op.AttackID,
                           Scenarios := scenarios }] } ∧
      o.state =
        { s' with
          attackSeq := s'.attackSeq + 1,
          incrementSeqs :=
            s'.incrementSeqs.set op.AttackID (s'.incrementSeqs.getD op.AttackID 0 + 1),
          attacks := s'.attacks.set op.AttackID { details := details, stopBr := op.AttackID } } ∧
      o.effects =
        effects
          ++ (if start.DurationSec.isSome then
                [Effect.goHandleDuration { details := details, stopBr := op.AttackID }] else [])
          ++ (if start.LinearConfig.isSome then
                [Effect.goHandleLinear { details := details, stopBr := op.AttackID }] else []) := by
  unfold attackService.StartAttack at h
  cases hm : mapStartAttackToOperationStart start s.attackSeq 0 with
  | none => rw [hm] at h; cases h
  | some op =>
    rw [hm] at h
    dsimp only at h
    cases hd : distributeStart s op ids ch with
    | none => rw [hd] at h; cases h
    | some r =>
      obtain ⟨e, scenarios, s', effects⟩ := r
      rw [hd] at h
      cases e with
      | some e' =>
        simp only [Option.some.injEq] at h
        subst h
        cases hok
      | none =>
        simp only [Option.some.injEq] at h
        subst h
        simp only [Ret.ok.injEq] at hok
        subst hok
        exact ⟨op, scenarios, s', effects, rfl, hd, rfl, rfl, rfl⟩

theorem divideTasks_frame (s s' : attackService) (start : OperationStart)
    (ids : String → String) (ch : Choices) (effects : List Effect)
    (h : divideTasks s start ids ch = some (s', effects)) :
    s' = { s with nodes := s'.nodes } := by
  unfold divideTasks at h
  cases h1 : splitLoop s ch.nodesFor (rangeOrder ch.scenarios start.Scenarios)
      (emptyOperations s start ids) with
  | none => rw [h1] at h; cases h
  | some operations =>
    rw [h1] at h
    dsimp only at h
    cases h2 : dispatchLoop (rangeOrder ch.dispatch operations) s.nodes with
    | none => rw [h2] at h; cases h
    | some r =>
      obtain ⟨nodes, fx⟩ := r
      rw [h2] at h
      simp only [Option.some.injEq, Prod.mk.injEq] at h
      rw [← h.1]

/-- C5. When `StartAttack` succeeds (the names of the linear configuration
being pairwise distinct), the returned details carry the value `attackSeq` had
before the call as id and exactly one increment, with id 0 and that attack id;
its scenarios map holds, for every name whose seeded amount is positive, that
amount, and nothing for the other names.  The seeded amount is the constant
counter of the name (zero when absent) plus the start counter when the linear
configuration lists the name, the sum being an `int64` sum (the exact sum
whenever that fits in an `int64`).  The same details are stored in `attacks`
under the id, the other attacks are untouched, and `attackSeq` has grown by
exactly one. -/
theorem StartAttack_ok (s : attackService) (start : LoadGen.StartAttack) (now : Nat)
    (ids : String → String) (ch : Choices) (o : Outcome AttackDetails) (details : AttackDetails)
    (hlin : ∀ l, start.LinearConfig = some l → (l.Scenarios.map (fun sc => sc.Name)).Nodup)
    (h : s.StartAttack start now ids ch = some o) (hok : o.ret = Ret.ok details) :
    details.ID = s.attackSeq ∧
    (∃ inc, details.Increments = [inc] ∧ inc.ID = 0 ∧ inc.AttackID = s.attackSeq ∧
      ∀ n, inc.Scenarios.get? n
        = if 0 < seedAmount start n then some (seedAmount start n) else none) ∧
    (∀ n, (linearLists start n = false ∨
          (-2 ^ 63 ≤ constCounter start n + linearCounter start n ∧
            constCounter start n + linearCounter start n < 2 ^ 63)) →
        seedAmount start n = constCounter start n + linearCounter start n) ∧
    o.state.attacks.get? s.attackSeq = some { details := details, stopBr := s.attackSeq } ∧
    (∀ k, k ≠ s.attackSeq → o.state.attacks.get? k = s.attacks.get? k) ∧
    o.state.attackSeq = s.attackSeq + 1 := by
  obtain ⟨op, scenarios, s', effects, hm, hd, hdet, hst, -⟩ :=
    StartAttack_success_shape s start now ids ch o details h hok
  obtain ⟨-, hop1, hop2, -, hopwf, hopget⟩ := mapStartAttack_spec start s.attackSeq 0 op hlin hm
  obtain ⟨hv, hdiv⟩ := distributeStart_ok s op ids ch scenarios s' effects hd
  obtain ⟨hsc, -, -⟩ := validateScenarios_ok s op.Scenarios scenarios ch.validate hopwf hv
  have hframe := divideTasks_frame s s' _ ids ch effects hdiv
  refine ⟨by rw [hdet, hop1], ⟨_, by rw [hdet], hop2, hop1, fun n => ?_⟩, fun n hn => ?_, ?_, ?_, ?_⟩
  · rw [hsc, GoMap.get?_filter _ hopwf]
    exact hopget n
  · unfold seedAmount
    rcases hn with hn | ⟨h0, h1⟩
    · have : linearCounter start n = 0 := by
        unfold linearCounter
        cases start.LinearConfig <;> simp [hn]
      simp [hn, this]
    · split
      · exact wrap64_of_range _ h0 h1
      · rename_i hl
        have : linearCounter start n = 0 := by
          unfold linearCounter
          cases start.LinearConfig <;> simp [hl]
        simp [this]
  · rw [hst, hop1]
    exact GoMap.get?_set_self _ _ _
  · intro k hk
    rw [hst, hop1]
    simp only
    rw [GoMap.get?_set_ne _ _ hk, hframe]
  · rw [hst, hframe]

/-- C5 at a concrete state: four constant users of `X` and a ramp of `X`
starting at two users seed increment 0 with six users of `X`; the zero counter
of `Y` is left out. -/
theorem StartAttack_ok_witness :
    (∀ l, demoAttack.LinearConfig = some l → (l.Scenarios.map (fun sc => sc.Name)).Nodup) ∧
    ∃ o, demoService.StartAttack demoAttack 100 (fun n => n) demoChoices = some o ∧
      o.ret = Ret.ok
          { ID := 0, Name := "a", WaitTimeSec := 1, CreatedAt := 100, DurationSec := some 5,
            ConstConfig := demoAttack.ConstConfig, LinearConfig := demoAttack.LinearConfig,
            Increments := [{ ID := 0, AttackID := 0, Scenarios := [("X", 6)] }] } ∧
      o.state.attackSeq = demoService.attackSeq + 1 := by
  have hlin : ∀ l, demoAttack.LinearConfig = some l →
      (l.Scenarios.map (fun sc => sc.Name)).Nodup := by
    intro l hl
    cases hl
    decide
  have hsome : (demoService.StartAttack demoAttack 100 (fun n => n) demoChoices).isSome = true := by
    decide
  have hret : ((demoService.StartAttack demoAttack 100 (fun n => n) demoChoices).get hsome).ret
      = Ret.ok
          { ID := 0, Name := "a", WaitTimeSec := 1, CreatedAt := 100, DurationSec := some 5,
            ConstConfig := demoAttack.ConstConfig, LinearConfig := demoAttack.LinearConfig,
            Increments := [{ ID := 0, AttackID := 0, Scenarios := [("X", 6)] }] } := by
    rfl
  exact ⟨hlin, _, (Option.some_get hsome).symm, hret,
    (StartAttack_ok demoService demoAttack 100 (fun n => n) demoChoices _ _ hlin
      (Option.some_get hsome).symm hret).2.2.2.2.2⟩

/-! ## Stopping attacks and increments -/

theorem foldl_set_get? {ν : Type} (f : ν → ν) (V : List (String × ν)) (acc : GoMap String ν)
    (hV : GoMap.WF V) (k : String) :
    GoMap.get? (V.foldl (fun (acc : GoMap String ν) e => acc.set e.1 (f e.2)) acc) k
      = match GoMap.get? V k with
        | some v => some (f v)
        | none => acc.get? k := by
  induction V generalizing acc with
  | nil => rfl
  | cons e t ih =>
    obtain ⟨k₀, v₀⟩ := e
    simp only [GoMap.WF, List.map_cons, List.nodup_cons] at hV
    rw [List.foldl_cons, ih _ hV.2]
    by_cases hk : k₀ = k
    · subst hk
      have : GoMap.get? t k₀ = none := (GoMap.get?_eq_none_iff t k₀).2 hV.1
      simp [GoMap.get?, this, GoMap.get?_set_self]
    · have hk' : k ≠ k₀ := fun e => hk e.symm
      simp only [GoMap.get?, hk, if_false]
      cases GoMap.get? t k with
      | some v => rfl
      | none => exact GoMap.get?_set_ne _ _ hk'

theorem foldl_set_keys {ν : Type} (f : ν → ν) (V : List (String × ν)) (acc : GoMap String ν)
    (hsub : ∀ k ∈ GoMap.keys V, k ∈ GoMap.keys acc) :
    GoMap.keys (V.foldl (fun (acc : GoMap String ν) e => acc.set e.1 (f e.2)) acc)
      = GoMap.keys acc := by
  induction V generalizing acc with
  | nil => rfl
  | cons e t ih =>
    have h0 : e.1 ∈ GoMap.keys acc := hsub e.1 (by simp [GoMap.keys])
    rw [List.foldl_cons, ih]
    · exact GoMap.keys_set_of_mem _ _ h0
    · intro k hk
      rw [GoMap.keys_set_of_mem _ _ h0]
      exact hsub k (by simp [GoMap.keys] at hk ⊢; exact Or.inr hk)

theorem foldl_set_perm {ν : Type} (f : ν → ν) (V m : GoMap String ν) (hp : V.Perm m)
    (hwf : GoMap.WF m) :
    V.foldl (fun (acc : GoMap String ν) e => acc.set e.1 (f e.2)) m
      = m.map (fun e => (e.1, f e.2)) := by
  have hVwf : GoMap.WF V := by
    unfold GoMap.WF at *
    exact ((hp.map Prod.fst).nodup_iff).2 hwf
  have hkeys := foldl_set_keys f V m (fun k hk => (hp.map Prod.fst).mem_iff.1 hk)
  apply GoMap.eq_of_keys_of_get?
  · rw [hkeys]
    exact (keys_map_entries m (fun e => f e.2)).symm
  · unfold GoMap.WF
    unfold GoMap.keys at hkeys
    rw [hkeys]
    exact hwf
  · intro k
    rw [foldl_set_get? f V m hVwf k, get?_map_entries m (fun e => f e.2) k,
      GoMap.get?_perm hp hVwf k]
    cases GoMap.get? m k <;> rfl

theorem foldl_nodes_frame (stop : OperationStop) (V : List (String × node)) (s : attackService) :
    V.foldl (fun (acc : attackService) e =>
        { acc with nodes := acc.nodes.set e.1 (e.2.StopAttack stop).1 }) s
      = { s with nodes := V.foldl (fun (acc : GoMap String node) e =>
            acc.set e.1 (e.2.StopAttack stop).1) s.nodes } := by
  induction V generalizing s with
  | nil => rfl
  | cons e t ih => rw [List.foldl_cons, ih, List.foldl_cons]

theorem distributeStop_frame (s : attackService) (stop : OperationStop) (order : List Nat) :
    (distributeStop s stop order).1
      = { s with nodes := (distributeStop s stop order).1.nodes } ∧
    (distributeStop s stop order).2
      = (rangeOrder order s.nodes).map (fun e => Effect.nodeStopAttack e.1 stop) := by
  unfold distributeStop
  dsimp only
  rw [foldl_nodes_frame]
  exact ⟨rfl, rfl⟩

theorem distributeStop_nodes (s : attackService) (stop : OperationStop) (order : List Nat)
    (hwf : GoMap.WF s.nodes) :
    (distributeStop s stop order).1.nodes
      = s.nodes.map (fun e => (e.1, (e.2.StopAttack stop).1)) := by
  unfold distributeStop
  dsimp only
  rw [foldl_nodes_frame]
  exact foldl_set_perm (fun n => (n.StopAttack stop).1) _ _ (rangeOrder_perm _ _) hwf

theorem stopped_map (l : List (String × node)) (stop : OperationStop) :
    stopped (l.map (fun e => Effect.nodeStopAttack e.1 stop)) = l.map (fun e => (e.1, stop)) := by
  induction l with
  | nil => rfl
  | cons e t ih => simp [stopped, ih]

theorem stopped_append (l₁ l₂ : List Effect) : stopped (l₁ ++ l₂) = stopped l₁ ++ stopped l₂ := by
  induction l₁ with
  | nil => rfl
  | cons e t ih => cases e <;> simp [stopped, ih]

theorem dispatched_append (l₁ l₂ : List Effect) :
    dispatched (l₁ ++ l₂) = dispatched l₁ ++ dispatched l₂ := by
  induction l₁ with
  | nil => rfl
  | cons e t ih => cases e <;> simp [dispatched, ih]

theorem dispatched_map_stop (l : List (String × node)) (stop : OperationStop) :
    dispatched (l.map (fun e => Effect.nodeStopAttack e.1 stop)) = [] := by
  induction l with
  | nil => rfl
  | cons e t ih => simp [dispatched, ih]

/-- C9. For a live attack, `StopAttack` succeeds, removes exactly that attack
from `attacks` (every other attack is unchanged, and so are the sequences),
calls `StopAttack` with `OperationStop{attackID, no increment}` once on every
registered node and on nothing else, starts nothing on any node and
broadcasts on the attack's stop broadcaster.  For an id that is not live it
returns `ErrAttackNotFound`, has no effect and leaves the service as it was. -/
theorem StopAttack_spec (s : attackService) (attackID : Int) (order : List Nat)
    (hwf : GoMap.WF s.nodes) :
    (∀ a, s.attacks.get? attackID = some a →
      (s.StopAttack attackID order).ret = Ret.ok () ∧
      (s.StopAttack attackID order).state.attacks.get? attackID = none ∧
      (∀ k, k ≠ attackID →
        (s.StopAttack attackID order).state.attacks.get? k = s.attacks.get? k) ∧
      (s.StopAttack attackID order).state.attacks = s.attacks.delete attackID ∧
      (s.StopAttack attackID order).state.attackSeq = s.attackSeq ∧
      (s.StopAttack attackID order).state.incrementSeqs = s.incrementSeqs ∧
      (stopped (s.StopAttack attackID order).effects).Perm
        (s.nodes.map (fun e => (e.1, { AttackID := attackID, IncrementID := none }))) ∧
      ((stopped (s.StopAttack attackID order).effects).map Prod.fst).Nodup ∧
      dispatched (s.StopAttack attackID order).effects = [] ∧
      Effect.broadcast a.stopBr ∈ (s.StopAttack attackID order).effects ∧
      (s.StopAttack attackID order).state.nodes
        = s.nodes.map (fun e =>
            (e.1, (e.2.StopAttack { AttackID := attackID, IncrementID := none }).1))) ∧
    (s.attacks.get? attackID = none →
      s.StopAttack attackID order
        = { ret := Ret.fail GoError.ErrAttackNotFound, state := s, effects := [] }) := by
  constructor
  · intro a ha
    obtain ⟨hf1, hf2⟩ := distributeStop_frame s { AttackID := attackID, IncrementID := none } order
    have hn := distributeStop_nodes s { AttackID := attackID, IncrementID := none } order hwf
    have hatt : (distributeStop s { AttackID := attackID, IncrementID := none } order).1.attacks
        = s.attacks := by rw [hf1]
    have hseq : (distributeStop s { AttackID := attackID, IncrementID := none } order).1.attackSeq
        = s.attackSeq := by rw [hf1]
    have hinc : (distributeStop s { AttackID := attackID, IncrementID := none }
        order).1.incrementSeqs = s.incrementSeqs := by rw [hf1]
    unfold attackService.StopAttack
    rw [ha]
    dsimp only
    rw [hatt, hf2, stopped_append, dispatched_append, stopped_map, dispatched_map_stop]
    refine ⟨rfl, GoMap.get?_delete_self _ _, fun k hk => GoMap.get?_delete_ne _ hk, rfl, hseq,
      hinc, ?_, ?_, ?_, ?_, hn⟩
    · simp only [stopped, List.append_nil]
      exact (rangeOrder_perm order s.nodes).map _
    · simp only [stopped, List.append_nil, List.map_map]
      exact rangeOrder_WF order s.nodes hwf
    · simp [dispatched]
    · simp
  · intro hnone
    unfold attackService.StopAttack
    rw [hnone]

/-- C9 at a concrete state: attack 0 is live on the three nodes; `StopAttack 0`
is sent to the three nodes and empties `attacks`; `StopAttack 7` is refused. -/
theorem StopAttack_spec_witness :
    GoMap.WF demoStarted.nodes ∧
    (∃ a, demoStarted.attacks.get? 0 = some a) ∧
    (demoStarted.StopAttack 0 [1]).ret = Ret.ok () ∧
    (demoStarted.StopAttack 0 [1]).state.attacks = [] ∧
    stopped (demoStarted.StopAttack 0 [1]).effects
      = [("n2", { AttackID := 0, IncrementID := none }),
         ("n1", { AttackID := 0, IncrementID := none }),
         ("n3", { AttackID := 0, IncrementID := none })] ∧
    demoStarted.attacks.get? 7 = none ∧
    demoStarted.StopAttack 7 []
      = { ret := Ret.fail GoError.ErrAttackNotFound, state := demoStarted, effects := [] } := by
  have hwf : GoMap.WF demoStarted.nodes := by decide
  have hlive : ∃ a, demoStarted.attacks.get? 0 = some a := ⟨_, rfl⟩
  obtain ⟨a, ha⟩ := hlive
  have h1 := (StopAttack_spec demoStarted 0 [1] hwf).1 a ha
  have h2 := (StopAttack_spec demoStarted 7 [] hwf).2 rfl
  refine ⟨hwf, ⟨a, ha⟩, h1.1, ?_, by decide, rfl, h2⟩
  rw [h1.2.2.2.1]
  decide

theorem incrementPositions_spec (L : List IncrementDetails) (i : Nat) (m : GoMap Int Nat)
    (id : Int) :
    ((∀ inc ∈ L, inc.ID ≠ id) ∧ (incrementPositions L i m).get? id = m.get? id) ∨
    ∃ j, ∃ hj : j < L.length, (L.get ⟨j, hj⟩).ID = id ∧
      (∀ j', j < j' → ∀ hj' : j' < L.length, (L.get ⟨j', hj'⟩).ID ≠ id) ∧
      (incrementPositions L i m).get? id = some (i + j) := by
  induction L generalizing i m with
  | nil => exact Or.inl ⟨fun inc h => by simp at h, rfl⟩
  | cons a t ih =>
    rcases ih (i + 1) (m.set a.ID i) with ⟨h1, h2⟩ | ⟨j, hj, h1, h2, h3⟩
    · by_cases ha : a.ID = id
      · refine Or.inr ⟨0, by simp, by simpa using ha, ?_, ?_⟩
        · intro j' hj' hlen
          cases j' with
          | zero => omega
          | succ j'' =>
            simp only [List.get_eq_getElem, List.getElem_cons_succ]
            exact h1 _ (List.getElem_mem _)
        · simp only [incrementPositions, h2, Nat.add_zero]
          rw [← ha]
          exact GoMap.get?_set_self _ _ _
      · refine Or.inl ⟨?_, ?_⟩
        · intro inc hinc
          rcases List.mem_cons.1 hinc with h | h
          · rw [h]; exact ha
          · exact h1 inc h
        · simp only [incrementPositions, h2]
          exact GoMap.get?_set_ne _ _ (fun e => ha e.symm)
    · refine Or.inr ⟨j + 1, by simpa using hj, by simpa using h1, ?_, ?_⟩
      · intro j' hj' hlen
        cases j' with
        | zero => omega
        | succ j'' =>
          simp only [List.get_eq_getElem, List.getElem_cons_succ]
          have := h2 j'' (by omega) (by simpa using hlen)
          simpa using this
      · simp only [incrementPositions, h3]
        congr 1
        omega

theorem eraseIdx_eq_filter_of_nodup (L : List IncrementDetails) (j : Nat) (hj : j < L.length)
    (hnd : (L.map (fun inc => inc.ID)).Nodup) :
    L.eraseIdx j = L.filter (fun inc => decide (inc.ID ≠ (L.get ⟨j, hj⟩).ID)) := by
  induction L generalizing j with
  | nil => simp at hj
  | cons a t ih =>
    simp only [List.map_cons, List.nodup_cons] at hnd
    cases j with
    | zero =>
      simp only [List.eraseIdx_cons_zero, List.get_eq_getElem, List.getElem_cons_zero]
      have hf : List.filter (fun inc : IncrementDetails => decide (inc.ID ≠ a.ID)) (a :: t)
          = List.filter (fun inc => decide (inc.ID ≠ a.ID)) t :=
        List.filter_cons_of_neg (by simp)
      rw [hf]
      symm
      rw [List.filter_eq_self]
      intro inc hinc
      have : inc.ID ≠ a.ID := by
        intro e
        apply hnd.1
        rw [← e]
        exact List.mem_map_of_mem _ hinc
      simpa using this
    | succ j' =>
      have hj' : j' < t.length := by simpa using hj
      simp only [List.eraseIdx_cons_succ, List.get_eq_getElem, List.getElem_cons_succ]
      have hmem : t[j'] ∈ t := List.getElem_mem _
      have hne : a.ID ≠ t[j'].ID := by
        intro e
        apply hnd.1
        rw [e]
        exact List.mem_map_of_mem _ hmem
      have hf : List.filter (fun inc : IncrementDetails => decide (inc.ID ≠ t[j'].ID)) (a :: t)
          = a :: List.filter (fun inc => decide (inc.ID ≠ t[j'].ID)) t :=
        List.filter_cons_of_pos (by simpa using hne)
      rw [hf]
      congr 1
      have := ih j' hj' hnd.2
      simpa using this

/-- C10. `StopIncrement` on an attack that is not live returns
`ErrAttackNotFound`, and on a live attack without an increment of the given id
`ErrIncrementNotFound`; in both cases it has no effect and leaves the service
as it was.  Otherwise it succeeds; every other attack is unchanged; when the
attack has more than one increment, one increment with the given id is taken
out of its list, the others keeping their order (with pairwise distinct
increment ids: the list without the increments of that id); when it has only
one increment the attack is deleted. -/
theorem StopIncrement_spec (s : attackService) (attackID incrementID : Int)
    (order : List Nat) :
    (s.attacks.get? attackID = none →
      s.StopIncrement attackID incrementID order
        = { ret := Ret.fail GoError.ErrAttackNotFound, state := s, effects := [] }) ∧
    (∀ a, s.attacks.get? attackID = some a →
      ((∀ inc ∈ a.details.Increments, inc.ID ≠ incrementID) →
        s.StopIncrement attackID incrementID order
          = { ret := Ret.fail GoError.ErrIncrementNotFound, state := s, effects := [] }) ∧
      ((∃ inc ∈ a.details.Increments, inc.ID = incrementID) →
        (s.StopIncrement attackID incrementID order).ret = Ret.ok () ∧
        (∀ k, k ≠ attackID →
          (s.StopIncrement attackID incrementID order).state.attacks.get? k = s.attacks.get? k) ∧
        (1 < a.details.Increments.length →
          ∃ j, ∃ hj : j < a.details.Increments.length,
            (a.details.Increments.get ⟨j, hj⟩).ID = incrementID ∧
            (s.StopIncrement attackID incrementID order).state.attacks.get? attackID
              = some { a with
                  details := { a.details with
                    Increments := a.details.Increments.eraseIdx j } } ∧
            ((a.details.Increments.map (fun inc => inc.ID)).Nodup →
              a.details.Increments.eraseIdx j
                = a.details.Increments.filter (fun inc => decide (inc.ID ≠ incrementID)))) ∧
        (a.details.Increments.length ≤ 1 →
          (s.StopIncrement attackID incrementID order).state.attacks.get? attackID = none ∧
          (s.StopIncrement attackID incrementID order).state.attacks
            = s.attacks.delete attackID) ∧
        (s.StopIncrement attackID incrementID order).state.attackSeq = s.attackSeq ∧
        (s.StopIncrement attackID incrementID order).state.incrementSeqs = s.incrementSeqs)) := by
  constructor
  · intro hnone
    unfold attackService.StopIncrement stopIncrement
    rw [hnone]
  · intro a ha
    obtain ⟨hf1, -⟩ :=
      distributeStop_frame s { AttackID := attackID, IncrementID := some incrementID } order
    have hatt : (distributeStop s { AttackID := attackID, IncrementID := some incrementID }
        order).1.attacks = s.attacks := by rw [hf1]
    have hseq : (distributeStop s { AttackID := attackID, IncrementID := some incrementID }
        order).1.attackSeq = s.attackSeq := by rw [hf1]
    have hinc : (distributeStop s { AttackID := attackID, IncrementID := some incrementID }
        order).1.incrementSeqs = s.incrementSeqs := by rw [hf1]
    constructor
    · intro hno
      rcases incrementPositions_spec a.details.Increments 0 [] incrementID with
        ⟨-, h2⟩ | ⟨j, hj, h1, -, -⟩
      · unfold attackService.StopIncrement stopIncrement
        rw [ha]
        dsimp only
        rw [h2]
        rfl
      · exact absurd h1 (hno _ (List.get_mem _ _ _))
    · rintro ⟨inc, hmem, hid⟩
      rcases incrementPositions_spec a.details.Increments 0 [] incrementID with
        ⟨h1, -⟩ | ⟨j, hj, h1, -, h3⟩
      · exact absurd hid (h1 inc hmem)
      · rw [Nat.zero_add] at h3
        unfold attackService.StopIncrement stopIncrement
        rw [ha]
        dsimp only
        rw [h3]
        dsimp only
        by_cases hlen : a.details.Increments.length > 1
        · rw [if_pos hlen]
          dsimp only
          rw [hatt]
          refine ⟨rfl, fun k hk => GoMap.get?_set_ne _ _ hk, fun _ => ⟨j, hj, h1, ?_, ?_⟩,
            fun hle => absurd hlen (by omega), hseq, hinc⟩
          · exact GoMap.get?_set_self _ _ _
          · intro hnd
            rw [eraseIdx_eq_filter_of_nodup _ j hj hnd, h1]
        · rw [if_neg hlen]
          dsimp only
          rw [hatt]
          refine ⟨rfl, fun k hk => GoMap.get?_delete_ne _ hk, fun h => absurd h hlen,
            fun _ => ⟨GoMap.get?_delete_self _ _, rfl⟩, hseq, hinc⟩

/-- C10 at concrete states: attack 0 with the increments 0 and 1 loses
increment 0 and keeps increment 1; attack 0 with only increment 0 is deleted;
unknown ids are refused. -/
theorem StopIncrement_spec_witness :
    (demoStarted2.attacks.get? 0).map (fun a => a.details.Increments.map (fun inc => inc.ID))
      = some [0, 1] ∧
    ((demoStarted2.StopIncrement 0 0 [2]).state.attacks.get? 0).map
        (fun a => a.details.Increments)
      = some [{ ID := 1, AttackID := 0, Scenarios := [("X", 3)] }] ∧
    (demoStarted.StopIncrement 0 0 []).state.attacks = [] ∧
    demoStarted.StopIncrement 0 5 []
      = { ret := Ret.fail GoError.ErrIncrementNotFound, state := demoStarted, effects := [] } ∧
    demoStarted.StopIncrement 3 0 []
      = { ret := Ret.fail GoError.ErrAttackNotFound, state := demoStarted, effects := [] } := by
  have hlive : ∃ a, demoStarted.attacks.get? 0 = some a := ⟨_, rfl⟩
  obtain ⟨a, ha⟩ := hlive
  have hone : a.details.Increments.map (fun inc => inc.ID) = [0] := by
    have : (demoStarted.attacks.get? 0).map
        (fun a => a.details.Increments.map (fun inc => inc.ID)) = some [0] := by decide
    rw [ha] at this
    simpa using this
  have hlen : a.details.Increments.length ≤ 1 := by
    have := congrArg List.length hone
    simp at this
    omega
  have h := (StopIncrement_spec demoStarted 0 0 []).2 a ha
  have hmem : ∃ inc ∈ a.details.Increments, inc.ID = 0 := by
    have : (0 : Int) ∈ a.details.Increments.map (fun inc => inc.ID) := by rw [hone]; simp
    obtain ⟨inc, h1, h2⟩ := List.mem_map.1 this
    exact ⟨inc, h1, h2⟩
  refine ⟨by decide, by decide, ?_, ?_, (StopIncrement_spec demoStarted 3 0 []).1 rfl⟩
  · rw [((h.2 hmem).2.2.2.1 hlen).2]
    decide
  · exact ((StopIncrement_spec demoStarted 0 5 []).2 a ha).1 (by
      intro inc hinc
      have : inc.ID ∈ a.details.Increments.map (fun inc => inc.ID) := List.mem_map_of_mem _ hinc
      rw [hone] at this
      simp at this
      rw [this]
      decide)

/-! ## What the split keeps of the operation -/

theorem assignLoop_preserves (Q : OperationStart → Prop)
    (hQ : ∀ op sc v, Q op → Q { op with Scenarios := op.Scenarios.set sc v })
    (scenario : String) (q r : Int) (actual : List String) (idx : Int)
    (ops ops' : GoMap String OperationStart)
    (h : assignLoop scenario q r actual idx ops = some ops') (hops : ∀ e ∈ ops, Q e.2) :
    ∀ e ∈ ops', Q e.2 := by
  induction actual generalizing idx ops with
  | nil =>
    simp only [assignLoop, Option.some.injEq] at h
    subst h
    exact hops
  | cons n rest ih =>
    by_cases hv : (if idx < r then q + 1 else q) = 0
    · simp only [assignLoop, hv, ne_eq, not_true_eq_false, if_false] at h
      exact ih _ _ h hops
    · simp only [assignLoop, ne_eq, hv, not_false_eq_true, if_true] at h
      cases hg : ops.get? n with
      | none => rw [hg] at h; cases h
      | some op =>
        rw [hg] at h
        refine ih _ _ h (fun e he => ?_)
        rcases mem_set _ _ _ _ he with h' | h'
        · rw [h']
          exact hQ _ _ _ (hops _ (GoMap.mem_of_get? hg))
        · exact hops e h'

theorem splitLoop_preserves (Q : OperationStart → Prop)
    (hQ : ∀ op sc v, Q op → Q { op with Scenarios := op.Scenarios.set sc v })
    (s : attackService) (nodesFor : String → List Nat) (L : List (String × Int))
    (ops ops' : GoMap String OperationStart)
    (h : splitLoop s nodesFor L ops = some ops') (hops : ∀ e ∈ ops, Q e.2) :
    ∀ e ∈ ops', Q e.2 := by
  induction L generalizing ops with
  | nil =>
    simp only [splitLoop, Option.some.injEq] at h
    subst h
    exact hops
  | cons a t ih =>
    obtain ⟨scenario, amount⟩ := a
    simp only [splitLoop] at h
    split at h
    · cases h
    · split at h
      · cases h
      · rename_i ops₁ h1
        exact ih _ h (assignLoop_preserves Q hQ _ _ _ _ _ _ _ h1 hops)

theorem dispatchLoop_effects (D : List (String × OperationStart)) (nodes nodes' : GoMap String node)
    (effects : List Effect) (h : dispatchLoop D nodes = some (nodes', effects)) :
    effects = (D.filter (fun e => decide (e.2.Scenarios.length ≠ 0))).map
      (fun e => Effect.nodeStartAttack e.1 e.2) := by
  induction D generalizing nodes effects with
  | nil =>
    simp only [dispatchLoop, Option.some.injEq, Prod.mk.injEq] at h
    rw [← h.2]
    rfl
  | cons e rest ih =>
    obtain ⟨nodeName, operation⟩ := e
    by_cases hlen : operation.Scenarios.length ≠ 0
    · have hf : List.filter (fun e : String × OperationStart => decide (e.2.Scenarios.length ≠ 0))
          ((nodeName, operation) :: rest) = (nodeName, operation)
            :: List.filter (fun e => decide (e.2.Scenarios.length ≠ 0)) rest :=
        List.filter_cons_of_pos (decide_eq_true hlen)
      rw [hf]
      simp only [dispatchLoop, hlen, if_true, ne_eq, not_false_eq_true] at h
      cases hg : nodes.get? nodeName with
      | none => rw [hg] at h; cases h
      | some n =>
        rw [hg] at h
        dsimp only at h
        cases hr : dispatchLoop rest (nodes.set nodeName (n.StartAttack operation).1) with
        | none => rw [hr] at h; cases h
        | some r =>
          obtain ⟨nodes₁, fx⟩ := r
          rw [hr] at h
          simp only [Option.some.injEq, Prod.mk.injEq] at h
          obtain ⟨hn1, hfx⟩ := h
          subst hn1
          rw [← hfx, ih _ _ hr]
          rfl
    · have hf : List.filter (fun e : String × OperationStart => decide (e.2.Scenarios.length ≠ 0))
          ((nodeName, operation) :: rest)
            = List.filter (fun e => decide (e.2.Scenarios.length ≠ 0)) rest :=
        List.filter_cons_of_neg (by simpa using hlen)
      rw [hf]
      simp only [dispatchLoop, hlen, if_false] at h
      exact ih _ _ h

theorem divideTasks_dispatched (s s' : attackService) (start : OperationStart)
    (ids : String → String) (ch : Choices) (effects : List Effect)
    (h : divideTasks s start ids ch = some (s', effects)) :
    effects = (dispatched effects).map (fun e => Effect.nodeStartAttack e.1 e.2) ∧
    ∀ e ∈ dispatched effects, e.2.AttackID = start.AttackID ∧
      e.2.IncrementID = start.IncrementID ∧ e.2.WaitTimeSec = start.WaitTimeSec := by
  unfold divideTasks at h
  cases h1 : splitLoop s ch.nodesFor (rangeOrder ch.scenarios start.Scenarios)
      (emptyOperations s start ids) with
  | none => rw [h1] at h; cases h
  | some operations =>
    rw [h1] at h
    dsimp only at h
    cases h2 : dispatchLoop (rangeOrder ch.dispatch operations) s.nodes with
    | none => rw [h2] at h; cases h
    | some r =>
      obtain ⟨nodes, fx⟩ := r
      rw [h2] at h
      simp only [Option.some.injEq, Prod.mk.injEq] at h
      obtain ⟨-, hfx⟩ := h
      subst hfx
      have hfx := dispatchLoop_effects _ _ _ _ h2
      have hQ := splitLoop_preserves
        (fun op => op.AttackID = start.AttackID ∧ op.IncrementID = start.IncrementID ∧
          op.WaitTimeSec = start.WaitTimeSec)
        (fun op sc v hop => hop) s ch.nodesFor _ _ _ h1
        (fun e he => by
          unfold emptyOperations at he
          obtain ⟨x, -, rfl⟩ := List.mem_map.1 he
          exact ⟨rfl, rfl, rfl⟩)
      rw [hfx, dispatched_map]
      refine ⟨rfl, fun e he => ?_⟩
      exact hQ e ((rangeOrder_perm _ _).mem_iff.1 (List.mem_filter.1 he).1)

theorem distributeStart_frame (s s' : attackService) (start : OperationStart)
    (ids : String → String) (ch : Choices) (e : Option GoError) (scenarios : GoMap String Int)
    (effects : List Effect) (h : distributeStart s start ids ch = some (e, scenarios, s', effects)) :
    s' = { s with nodes := s'.nodes } ∧
    effects = (dispatched effects).map (fun x => Effect.nodeStartAttack x.1 x.2) ∧
    ∀ x ∈ dispatched effects, x.2.AttackID = start.AttackID ∧
      x.2.IncrementID = start.IncrementID ∧ x.2.WaitTimeSec = start.WaitTimeSec := by
  cases e with
  | some err =>
    obtain ⟨-, h2, h3⟩ := distributeStart_error s start ids ch err scenarios s' effects h
    subst h2 h3
    exact ⟨rfl, rfl, fun x hx => by simp [dispatched] at hx⟩
  | none =>
    obtain ⟨-, hd⟩ := distributeStart_ok s start ids ch scenarios s' effects h
    have h1 := divideTasks_frame s s' _ ids ch effects hd
    obtain ⟨h2, h3⟩ := divideTasks_dispatched s s' _ ids ch effects hd
    exact ⟨h1, h2, h3⟩

theorem StartIncrement_attacks (s : attackService) (start : OperationStart)
    (ids : String → String) (ch : Choices) (o : Outcome IncrementDetails)
    (h : s.StartIncrement start ids ch = some o) :
    (s.attacks.get? start.AttackID = none →
      o = { ret := Ret.fail GoError.ErrAttackNotFound, state := s, effects := [] }) ∧
    (∀ a, s.attacks.get? start.AttackID = some a → a.details.ID = start.AttackID →
      (∀ inc, o.ret = Ret.ok inc →
        ∀ k, k ≠ start.AttackID → o.state.attacks.get? k = s.attacks.get? k) ∧
      (∀ err, o.ret = Ret.fail err → o.state = s ∧ o.effects = [])) := by
  refine ⟨fun hnone => ?_, fun a ha hid => ?_⟩
  · unfold attackService.StartIncrement at h
    rw [hnone] at h
    simp only [Option.some.injEq] at h
    exact h.symm
  · unfold attackService.StartIncrement at h
    rw [ha] at h
    dsimp only at h
    cases hd : distributeStart s
        { start with AttackID := a.details.ID,
                     IncrementID := s.incrementSeqs.getD a.details.ID 0,
                     WaitTimeSec := a.details.WaitTimeSec } ids ch with
    | none => rw [hd] at h; cases h
    | some r =>
      obtain ⟨e, scenarios, s', effects⟩ := r
      rw [hd] at h
      obtain ⟨hfr, -, -⟩ := distributeStart_frame _ _ _ _ _ _ _ _ hd
      cases e with
      | some err =>
        simp only [Option.some.injEq] at h
        subst h
        obtain ⟨-, h2, h3⟩ := distributeStart_error _ _ _ _ _ _ _ _ hd
        subst h2 h3
        exact ⟨fun inc hinc => (by cases hinc), fun err' _ => ⟨rfl, rfl⟩⟩
      | none =>
        simp only [Option.some.injEq] at h
        subst h
        refine ⟨fun inc _ k hk => ?_, fun err herr => (by cases herr)⟩
        dsimp only
        rw [hid, GoMap.get?_set_ne _ _ hk, hfr]

/-- C7. `StartIncrement` does not depend on the increment id and the wait time
of its argument.  On a live attack `a` (recorded under its own id): when it
succeeds, the returned increment has the id `incrementSeqs[a]` had before the
call, every operation started on a node carries that increment id, the attack
id and the wait time of the attack, the increments of the attack are the
previous ones followed by the new increment, the other attacks are unchanged,
and `incrementSeqs[a]` has grown by exactly one (the other counters and
`attackSeq` are unchanged); when it returns an error, the service is as it
was and nothing was started.  On an attack that is not live it returns
`ErrAttackNotFound`. -/
theorem StartIncrement_spec (s : attackService) (start : OperationStart)
    (ids : String → String) (ch : Choices) (o : Outcome IncrementDetails)
    (h : s.StartIncrement start ids ch = some o) :
    (∀ incrementID waitTimeSec,
      s.StartIncrement { start with IncrementID := incrementID, WaitTimeSec := waitTimeSec } ids ch
        = some o) ∧
    (s.attacks.get? start.AttackID = none →
      o = { ret := Ret.fail GoError.ErrAttackNotFound, state := s, effects := [] }) ∧
    (∀ a, s.attacks.get? start.AttackID = some a → a.details.ID = start.AttackID →
      (∀ inc, o.ret = Ret.ok inc →
        inc.ID = s.incrementSeqs.getD start.AttackID 0 ∧ inc.AttackID = start.AttackID ∧
        (∀ x ∈ dispatched o.effects,
          x.2.IncrementID = inc.ID ∧ x.2.AttackID = start.AttackID ∧
          x.2.WaitTimeSec = a.details.WaitTimeSec) ∧
        o.state.attacks.get? start.AttackID
          = some { a with
              details := { a.details with Increments := a.details.Increments ++ [inc] } } ∧
        (∀ k, k ≠ start.AttackID → o.state.attacks.get? k = s.attacks.get? k) ∧
        o.state.incrementSeqs.getD start.AttackID 0
          = s.incrementSeqs.getD start.AttackID 0 + 1 ∧
        (∀ k, k ≠ start.AttackID → o.state.incrementSeqs.get? k = s.incrementSeqs.get? k) ∧
        o.state.attackSeq = s.attackSeq) ∧
      (∀ err, o.ret = Ret.fail err → o.state = s ∧ o.effects = [])) := by
  refine ⟨fun incrementID waitTimeSec => ?_, fun hnone => ?_, fun a ha hid => ?_⟩
  · rw [← h]
    unfold attackService.StartIncrement
    rfl
  · unfold attackService.StartIncrement at h
    rw [hnone] at h
    simp only [Option.some.injEq] at h
    exact h.symm
  · unfold attackService.StartIncrement at h
    rw [ha] at h
    dsimp only at h
    cases hd : distributeStart s
        { start with AttackID := a.details.ID,
                     IncrementID := s.incrementSeqs.getD a.details.ID 0,
                     WaitTimeSec := a.details.WaitTimeSec } ids ch with
    | none => rw [hd] at h; cases h
    | some r =>
      obtain ⟨e, scenarios, s', effects⟩ := r
      rw [hd] at h
      obtain ⟨hfr, -, hdis⟩ := distributeStart_frame _ _ _ _ _ _ _ _ hd
      cases e with
      | some err =>
        simp only [Option.some.injEq] at h
        subst h
        obtain ⟨-, h2, h3⟩ := distributeStart_error _ _ _ _ _ _ _ _ hd
        subst h2 h3
        exact ⟨fun inc hinc => (by cases hinc), fun err' _ => ⟨rfl, rfl⟩⟩
      | none =>
        simp only [Option.some.injEq] at h
        subst h
        refine ⟨fun inc hinc => ?_, fun err herr => (by cases herr)⟩
        simp only [Ret.ok.injEq] at hinc
        subst hinc
        dsimp only
        rw [hid]
        rw [hid] at hdis
        refine ⟨rfl, rfl, fun x hx => ?_, GoMap.get?_set_self _ _ _,
          fun k hk => ?_, ?_, fun k hk => ?_, ?_⟩
        · obtain ⟨h1, h2, h3⟩ := hdis x hx
          exact ⟨h2, h1, h3⟩
        · rw [GoMap.get?_set_ne _ _ hk, hfr]
        · rw [hfr]
          simp only [GoMap.getD, GoMap.get?_set_self, Option.getD_some]
        · rw [GoMap.get?_set_ne _ _ hk, hfr]
        · rw [hfr]

/-- C7 at a concrete state: attack 0 is live with `incrementSeqs[0] = 1`; the
request names increment 41 and wait time 9, the new increment gets id 1, the
operations carry id 1 and the attack's wait time 1, and the increments of the
attack become 0, 1. -/
theorem StartIncrement_spec_witness :
    ∃ o, demoStarted.StartIncrement demoIncrement (fun n => n) demoChoices2 = some o ∧
      demoStarted.incrementSeqs.getD 0 0 = 1 ∧
      o.ret = Ret.ok { ID := 1, AttackID := 0, Scenarios := [("X", 3)] } ∧
      (dispatched o.effects).map (fun x => (x.1, x.2.IncrementID, x.2.WaitTimeSec, x.2.Scenarios))
        = [("n2", 1, 1, [("X", 1)]), ("n1", 1, 1, [("X", 1)]), ("n3", 1, 1, [("X", 1)])] ∧
      (o.state.attacks.get? 0).map (fun a => a.details.Increments.map (fun inc => inc.ID))
        = some [0, 1] ∧
      o.state.incrementSeqs.getD 0 0 = 2 ∧
      (∀ x ∈ dispatched o.effects, x.2.IncrementID = 1) := by
  have hsome : (demoStarted.StartIncrement demoIncrement (fun n => n) demoChoices2).isSome
      = true := by decide
  have ho := (Option.some_get hsome).symm
  have hlive : ∃ a, demoStarted.attacks.get? demoIncrement.AttackID = some a
      ∧ a.details.ID = demoIncrement.AttackID := ⟨_, rfl, rfl⟩
  obtain ⟨a, ha, hid⟩ := hlive
  have hret : ((demoStarted.StartIncrement demoIncrement (fun n => n) demoChoices2).get hsome).ret
      = Ret.ok { ID := 1, AttackID := 0, Scenarios := [("X", 3)] } := by rfl
  have hspec := ((StartIncrement_spec demoStarted demoIncrement (fun n => n) demoChoices2 _ ho).2.2
    a ha hid).1 _ hret
  refine ⟨_, ho, by decide, hret, by rfl, by rfl, by rfl, fun x hx => (hspec.2.2.1 x hx).1⟩

/-! ## The bookkeeping invariant -/

theorem mapStart_ids (start : LoadGen.StartAttack) (attackID incrementID : Int)
    (op : OperationStart)
    (h : mapStartAttackToOperationStart start attackID incrementID = some op) :
    op.AttackID = attackID ∧ op.IncrementID = incrementID ∧
    op.WaitTimeSec = start.WaitTimeSec := by
  unfold mapStartAttackToOperationStart at h
  dsimp only at h
  split at h
  · cases h
  · simp only [Option.some.injEq] at h
    subst h
    exact ⟨rfl, rfl, rfl⟩

theorem getD_set_self (m : GoMap Int Int) (k v d : Int) : (m.set k v).getD k d = v := by
  simp [GoMap.getD, GoMap.get?_set_self]

theorem getD_set_ne (m : GoMap Int Int) (k k' v d : Int) (h : k' ≠ k) :
    (m.set k v).getD k' d = m.getD k' d := by
  simp [GoMap.getD, GoMap.get?_set_ne _ _ h]

theorem Inv_step (s s' : attackService) (hinv : s.Inv) (hwf : GoMap.WF s'.attacks)
    (hseq : s.attackSeq ≤ s'.attackSeq)
    (hinc : ∀ k, s.incrementSeqs.getD k 0 ≤ s'.incrementSeqs.getD k 0)
    (hatt : ∀ e ∈ s'.attacks, (∃ e₀ ∈ s.attacks, e₀.1 = e.1 ∧ e₀.2.details.ID = e.2.details.ID ∧
        e.2.details.Increments.Sublist e₀.2.details.Increments) ∨
      (e.2.details.ID = e.1 ∧ e.1 < s'.attackSeq ∧
        (e.2.details.Increments.map (fun inc => inc.ID)).Nodup ∧
        ∀ inc ∈ e.2.details.Increments, inc.ID < s'.incrementSeqs.getD e.1 0)) :
    s'.Inv := by
  obtain ⟨-, h2, h3⟩ := hinv
  refine ⟨hwf, fun e he => ?_, fun k => le_trans (h3 k) (hinc k)⟩
  rcases hatt e he with ⟨e₀, he₀, hk, hid, hsub⟩ | h
  · obtain ⟨i1, i2, i3, i4⟩ := h2 e₀ he₀
    refine ⟨by rw [← hid, i1, hk], by rw [← hk]; exact lt_of_lt_of_le i2 hseq,
      (hsub.map _).nodup i3, fun inc hinc' => ?_⟩
    rw [← hk]
    exact lt_of_lt_of_le (i4 inc (hsub.subset hinc')) (hinc _)
  · exact h

theorem Inv_of_books (s s' : attackService) (hinv : s.Inv) (h1 : s'.attacks = s.attacks)
    (h2 : s'.attackSeq = s.attackSeq) (h3 : s'.incrementSeqs = s.incrementSeqs) : s'.Inv := by
  unfold attackService.Inv at *
  rw [h1, h2, h3]
  exact hinv

theorem Inv_delete (s s' : attackService) (k : Int) (hinv : s.Inv)
    (h1 : s'.attacks = s.attacks.delete k)
    (h2 : s'.attackSeq = s.attackSeq) (h3 : s'.incrementSeqs = s.incrementSeqs) : s'.Inv := by
  apply Inv_step s s' hinv
  · rw [h1]; exact GoMap.WF_delete hinv.1 k
  · rw [h2]
  · intro k'; rw [h3]
  · intro e he
    rw [h1] at he
    exact Or.inl ⟨e, (List.mem_filter.1 he).1, rfl, rfl, List.Sublist.refl _⟩

theorem StartAttack_books (s : attackService) (start : LoadGen.StartAttack) (now : Nat)
    (ids : String → String) (ch : Choices) (o : Outcome AttackDetails)
    (h : s.StartAttack start now ids ch = some o) :
    (∀ err, o.ret = Ret.fail err → o.state = s) ∧
    (∀ d, o.ret = Ret.ok d → d.ID = s.attackSeq ∧ o.state.attackSeq = s.attackSeq + 1 ∧
      (∀ k, s.incrementSeqs.getD k 0 ≤ o.state.incrementSeqs.getD k 0) ∧
      (s.Inv → o.state.Inv)) := by
  constructor
  · intro err herr
    unfold attackService.StartAttack at h
    cases hm : mapStartAttackToOperationStart start s.attackSeq 0 with
    | none => rw [hm] at h; cases h
    | some op =>
      rw [hm] at h
      dsimp only at h
      cases hd : distributeStart s op ids ch with
      | none => rw [hd] at h; cases h
      | some r =>
        obtain ⟨e, scenarios, s', effects⟩ := r
        rw [hd] at h
        cases e with
        | none =>
          simp only [Option.some.injEq] at h
          subst h
          cases herr
        | some e' =>
          simp only [Option.some.injEq] at h
          subst h
          exact (distributeStart_error _ _ _ _ _ _ _ _ hd).2.1
  · intro d hd
    obtain ⟨op, scenarios, s', effects, hm, hdis, hdet, hst, -⟩ :=
      StartAttack_success_shape s start now ids ch o d h hd
    obtain ⟨hid, hinc0, -⟩ := mapStart_ids start s.attackSeq 0 op hm
    obtain ⟨hfr, -, -⟩ := distributeStart_frame _ _ _ _ _ _ _ _ hdis
    have hseq' : o.state.attackSeq = s.attackSeq + 1 := by rw [hst, hfr]
    have hincs : o.state.incrementSeqs
        = s.incrementSeqs.set s.attackSeq (s.incrementSeqs.getD s.attackSeq 0 + 1) := by
      rw [hst, hfr, hid]
    have hatts : o.state.attacks = s.attacks.set s.attackSeq { details := d, stopBr := s.attackSeq } := by
      rw [hst, hfr, hid]
    have hmono : ∀ k, s.incrementSeqs.getD k 0 ≤ o.state.incrementSeqs.getD k 0 := by
      intro k
      rw [hincs]
      by_cases hk : k = s.attackSeq
      · rw [hk, getD_set_self]; omega
      · rw [getD_set_ne _ _ _ _ _ hk]
    refine ⟨by rw [hdet, hid], hseq', hmono, fun hinv => ?_⟩
    apply Inv_step s o.state hinv
    · rw [hatts]; exact GoMap.WF_set hinv.1 _ _
    · rw [hseq']; omega
    · exact hmono
    · intro e he
      rw [hatts] at he
      rcases mem_set _ _ _ _ he with h' | h'
      · refine Or.inr ?_
        rw [h', hseq', hincs]
        dsimp only
        rw [getD_set_self, hdet]
        dsimp only
        refine ⟨hid, by omega, by simp, fun inc hinc' => ?_⟩
        simp only [List.mem_singleton] at hinc'
        rw [hinc', hinc0]
        have := hinv.2.2 s.attackSeq
        dsimp only
        omega
      · exact Or.inl ⟨e, h', rfl, rfl, List.Sublist.refl _⟩

theorem StartIncrement_books (s : attackService) (start : OperationStart)
    (ids : String → String) (ch : Choices) (o : Outcome IncrementDetails)
    (h : s.StartIncrement start ids ch = some o) :
    o.state.attackSeq = s.attackSeq ∧
    (∀ k, s.incrementSeqs.getD k 0 ≤ o.state.incrementSeqs.getD k 0) ∧
    (s.Inv → o.state.Inv) := by
  cases ha : s.attacks.get? start.AttackID with
  | none =>
    have := (StartIncrement_attacks s start ids ch o h).1 ha
    subst this
    exact ⟨rfl, fun k => le_refl _, fun hinv => hinv⟩
  | some a =>
    cases hr : o.ret with
    | fail err =>
      unfold attackService.StartIncrement at h
      rw [ha] at h
      dsimp only at h
      cases hd : distributeStart s
          { start with AttackID := a.details.ID,
                       IncrementID := s.incrementSeqs.getD a.details.ID 0,
                       WaitTimeSec := a.details.WaitTimeSec } ids ch with
      | none => rw [hd] at h; cases h
      | some r =>
        obtain ⟨e, scenarios, s', effects⟩ := r
        rw [hd] at h
        cases e with
        | some err' =>
          simp only [Option.some.injEq] at h
          subst h
          obtain ⟨-, h2, -⟩ := distributeStart_error _ _ _ _ _ _ _ _ hd
          subst h2
          exact ⟨rfl, fun k => le_refl _, fun hinv => hinv⟩
        | none =>
          simp only [Option.some.injEq] at h
          subst h
          cases hr
    | ok inc =>
      unfold attackService.StartIncrement at h
      rw [ha] at h
      dsimp only at h
      cases hd : distributeStart s
          { start with AttackID := a.details.ID,
                       IncrementID := s.incrementSeqs.getD a.details.ID 0,
                       WaitTimeSec := a.details.WaitTimeSec } ids ch with
      | none => rw [hd] at h; cases h
      | some r =>
        obtain ⟨e, scenarios, s', effects⟩ := r
        rw [hd] at h
        obtain ⟨hfr, -, -⟩ := distributeStart_frame _ _ _ _ _ _ _ _ hd
        cases e with
        | some err' =>
          simp only [Option.some.injEq] at h
          subst h
          cases hr
        | none =>
          simp only [Option.some.injEq] at h
          subst h
          dsimp only
          have hmono : ∀ k, s.incrementSeqs.getD k 0
              ≤ (s'.incrementSeqs.set a.details.ID
                  (s'.incrementSeqs.getD a.details.ID 0 + 1)).getD k 0 := by
            intro k
            rw [hfr]
            dsimp only
            by_cases hk : k = a.details.ID
            · rw [hk, getD_set_self]; omega
            · rw [getD_set_ne _ _ _ _ _ hk]
          refine ⟨by rw [hfr], hmono, fun hinv => ?_⟩
          have hmem := GoMap.mem_of_get? ha
          obtain ⟨i1, i2, i3, i4⟩ := hinv.2.1 _ hmem
          dsimp only at i1 i2 i3 i4
          apply Inv_step s _ hinv
          · dsimp only
            rw [hfr]
            exact GoMap.WF_set hinv.1 _ _
          · dsimp only
            rw [hfr]
          · exact hmono
          · intro e he
            dsimp only at he
            rw [hfr] at he
            rcases mem_set _ _ _ _ he with h' | h'
            · refine Or.inr ?_
              rw [h']
              dsimp only
              rw [hfr]
              dsimp only
              rw [getD_set_self, i1]
              refine ⟨rfl, i2, ?_, fun inc hinc' => ?_⟩
              · rw [List.map_append, List.nodup_append]
                refine ⟨i3, by simp, ?_⟩
                intro x hx1 hx2
                simp only [List.map_cons, List.map_nil, List.mem_singleton] at hx2
                obtain ⟨inc₀, hinc₀, rfl⟩ := List.mem_map.1 hx1
                have := i4 inc₀ hinc₀
                rw [hx2] at this
                omega
              · rcases List.mem_append.1 hinc' with h₁ | h₁
                · have := i4 inc h₁
                  omega
                · simp only [List.mem_singleton] at h₁
                  rw [h₁]
                  dsimp only
                  omega
            · exact Or.inl ⟨e, h', rfl, rfl, List.Sublist.refl _⟩

theorem StopAttack_books (s : attackService) (attackID : Int) (order : List Nat) :
    (s.StopAttack attackID order).state.attackSeq = s.attackSeq ∧
    (s.StopAttack attackID order).state.incrementSeqs = s.incrementSeqs ∧
    (s.Inv → (s.StopAttack attackID order).state.Inv) := by
  obtain ⟨hf1, -⟩ := distributeStop_frame s { AttackID := attackID, IncrementID := none } order
  unfold attackService.StopAttack
  cases ha : s.attacks.get? attackID with
  | none => exact ⟨rfl, rfl, fun hinv => hinv⟩
  | some a =>
    dsimp only
    refine ⟨by rw [hf1], by rw [hf1], fun hinv => ?_⟩
    exact Inv_delete s _ attackID hinv (by dsimp only; rw [hf1]) (by dsimp only; rw [hf1])
      (by dsimp only; rw [hf1])

theorem stopIncrement_books (s : attackService) (attackID incrementID : Int)
    (order : List Nat) :
    (s.stopIncrement attackID incrementID order).state.attackSeq = s.attackSeq ∧
    (s.stopIncrement attackID incrementID order).state.incrementSeqs = s.incrementSeqs ∧
    (s.Inv → (s.stopIncrement attackID incrementID order).state.Inv) := by
  obtain ⟨hf1, -⟩ :=
    distributeStop_frame s { AttackID := attackID, IncrementID := some incrementID } order
  unfold stopIncrement
  cases ha : s.attacks.get? attackID with
  | none => exact ⟨rfl, rfl, fun hinv => hinv⟩
  | some a =>
    dsimp only
    cases hp : (incrementPositions a.details.Increments 0 []).get? incrementID with
    | none => exact ⟨rfl, rfl, fun hinv => hinv⟩
    | some i =>
      dsimp only
      by_cases hlen : a.details.Increments.length > 1
      · rw [if_pos hlen]
        refine ⟨by rw [hf1], by rw [hf1], fun hinv => ?_⟩
        apply Inv_step s _ hinv
        · dsimp only
          rw [hf1]
          exact GoMap.WF_set hinv.1 _ _
        · dsimp only
          rw [hf1]
        · intro k
          dsimp only
          rw [hf1]
        · intro e he
          dsimp only at he
          rw [hf1] at he
          rcases mem_set _ _ _ _ he with h' | h'
          · refine Or.inl ⟨(attackID, a), GoMap.mem_of_get? ha, by rw [h'], by rw [h'], ?_⟩
            rw [h']
            exact List.eraseIdx_sublist _ _
          · exact Or.inl ⟨e, h', rfl, rfl, List.Sublist.refl _⟩
      · rw [if_neg hlen]
        refine ⟨by rw [hf1], by rw [hf1], fun hinv => ?_⟩
        exact Inv_delete s _ attackID hinv (by dsimp only; rw [hf1]) (by dsimp only; rw [hf1])
          (by dsimp only; rw [hf1])

theorem retrieveOperations_books (s s' : attackService) (nodeName : String)
    (mirrorOrder : List Nat) (ops : List OperationStart) (effects : List Effect)
    (h : retrieveOperations s nodeName mirrorOrder = some (ops, s', effects)) :
    s'.attacks = s.attacks ∧ s'.attackSeq = s.attackSeq ∧ s'.incrementSeqs = s.incrementSeqs ∧
    dispatched effects = [] := by
  unfold retrieveOperations at h
  cases hn : s.nodes.get? nodeName with
  | none =>
    rw [hn] at h
    simp only [Option.some.injEq, Prod.mk.injEq] at h
    obtain ⟨-, h2, h3⟩ := h
    subst h2 h3
    exact ⟨rfl, rfl, rfl, rfl⟩
  | some n =>
    rw [hn] at h
    dsimp only at h
    cases hc : s.removingCancels.get? nodeName with
    | none => rw [hc] at h; cases h
    | some cancel =>
      rw [hc] at h
      dsimp only at h
      split at h
      · cases h
      · simp only [Option.some.injEq, Prod.mk.injEq] at h
        obtain ⟨-, h2, h3⟩ := h
        subst h2 h3
        exact ⟨rfl, rfl, rfl, rfl⟩

theorem replayLoop_books (ops : List OperationStart) (stopOrders : List (List Nat)) (n : node)
    (s : attackService) :
    (replayLoop ops stopOrders n s).2.1.attackSeq = s.attackSeq ∧
    (replayLoop ops stopOrders n s).2.1.incrementSeqs = s.incrementSeqs ∧
    (s.Inv → (replayLoop ops stopOrders n s).2.1.Inv) := by
  induction ops generalizing stopOrders n s with
  | nil => exact ⟨rfl, rfl, fun h => h⟩
  | cons op rest ih =>
    simp only [replayLoop]
    split
    · obtain ⟨h1, h2, h3⟩ := stopIncrement_books s op.AttackID op.IncrementID (stopOrders.headD [])
      obtain ⟨i1, i2, i3⟩ := ih stopOrders.tail (n.StartAttack op).1
        (s.stopIncrement op.AttackID op.IncrementID (stopOrders.headD [])).state
      exact ⟨i1.trans h1, i2.trans h2, fun hinv => i3 (h3 hinv)⟩
    · exact ih stopOrders (n.StartAttack op).1 s

theorem AddNode_books (s : attackService) (n : node) (mirrorOrder : List Nat)
    (stopOrders : List (List Nat)) (o : Outcome Unit)
    (h : s.AddNode n mirrorOrder stopOrders = some o) :
    o.state.attackSeq = s.attackSeq ∧ o.state.incrementSeqs = s.incrementSeqs ∧
    (s.Inv → o.state.Inv) := by
  unfold attackService.AddNode at h
  dsimp only at h
  split at h
  · simp only [Option.some.injEq] at h
    subst h
    exact ⟨rfl, rfl, fun hinv => hinv⟩
  · cases hr : retrieveOperations s (n.GetDetails [] []).Name mirrorOrder with
    | none => rw [hr] at h; cases h
    | some r =>
      obtain ⟨ops, s₁, fx⟩ := r
      rw [hr] at h
      simp only [Option.some.injEq] at h
      subst h
      obtain ⟨h1, h2, h3, -⟩ := retrieveOperations_books _ _ _ _ _ _ hr
      obtain ⟨i1, i2, i3⟩ := replayLoop_books ops stopOrders n s₁
      refine ⟨i1.trans h2, i2.trans h3, fun hinv => ?_⟩
      exact Inv_of_books _ _ (i3 (Inv_of_books s s₁ hinv h1 h2 h3)) rfl rfl rfl

theorem redistributeLoop_books (ops : List OperationStart) (ids : List (String → String))
    (chs : List Choices) (stopOrders : List (List Nat)) (s s' : attackService)
    (effects : List Effect)
    (h : redistributeLoop ops ids chs stopOrders s = some (s', effects)) :
    s'.attackSeq = s.attackSeq ∧ s'.incrementSeqs = s.incrementSeqs ∧ (s.Inv → s'.Inv) := by
  induction ops generalizing ids chs stopOrders s effects with
  | nil =>
    simp only [redistributeLoop, Option.some.injEq, Prod.mk.injEq] at h
    rw [← h.1]
    exact ⟨rfl, rfl, fun hinv => hinv⟩
  | cons op rest ih =>
    simp only [redistributeLoop] at h
    cases hd : distributeStart s op (ids.headD (fun _ => ""))
        (chs.headD { validate := [], scenarios := [], nodesFor := fun _ => [], dispatch := [] }) with
    | none => rw [hd] at h; cases h
    | some r =>
      obtain ⟨e, scenarios, s₁, fx⟩ := r
      rw [hd] at h
      obtain ⟨hfr, -, -⟩ := distributeStart_frame _ _ _ _ _ _ _ _ hd
      have b1 : s₁.attacks = s.attacks := by rw [hfr]
      have b2 : s₁.attackSeq = s.attackSeq := by rw [hfr]
      have b3 : s₁.incrementSeqs = s.incrementSeqs := by rw [hfr]
      cases e with
      | some err =>
        dsimp only at h
        cases hrest : redistributeLoop rest ids.tail chs.tail stopOrders.tail
            (s₁.stopIncrement op.AttackID op.IncrementID (stopOrders.headD [])).state with
        | none => rw [hrest] at h; cases h
        | some r' =>
          obtain ⟨s₂, more⟩ := r'
          rw [hrest] at h
          simp only [Option.some.injEq, Prod.mk.injEq] at h
          obtain ⟨hs, -⟩ := h
          subst hs
          obtain ⟨i1, i2, i3⟩ := ih _ _ _ _ _ hrest
          obtain ⟨h1, h2, h3⟩ :=
            stopIncrement_books s₁ op.AttackID op.IncrementID (stopOrders.headD [])
          exact ⟨(i1.trans h1).trans b2, (i2.trans h2).trans b3,
            fun hinv => i3 (h3 (Inv_of_books s s₁ hinv b1 b2 b3))⟩
      | none =>
        dsimp only at h
        cases hrest : redistributeLoop rest ids.tail chs.tail stopOrders s₁ with
        | none => rw [hrest] at h; cases h
        | some r' =>
          obtain ⟨s₂, more⟩ := r'
          rw [hrest] at h
          simp only [Option.some.injEq, Prod.mk.injEq] at h
          obtain ⟨hs, -⟩ := h
          subst hs
          obtain ⟨i1, i2, i3⟩ := ih _ _ _ _ _ hrest
          exact ⟨i1.trans b2, i2.trans b3, fun hinv => i3 (Inv_of_books s s₁ hinv b1 b2 b3)⟩

theorem removingTimerFired_books (s s' : attackService) (nodeName : String)
    (mirrorOrder : List Nat) (ids : List (String → String)) (chs : List Choices)
    (stopOrders : List (List Nat)) (effects : List Effect)
    (h : s.removingTimerFired nodeName mirrorOrder ids chs stopOrders = some (s', effects)) :
    s'.attackSeq = s.attackSeq ∧ s'.incrementSeqs = s.incrementSeqs ∧ (s.Inv → s'.Inv) := by
  unfold removingTimerFired at h
  cases hr : retrieveOperations s nodeName mirrorOrder with
  | none => rw [hr] at h; cases h
  | some r =>
    obtain ⟨ops, s₁, fx⟩ := r
    rw [hr] at h
    dsimp only at h
    cases hl : redistributeLoop ops ids chs stopOrders s₁ with
    | none => rw [hl] at h; cases h
    | some r' =>
      obtain ⟨s₂, more⟩ := r'
      rw [hl] at h
      simp only [Option.some.injEq, Prod.mk.injEq] at h
      obtain ⟨hs, -⟩ := h
      subst hs
      obtain ⟨h1, h2, h3, -⟩ := retrieveOperations_books _ _ _ _ _ _ hr
      obtain ⟨i1, i2, i3⟩ := redistributeLoop_books _ _ _ _ _ _ _ hl
      exact ⟨i1.trans h2, i2.trans h3, fun hinv => i3 (Inv_of_books s s₁ hinv h1 h2 h3)⟩

theorem step_books (sys sys' : System) (a : Action) (effects : List Effect)
    (h : sys.step a = some (sys', effects)) :
    sys.svc.Grows sys'.svc ∧ (sys.svc.Inv → sys'.svc.Inv) ∧
    (∀ id, returnedAttackID sys a = some id →
      id = sys.svc.attackSeq ∧ sys'.svc.attackSeq = sys.svc.attackSeq + 1) := by
  have same : ∀ s s' : attackService, s'.attackSeq = s.attackSeq →
      s'.incrementSeqs = s.incrementSeqs → s.Grows s' := by
    intro s s' h1 h2
    exact ⟨by rw [h1], fun k => by rw [h2]⟩
  cases a with
  | startAttack start now ids ch =>
    simp only [System.step, Option.map_eq_some'] at h
    obtain ⟨o, ho, hsys⟩ := h
    simp only [Prod.mk.injEq] at hsys
    obtain ⟨hs, -⟩ := hsys
    subst hs
    obtain ⟨h1, h2⟩ := StartAttack_books _ _ _ _ _ _ ho
    cases hr : o.ret with
    | fail err =>
      have := h1 err hr
      refine ⟨by dsimp only; rw [this]; exact ⟨le_refl _, fun k => le_refl _⟩,
        fun hinv => by dsimp only; rw [this]; exact hinv, fun id hid => ?_⟩
      simp [returnedAttackID, ho, hr] at hid
    | ok d =>
      obtain ⟨i1, i2, i3, i4⟩ := h2 d hr
      refine ⟨⟨by dsimp only; omega, i3⟩, i4, fun id hid => ?_⟩
      simp only [returnedAttackID, ho, hr, Option.some.injEq] at hid
      exact ⟨by rw [← hid, i1], i2⟩
  | startIncrement start ids ch =>
    simp only [System.step, Option.map_eq_some'] at h
    obtain ⟨o, ho, hsys⟩ := h
    simp only [Prod.mk.injEq] at hsys
    obtain ⟨hs, -⟩ := hsys
    subst hs
    obtain ⟨h1, h2, h3⟩ := StartIncrement_books _ _ _ _ _ ho
    exact ⟨⟨by dsimp only; omega, h2⟩, h3, fun id hid => by simp [returnedAttackID] at hid⟩
  | stopAttack attackID order =>
    simp only [System.step, Option.some.injEq, Prod.mk.injEq] at h
    obtain ⟨hs, -⟩ := h
    subst hs
    obtain ⟨h1, h2, h3⟩ := StopAttack_books sys.svc attackID order
    exact ⟨same _ _ h1 h2, h3, fun id hid => by simp [returnedAttackID] at hid⟩
  | stopIncrement attackID incrementID order =>
    simp only [System.step, Option.some.injEq, Prod.mk.injEq] at h
    obtain ⟨hs, -⟩ := h
    subst hs
    obtain ⟨h1, h2, h3⟩ := stopIncrement_books sys.svc attackID incrementID order
    exact ⟨same _ _ h1 h2, h3, fun id hid => by simp [returnedAttackID] at hid⟩
  | connect nodeName scenarios mirrorOrder stopOrders =>
    simp only [System.step, Option.map_eq_some'] at h
    obtain ⟨o, ho, hsys⟩ := h
    simp only [Prod.mk.injEq] at hsys
    obtain ⟨hs, -⟩ := hsys
    subst hs
    obtain ⟨h1, h2, h3⟩ := AddNode_books _ _ _ _ _ ho
    exact ⟨same _ _ h1 h2, h3, fun id hid => by simp [returnedAttackID] at hid⟩
  | disconnect nodeName =>
    simp only [System.step, Option.some.injEq, Prod.mk.injEq] at h
    obtain ⟨hs, -⟩ := h
    subst hs
    exact ⟨same _ _ rfl rfl, fun hinv => Inv_of_books _ _ hinv rfl rfl rfl,
      fun id hid => by simp [returnedAttackID] at hid⟩
  | timerFired i mirrorOrder ids chs stopOrders =>
    simp only [System.step] at h
    cases ht : sys.timers.get? i with
    | none => rw [ht] at h; cases h
    | some t =>
      rw [ht] at h
      dsimp only at h
      split at h
      · cases h
      · simp only [Option.map_eq_some'] at h
        obtain ⟨r, hr, hsys⟩ := h
        simp only [Prod.mk.injEq] at hsys
        obtain ⟨hs, -⟩ := hsys
        subst hs
        obtain ⟨h1, h2, h3⟩ := removingTimerFired_books _ _ _ _ _ _ _ _ hr
        exact ⟨same _ _ h1 h2, h3, fun id hid => by simp [returnedAttackID] at hid⟩
  | timerDone i =>
    simp only [System.step] at h
    cases ht : sys.timers.get? i with
    | none => rw [ht] at h; cases h
    | some t =>
      rw [ht] at h
      dsimp only at h
      split at h
      · simp only [Option.some.injEq, Prod.mk.injEq] at h
        obtain ⟨hs, -⟩ := h
        subst hs
        exact ⟨same _ _ rfl rfl, fun hinv => Inv_of_books _ _ hinv rfl rfl rfl,
          fun id hid => by simp [returnedAttackID] at hid⟩
      · cases h
  | nodeDequeue nodeName =>
    simp only [System.step] at h
    cases hn : sys.svc.nodes.get? nodeName with
    | none => rw [hn] at h; cases h
    | some n =>
      rw [hn] at h
      simp only [Option.some.injEq, Prod.mk.injEq] at h
      obtain ⟨hs, -⟩ := h
      subst hs
      exact ⟨same _ _ rfl rfl, fun hinv => Inv_of_books _ _ hinv rfl rfl rfl,
        fun id hid => by simp [returnedAttackID] at hid⟩
  | nodeStopped nodeName =>
    simp only [System.step] at h
    cases hn : sys.svc.nodes.get? nodeName with
    | none => rw [hn] at h; cases h
    | some n =>
      rw [hn] at h
      simp only [Option.some.injEq, Prod.mk.injEq] at h
      obtain ⟨hs, -⟩ := h
      subst hs
      exact ⟨same _ _ rfl rfl, fun hinv => Inv_of_books _ _ hinv rfl rfl rfl,
        fun id hid => by simp [returnedAttackID] at hid⟩

theorem Inv_init (recoveryIntervalSec : Int) : (System.init recoveryIntervalSec).svc.Inv := by
  refine ⟨by simp [System.init, NewService, GoMap.WF], fun e he => ?_, fun k => ?_⟩
  · simp [System.init, NewService] at he
  · simp [System.init, NewService, GoMap.getD, GoMap.get?]

theorem run_books (sys sys' : System) (actions : List Action) (effects : List (List Effect))
    (h : sys.run actions = some (sys', effects)) :
    sys.svc.Grows sys'.svc ∧ (sys.svc.Inv → sys'.svc.Inv) := by
  induction actions generalizing sys effects with
  | nil =>
    simp only [System.run, Option.some.injEq, Prod.mk.injEq] at h
    rw [← h.1]
    exact ⟨⟨le_refl _, fun k => le_refl _⟩, fun hinv => hinv⟩
  | cons a rest ih =>
    simp only [System.run] at h
    cases hs : sys.step a with
    | none => rw [hs] at h; cases h
    | some r =>
      obtain ⟨sys₁, fx⟩ := r
      rw [hs] at h
      dsimp only at h
      cases hr : sys₁.run rest with
      | none => rw [hr] at h; cases h
      | some r' =>
        obtain ⟨sys₂, more⟩ := r'
        rw [hr] at h
        simp only [Option.some.injEq, Prod.mk.injEq] at h
        obtain ⟨hsys, -⟩ := h
        subst hsys
        obtain ⟨⟨g1, g2⟩, hinv1, -⟩ := step_books sys sys₁ a fx hs
        obtain ⟨⟨g3, g4⟩, hinv2⟩ := ih sys₁ more hr
        exact ⟨⟨le_trans g1 g3, fun k => le_trans (g2 k) (g4 k)⟩, fun hinv => hinv2 (hinv1 hinv)⟩

theorem returnedAttackIDs_sorted (sys : System) (actions : List Action) :
    (returnedAttackIDs sys actions).Pairwise (fun a b => a < b) ∧
    ∀ id ∈ returnedAttackIDs sys actions, sys.svc.attackSeq ≤ id := by
  induction actions generalizing sys with
  | nil => simp [returnedAttackIDs]
  | cons a rest ih =>
    simp only [returnedAttackIDs]
    cases hs : sys.step a with
    | none => simp
    | some r =>
      obtain ⟨sys₁, fx⟩ := r
      dsimp only
      obtain ⟨⟨g1, -⟩, -, hret⟩ := step_books sys sys₁ a fx hs
      obtain ⟨i1, i2⟩ := ih sys₁
      cases hid : returnedAttackID sys a with
      | none =>
        dsimp only
        exact ⟨i1, fun id hmem => le_trans g1 (i2 id hmem)⟩
      | some id =>
        dsimp only
        obtain ⟨e1, e2⟩ := hret id hid
        refine ⟨List.pairwise_cons.2 ⟨fun b hb => ?_, i1⟩, fun b hb => ?_⟩
        · have := i2 b hb
          omega
        · rcases List.mem_cons.1 hb with h' | h'
          · omega
          · have := i2 b h'
            omega

/-- C6. In every state the manager can reach: live attacks have pairwise
distinct ids, each recorded under its own id, below `attackSeq`; the
increments of a live attack have pairwise distinct ids, below the attack's
entry of `incrementSeqs`.  From there on, whatever the manager does,
`attackSeq` and every entry of `incrementSeqs` never decrease, and the ids
returned by the successful `StartAttack` calls are strictly increasing, at
least the current `attackSeq` and so greater than the id of every attack
started before, stopped or not. -/
theorem reachable_ids (sys : System) (hreach : sys.Reachable) :
    GoMap.WF sys.svc.attacks ∧
    (∀ e ∈ sys.svc.attacks,
      e.2.details.ID = e.1 ∧ e.1 < sys.svc.attackSeq ∧
      (e.2.details.Increments.map (fun inc => inc.ID)).Nodup ∧
      ∀ inc ∈ e.2.details.Increments, inc.ID < sys.svc.incrementSeqs.getD e.1 0) ∧
    (∀ actions sys' effects, sys.run actions = some (sys', effects) →
      sys.svc.attackSeq ≤ sys'.svc.attackSeq ∧
      ∀ k, sys.svc.incrementSeqs.getD k 0 ≤ sys'.svc.incrementSeqs.getD k 0) ∧
    (∀ actions,
      (returnedAttackIDs sys actions).Pairwise (fun a b => a < b) ∧
      ∀ id ∈ returnedAttackIDs sys actions,
        sys.svc.attackSeq ≤ id ∧ ∀ e ∈ sys.svc.attacks, e.1 < id) := by
  obtain ⟨r, actions₀, effects₀, hrun⟩ := hreach
  have hinv : sys.svc.Inv := (run_books _ _ _ _ hrun).2 (Inv_init r)
  refine ⟨hinv.1, hinv.2.1, fun actions sys' effects h => (run_books _ _ _ _ h).1,
    fun actions => ⟨(returnedAttackIDs_sorted sys actions).1, fun id hid => ?_⟩⟩
  have hge := (returnedAttackIDs_sorted sys actions).2 id hid
  exact ⟨hge, fun e he => lt_of_lt_of_le (hinv.2.1 e he).2.1 hge⟩

/-- C6 on a concrete run: two attacks are started, the first is stopped in
between; the ids returned are 0 and 1. -/
theorem reachable_ids_witness :
    (System.init 60).Reachable ∧
    returnedAttackIDs (System.init 60) demoActions = [0, 1] ∧
    (returnedAttackIDs (System.init 60) demoActions).Pairwise (fun a b => a < b) :=
  ⟨⟨60, [], [], rfl⟩, by rfl,
    ((reachable_ids (System.init 60) ⟨60, [], [], rfl⟩).2.2.2 demoActions).1⟩

/-! ## The mirrors of the node controllers -/

theorem updateMirror_mem (n : node) (op : OperationStart) (x : Int × AttackDetails)
    (hx : x ∈ node.updateMirror n op) :
    x ∈ n.attacks ∨ (x.1 = op.AttackID ∧
      (x.2.ID = op.AttackID ∨ ∃ a, n.attacks.get? op.AttackID = some a ∧ x.2.ID = a.ID)) := by
  unfold node.updateMirror at hx
  dsimp only at hx
  cases hg : n.attacks.get? op.AttackID with
  | none =>
    rw [hg] at hx
    dsimp only at hx
    rcases mem_set _ _ _ _ hx with h | h
    · exact Or.inr ⟨by rw [h], Or.inl (by rw [h])⟩
    · exact Or.inl h
  | some a =>
    rw [hg] at hx
    dsimp only at hx
    cases hadd : node.addToIncrement op.IncrementID op.Scenarios a.Increments with
    | none =>
      rw [hadd] at hx
      dsimp only at hx
      rcases mem_set _ _ _ _ hx with h | h
      · exact Or.inr ⟨by rw [h], Or.inr ⟨a, rfl, by rw [h]⟩⟩
      · exact Or.inl h
    | some incs =>
      rw [hadd] at hx
      dsimp only at hx
      rcases mem_set _ _ _ _ hx with h | h
      · exact Or.inr ⟨by rw [h], Or.inr ⟨a, rfl, by rw [h]⟩⟩
      · exact Or.inl h

theorem StartAttack_attacks (n : node) (op : OperationStart) :
    (n.StartAttack op).1.attacks = node.updateMirror n op := by
  unfold node.StartAttack
  dsimp only
  split <;> rfl

theorem StartAttack_mirrorOK (n : node) (op : OperationStart) (h : n.mirrorOK) :
    (n.StartAttack op).1.mirrorOK := by
  intro x hx
  rw [StartAttack_attacks] at hx
  rcases updateMirror_mem n op x hx with h1 | ⟨h1, h2 | ⟨a, ha, h2⟩⟩
  · exact h x h1
  · rw [h1, h2]
  · rw [h1, h2]
    exact h _ (GoMap.mem_of_get? ha)

theorem StartAttack_keys (n : node) (op : OperationStart) (k : Int)
    (hk : k ∈ GoMap.keys (n.StartAttack op).1.attacks) :
    k = op.AttackID ∨ k ∈ GoMap.keys n.attacks := by
  rw [StartAttack_attacks] at hk
  obtain ⟨x, hx, rfl⟩ := List.mem_map.1 hk
  rcases updateMirror_mem n op x hx with h1 | ⟨h1, -⟩
  · exact Or.inr (List.mem_map_of_mem _ h1)
  · exact Or.inl h1

theorem StopAttack_mem (n : node) (stop : OperationStop) (x : Int × AttackDetails)
    (hx : x ∈ (n.StopAttack stop).1.attacks) :
    x ∈ n.attacks ∨ (x.1 = stop.AttackID ∧ ∃ a, n.attacks.get? stop.AttackID = some a ∧
      x.2.ID = a.ID) := by
  unfold node.StopAttack at hx
  cases hg : n.attacks.get? stop.AttackID with
  | none =>
    rw [hg] at hx
    exact Or.inl hx
  | some a =>
    rw [hg] at hx
    dsimp only at hx
    cases hi : stop.IncrementID with
    | none =>
      rw [hi] at hx
      dsimp only at hx
      exact Or.inl (List.mem_filter.1 hx).1
    | some incrementID =>
      rw [hi] at hx
      dsimp only at hx
      cases hf : node.findIncrement incrementID a.Increments with
      | none =>
        rw [hf] at hx
        exact Or.inl hx
      | some i =>
        rw [hf] at hx
        dsimp only at hx
        split at hx
        · dsimp only at hx
          rcases mem_set _ _ _ _ hx with h | h
          · exact Or.inr ⟨by rw [h], a, rfl, by rw [h]⟩
          · exact Or.inl h
        · dsimp only at hx
          exact Or.inl (List.mem_filter.1 hx).1

theorem StopAttack_mirrorOK (n : node) (stop : OperationStop) (h : n.mirrorOK) :
    (n.StopAttack stop).1.mirrorOK := by
  intro x hx
  rcases StopAttack_mem n stop x hx with h1 | ⟨h1, a, ha, h2⟩
  · exact h x h1
  · rw [h1, h2]
    exact h _ (GoMap.mem_of_get? ha)

theorem StopAttack_keys (n : node) (stop : OperationStop) (k : Int)
    (hk : k ∈ GoMap.keys (n.StopAttack stop).1.attacks) : k ∈ GoMap.keys n.attacks := by
  obtain ⟨x, hx, rfl⟩ := List.mem_map.1 hk
  rcases StopAttack_mem n stop x hx with h1 | ⟨h1, a, ha, -⟩
  · exact List.mem_map_of_mem _ h1
  · rw [h1]
    by_contra hcon
    rw [(GoMap.get?_eq_none_iff _ _).2 hcon] at ha
    cases ha

theorem StopAttack_whole_removes (n : node) (attackID : Int) :
    attackID ∉ GoMap.keys (n.StopAttack { AttackID := attackID, IncrementID := none }).1.attacks := by
  unfold node.StopAttack
  dsimp only
  cases hg : n.attacks.get? attackID with
  | none => exact (GoMap.get?_eq_none_iff _ _).1 hg
  | some a =>
    dsimp only
    rw [GoMap.mem_keys_delete]
    exact fun h => h.1 rfl

theorem closed_mirrorOK : Closed (fun n => n.mirrorOK) (fun _ => True) := by
  refine ⟨fun n op h _ => StartAttack_mirrorOK n op h, fun n stop h => StopAttack_mirrorOK n stop h,
    fun n n' he h => ?_, fun _ _ _ _ => trivial, fun n he => ?_⟩
  · intro x hx
    rw [he] at hx
    exact h x hx
  · intro x hx
    rw [he] at hx
    simp at hx

theorem closed_over (id : Int) :
    Closed (fun n => n.mirrorOK ∧ id ∉ GoMap.keys n.attacks) (fun k => k ≠ id) := by
  refine ⟨fun n op h hop => ⟨StartAttack_mirrorOK n op h.1, fun hk => ?_⟩,
    fun n stop h => ⟨StopAttack_mirrorOK n stop h.1, fun hk => h.2 (StopAttack_keys n stop id hk)⟩,
    fun n n' he h => ?_, fun n h x hx => ?_, fun n he => ?_⟩
  · rcases StartAttack_keys n op id hk with h1 | h1
    · exact hop h1.symm
    · exact h.2 h1
  · refine ⟨fun x hx => ?_, ?_⟩
    · rw [he] at hx
      exact h.1 x hx
    · rw [he]
      exact h.2
  · intro hid
    apply h.2
    rw [← hid, h.1 x hx]
    exact List.mem_map_of_mem _ hx
  · refine ⟨fun x hx => ?_, ?_⟩
    · rw [he] at hx
      simp at hx
    · rw [he]
      simp [GoMap.keys]

/-! ## Properties of the nodes kept by the service -/

theorem dispatchLoop_nodes (P : node → Prop) (B : Int → Prop) (hc : Closed P B)
    (D : List (String × OperationStart)) (nodes nodes' : GoMap String node)
    (effects : List Effect) (h : dispatchLoop D nodes = some (nodes', effects))
    (hD : ∀ e ∈ D, B e.2.AttackID) (hwf : GoMap.WF nodes) (hP : ∀ e ∈ nodes, P e.2) :
    GoMap.WF nodes' ∧ ∀ e ∈ nodes', P e.2 := by
  induction D generalizing nodes effects with
  | nil =>
    simp only [dispatchLoop, Option.some.injEq, Prod.mk.injEq] at h
    rw [← h.1]
    exact ⟨hwf, hP⟩
  | cons e rest ih =>
    obtain ⟨nodeName, operation⟩ := e
    have hD' : ∀ e ∈ rest, B e.2.AttackID := fun e he => hD e (List.mem_cons_of_mem _ he)
    by_cases hlen : operation.Scenarios.length ≠ 0
    · simp only [dispatchLoop, hlen, if_true, ne_eq, not_false_eq_true] at h
      cases hg : nodes.get? nodeName with
      | none => rw [hg] at h; cases h
      | some n =>
        rw [hg] at h
        dsimp only at h
        cases hr : dispatchLoop rest (nodes.set nodeName (n.StartAttack operation).1) with
        | none => rw [hr] at h; cases h
        | some r =>
          obtain ⟨nodes₁, fx⟩ := r
          rw [hr] at h
          simp only [Option.some.injEq, Prod.mk.injEq] at h
          obtain ⟨hn1, -⟩ := h
          subst hn1
          refine ih _ _ hr hD' (GoMap.WF_set hwf _ _) (fun x hx => ?_)
          rcases mem_set _ _ _ _ hx with h' | h'
          · rw [h']
            exact hc.1 n operation (hP _ (GoMap.mem_of_get? hg))
              (hD _ (List.mem_cons_self _ _))
          · exact hP x h'
    · simp only [dispatchLoop, hlen, if_false] at h
      exact ih _ _ h hD' hwf hP

theorem divideTasks_nodes (P : node → Prop) (B : Int → Prop) (hc : Closed P B)
    (s s' : attackService) (start : OperationStart) (ids : String → String) (ch : Choices)
    (effects : List Effect) (h : divideTasks s start ids ch = some (s', effects))
    (hB : B start.AttackID) (hs : s.AllNodes P) : s'.AllNodes P := by
  unfold divideTasks at h
  cases h1 : splitLoop s ch.nodesFor (rangeOrder ch.scenarios start.Scenarios)
      (emptyOperations s start ids) with
  | none => rw [h1] at h; cases h
  | some operations =>
    rw [h1] at h
    dsimp only at h
    cases h2 : dispatchLoop (rangeOrder ch.dispatch operations) s.nodes with
    | none => rw [h2] at h; cases h
    | some r =>
      obtain ⟨nodes, fx⟩ := r
      rw [h2] at h
      simp only [Option.some.injEq, Prod.mk.injEq] at h
      obtain ⟨hs', -⟩ := h
      subst hs'
      have hQ := splitLoop_preserves (fun op => op.AttackID = start.AttackID)
        (fun op sc v hop => hop) s ch.nodesFor _ _ _ h1
        (fun e he => by
          unfold emptyOperations at he
          obtain ⟨x, -, rfl⟩ := List.mem_map.1 he
          rfl)
      exact dispatchLoop_nodes P B hc _ _ _ _ h2
        (fun e he => by
          rw [hQ e ((rangeOrder_perm _ _).mem_iff.1 he)]
          exact hB)
        hs.1 hs.2

theorem distributeStart_nodes (P : node → Prop) (B : Int → Prop) (hc : Closed P B)
    (s s' : attackService) (start : OperationStart) (ids : String → String) (ch : Choices)
    (e : Option GoError) (scenarios : GoMap String Int) (effects : List Effect)
    (h : distributeStart s start ids ch = some (e, scenarios, s', effects))
    (hB : B start.AttackID) (hs : s.AllNodes P) : s'.AllNodes P := by
  cases e with
  | some err =>
    obtain ⟨-, h2, -⟩ := distributeStart_error s start ids ch err scenarios s' effects h
    rw [h2]
    exact hs
  | none =>
    obtain ⟨-, hd⟩ := distributeStart_ok s start ids ch scenarios s' effects h
    exact divideTasks_nodes P B hc s s' _ ids ch effects hd hB hs

theorem distributeStop_allNodes (P : node → Prop) (B : Int → Prop) (hc : Closed P B)
    (s : attackService) (stop : OperationStop) (order : List Nat) (hs : s.AllNodes P) :
    (distributeStop s stop order).1.AllNodes P := by
  have hn := distributeStop_nodes s stop order hs.1
  refine ⟨?_, fun e he => ?_⟩
  · unfold GoMap.WF
    rw [hn]
    have := keys_map_entries s.nodes (fun e => (e.2.StopAttack stop).1)
    unfold GoMap.keys at this
    rw [this]
    exact hs.1
  · rw [hn] at he
    obtain ⟨x, hx, rfl⟩ := List.mem_map.1 he
    exact hc.2.1 _ _ (hs.2 x hx)

theorem StopAttack_nodes (P : node → Prop) (B : Int → Prop) (hc : Closed P B)
    (s : attackService) (attackID : Int) (order : List Nat) (hs : s.AllNodes P) :
    (s.StopAttack attackID order).state.AllNodes P := by
  unfold attackService.StopAttack
  cases s.attacks.get? attackID with
  | none => exact hs
  | some a => exact distributeStop_allNodes P B hc s _ order hs

theorem stopIncrement_nodes (P : node → Prop) (B : Int → Prop) (hc : Closed P B)
    (s : attackService) (attackID incrementID : Int) (order : List Nat) (hs : s.AllNodes P) :
    (s.stopIncrement attackID incrementID order).state.AllNodes P := by
  unfold stopIncrement
  cases s.attacks.get? attackID with
  | none => exact hs
  | some a =>
    dsimp only
    cases (incrementPositions a.details.Increments 0 []).get? incrementID with
    | none => exact hs
    | some i =>
      dsimp only
      split
      · exact distributeStop_allNodes P B hc s _ order hs
      · exact distributeStop_allNodes P B hc s _ order hs

theorem stopIncrement_dispatched (s : attackService) (attackID incrementID : Int)
    (order : List Nat) : dispatched (s.stopIncrement attackID incrementID order).effects = [] := by
  unfold stopIncrement
  cases s.attacks.get? attackID with
  | none => rfl
  | some a =>
    dsimp only
    cases (incrementPositions a.details.Increments 0 []).get? incrementID with
    | none => rfl
    | some i =>
      dsimp only
      rw [(distributeStop_frame s _ order).2]
      exact dispatched_map_stop _ _

theorem StopAttack_dispatched (s : attackService) (attackID : Int) (order : List Nat) :
    dispatched (s.StopAttack attackID order).effects = [] := by
  unfold attackService.StopAttack
  cases s.attacks.get? attackID with
  | none => rfl
  | some a =>
    dsimp only
    rw [(distributeStop_frame s _ order).2, dispatched_append, dispatched_map_stop]
    rfl

theorem retrieveOperations_nodes (P : node → Prop) (B : Int → Prop) (hc : Closed P B)
    (s s' : attackService) (nodeName : String) (mirrorOrder : List Nat)
    (ops : List OperationStart) (effects : List Effect)
    (h : retrieveOperations s nodeName mirrorOrder = some (ops, s', effects))
    (hs : s.AllNodes P) :
    s'.AllNodes P ∧ ∀ op ∈ ops, B op.AttackID := by
  unfold retrieveOperations at h
  cases hn : s.nodes.get? nodeName with
  | none =>
    rw [hn] at h
    simp only [Option.some.injEq, Prod.mk.injEq] at h
    obtain ⟨h1, h2, -⟩ := h
    subst h1 h2
    exact ⟨hs, fun op hop => by simp at hop⟩
  | some n =>
    rw [hn] at h
    dsimp only at h
    cases hcc : s.removingCancels.get? nodeName with
    | none => rw [hcc] at h; cases h
    | some cancel =>
      rw [hcc] at h
      dsimp only at h
      split at h
      · cases h
      · simp only [Option.some.injEq, Prod.mk.injEq] at h
        obtain ⟨h1, h2, -⟩ := h
        subst h1 h2
        refine ⟨⟨GoMap.WF_delete hs.1 _, fun e he => hs.2 e (List.mem_filter.1 he).1⟩,
          fun op hop => ?_⟩
        simp only [List.mem_flatMap, List.mem_map] at hop
        obtain ⟨attack, hattack, inc, -, rfl⟩ := hop
        simp only [node.GetDetails, List.mem_map] at hattack
        obtain ⟨x, hx, rfl⟩ := hattack
        exact hc.2.2.2.1 n (hs.2 _ (GoMap.mem_of_get? hn)) x ((rangeOrder_perm _ _).mem_iff.1 hx)

theorem replayLoop_nodes (P : node → Prop) (B : Int → Prop) (hc : Closed P B)
    (ops : List OperationStart) (stopOrders : List (List Nat)) (n : node) (s : attackService)
    (hops : ∀ op ∈ ops, B op.AttackID) (hn : P n) (hs : s.AllNodes P) :
    P (replayLoop ops stopOrders n s).1 ∧ (replayLoop ops stopOrders n s).2.1.AllNodes P ∧
    ∀ x ∈ dispatched (replayLoop ops stopOrders n s).2.2, B x.2.AttackID := by
  induction ops generalizing stopOrders n s with
  | nil => exact ⟨hn, hs, fun x hx => by simp [replayLoop, dispatched] at hx⟩
  | cons op rest ih =>
    have hop : B op.AttackID := hops op (List.mem_cons_self _ _)
    have hrest : ∀ op ∈ rest, B op.AttackID := fun o ho => hops o (List.mem_cons_of_mem _ ho)
    have hn' : P (n.StartAttack op).1 := hc.1 n op hn hop
    simp only [replayLoop]
    split
    · obtain ⟨i1, i2, i3⟩ := ih stopOrders.tail (n.StartAttack op).1
        (s.stopIncrement op.AttackID op.IncrementID (stopOrders.headD [])).state hrest hn'
        (stopIncrement_nodes P B hc s _ _ _ hs)
      refine ⟨i1, i2, fun x hx => ?_⟩
      simp only [dispatched, dispatched_append, stopIncrement_dispatched, List.nil_append,
        List.mem_cons] at hx
      rcases hx with h' | h'
      · rw [h']; exact hop
      · exact i3 x h'
    · obtain ⟨i1, i2, i3⟩ := ih stopOrders (n.StartAttack op).1 s hrest hn' hs
      refine ⟨i1, i2, fun x hx => ?_⟩
      simp only [dispatched, List.mem_cons] at hx
      rcases hx with h' | h'
      · rw [h']; exact hop
      · exact i3 x h'

theorem AddNode_nodes (P : node → Prop) (B : Int → Prop) (hc : Closed P B)
    (s : attackService) (n : node) (mirrorOrder : List Nat) (stopOrders : List (List Nat))
    (o : Outcome Unit) (h : s.AddNode n mirrorOrder stopOrders = some o)
    (hn : P n) (hs : s.AllNodes P) :
    o.state.AllNodes P ∧ ∀ x ∈ dispatched o.effects, B x.2.AttackID := by
  unfold attackService.AddNode at h
  dsimp only at h
  split at h
  · simp only [Option.some.injEq] at h
    subst h
    exact ⟨hs, fun x hx => by simp [dispatched] at hx⟩
  · cases hr : retrieveOperations s (n.GetDetails [] []).Name mirrorOrder with
    | none => rw [hr] at h; cases h
    | some r =>
      obtain ⟨ops, s₁, fx⟩ := r
      rw [hr] at h
      simp only [Option.some.injEq] at h
      subst h
      obtain ⟨h1, h2⟩ := retrieveOperations_nodes P B hc _ _ _ _ _ _ hr hs
      obtain ⟨-, -, -, h3⟩ := retrieveOperations_books _ _ _ _ _ _ hr
      obtain ⟨i1, i2, i3⟩ := replayLoop_nodes P B hc ops stopOrders n s₁ h2 hn h1
      refine ⟨⟨GoMap.WF_set i2.1 _ _, fun e he => ?_⟩, fun x hx => ?_⟩
      · rcases mem_set _ _ _ _ he with h' | h'
        · rw [h']; exact i1
        · exact i2.2 e h'
      · dsimp only at hx
        rw [dispatched_append, h3, List.nil_append] at hx
        exact i3 x hx

theorem redistributeLoop_nodes (P : node → Prop) (B : Int → Prop) (hc : Closed P B)
    (ops : List OperationStart) (ids : List (String → String)) (chs : List Choices)
    (stopOrders : List (List Nat)) (s s' : attackService) (effects : List Effect)
    (h : redistributeLoop ops ids chs stopOrders s = some (s', effects))
    (hops : ∀ op ∈ ops, B op.AttackID) (hs : s.AllNodes P) :
    s'.AllNodes P ∧ ∀ x ∈ dispatched effects, B x.2.AttackID := by
  induction ops generalizing ids chs stopOrders s effects with
  | nil =>
    simp only [redistributeLoop, Option.some.injEq, Prod.mk.injEq] at h
    rw [← h.1, ← h.2]
    exact ⟨hs, fun x hx => by simp [dispatched] at hx⟩
  | cons op rest ih =>
    have hop : B op.AttackID := hops op (List.mem_cons_self _ _)
    have hrest : ∀ op ∈ rest, B op.AttackID := fun o ho => hops o (List.mem_cons_of_mem _ ho)
    simp only [redistributeLoop] at h
    cases hd : distributeStart s op (ids.headD (fun _ => ""))
        (chs.headD { validate := [], scenarios := [], nodesFor := fun _ => [], dispatch := [] }) with
    | none => rw [hd] at h; cases h
    | some r =>
      obtain ⟨e, scenarios, s₁, fx⟩ := r
      rw [hd] at h
      have hs₁ := distributeStart_nodes P B hc _ _ _ _ _ _ _ _ hd hop hs
      obtain ⟨-, -, hdis⟩ := distributeStart_frame _ _ _ _ _ _ _ _ hd
      have hfx : ∀ x ∈ dispatched fx, B x.2.AttackID := fun x hx => by
        rw [(hdis x hx).1]; exact hop
      cases e with
      | some err =>
        dsimp only at h
        cases hrest' : redistributeLoop rest ids.tail chs.tail stopOrders.tail
            (s₁.stopIncrement op.AttackID op.IncrementID (stopOrders.headD [])).state with
        | none => rw [hrest'] at h; cases h
        | some r' =>
          obtain ⟨s₂, more⟩ := r'
          rw [hrest'] at h
          simp only [Option.some.injEq, Prod.mk.injEq] at h
          obtain ⟨h1, h2⟩ := h
          subst h1 h2
          obtain ⟨i1, i2⟩ := ih _ _ _ _ _ hrest' hrest (stopIncrement_nodes P B hc s₁ _ _ _ hs₁)
          refine ⟨i1, fun x hx => ?_⟩
          rw [dispatched_append, dispatched_append, stopIncrement_dispatched,
            List.append_nil] at hx
          rcases List.mem_append.1 hx with h' | h'
          · exact hfx x h'
          · exact i2 x h'
      | none =>
        dsimp only at h
        cases hrest' : redistributeLoop rest ids.tail chs.tail stopOrders s₁ with
        | none => rw [hrest'] at h; cases h
        | some r' =>
          obtain ⟨s₂, more⟩ := r'
          rw [hrest'] at h
          simp only [Option.some.injEq, Prod.mk.injEq] at h
          obtain ⟨h1, h2⟩ := h
          subst h1 h2
          obtain ⟨i1, i2⟩ := ih _ _ _ _ _ hrest' hrest hs₁
          refine ⟨i1, fun x hx => ?_⟩
          rw [dispatched_append] at hx
          rcases List.mem_append.1 hx with h' | h'
          · exact hfx x h'
          · exact i2 x h'

theorem removingTimerFired_nodes (P : node → Prop) (B : Int → Prop) (hc : Closed P B)
    (s s' : attackService) (nodeName : String) (mirrorOrder : List Nat)
    (ids : List (String → String)) (chs : List Choices) (stopOrders : List (List Nat))
    (effects : List Effect)
    (h : s.removingTimerFired nodeName mirrorOrder ids chs stopOrders = some (s', effects))
    (hs : s.AllNodes P) :
    s'.AllNodes P ∧ ∀ x ∈ dispatched effects, B x.2.AttackID := by
  unfold removingTimerFired at h
  cases hr : retrieveOperations s nodeName mirrorOrder with
  | none => rw [hr] at h; cases h
  | some r =>
    obtain ⟨ops, s₁, fx⟩ := r
    rw [hr] at h
    dsimp only at h
    cases hl : redistributeLoop ops ids chs stopOrders s₁ with
    | none => rw [hl] at h; cases h
    | some r' =>
      obtain ⟨s₂, more⟩ := r'
      rw [hl] at h
      simp only [Option.some.injEq, Prod.mk.injEq] at h
      obtain ⟨h1, h2⟩ := h
      subst h1 h2
      obtain ⟨i1, i2⟩ := retrieveOperations_nodes P B hc _ _ _ _ _ _ hr hs
      obtain ⟨-, -, -, i3⟩ := retrieveOperations_books _ _ _ _ _ _ hr
      obtain ⟨j1, j2⟩ := redistributeLoop_nodes P B hc _ _ _ _ _ _ _ hl i2 i1
      refine ⟨j1, fun x hx => ?_⟩
      rw [dispatched_append, i3, List.nil_append] at hx
      exact j2 x hx

/-! ## An attack that is over stays over -/

theorem get?_delete_none {ν : Type} (m : GoMap Int ν) (a k : Int) (h : m.get? k = none) :
    (m.delete a).get? k = none := by
  by_cases hk : k = a
  · rw [hk]; exact GoMap.get?_delete_self _ _
  · rw [GoMap.get?_delete_ne _ hk]; exact h

theorem StartAttack_none (s : attackService) (start : LoadGen.StartAttack) (now : Nat)
    (ids : String → String) (ch : Choices) (o : Outcome AttackDetails)
    (h : s.StartAttack start now ids ch = some o) (k : Int) (hk : s.attacks.get? k = none)
    (hne : k ≠ s.attackSeq) : o.state.attacks.get? k = none := by
  cases hr : o.ret with
  | fail err =>
    rw [(StartAttack_books _ _ _ _ _ _ h).1 err hr]
    exact hk
  | ok d =>
    obtain ⟨op, scenarios, s', effects, hm, hdis, -, hst, -⟩ :=
      StartAttack_success_shape s start now ids ch o d h hr
    obtain ⟨hid, -, -⟩ := mapStart_ids start s.attackSeq 0 op hm
    obtain ⟨hfr, -, -⟩ := distributeStart_frame _ _ _ _ _ _ _ _ hdis
    rw [hst]
    dsimp only
    rw [hid, GoMap.get?_set_ne _ _ hne, hfr]
    exact hk

theorem StartIncrement_none (s : attackService) (start : OperationStart)
    (ids : String → String) (ch : Choices) (o : Outcome IncrementDetails)
    (h : s.StartIncrement start ids ch = some o) (hinv : s.Inv) (k : Int)
    (hk : s.attacks.get? k = none) : o.state.attacks.get? k = none := by
  obtain ⟨h1, h2⟩ := StartIncrement_attacks s start ids ch o h
  cases ha : s.attacks.get? start.AttackID with
  | none =>
    rw [h1 ha]
    exact hk
  | some a =>
    have hid : a.details.ID = start.AttackID := (hinv.2.1 _ (GoMap.mem_of_get? ha)).1
    have hne : k ≠ start.AttackID := by
      intro e
      rw [e, ha] at hk
      cases hk
    cases hr : o.ret with
    | fail err =>
      rw [((h2 a ha hid).2 err hr).1]
      exact hk
    | ok inc =>
      rw [(h2 a ha hid).1 inc hr k hne]
      exact hk

theorem StopAttack_none (s : attackService) (attackID : Int) (order : List Nat) (k : Int)
    (hk : s.attacks.get? k = none) : (s.StopAttack attackID order).state.attacks.get? k = none := by
  unfold attackService.StopAttack
  cases hg : s.attacks.get? attackID with
  | none => exact hk
  | some a =>
    dsimp only
    rw [(distributeStop_frame s _ order).1]
    exact get?_delete_none _ _ _ hk

theorem stopIncrement_none (s : attackService) (attackID incrementID : Int) (order : List Nat)
    (k : Int) (hk : s.attacks.get? k = none) :
    (s.stopIncrement attackID incrementID order).state.attacks.get? k = none := by
  unfold stopIncrement
  cases hg : s.attacks.get? attackID with
  | none => exact hk
  | some a =>
    dsimp only
    cases (incrementPositions a.details.Increments 0 []).get? incrementID with
    | none => exact hk
    | some i =>
      dsimp only
      have hne : k ≠ attackID := by
        intro e
        rw [e, hg] at hk
        cases hk
      split
      · dsimp only
        rw [GoMap.get?_set_ne _ _ hne, (distributeStop_frame s _ order).1]
        exact hk
      · dsimp only
        rw [(distributeStop_frame s _ order).1]
        exact get?_delete_none _ _ _ hk

theorem replayLoop_none (ops : List OperationStart) (stopOrders : List (List Nat)) (n : node)
    (s : attackService) (k : Int) (hk : s.attacks.get? k = none) :
    (replayLoop ops stopOrders n s).2.1.attacks.get? k = none := by
  induction ops generalizing stopOrders n s with
  | nil => exact hk
  | cons op rest ih =>
    simp only [replayLoop]
    split
    · exact ih _ _ _ (stopIncrement_none s _ _ _ k hk)
    · exact ih _ _ _ hk

theorem AddNode_none (s : attackService) (n : node) (mirrorOrder : List Nat)
    (stopOrders : List (List Nat)) (o : Outcome Unit)
    (h : s.AddNode n mirrorOrder stopOrders = some o) (k : Int)
    (hk : s.attacks.get? k = none) : o.state.attacks.get? k = none := by
  unfold attackService.AddNode at h
  dsimp only at h
  split at h
  · simp only [Option.some.injEq] at h
    subst h
    exact hk
  · cases hr : retrieveOperations s (n.GetDetails [] []).Name mirrorOrder with
    | none => rw [hr] at h; cases h
    | some r =>
      obtain ⟨ops, s₁, fx⟩ := r
      rw [hr] at h
      simp only [Option.some.injEq] at h
      subst h
      obtain ⟨h1, -, -, -⟩ := retrieveOperations_books _ _ _ _ _ _ hr
      exact replayLoop_none ops stopOrders n s₁ k (by rw [h1]; exact hk)

theorem redistributeLoop_none (ops : List OperationStart) (ids : List (String → String))
    (chs : List Choices) (stopOrders : List (List Nat)) (s s' : attackService)
    (effects : List Effect) (h : redistributeLoop ops ids chs stopOrders s = some (s', effects))
    (k : Int) (hk : s.attacks.get? k = none) : s'.attacks.get? k = none := by
  induction ops generalizing ids chs stopOrders s effects with
  | nil =>
    simp only [redistributeLoop, Option.some.injEq, Prod.mk.injEq] at h
    rw [← h.1]
    exact hk
  | cons op rest ih =>
    simp only [redistributeLoop] at h
    cases hd : distributeStart s op (ids.headD (fun _ => ""))
        (chs.headD { validate := [], scenarios := [], nodesFor := fun _ => [], dispatch := [] }) with
    | none => rw [hd] at h; cases h
    | some r =>
      obtain ⟨e, scenarios, s₁, fx⟩ := r
      rw [hd] at h
      obtain ⟨hfr, -, -⟩ := distributeStart_frame _ _ _ _ _ _ _ _ hd
      have hk₁ : s₁.attacks.get? k = none := by rw [hfr]; exact hk
      cases e with
      | some err =>
        dsimp only at h
        cases hrest : redistributeLoop rest ids.tail chs.tail stopOrders.tail
            (s₁.stopIncrement op.AttackID op.IncrementID (stopOrders.headD [])).state with
        | none => rw [hrest] at h; cases h
        | some r' =>
          obtain ⟨s₂, more⟩ := r'
          rw [hrest] at h
          simp only [Option.some.injEq, Prod.mk.injEq] at h
          obtain ⟨hs, -⟩ := h
          subst hs
          exact ih _ _ _ _ _ hrest (stopIncrement_none s₁ _ _ _ k hk₁)
      | none =>
        dsimp only at h
        cases hrest : redistributeLoop rest ids.tail chs.tail stopOrders s₁ with
        | none => rw [hrest] at h; cases h
        | some r' =>
          obtain ⟨s₂, more⟩ := r'
          rw [hrest] at h
          simp only [Option.some.injEq, Prod.mk.injEq] at h
          obtain ⟨hs, -⟩ := h
          subst hs
          exact ih _ _ _ _ _ hrest hk₁

theorem removingTimerFired_none (s s' : attackService) (nodeName : String)
    (mirrorOrder : List Nat) (ids : List (String → String)) (chs : List Choices)
    (stopOrders : List (List Nat)) (effects : List Effect)
    (h : s.removingTimerFired nodeName mirrorOrder ids chs stopOrders = some (s', effects))
    (k : Int) (hk : s.attacks.get? k = none) : s'.attacks.get? k = none := by
  unfold removingTimerFired at h
  cases hr : retrieveOperations s nodeName mirrorOrder with
  | none => rw [hr] at h; cases h
  | some r =>
    obtain ⟨ops, s₁, fx⟩ := r
    rw [hr] at h
    dsimp only at h
    cases hl : redistributeLoop ops ids chs stopOrders s₁ with
    | none => rw [hl] at h; cases h
    | some r' =>
      obtain ⟨s₂, more⟩ := r'
      rw [hl] at h
      simp only [Option.some.injEq, Prod.mk.injEq] at h
      obtain ⟨hs, -⟩ := h
      subst hs
      obtain ⟨h1, -, -, -⟩ := retrieveOperations_books _ _ _ _ _ _ hr
      exact redistributeLoop_none _ _ _ _ _ _ _ hl k (by rw [h1]; exact hk)

theorem StartAttack_fail (s : attackService) (start : LoadGen.StartAttack) (now : Nat)
    (ids : String → String) (ch : Choices) (o : Outcome AttackDetails) (err : GoError)
    (h : s.StartAttack start now ids ch = some o) (herr : o.ret = Ret.fail err) :
    o.state = s ∧ o.effects = [] := by
  unfold attackService.StartAttack at h
  cases hm : mapStartAttackToOperationStart start s.attackSeq 0 with
  | none => rw [hm] at h; cases h
  | some op =>
    rw [hm] at h
    dsimp only at h
    cases hd : distributeStart s op ids ch with
    | none => rw [hd] at h; cases h
    | some r =>
      obtain ⟨e, scenarios, s', effects⟩ := r
      rw [hd] at h
      cases e with
      | none =>
        simp only [Option.some.injEq] at h
        subst h
        cases herr
      | some e' =>
        simp only [Option.some.injEq] at h
        subst h
        obtain ⟨-, h2, h3⟩ := distributeStart_error _ _ _ _ _ _ _ _ hd
        exact ⟨h2, h3⟩

theorem StartAttack_nodes (P : node → Prop) (B : Int → Prop) (hc : Closed P B)
    (s : attackService) (start : LoadGen.StartAttack) (now : Nat) (ids : String → String)
    (ch : Choices) (o : Outcome AttackDetails) (h : s.StartAttack start now ids ch = some o)
    (hB : B s.attackSeq) (hs : s.AllNodes P) :
    o.state.AllNodes P ∧ ∀ x ∈ dispatched o.effects, B x.2.AttackID := by
  cases hr : o.ret with
  | fail err =>
    obtain ⟨h1, h2⟩ := StartAttack_fail s start now ids ch o err h hr
    rw [h1, h2]
    exact ⟨hs, fun x hx => by simp [dispatched] at hx⟩
  | ok d =>
    obtain ⟨op, scenarios, s', effects, hm, hdis, -, hst, hfx⟩ :=
      StartAttack_success_shape s start now ids ch o d h hr
    obtain ⟨hid, -, -⟩ := mapStart_ids start s.attackSeq 0 op hm
    have hs' := distributeStart_nodes P B hc _ _ _ _ _ _ _ _ hdis (by rw [hid]; exact hB) hs
    obtain ⟨-, -, hd⟩ := distributeStart_frame _ _ _ _ _ _ _ _ hdis
    refine ⟨by rw [hst]; exact hs', fun x hx => ?_⟩
    rw [hfx, dispatched_append, dispatched_append] at hx
    have e1 : ∀ (c : Prop) [Decidable c] (a : attack),
        dispatched (if c then [Effect.goHandleDuration a] else []) = [] := by
      intro c _ a; split <;> rfl
    have e2 : ∀ (c : Prop) [Decidable c] (a : attack),
        dispatched (if c then [Effect.goHandleLinear a] else []) = [] := by
      intro c _ a; split <;> rfl
    rw [e1, e2, List.append_nil, List.append_nil] at hx
    rw [(hd x hx).1, hid]
    exact hB

theorem StartIncrement_nodes (P : node → Prop) (B : Int → Prop) (hc : Closed P B)
    (s : attackService) (start : OperationStart) (ids : String → String) (ch : Choices)
    (o : Outcome IncrementDetails) (h : s.StartIncrement start ids ch = some o)
    (hB : ∀ e ∈ s.attacks, B e.2.details.ID) (hs : s.AllNodes P) :
    o.state.AllNodes P ∧ ∀ x ∈ dispatched o.effects, B x.2.AttackID := by
  unfold attackService.StartIncrement at h
  cases ha : s.attacks.get? start.AttackID with
  | none =>
    rw [ha] at h
    simp only [Option.some.injEq] at h
    subst h
    exact ⟨hs, fun x hx => by simp [dispatched] at hx⟩
  | some a =>
    rw [ha] at h
    dsimp only at h
    have hBa : B a.details.ID := hB _ (GoMap.mem_of_get? ha)
    cases hd : distributeStart s
        { start with AttackID := a.details.ID,
                     IncrementID := s.incrementSeqs.getD a.details.ID 0,
                     WaitTimeSec := a.details.WaitTimeSec } ids ch with
    | none => rw [hd] at h; cases h
    | some r =>
      obtain ⟨e, scenarios, s', effects⟩ := r
      rw [hd] at h
      have hs' := distributeStart_nodes P B hc _ _ _ _ _ _ _ _ hd hBa hs
      obtain ⟨-, -, hdis⟩ := distributeStart_frame _ _ _ _ _ _ _ _ hd
      have hfx : ∀ x ∈ dispatched effects, B x.2.AttackID := fun x hx => by
        rw [(hdis x hx).1]; exact hBa
      cases e with
      | some err =>
        simp only [Option.some.injEq] at h
        subst h
        exact ⟨hs', hfx⟩
      | none =>
        simp only [Option.some.injEq] at h
        subst h
        exact ⟨hs', hfx⟩

theorem handshakeNode_attacks (nodeName : String) (scenarios : List ScenarioDetails) :
    (handshakeNode nodeName scenarios).attacks = [] := rfl

theorem step_nodes (P : node → Prop) (B : Int → Prop) (hc : Closed P B)
    (sys sys' : System) (a : Action) (effects : List Effect)
    (h : sys.step a = some (sys', effects)) (hs : sys.svc.AllNodes P)
    (hseq : B sys.svc.attackSeq) (hatt : ∀ e ∈ sys.svc.attacks, B e.2.details.ID) :
    sys'.svc.AllNodes P ∧ ∀ x ∈ dispatched effects, B x.2.AttackID := by
  cases a with
  | startAttack start now ids ch =>
    simp only [System.step, Option.map_eq_some'] at h
    obtain ⟨o, ho, hsys⟩ := h
    simp only [Prod.mk.injEq] at hsys
    obtain ⟨h1, h2⟩ := hsys
    subst h1 h2
    exact StartAttack_nodes P B hc _ _ _ _ _ _ ho hseq hs
  | startIncrement start ids ch =>
    simp only [System.step, Option.map_eq_some'] at h
    obtain ⟨o, ho, hsys⟩ := h
    simp only [Prod.mk.injEq] at hsys
    obtain ⟨h1, h2⟩ := hsys
    subst h1 h2
    exact StartIncrement_nodes P B hc _ _ _ _ _ ho hatt hs
  | stopAttack attackID order =>
    simp only [System.step, Option.some.injEq, Prod.mk.injEq] at h
    obtain ⟨h1, h2⟩ := h
    subst h1 h2
    refine ⟨StopAttack_nodes P B hc _ _ _ hs, fun x hx => ?_⟩
    rw [StopAttack_dispatched] at hx
    simp at hx
  | stopIncrement attackID incrementID order =>
    simp only [System.step, Option.some.injEq, Prod.mk.injEq] at h
    obtain ⟨h1, h2⟩ := h
    subst h1 h2
    refine ⟨stopIncrement_nodes P B hc _ _ _ _ hs, fun x hx => ?_⟩
    unfold attackService.StopIncrement at hx
    rw [stopIncrement_dispatched] at hx
    simp at hx
  | connect nodeName scenarios mirrorOrder stopOrders =>
    simp only [System.step, Option.map_eq_some'] at h
    obtain ⟨o, ho, hsys⟩ := h
    simp only [Prod.mk.injEq] at hsys
    obtain ⟨h1, h2⟩ := hsys
    subst h1 h2
    exact AddNode_nodes P B hc _ _ _ _ _ ho
      (hc.2.2.2.2 _ (handshakeNode_attacks nodeName scenarios)) hs
  | disconnect nodeName =>
    simp only [System.step, Option.some.injEq, Prod.mk.injEq] at h
    obtain ⟨h1, h2⟩ := h
    subst h1 h2
    exact ⟨hs, fun x hx => by simp [RemoveNode, startRemovingTimer, dispatched] at hx⟩
  | timerFired i mirrorOrder ids chs stopOrders =>
    simp only [System.step] at h
    cases ht : sys.timers.get? i with
    | none => rw [ht] at h; cases h
    | some t =>
      rw [ht] at h
      dsimp only at h
      split at h
      · cases h
      · simp only [Option.map_eq_some'] at h
        obtain ⟨r, hr, hsys⟩ := h
        simp only [Prod.mk.injEq] at hsys
        obtain ⟨h1, h2⟩ := hsys
        subst h1 h2
        exact removingTimerFired_nodes P B hc _ _ _ _ _ _ _ _ hr hs
  | timerDone i =>
    simp only [System.step] at h
    cases ht : sys.timers.get? i with
    | none => rw [ht] at h; cases h
    | some t =>
      rw [ht] at h
      dsimp only at h
      split at h
      · simp only [Option.some.injEq, Prod.mk.injEq] at h
        obtain ⟨h1, h2⟩ := h
        subst h1 h2
        exact ⟨hs, fun x hx => by simp [dispatched] at hx⟩
      · cases h
  | nodeDequeue nodeName =>
    simp only [System.step] at h
    cases hn : sys.svc.nodes.get? nodeName with
    | none => rw [hn] at h; cases h
    | some n =>
      rw [hn] at h
      simp only [Option.some.injEq, Prod.mk.injEq] at h
      obtain ⟨h1, h2⟩ := h
      subst h1 h2
      refine ⟨⟨GoMap.WF_set hs.1 _ _, fun e he => ?_⟩, fun x hx => by simp [dispatched] at hx⟩
      rcases mem_set _ _ _ _ he with h' | h'
      · rw [h']
        exact hc.2.2.1 n _ rfl (hs.2 _ (GoMap.mem_of_get? hn))
      · exact hs.2 e h'
  | nodeStopped nodeName =>
    simp only [System.step] at h
    cases hn : sys.svc.nodes.get? nodeName with
    | none => rw [hn] at h; cases h
    | some n =>
      rw [hn] at h
      simp only [Option.some.injEq, Prod.mk.injEq] at h
      obtain ⟨h1, h2⟩ := h
      subst h1 h2
      refine ⟨⟨GoMap.WF_set hs.1 _ _, fun e he => ?_⟩, fun x hx => by simp [dispatched] at hx⟩
      rcases mem_set _ _ _ _ he with h' | h'
      · rw [h']
        exact hc.2.2.1 n _ rfl (hs.2 _ (GoMap.mem_of_get? hn))
      · exact hs.2 e h'

theorem step_none (sys sys' : System) (a : Action) (effects : List Effect)
    (h : sys.step a = some (sys', effects)) (hinv : sys.svc.Inv) (k : Int)
    (hk : sys.svc.attacks.get? k = none) (hne : k ≠ sys.svc.attackSeq) :
    sys'.svc.attacks.get? k = none := by
  cases a with
  | startAttack start now ids ch =>
    simp only [System.step, Option.map_eq_some'] at h
    obtain ⟨o, ho, hsys⟩ := h
    simp only [Prod.mk.injEq] at hsys
    obtain ⟨h1, -⟩ := hsys
    subst h1
    exact StartAttack_none _ _ _ _ _ _ ho k hk hne
  | startIncrement start ids ch =>
    simp only [System.step, Option.map_eq_some'] at h
    obtain ⟨o, ho, hsys⟩ := h
    simp only [Prod.mk.injEq] at hsys
    obtain ⟨h1, -⟩ := hsys
    subst h1
    exact StartIncrement_none _ _ _ _ _ ho hinv k hk
  | stopAttack attackID order =>
    simp only [System.step, Option.some.injEq, Prod.mk.injEq] at h
    obtain ⟨h1, -⟩ := h
    subst h1
    exact StopAttack_none _ _ _ k hk
  | stopIncrement attackID incrementID order =>
    simp only [System.step, Option.some.injEq, Prod.mk.injEq] at h
    obtain ⟨h1, -⟩ := h
    subst h1
    exact stopIncrement_none _ _ _ _ k hk
  | connect nodeName scenarios mirrorOrder stopOrders =>
    simp only [System.step, Option.map_eq_some'] at h
    obtain ⟨o, ho, hsys⟩ := h
    simp only [Prod.mk.injEq] at hsys
    obtain ⟨h1, -⟩ := hsys
    subst h1
    exact AddNode_none _ _ _ _ _ ho k hk
  | disconnect nodeName =>
    simp only [System.step, Option.some.injEq, Prod.mk.injEq] at h
    obtain ⟨h1, -⟩ := h
    subst h1
    exact hk
  | timerFired i mirrorOrder ids chs stopOrders =>
    simp only [System.step] at h
    cases ht : sys.timers.get? i with
    | none => rw [ht] at h; cases h
    | some t =>
      rw [ht] at h
      dsimp only at h
      split at h
      · cases h
      · simp only [Option.map_eq_some'] at h
        obtain ⟨r, hr, hsys⟩ := h
        simp only [Prod.mk.injEq] at hsys
        obtain ⟨h1, -⟩ := hsys
        subst h1
        exact removingTimerFired_none _ _ _ _ _ _ _ _ hr k hk
  | timerDone i =>
    simp only [System.step] at h
    cases ht : sys.timers.get? i with
    | none => rw [ht] at h; cases h
    | some t =>
      rw [ht] at h
      dsimp only at h
      split at h
      · simp only [Option.some.injEq, Prod.mk.injEq] at h
        obtain ⟨h1, -⟩ := h
        subst h1
        exact hk
      · cases h
  | nodeDequeue nodeName =>
    simp only [System.step] at h
    cases hn : sys.svc.nodes.get? nodeName with
    | none => rw [hn] at h; cases h
    | some n =>
      rw [hn] at h
      simp only [Option.some.injEq, Prod.mk.injEq] at h
      obtain ⟨h1, -⟩ := h
      subst h1
      exact hk
  | nodeStopped nodeName =>
    simp only [System.step] at h
    cases hn : sys.svc.nodes.get? nodeName with
    | none => rw [hn] at h; cases h
    | some n =>
      rw [hn] at h
      simp only [Option.some.injEq, Prod.mk.injEq] at h
      obtain ⟨h1, -⟩ := h
      subst h1
      exact hk

theorem step_over (sys sys' : System) (a : Action) (effects : List Effect) (id : Int)
    (h : sys.step a = some (sys', effects)) (hinv : sys.svc.Inv) (hover : sys.svc.Over id) :
    sys'.svc.Inv ∧ sys'.svc.Over id ∧ ∀ x ∈ dispatched effects, x.2.AttackID ≠ id := by
  obtain ⟨hnone, hlt, hnodes⟩ := hover
  obtain ⟨⟨g1, -⟩, hinv', -⟩ := step_books sys sys' a effects h
  have hseq : sys.svc.attackSeq ≠ id := by omega
  have hatt : ∀ e ∈ sys.svc.attacks, e.2.details.ID ≠ id := by
    intro e he hid
    have hkey : e.1 = id := by rw [← (hinv.2.1 e he).1]; exact hid
    have : id ∈ GoMap.keys sys.svc.attacks := by
      rw [← hkey]
      exact List.mem_map_of_mem _ he
    exact (GoMap.get?_eq_none_iff _ _).1 hnone this
  obtain ⟨n1, n2⟩ := step_nodes _ _ (closed_over id) sys sys' a effects h hnodes hseq hatt
  exact ⟨hinv' hinv, ⟨step_none sys sys' a effects h hinv id hnone (by omega),
    lt_of_lt_of_le hlt g1, n1⟩, n2⟩

theorem run_over (sys sys' : System) (actions : List Action) (effects : List (List Effect))
    (id : Int) (h : sys.run actions = some (sys', effects)) (hinv : sys.svc.Inv)
    (hover : sys.svc.Over id) :
    sys'.svc.Over id ∧ ∀ fx ∈ effects, ∀ x ∈ dispatched fx, x.2.AttackID ≠ id := by
  induction actions generalizing sys effects with
  | nil =>
    simp only [System.run, Option.some.injEq, Prod.mk.injEq] at h
    rw [← h.1, ← h.2]
    exact ⟨hover, fun fx hfx => by simp at hfx⟩
  | cons a rest ih =>
    simp only [System.run] at h
    cases hs : sys.step a with
    | none => rw [hs] at h; cases h
    | some r =>
      obtain ⟨sys₁, fx₁⟩ := r
      rw [hs] at h
      dsimp only at h
      cases hr : sys₁.run rest with
      | none => rw [hr] at h; cases h
      | some r' =>
        obtain ⟨sys₂, more⟩ := r'
        rw [hr] at h
        simp only [Option.some.injEq, Prod.mk.injEq] at h
        obtain ⟨h1, h2⟩ := h
        subst h1 h2
        obtain ⟨i1, i2, i3⟩ := step_over sys sys₁ a fx₁ id hs hinv hover
        obtain ⟨j1, j2⟩ := ih sys₁ more hr i1 i2
        refine ⟨j1, fun fx hfx => ?_⟩
        rcases List.mem_cons.1 hfx with h' | h'
        · rw [h']; exact i3
        · exact j2 fx h'

theorem run_mirrors (sys sys' : System) (actions : List Action) (effects : List (List Effect))
    (h : sys.run actions = some (sys', effects))
    (hs : sys.svc.AllNodes (fun n => n.mirrorOK)) :
    sys'.svc.AllNodes (fun n => n.mirrorOK) := by
  induction actions generalizing sys effects with
  | nil =>
    simp only [System.run, Option.some.injEq, Prod.mk.injEq] at h
    rw [← h.1]
    exact hs
  | cons a rest ih =>
    simp only [System.run] at h
    cases hst : sys.step a with
    | none => rw [hst] at h; cases h
    | some r =>
      obtain ⟨sys₁, fx₁⟩ := r
      rw [hst] at h
      dsimp only at h
      cases hr : sys₁.run rest with
      | none => rw [hr] at h; cases h
      | some r' =>
        obtain ⟨sys₂, more⟩ := r'
        rw [hr] at h
        simp only [Option.some.injEq, Prod.mk.injEq] at h
        obtain ⟨h1, -⟩ := h
        subst h1
        exact ih sys₁ more hr
          (step_nodes _ _ closed_mirrorOK sys sys₁ a fx₁ hst hs trivial (fun _ _ => trivial)).1

theorem reachable_inv (sys : System) (hreach : sys.Reachable) :
    sys.svc.Inv ∧ sys.svc.AllNodes (fun n => n.mirrorOK) := by
  obtain ⟨r, actions, effects, hrun⟩ := hreach
  refine ⟨(run_books _ _ _ _ hrun).2 (Inv_init r), run_mirrors _ _ _ _ hrun ?_⟩
  exact ⟨by simp [System.init, NewService, GoMap.WF],
    fun e he => by simp [System.init, NewService] at he⟩

theorem StopAttack_ok_live (s : attackService) (id : Int) (order : List Nat)
    (hok : (s.StopAttack id order).ret = Ret.ok ()) : ∃ a, s.attacks.get? id = some a := by
  cases hg : s.attacks.get? id with
  | some a => exact ⟨a, rfl⟩
  | none =>
    unfold attackService.StopAttack at hok
    rw [hg] at hok
    cases hok

theorem StopAttack_over (s : attackService) (id : Int) (order : List Nat) (hinv : s.Inv)
    (hs : s.AllNodes (fun n => n.mirrorOK))
    (hok : (s.StopAttack id order).ret = Ret.ok ()) : (s.StopAttack id order).state.Over id := by
  obtain ⟨a, ha⟩ := StopAttack_ok_live s id order hok
  have hn := distributeStop_nodes s { AttackID := id, IncrementID := none } order hs.1
  have hseq := (StopAttack_books s id order).1
  have hnodes : (s.StopAttack id order).state.nodes
      = s.nodes.map (fun e => (e.1, (e.2.StopAttack { AttackID := id, IncrementID := none }).1)) := by
    unfold attackService.StopAttack
    rw [ha]
    exact hn
  have hgone : (s.StopAttack id order).state.attacks.get? id = none := by
    unfold attackService.StopAttack
    rw [ha]
    exact GoMap.get?_delete_self _ _
  refine ⟨hgone, ?_, ?_, ?_⟩
  · rw [hseq]
    exact (hinv.2.1 _ (GoMap.mem_of_get? ha)).2.1
  · unfold GoMap.WF
    rw [hnodes]
    have := keys_map_entries s.nodes
      (fun e => (e.2.StopAttack { AttackID := id, IncrementID := none }).1)
    unfold GoMap.keys at this
    rw [this]
    exact hs.1
  · intro e he
    rw [hnodes] at he
    obtain ⟨x, hx, rfl⟩ := List.mem_map.1 he
    exact ⟨StopAttack_mirrorOK _ _ (hs.2 x hx), StopAttack_whole_removes _ _⟩

/-- C8. Let the manager be in a reachable state and let `StopAttack id`
succeed there.  Then, whatever the manager does afterwards (further calls of
the service, reconnecting workers with the replay of their operations,
recovery timers with their redistribution, steps of the node loops), no
`StartAttack` with attack id `id` is ever called on a node, neither by
`StopAttack` itself nor by any later action; and in every later state
`StartIncrement` for `id` returns `ErrAttackNotFound` without any effect. -/
theorem StopAttack_final (sys : System) (hreach : sys.Reachable) (id : Int) (order : List Nat)
    (hok : (sys.svc.StopAttack id order).ret = Ret.ok ()) :
    sys.step (Action.stopAttack id order)
      = some ({ sys with svc := (sys.svc.StopAttack id order).state },
          (sys.svc.StopAttack id order).effects) ∧
    dispatched (sys.svc.StopAttack id order).effects = [] ∧
    ∀ actions sys' effects,
      System.run { sys with svc := (sys.svc.StopAttack id order).state } actions
          = some (sys', effects) →
      (∀ fx ∈ effects, ∀ x ∈ dispatched fx, x.2.AttackID ≠ id) ∧
      (∀ start ids ch, start.AttackID = id →
        sys'.svc.StartIncrement start ids ch
          = some { ret := Ret.fail GoError.ErrAttackNotFound, state := sys'.svc,
                   effects := [] }) := by
  obtain ⟨hinv, hmir⟩ := reachable_inv sys hreach
  have hover := StopAttack_over sys.svc id order hinv hmir hok
  have hinv' := (StopAttack_books sys.svc id order).2.2 hinv
  refine ⟨rfl, StopAttack_dispatched _ _ _, fun actions sys' effects hrun => ?_⟩
  obtain ⟨h1, h2⟩ := run_over _ sys' actions effects id hrun hinv' hover
  refine ⟨h2, fun start ids ch hid => ?_⟩
  unfold attackService.StartIncrement
  rw [hid, h1.1]

/-- C8 on a concrete run: attack 0 is live on worker `n1` and is stopped;
afterwards a second attack is started, the worker reconnects and gets its
operations replayed, and an increment is asked for attack 0: the operations
started on the worker all belong to attack 1. -/
theorem StopAttack_final_witness :
    demoLive.Reachable ∧ (demoLive.svc.StopAttack 0 []).ret = Ret.ok () ∧
    (System.run { demoLive with svc := (demoLive.svc.StopAttack 0 []).state } demoAfterStop).map
        (fun r => r.2.map (fun fx => (dispatched fx).map (fun x => (x.1, x.2.AttackID))))
      = some [[("n1", 1)], [], [("n1", 1)], [], []] ∧
    ∃ sys' effects,
      System.run { demoLive with svc := (demoLive.svc.StopAttack 0 []).state } demoAfterStop
        = some (sys', effects) ∧
      ∀ fx ∈ effects, ∀ x ∈ dispatched fx, x.2.AttackID ≠ 0 := by
  have hsome : ((System.init 60).run (demoActions.take 3)).isSome = true := by decide
  have hreach : demoLive.Reachable :=
    ⟨60, demoActions.take 3, (((System.init 60).run (demoActions.take 3)).get hsome).2,
      (Option.some_get hsome).symm⟩
  have hok : (demoLive.svc.StopAttack 0 []).ret = Ret.ok () := by rfl
  have hsome2 : (System.run { demoLive with svc := (demoLive.svc.StopAttack 0 []).state }
      demoAfterStop).isSome = true := by decide
  refine ⟨hreach, hok, by rfl, _, _, (Option.some_get hsome2).symm, ?_⟩
  exact ((StopAttack_final demoLive hreach 0 [] hok).2.2 demoAfterStop _ _
    (Option.some_get hsome2).symm).1

/-! ## Registration of nodes -/

/-- C12. When a node is registered under the name of the newcomer and no
removal is pending for that name (the name has no entry in
`removingCancels`), `AddNode` returns `ErrNodeAlreadyExists`, starts no
operation on any node and has no other effect, and the whole service, in
particular `nodes`, `removingCancels` and `attacks`, is as before: the
registered controller stays in place. -/
theorem AddNode_already_exists (s : attackService) (n old : node) (mirrorOrder : List Nat)
    (stopOrders : List (List Nat)) (hreg : s.nodes.get? n.name = some old)
    (hpending : s.removingCancels.get? n.name = none) :
    ∃ o, s.AddNode n mirrorOrder stopOrders = some o ∧
      o.ret = Ret.fail GoError.ErrNodeAlreadyExists ∧
      dispatched o.effects = [] ∧ o.effects = [] ∧
      o.state.nodes = s.nodes ∧ o.state.removingCancels = s.removingCancels ∧
      o.state.attacks = s.attacks ∧ o.state = s ∧
      o.state.nodes.get? n.name = some old := by
  refine ⟨{ ret := Ret.fail GoError.ErrNodeAlreadyExists, state := s, effects := [] },
    ?_, rfl, rfl, rfl, rfl, rfl, rfl, rfl, hreg⟩
  unfold attackService.AddNode
  simp [node.GetDetails, GoMap.contains, hreg, hpending]

/-- C12 at a concrete state: a second worker named `n1` connects while `n1`
is registered. -/
theorem AddNode_already_exists_witness :
    (demoService.nodes.get? (handshakeNode "n1" [demoScenario "Y"]).name
        = some (handshakeNode "n1" [demoScenario "X"]) ∧
      demoService.removingCancels.get? (handshakeNode "n1" [demoScenario "Y"]).name = none) ∧
    ∃ o, demoService.AddNode (handshakeNode "n1" [demoScenario "Y"]) [] [] = some o ∧
      o.ret = Ret.fail GoError.ErrNodeAlreadyExists ∧
      dispatched o.effects = [] ∧ o.effects = [] ∧
      o.state.nodes = demoService.nodes ∧
      o.state.removingCancels = demoService.removingCancels ∧
      o.state.attacks = demoService.attacks ∧ o.state = demoService ∧
      o.state.nodes.get? (handshakeNode "n1" [demoScenario "Y"]).name
        = some (handshakeNode "n1" [demoScenario "X"]) :=
  ⟨⟨by decide, by decide⟩,
    AddNode_already_exists demoService (handshakeNode "n1" [demoScenario "Y"])
      (handshakeNode "n1" [demoScenario "X"]) [] [] (by decide) (by decide)⟩

/-! ## The mirror update of the node controller -/

theorem addCounters_get? (l : List (String × Int)) (existing : GoMap String Int)
    (hwf : GoMap.WF l) (scenario : String) :
    (node.addCounters existing l).get? scenario
      = match GoMap.get? l scenario with
        | some counter => some (wrap64 (existing.getD scenario 0 + counter))
        | none => existing.get? scenario := by
  induction l generalizing existing with
  | nil => simp [node.addCounters, GoMap.get?]
  | cons e rest ih =>
    obtain ⟨name, counter⟩ := e
    simp only [GoMap.WF, List.map_cons, List.nodup_cons] at hwf
    rw [node.addCounters, ih _ hwf.2]
    by_cases hn : name = scenario
    · subst hn
      have hnone : GoMap.get? rest name = none := (GoMap.get?_eq_none_iff _ _).2 hwf.1
      simp [GoMap.get?, hnone, GoMap.get?_set_self]
    · have hne : scenario ≠ name := Ne.symm hn
      simp only [GoMap.get?, hn, if_false, GoMap.getD, GoMap.get?_set_ne _ _ hne]

theorem addCounters_getD (l : List (String × Int)) (existing : GoMap String Int)
    (hwf : GoMap.WF l) (scenario : String) :
    (node.addCounters existing l).getD scenario 0
      = if GoMap.contains l scenario
        then wrap64 (existing.getD scenario 0 + GoMap.getD l scenario 0)
        else existing.getD scenario 0 := by
  unfold GoMap.getD GoMap.contains
  rw [addCounters_get? l existing hwf]
  cases h : GoMap.get? l scenario <;> simp [GoMap.getD]

theorem addToIncrement_none (incrementID : Int) (scenarios : GoMap String Int)
    (l : List IncrementDetails) :
    node.addToIncrement incrementID scenarios l = none
      ↔ findIncrementDetails incrementID l = none := by
  induction l with
  | nil => simp [node.addToIncrement, findIncrementDetails]
  | cons a rest ih =>
    unfold findIncrementDetails at ih ⊢
    by_cases h : a.ID = incrementID
    · simp [node.addToIncrement, h]
    · simp [node.addToIncrement, h, List.find?_cons, ih]

theorem addToIncrement_find (incrementID : Int) (scenarios : GoMap String Int)
    (l l' : List IncrementDetails) (h : node.addToIncrement incrementID scenarios l = some l') :
    (∃ increment, findIncrementDetails incrementID l = some increment ∧
      findIncrementDetails incrementID l'
        = some { increment with Scenarios := node.addCounters increment.Scenarios scenarios }) ∧
    (∀ other, other ≠ incrementID →
      findIncrementDetails other l' = findIncrementDetails other l) ∧
    l'.map (fun increment => increment.ID) = l.map (fun increment => increment.ID) := by
  induction l generalizing l' with
  | nil => simp [node.addToIncrement] at h
  | cons a rest ih =>
    unfold findIncrementDetails at ih ⊢
    by_cases ha : a.ID = incrementID
    · subst ha
      simp only [node.addToIncrement, if_true, Option.some.injEq] at h
      subst h
      refine ⟨⟨a, by simp, by simp⟩, fun other ho => ?_, by simp⟩
      have : ¬ a.ID = other := Ne.symm ho
      simp [List.find?_cons, this]
    · simp only [node.addToIncrement, ha, if_false] at h
      cases hr : node.addToIncrement incrementID scenarios rest with
      | none => rw [hr] at h; cases h
      | some r =>
        rw [hr] at h
        simp only [Option.map_some', Option.some.injEq] at h
        subst h
        obtain ⟨⟨inc, h1, h2⟩, h3, h4⟩ := ih r hr
        refine ⟨⟨inc, by simpa [List.find?_cons, ha] using h1,
          by simpa [List.find?_cons, ha] using h2⟩, fun other ho => ?_, by simp [h4]⟩
        by_cases hao : a.ID = other
        · simp [List.find?_cons, hao]
        · simpa [List.find?_cons, hao] using h3 other ho

theorem updateMirror_get?_ne (n : node) (op : OperationStart) (attackID : Int)
    (h : attackID ≠ op.AttackID) :
    (node.updateMirror n op).get? attackID = n.attacks.get? attackID := by
  unfold node.updateMirror
  dsimp only
  cases n.attacks.get? op.AttackID with
  | none => exact GoMap.get?_set_ne _ _ h
  | some a =>
    dsimp only
    cases node.addToIncrement op.IncrementID op.Scenarios a.Increments with
    | none => exact GoMap.get?_set_ne _ _ h
    | some incs => exact GoMap.get?_set_ne _ _ h

/-- The increments of the attack of an operation after the mirror update: the
operation is added into the first increment with its id, or appended as a new
increment. -/
theorem updateMirror_increments (n : node) (op : OperationStart) :
    ∃ a', (node.updateMirror n op).get? op.AttackID = some a' ∧
      (∀ a, n.attacks.get? op.AttackID = some a → a' = { a with Increments := a'.Increments }) ∧
      ((∃ increment,
          findIncrementDetails op.IncrementID (n.increments op.AttackID) = some increment ∧
          findIncrementDetails op.IncrementID a'.Increments
            = some { increment with
                     Scenarios := node.addCounters increment.Scenarios op.Scenarios } ∧
          a'.Increments.map (fun i => i.ID) = (n.increments op.AttackID).map (fun i => i.ID)) ∨
        (findIncrementDetails op.IncrementID (n.increments op.AttackID) = none ∧
          a'.Increments = n.increments op.AttackID
            ++ [{ ID := op.IncrementID, AttackID := op.AttackID, Scenarios := op.Scenarios }])) ∧
      (∀ other, other ≠ op.IncrementID →
        findIncrementDetails other a'.Increments
          = findIncrementDetails other (n.increments op.AttackID)) := by
  unfold node.updateMirror node.increments
  dsimp only
  cases hg : n.attacks.get? op.AttackID with
  | none =>
    refine ⟨_, GoMap.get?_set_self _ _ _, fun a ha => (by cases ha), Or.inr ⟨rfl, rfl⟩, ?_⟩
    intro other ho
    have : ¬ op.IncrementID = other := Ne.symm ho
    simp [findIncrementDetails, this]
  | some a =>
    dsimp only
    cases hadd : node.addToIncrement op.IncrementID op.Scenarios a.Increments with
    | none =>
      refine ⟨_, GoMap.get?_set_self _ _ _, ?_,
        Or.inr ⟨(addToIncrement_none _ _ _).1 hadd, rfl⟩, ?_⟩
      · intro a0 ha0
        cases ha0
        rfl
      · intro other ho
        have : ¬ op.IncrementID = other := Ne.symm ho
        unfold findIncrementDetails
        rw [List.find?_append]
        cases List.find? (fun increment => decide (increment.ID = other)) a.Increments <;>
          simp [this]
    | some incs =>
      obtain ⟨⟨inc, h1, h2⟩, h3, h4⟩ := addToIncrement_find _ _ _ _ hadd
      refine ⟨_, GoMap.get?_set_self _ _ _, ?_, Or.inl ⟨inc, h1, h2, h4⟩, h3⟩
      intro a0 ha0
      cases ha0
      rfl

theorem findIncrementDetails_ID (incrementID : Int) (l : List IncrementDetails)
    (increment : IncrementDetails) (h : findIncrementDetails incrementID l = some increment) :
    increment.ID = incrementID ∧ increment ∈ l := by
  unfold findIncrementDetails at h
  exact ⟨by simpa using List.find?_some h, List.mem_of_find?_eq_some h⟩

theorem counter_eq (n : node) (attackID incrementID : Int) (scenario : String) :
    n.counter attackID incrementID scenario
      = match findIncrementDetails incrementID (n.increments attackID) with
        | none => 0
        | some increment => increment.Scenarios.getD scenario 0 := by
  unfold node.counter node.increments
  cases n.attacks.get? attackID <;> rfl

theorem hasIncrement_eq (n : node) (attackID incrementID : Int) :
    n.hasIncrement attackID incrementID
      = (findIncrementDetails incrementID (n.increments attackID)).isSome := by
  unfold node.hasIncrement node.increments
  cases n.attacks.get? attackID <;> rfl

theorem increments_StartAttack (n : node) (op : OperationStart) :
    ∃ a', (n.StartAttack op).1.attacks.get? op.AttackID = some a' ∧
      (n.StartAttack op).1.increments op.AttackID = a'.Increments := by
  obtain ⟨a', h1, -⟩ := updateMirror_increments n op
  refine ⟨a', by rw [StartAttack_attacks]; exact h1, ?_⟩
  unfold node.increments
  rw [StartAttack_attacks, h1]

theorem wrap64_of_int64 (x : Int) (h1 : -2 ^ 63 ≤ x) (h2 : x < 2 ^ 63) : wrap64 x = x := by
  unfold wrap64
  omega

theorem StartAttack_counter_key (m : node) (op : OperationStart)
    (hwf : GoMap.WF op.Scenarios) :
    (∀ scenario ∈ GoMap.keys op.Scenarios,
      (m.StartAttack op).1.counter op.AttackID op.IncrementID scenario
        = if m.hasIncrement op.AttackID op.IncrementID
          then wrap64 (m.counter op.AttackID op.IncrementID scenario
                        + op.Scenarios.getD scenario 0)
          else m.counter op.AttackID op.IncrementID scenario
                + op.Scenarios.getD scenario 0) ∧
    (∀ scenario, scenario ∉ GoMap.keys op.Scenarios →
      (m.StartAttack op).1.counter op.AttackID op.IncrementID scenario
        = m.counter op.AttackID op.IncrementID scenario) ∧
    (∀ incrementID, incrementID ≠ op.IncrementID →
      findIncrementDetails incrementID ((m.StartAttack op).1.increments op.AttackID)
        = findIncrementDetails incrementID (m.increments op.AttackID)) ∧
    (m.StartAttack op).1.hasIncrement op.AttackID op.IncrementID = true := by
  obtain ⟨a', h1, -, h3, h4⟩ := updateMirror_increments m op
  obtain ⟨a'', h5, h6⟩ := increments_StartAttack m op
  have haa : a'' = a' := by
    rw [StartAttack_attacks, h1] at h5
    exact (Option.some.inj h5).symm
  subst haa
  have hin : ∀ scenario, scenario ∈ GoMap.keys op.Scenarios →
      GoMap.contains op.Scenarios scenario = true := by
    intro scenario hs
    exact (GoMap.contains_iff_mem_keys _ _).2 hs
  have hout : ∀ scenario, scenario ∉ GoMap.keys op.Scenarios →
      GoMap.contains op.Scenarios scenario = false ∧ GoMap.getD op.Scenarios scenario 0 = 0 := by
    intro scenario hs
    have hn := (GoMap.get?_eq_none_iff _ _).2 hs
    simp [GoMap.contains, GoMap.getD, hn]
  rcases h3 with ⟨inc, f1, f2, -⟩ | ⟨f1, f2⟩
  · refine ⟨fun scenario hs => ?_, fun scenario hs => ?_, fun i hi => ?_, ?_⟩
    · rw [counter_eq, counter_eq, hasIncrement_eq, h6, f2, f1]
      simp only [Option.isSome_some, if_true]
      rw [addCounters_getD _ _ hwf, hin _ hs]
      rfl
    · rw [counter_eq, counter_eq, h6, f2, f1]
      simp only
      rw [addCounters_getD _ _ hwf, (hout _ hs).1]
      rfl
    · rw [h6]
      exact h4 i hi
    · rw [hasIncrement_eq, h6, f2]
      rfl
  · have hfind : findIncrementDetails op.IncrementID a''.Increments
        = some { ID := op.IncrementID, AttackID := op.AttackID, Scenarios := op.Scenarios } := by
      rw [f2]
      unfold findIncrementDetails at f1 ⊢
      rw [List.find?_append, f1]
      simp
    refine ⟨fun scenario hs => ?_, fun scenario hs => ?_, fun i hi => ?_, ?_⟩
    · rw [counter_eq, counter_eq, hasIncrement_eq, h6, hfind, f1]
      simp
    · rw [counter_eq, counter_eq, h6, hfind, f1]
      simp only
      exact (hout _ hs).2
    · rw [h6]
      exact h4 i hi
    · rw [hasIncrement_eq, h6, hfind]
      rfl

/-- C15. For an operation whose scenarios map has distinct keys,
`StartAttack` of the node controller leaves the counter of each scenario of
the operation, in the increment and attack of the operation, at its previous
value (zero when the attack, the increment or the scenario was absent) plus
the amount of the operation, the addition into an existing increment being
that of `int64`; every other counter, every other attack and every other
increment of the attack is unchanged.  Delivering the same operation twice to
a mirror that did not hold its increment leaves each of its counters at twice
the amount of the operation. -/
theorem StartAttack_counters (n : node) (op : OperationStart) (hwf : GoMap.WF op.Scenarios) :
    (∀ scenario ∈ GoMap.keys op.Scenarios,
      (n.StartAttack op).1.counter op.AttackID op.IncrementID scenario
        = if n.hasIncrement op.AttackID op.IncrementID
          then wrap64 (n.counter op.AttackID op.IncrementID scenario
                        + op.Scenarios.getD scenario 0)
          else n.counter op.AttackID op.IncrementID scenario + op.Scenarios.getD scenario 0) ∧
    (∀ scenario ∈ GoMap.keys op.Scenarios,
      -2 ^ 63 ≤ n.counter op.AttackID op.IncrementID scenario + op.Scenarios.getD scenario 0 →
      n.counter op.AttackID op.IncrementID scenario + op.Scenarios.getD scenario 0 < 2 ^ 63 →
      (n.StartAttack op).1.counter op.AttackID op.IncrementID scenario
        = n.counter op.AttackID op.IncrementID scenario + op.Scenarios.getD scenario 0) ∧
    (∀ attackID incrementID scenario,
      (attackID ≠ op.AttackID ∨ incrementID ≠ op.IncrementID
        ∨ scenario ∉ GoMap.keys op.Scenarios) →
      (n.StartAttack op).1.counter attackID incrementID scenario
        = n.counter attackID incrementID scenario) ∧
    (∀ attackID, attackID ≠ op.AttackID →
      (n.StartAttack op).1.attacks.get? attackID = n.attacks.get? attackID) ∧
    (∀ incrementID, incrementID ≠ op.IncrementID →
      findIncrementDetails incrementID ((n.StartAttack op).1.increments op.AttackID)
        = findIncrementDetails incrementID (n.increments op.AttackID)) ∧
    (n.StartAttack op).1.hasIncrement op.AttackID op.IncrementID = true ∧
    (n.hasIncrement op.AttackID op.IncrementID = false →
      ∀ scenario ∈ GoMap.keys op.Scenarios,
        ((n.StartAttack op).1.StartAttack op).1.counter op.AttackID op.IncrementID scenario
            = wrap64 (op.Scenarios.getD scenario 0 + op.Scenarios.getD scenario 0) ∧
        (-2 ^ 63 ≤ 2 * op.Scenarios.getD scenario 0 → 2 * op.Scenarios.getD scenario 0 < 2 ^ 63 →
          ((n.StartAttack op).1.StartAttack op).1.counter op.AttackID op.IncrementID scenario
            = 2 * op.Scenarios.getD scenario 0)) := by
  have key := fun (m : node) => StartAttack_counter_key m op hwf
  obtain ⟨k1, k2, k3, k4⟩ := key n
  have hother : ∀ attackID, attackID ≠ op.AttackID →
      (n.StartAttack op).1.attacks.get? attackID = n.attacks.get? attackID := by
    intro attackID h
    rw [StartAttack_attacks]
    exact updateMirror_get?_ne n op attackID h
  refine ⟨k1, fun scenario hs hlo hhi => ?_, ?_, hother, k3, k4, fun hno scenario hs => ?_⟩
  · rw [k1 scenario hs]
    split
    · exact wrap64_of_int64 _ hlo hhi
    · rfl
  · intro attackID incrementID scenario h
    by_cases ha : attackID = op.AttackID
    · subst ha
      by_cases hi : incrementID = op.IncrementID
      · subst hi
        rcases h with h | h | h
        · exact absurd rfl h
        · exact absurd rfl h
        · exact k2 scenario h
      · rw [counter_eq, counter_eq, k3 incrementID hi]
    · unfold node.counter
      rw [hother attackID ha]
  · have hzero : n.counter op.AttackID op.IncrementID scenario = 0 := by
      rw [counter_eq]
      rw [hasIncrement_eq] at hno
      cases hf : findIncrementDetails op.IncrementID (n.increments op.AttackID) with
      | none => rfl
      | some x => rw [hf] at hno; cases hno
    have h2 := (key (n.StartAttack op).1).1 scenario hs
    rw [k4, k1 scenario hs, hno, hzero] at h2
    simp only [if_true, zero_add] at h2
    simp only [Bool.false_eq_true, if_false] at h2
    refine ⟨h2, fun hlo hhi => ?_⟩
    rw [h2]
    rw [wrap64_of_int64 _ (by omega) (by omega)]
    omega

/-- C15 at a concrete node: an operation with three users of `X` delivered
twice to an empty mirror leaves the counter at six. -/
theorem StartAttack_counters_witness :
    GoMap.WF demoOp.Scenarios ∧
    (demoNode.StartAttack demoOp).1.counter 5 2 "X" = 3 ∧
    ((demoNode.StartAttack demoOp).1.StartAttack demoOp).1.counter 5 2 "X" = 6 := by
  have h := StartAttack_counters demoNode demoOp (by decide)
  refine ⟨by decide, ?_, ?_⟩
  · have h1 := h.1 "X" (by decide)
    exact h1.trans (by decide)
  · have h2 := (h.2.2.2.2.2.2 (by decide) "X" (by decide)).2 (by decide) (by decide)
    exact h2.trans (by decide)

/-! ## The queue of the node controller -/

theorem unshare_op (attackID : Int) (incrementID : Option Int) (q : queued) :
    (node.unshare attackID incrementID q).op = q.op := by
  unfold node.unshare
  split
  · split <;> rfl
  · rfl

theorem New_queueOK (name : String) (scenarios : GoMap String ScenarioDetails) :
    (node.New name scenarios).queueOK := by
  intro q hq
  cases hq

theorem unshare_spec (attackID : Int) (incrementID : Option Int) (q : queued)
    (h : (node.unshare attackID incrementID q).shared = true) :
    node.unshare attackID incrementID q = q ∧
    ∀ start, q.op = Operation.Start start →
      ¬ (start.AttackID = attackID ∧
          (incrementID = none ∨ incrementID = some start.IncrementID)) := by
  obtain ⟨o, sh⟩ := q
  cases o with
  | Start old =>
    by_cases hm : old.AttackID = attackID ∧
        (incrementID = none ∨ incrementID = some old.IncrementID)
    · simp only [node.unshare] at h
      rw [if_pos hm] at h
      cases h
    · refine ⟨?_, fun start hs => ?_⟩
      · simp only [node.unshare]
        rw [if_neg hm]
      · cases hs
        exact hm
  | Stop st => exact ⟨rfl, fun start hs => (by cases hs)⟩
  | Kill => exact ⟨rfl, fun start hs => (by cases hs)⟩

theorem findIncrement_get (incrementID : Int) (l : List IncrementDetails) (idx : Nat)
    (h : node.findIncrement incrementID l = some idx) :
    ∃ x, l[idx]? = some x ∧ x.ID = incrementID := by
  induction l generalizing idx with
  | nil => simp [node.findIncrement] at h
  | cons a rest ih =>
    by_cases ha : a.ID = incrementID
    · simp only [node.findIncrement, ha, if_true, Option.some.injEq] at h
      subst h
      exact ⟨a, by simp, ha⟩
    · simp only [node.findIncrement, ha, if_false] at h
      cases hr : node.findIncrement incrementID rest with
      | none => rw [hr] at h; cases h
      | some j =>
        rw [hr] at h
        simp only [Option.map_some', Option.some.injEq] at h
        subst h
        obtain ⟨x, hx, hid⟩ := ih j hr
        exact ⟨x, by simpa using hx, hid⟩

theorem find?_eraseIdx_of_not {α : Type} (p : α → Bool) (l : List α) (idx : Nat) (x : α)
    (hx : l[idx]? = some x) (hp : p x = false) : (l.eraseIdx idx).find? p = l.find? p := by
  induction l generalizing idx with
  | nil => rfl
  | cons a rest ih =>
    cases idx with
    | zero =>
      simp only [List.getElem?_cons_zero, Option.some.injEq] at hx
      subst hx
      simp [List.find?_cons, hp]
    | succ j =>
      simp only [List.getElem?_cons_succ] at hx
      simp only [List.eraseIdx_cons_succ, List.find?_cons]
      rw [ih j hx]

/-- The increments of the mirror that `StopAttack` leaves as they are: those
of another attack and, when one increment is named, those with another id. -/
theorem find_StopAttack_other (n : node) (stop : OperationStop) (attackID incrementID : Int)
    (h : attackID ≠ stop.AttackID ∨
      (∃ i, stop.IncrementID = some i ∧ incrementID ≠ i ∧
        ∃ a, n.attacks.get? stop.AttackID = some a ∧ a.Increments.length > 1)) :
    findIncrementDetails incrementID ((n.StopAttack stop).1.increments attackID)
      = findIncrementDetails incrementID (n.increments attackID) := by
  unfold node.StopAttack
  cases hg : n.attacks.get? stop.AttackID with
  | none => rfl
  | some attack =>
    dsimp only
    cases hi : stop.IncrementID with
    | none =>
      dsimp only
      rcases h with h | ⟨i, h1, -⟩
      · unfold node.increments
        dsimp only
        rw [GoMap.get?_delete_ne _ h]
      · rw [hi] at h1
        cases h1
    | some i =>
      dsimp only
      cases hf : node.findIncrement i attack.Increments with
      | none => rfl
      | some idx =>
        dsimp only
        by_cases ha : attackID = stop.AttackID
        · subst ha
          rcases h with h | ⟨i', h1, h2, a, h3, h4⟩
          · exact absurd rfl h
          · rw [hi] at h1
            cases h1
            rw [hg] at h3
            cases h3
            rw [if_pos h4]
            unfold node.increments
            dsimp only
            rw [GoMap.get?_set_self, hg]
            dsimp only
            obtain ⟨x, hx, hid⟩ := findIncrement_get _ _ _ hf
            unfold findIncrementDetails
            apply find?_eraseIdx_of_not _ _ _ x hx
            rw [hid]
            exact decide_eq_false (Ne.symm h2)
        · split
          · unfold node.increments
            dsimp only
            rw [GoMap.get?_set_ne _ _ ha]
          · unfold node.increments
            dsimp only
            rw [GoMap.get?_delete_ne _ ha]

theorem StopAttack_opQueue (n : node) (stop : OperationStop) :
    (n.StopAttack stop).1 = n ∨
    ∃ a, n.attacks.get? stop.AttackID = some a ∧
      ((∃ i, stop.IncrementID = some i ∧ a.Increments.length > 1 ∧
          (n.StopAttack stop).1.opQueue
            = n.opQueue.map (node.unshare stop.AttackID (some i))
                ++ [{ op := Operation.Stop stop, shared := false }]) ∨
        (n.StopAttack stop).1.opQueue
          = n.opQueue.map (node.unshare stop.AttackID none)
              ++ [{ op := Operation.Stop stop, shared := false }]) := by
  unfold node.StopAttack
  cases hg : n.attacks.get? stop.AttackID with
  | none => exact Or.inl rfl
  | some attack =>
    dsimp only
    cases hi : stop.IncrementID with
    | none => exact Or.inr ⟨attack, rfl, Or.inr rfl⟩
    | some i =>
      dsimp only
      cases hf : node.findIncrement i attack.Increments with
      | none => exact Or.inl rfl
      | some idx =>
        dsimp only
        by_cases hl : attack.Increments.length > 1
        · rw [if_pos hl]
          exact Or.inr ⟨attack, rfl, Or.inl ⟨i, rfl, hl, rfl⟩⟩
        · rw [if_neg hl]
          exact Or.inr ⟨attack, rfl, Or.inr rfl⟩

/-- `StopAttack` keeps the meaning of `shared`: the waiting starts of what it
removes from the mirror no longer share a map with the mirror. -/
theorem StopAttack_queueOK (n : node) (stop : OperationStop) (h : n.queueOK) :
    (n.StopAttack stop).1.queueOK := by
  intro q' hq' hsh
  rcases StopAttack_opQueue n stop with hq | ⟨a, ha, ⟨i, hi, hl, hq⟩ | hq⟩
  · rw [hq] at hq' ⊢
    exact h q' hq' hsh
  · rw [hq, List.mem_append] at hq'
    rcases hq' with hq' | hq'
    · obtain ⟨q, hqm, rfl⟩ := List.mem_map.1 hq'
      obtain ⟨u1, u2⟩ := unshare_spec _ _ q hsh
      rw [u1] at hsh ⊢
      obtain ⟨start, e1, inc, e2, e3⟩ := h q hqm hsh
      refine ⟨start, e1, inc, ?_, e3⟩
      have hno := u2 start e1
      rw [find_StopAttack_other n stop _ _ ?_]
      · exact e2
      · by_cases hne : start.AttackID = stop.AttackID
        · refine Or.inr ⟨i, hi, fun hc => hno ⟨hne, Or.inr (by rw [hc])⟩, a, ha, hl⟩
        · exact Or.inl hne
    · rw [List.mem_singleton] at hq'
      subst hq'
      cases hsh
  · rw [hq, List.mem_append] at hq'
    rcases hq' with hq' | hq'
    · obtain ⟨q, hqm, rfl⟩ := List.mem_map.1 hq'
      obtain ⟨u1, u2⟩ := unshare_spec _ _ q hsh
      rw [u1] at hsh ⊢
      obtain ⟨start, e1, inc, e2, e3⟩ := h q hqm hsh
      refine ⟨start, e1, inc, ?_, e3⟩
      have hno := u2 start e1
      rw [find_StopAttack_other n stop _ _ (Or.inl fun hc => hno ⟨hc, Or.inl rfl⟩)]
      exact e2
    · rw [List.mem_singleton] at hq'
      subst hq'
      cases hsh

/-- The channel a broadcast leaves: the value is appended when the buffer
has room. -/
theorem broadcastLoop_spec {T : Type} (value : T) (l : List Nat) (hl : l.Nodup)
    (chans : GoMap Nat (Chan T))
    (hopen : ∀ ch ∈ l, ∀ c, chans.get? ch = some c → c.closed = false) :
    ∃ chans', Broadcaster.broadcastLoop value l chans = some chans' ∧
      GoMap.keys chans' = GoMap.keys chans ∧
      ∀ ch, chans'.get? ch
        = if ch ∈ l then
            (chans.get? ch).map
              (fun c => if c.buf.length < c.cap then { c with buf := c.buf ++ [value] } else c)
          else chans.get? ch := by
  induction l generalizing chans with
  | nil => exact ⟨chans, rfl, rfl, fun ch => by simp⟩
  | cons x rest ih =>
    rw [List.nodup_cons] at hl
    cases hg : chans.get? x with
    | none =>
      obtain ⟨chans', h1, h2, h3⟩ := ih hl.2 chans
        (fun ch hch c hc => hopen ch (List.mem_cons_of_mem _ hch) c hc)
      refine ⟨chans', ?_, h2, fun ch => ?_⟩
      · rw [Broadcaster.broadcastLoop, hg]
        exact h1
      · rw [h3 ch]
        by_cases hx : ch = x
        · subst hx
          simp [hl.1, hg]
        · simp [hx]
    | some c =>
      have hc := hopen x (List.mem_cons_self _ _) c hg
      by_cases hroom : c.buf.length < c.cap
      · obtain ⟨chans', h1, h2, h3⟩ := ih hl.2 (chans.set x { c with buf := c.buf ++ [value] })
          (fun ch hch c' hc' => by
            have hne : ch ≠ x := fun h => hl.1 (h ▸ hch)
            rw [GoMap.get?_set_ne _ _ hne] at hc'
            exact hopen ch (List.mem_cons_of_mem _ hch) c' hc')
        refine ⟨chans', ?_, ?_, fun ch => ?_⟩
        · rw [Broadcaster.broadcastLoop, hg]
          dsimp only
          rw [if_neg (by simp [hc]), if_pos hroom]
          exact h1
        · rw [h2]
          exact GoMap.keys_set_of_mem _ _
            ((GoMap.get?_eq_none_iff _ _).not_left.1 (by rw [hg]; simp))
        · rw [h3 ch]
          by_cases hx : ch = x
          · subst hx
            simp [hl.1, hg, GoMap.get?_set_self, hroom]
          · simp [hx, GoMap.get?_set_ne _ _ hx]
      · obtain ⟨chans', h1, h2, h3⟩ := ih hl.2 chans
          (fun ch hch c hc => hopen ch (List.mem_cons_of_mem _ hch) c hc)
        refine ⟨chans', ?_, h2, fun ch => ?_⟩
        · rw [Broadcaster.broadcastLoop, hg]
          dsimp only
          rw [if_neg (by simp [hc]), if_neg hroom]
          exact h1
        · rw [h3 ch]
          by_cases hx : ch = x
          · subst hx
            simp [hl.1, hg, hroom]
          · simp [hx]

theorem rangeOrder_keys_nodup {κ ν : Type} [DecidableEq κ] (cs : List Nat) (m : GoMap κ ν)
    (h : GoMap.WF m) : (GoMap.keys (rangeOrder cs m)).Nodup ∧
      ∀ k, k ∈ GoMap.keys (rangeOrder cs m) ↔ k ∈ GoMap.keys m := by
  unfold GoMap.WF at h
  unfold GoMap.keys
  exact ⟨(((rangeOrder_perm cs m).map Prod.fst).nodup_iff).2 h,
    fun k => ((rangeOrder_perm cs m).map Prod.fst).mem_iff⟩

theorem NewBroadcaster_OK (T : Type) : (NewBroadcaster T).OK := by
  refine ⟨List.nodup_nil, List.nodup_nil, ?_, ?_⟩ <;> intro ch hch <;> cases hch

theorem Subscribe_OK {T : Type} (b : Broadcaster T) (hok : b.OK) : b.Subscribe.1.OK := by
  obtain ⟨h1, h2, h3, h4⟩ := hok
  refine ⟨GoMap.WF_set h1 _ _, GoMap.WF_set h2 _ _, ?_, ?_⟩
  · intro ch hch
    rcases (GoMap.mem_keys_set _ _ _ _).1 hch with h | h
    · rw [h]
      exact Nat.lt_succ_self _
    · exact Nat.lt_succ_of_lt (h3 ch h)
  · intro ch hch
    by_cases hx : ch = b.chanSeq
    · subst hx
      exact ⟨_, GoMap.get?_set_self _ _ _, rfl, rfl⟩
    · rcases (GoMap.mem_keys_set _ _ _ _).1 hch with h | h
      · exact absurd h hx
      · obtain ⟨c, hc1, hc2⟩ := h4 ch h
        exact ⟨c, by
          show (b.chans.set b.chanSeq _).get? ch = some c
          rw [GoMap.get?_set_ne _ _ hx]; exact hc1, hc2⟩

theorem Unsubscribe_OK {T : Type} (b b' : Broadcaster T) (ch : Nat) (hok : b.OK)
    (h : b.Unsubscribe ch = some b') : b'.OK := by
  obtain ⟨h1, h2, h3, h4⟩ := hok
  unfold Broadcaster.Unsubscribe at h
  cases hg : b.chans.get? ch with
  | none => rw [hg] at h; cases h
  | some c =>
    rw [hg] at h
    dsimp only at h
    split at h
    · cases h
    · simp only [Option.some.injEq] at h
      subst h
      have hmem : ch ∈ GoMap.keys b.chans :=
        (GoMap.get?_eq_none_iff _ _).not_left.1 (by rw [hg]; simp)
      refine ⟨GoMap.WF_delete h1 _, GoMap.WF_set h2 _ _, ?_, ?_⟩
      · intro x hx
        rcases (GoMap.mem_keys_set _ _ _ _).1 hx with hx | hx
        · rw [hx]; exact h3 ch hmem
        · exact h3 x hx
      · intro x hx
        obtain ⟨hne, hx'⟩ := (GoMap.mem_keys_delete _ _ _).1 hx
        obtain ⟨c', hc1, hc2⟩ := h4 x hx'
        exact ⟨c', by
          show (b.chans.set ch _).get? x = some c'
          rw [GoMap.get?_set_ne _ _ hne]; exact hc1, hc2⟩

theorem Broadcast_frame {T : Type} (b : Broadcaster T) (value : T) (order : List Nat)
    (hok : b.OK) :
    ∃ b', b.Broadcast value order = some b' ∧
      b'.subscribers = b.subscribers ∧ b'.chanSeq = b.chanSeq ∧
      GoMap.keys b'.chans = GoMap.keys b.chans ∧
      ∀ ch, b'.chans.get? ch
        = if ch ∈ GoMap.keys b.subscribers then
            (b.chans.get? ch).map
              (fun c => if c.buf.length < c.cap then { c with buf := c.buf ++ [value] } else c)
          else b.chans.get? ch := by
  obtain ⟨h1, h2, h3, h4⟩ := hok
  obtain ⟨hnd, hmem⟩ := rangeOrder_keys_nodup order b.subscribers h1
  obtain ⟨chans', e1, e2, e3⟩ := broadcastLoop_spec value _ hnd b.chans
    (fun ch hch c hc => by
      obtain ⟨c', hc1, hc2, -⟩ := h4 ch ((hmem ch).1 hch)
      rw [hc1] at hc
      cases hc
      exact hc2)
  refine ⟨{ b with chans := chans' }, ?_, rfl, rfl, e2, fun ch => ?_⟩
  · unfold Broadcaster.Broadcast
    rw [e1]
  · show chans'.get? ch = _
    rw [e3 ch]
    by_cases hch : ch ∈ GoMap.keys b.subscribers
    · rw [if_pos ((hmem ch).2 hch), if_pos hch]
    · rw [if_neg (fun h => hch ((hmem ch).1 h)), if_neg hch]

/-- C19. In a broadcaster whose subscribers are open channels made by
`Subscribe` (capacity 10), `Broadcast` returns for every visiting order and
leaves the set of subscribers as it is; the queue of every subscriber that
held fewer than 10 values is its old queue with the value appended once, the
channel of every subscriber whose queue was full is unchanged, and so is
every channel that is not subscribed.  After `Subscribe` followed by one
`Broadcast` the queue of the new subscriber holds exactly the value. -/
theorem Broadcast_queues {T : Type} (b : Broadcaster T) (value : T) (order : List Nat)
    (hok : b.OK) :
    (∃ b', b.Broadcast value order = some b' ∧
      b'.subscribers = b.subscribers ∧
      (∀ ch ∈ GoMap.keys b.subscribers, (b.queue ch).length < 10 →
        b'.queue ch = b.queue ch ++ [value]) ∧
      (∀ ch ∈ GoMap.keys b.subscribers, ¬ (b.queue ch).length < 10 →
        b'.chans.get? ch = b.chans.get? ch ∧ b'.queue ch = b.queue ch) ∧
      (∀ ch, ch ∉ GoMap.keys b.subscribers → b'.chans.get? ch = b.chans.get? ch)) ∧
    (∃ b'', b.Subscribe.1.Broadcast value order = some b'' ∧
      b.Subscribe.2 ∈ GoMap.keys b''.subscribers ∧
      b''.queue b.Subscribe.2 = [value]) := by
  constructor
  · obtain ⟨b', e1, e2, -, -, e5⟩ := Broadcast_frame b value order hok
    refine ⟨b', e1, e2, fun ch hch hlen => ?_, fun ch hch hlen => ?_, fun ch hch => ?_⟩
    · obtain ⟨c, hc1, -, hc3⟩ := hok.2.2.2 ch hch
      unfold Broadcaster.queue at hlen ⊢
      rw [hc1] at hlen
      rw [e5 ch, if_pos hch, hc1]
      have : c.buf.length < c.cap := by
        rw [hc3]
        exact hlen
      simp [this]
    · obtain ⟨c, hc1, -, hc3⟩ := hok.2.2.2 ch hch
      have hget : b'.chans.get? ch = b.chans.get? ch := by
        unfold Broadcaster.queue at hlen
        rw [hc1] at hlen
        rw [e5 ch, if_pos hch, hc1]
        have : ¬ c.buf.length < c.cap := by
          rw [hc3]
          exact hlen
        simp [this]
      refine ⟨hget, ?_⟩
      unfold Broadcaster.queue
      rw [hget]
    · rw [e5 ch, if_neg hch]
  · obtain ⟨b'', e1, e2, -, -, e5⟩ :=
      Broadcast_frame b.Subscribe.1 value order (Subscribe_OK b hok)
    have hsub : b.Subscribe.2 ∈ GoMap.keys b.Subscribe.1.subscribers :=
      (GoMap.mem_keys_set _ _ _ _).2 (Or.inl rfl)
    refine ⟨b'', e1, by rw [e2]; exact hsub, ?_⟩
    unfold Broadcaster.queue
    rw [e5, if_pos hsub]
    have : b.Subscribe.1.chans.get? b.Subscribe.2
        = some { buf := [], cap := defaultBroadcastCapacity, closed := false } :=
      GoMap.get?_set_self _ _ _
    rw [this]
    simp [defaultBroadcastCapacity]

/-- C19 at a concrete broadcaster: the full subscriber keeps its ten values,
the other one gets the value, and a new subscriber holds exactly the value. -/
theorem Broadcast_queues_witness :
    demoBroadcaster.OK ∧
    (∃ b', demoBroadcaster.Broadcast 5 [1] = some b' ∧
      b'.queue 0 = [1, 2, 3, 4, 5, 6, 7, 8, 9, 10] ∧ b'.queue 1 = [7, 5]) ∧
    (∃ b'', demoBroadcaster.Subscribe.1.Broadcast 5 [1] = some b'' ∧
      demoBroadcaster.Subscribe.2 ∈ GoMap.keys b''.subscribers ∧
      b''.queue demoBroadcaster.Subscribe.2 = [5]) := by
  have hok : demoBroadcaster.OK := by
    refine ⟨by decide, by decide, by decide, ?_⟩
    intro ch hch
    have : ch = 0 ∨ ch = 1 := by simpa [demoBroadcaster, GoMap.keys] using hch
    rcases this with rfl | rfl
    · exact ⟨_, rfl, rfl, rfl⟩
    · exact ⟨_, rfl, rfl, rfl⟩
  obtain ⟨⟨b', e1, -, e3, e4, -⟩, h2⟩ := Broadcast_queues demoBroadcaster 5 [1] hok
  exact ⟨hok, ⟨b', e1, (e4 0 (by decide) (by decide)).2, e3 1 (by decide) (by decide)⟩, h2⟩

/-- C20. A second `Unsubscribe` of the same channel does not succeed: after
any `Unsubscribe` that returned, the channel is closed and no longer
subscribed, and calling `Unsubscribe` on it again closes a closed channel,
which panics. -/
theorem Unsubscribe_twice_panics {T : Type} (b b' : Broadcaster T) (ch : Nat)
    (h : b.Unsubscribe ch = some b') :
    ch ∉ GoMap.keys b'.subscribers ∧
    (∃ c, b'.chans.get? ch = some c ∧ c.closed = true) ∧
    b'.Unsubscribe ch = none := by
  unfold Broadcaster.Unsubscribe at h
  cases hg : b.chans.get? ch with
  | none => rw [hg] at h; cases h
  | some c =>
    rw [hg] at h
    dsimp only at h
    split at h
    · cases h
    · simp only [Option.some.injEq] at h
      subst h
      refine ⟨fun hmem => ((GoMap.mem_keys_delete _ _ _).1 hmem).1 rfl,
        ⟨_, GoMap.get?_set_self _ _ _, rfl⟩, ?_⟩
      unfold Broadcaster.Unsubscribe
      dsimp only
      rw [GoMap.get?_set_self]
      rfl

/-- C20 at a concrete broadcaster: subscribe once, unsubscribe twice. -/
theorem Unsubscribe_twice_panics_witness :
    (NewBroadcaster Nat).Subscribe.1.Unsubscribe 0
      = some { subscribers := [], chans := [(0, { buf := [], cap := 10, closed := true })],
               chanSeq := 1 } ∧
    (0 ∉ GoMap.keys
        ({ subscribers := [], chans := [(0, { buf := [], cap := 10, closed := true })],
           chanSeq := 1 } : Broadcaster Nat).subscribers ∧
      (∃ c, ({ subscribers := [], chans := [(0, { buf := [], cap := 10, closed := true })],
               chanSeq := 1 } : Broadcaster Nat).chans.get? 0 = some c ∧ c.closed = true) ∧
      ({ subscribers := [], chans := [(0, { buf := [], cap := 10, closed := true })],
         chanSeq := 1 } : Broadcaster Nat).Unsubscribe 0 = none) :=
  ⟨by decide, Unsubscribe_twice_panics (NewBroadcaster Nat).Subscribe.1 _ 0 (by decide)⟩

/-! ## The load generator -/

/-- C18. When the generator holds the increment of an operation with the same
operation id, `StartAttack` of the operation returns the error for an
increment that has already been created and leaves the generator exactly as
it was: its attacks, the users of the increment, the counter of the wait
group `stop`, the scheduler and the number of HTTP clients; no user is
created. -/
theorem StartAttack_duplicate (g : Generator.generator) (start : OperationStart)
    (jobID : String) (order : List Nat) (att : Generator.attack) (inc : Generator.increment)
    (hatt : g.attacks.get? start.AttackID = some att)
    (hinc : att.increments.get? start.IncrementID = some inc)
    (hop : inc.operationID = start.ID) :
    ∃ g' err, g.StartAttack start jobID order = some (g', some err) ∧
      err = Generator.Error.alreadyCreated ∧
      g'.attacks = g.attacks ∧
      (∃ att', g'.attacks.get? start.AttackID = some att' ∧
        att'.increments.get? start.IncrementID = some inc ∧
        (att'.increments.getD start.IncrementID inc).users = inc.users) ∧
      g'.stop = g.stop ∧ g'.scheduler = g.scheduler ∧ g'.clients = g.clients ∧ g' = g := by
  refine ⟨g, Generator.Error.alreadyCreated, ?_, rfl, rfl, ⟨att, hatt, hinc, ?_⟩,
    rfl, rfl, rfl, rfl⟩
  · unfold Generator.generator.StartAttack
    simp only [hatt, hinc, hop, decide_True, if_true]
  · simp [GoMap.getD, hinc]

/-- C18 at a concrete generator: the operation that created increment 2 of
attack 5 is delivered again. -/
theorem StartAttack_duplicate_witness :
    (demoGenerator.attacks.get? demoGenOp.AttackID = some demoGenAttack ∧
      demoGenAttack.increments.get? demoGenOp.IncrementID = some demoGenIncrement ∧
      demoGenIncrement.operationID = demoGenOp.ID) ∧
    ∃ g' err, demoGenerator.StartAttack demoGenOp "job-2" [] = some (g', some err) ∧
      err = Generator.Error.alreadyCreated ∧ g'.stop = 3 ∧ g' = demoGenerator := by
  obtain ⟨g', err, h1, h2, -, -, h3, -, -, h4⟩ :=
    StartAttack_duplicate demoGenerator demoGenOp "job-2" [] demoGenAttack demoGenIncrement
      (by decide) (by decide) (by decide)
  exact ⟨⟨by decide, by decide, by decide⟩, g', err, h1, h2, h3.trans (by decide), h4⟩

/-! ## Starting an attack and stopping it again -/

theorem GoMap.delete_of_not_mem {κ ν : Type} [DecidableEq κ] (m : GoMap κ ν) (k : κ)
    (h : k ∉ m.keys) : m.delete k = m := by
  unfold GoMap.delete
  rw [List.filter_eq_self]
  intro e he
  have : e.1 ≠ k := fun hk => h (hk ▸ List.mem_map_of_mem Prod.fst he)
  simpa using this

theorem GoMap.delete_set_of_not_mem {κ ν : Type} [DecidableEq κ] (m : GoMap κ ν) (k : κ) (v : ν)
    (h : k ∉ m.keys) : (m.set k v).delete k = m := by
  induction m with
  | nil => simp [GoMap.set, GoMap.delete]
  | cons e rest ih =>
    obtain ⟨k₀, v₀⟩ := e
    have h₀ : k₀ ≠ k := by
      rintro rfl
      exact h (by simp [GoMap.keys])
    have hrest : k ∉ GoMap.keys rest := fun hk => h (by
      simp only [GoMap.keys, List.map_cons, List.mem_cons] at hk ⊢
      exact Or.inr hk)
    have := ih hrest
    unfold GoMap.delete at this ⊢
    simp only [GoMap.set, h₀, if_false]
    rw [List.filter_cons_of_pos (by simpa using h₀), this]

theorem mapLinear_WF (startCounter : Int) (L : List Scenario) (m : GoMap String Int)
    (hwf : GoMap.WF m) : GoMap.WF (mapLinear startCounter L m) := by
  induction L generalizing m with
  | nil => exact hwf
  | cons a rest ih => exact ih _ (GoMap.WF_set hwf _ _)

theorem mapStartAttack_WF (start : LoadGen.StartAttack) (attackID incrementID : Int)
    (op : OperationStart)
    (h : mapStartAttackToOperationStart start attackID incrementID = some op) :
    GoMap.WF op.Scenarios := by
  unfold mapStartAttackToOperationStart at h
  have hnil : GoMap.WF ([] : GoMap String Int) := List.nodup_nil
  cases hc : start.ConstConfig with
  | none =>
    rw [hc] at h
    dsimp only at h
    cases hl : start.LinearConfig with
    | none =>
      rw [hl] at h
      simp only [Option.some.injEq] at h
      subst h
      exact hnil
    | some l =>
      rw [hl] at h
      simp only [Option.some.injEq] at h
      subst h
      exact mapLinear_WF _ _ _ hnil
  | some c =>
    rw [hc] at h
    dsimp only at h
    cases hm : mapConst c.Scenarios [] with
    | none => rw [hm] at h; cases h
    | some m =>
      rw [hm] at h
      dsimp only at h
      have hwf := (mapConst_spec _ _ _ hm hnil).1
      cases hl : start.LinearConfig with
      | none =>
        rw [hl] at h
        simp only [Option.some.injEq] at h
        subst h
        exact hwf
      | some l =>
        rw [hl] at h
        simp only [Option.some.injEq] at h
        subst h
        exact mapLinear_WF _ _ _ hwf

theorem StopAttack_absent (n : node) (stop : OperationStop)
    (h : n.attacks.get? stop.AttackID = none) : (n.StopAttack stop).1 = n := by
  unfold node.StopAttack
  rw [h]

/-- A node whose mirror does not hold an attack is, after a start operation of
the attack followed by the stop of the whole attack, as before except for its
queue, which has gained two operations; the map of a waiting start of the
attack is not a map of the mirror. -/
theorem StartAttack_StopAttack_node (n : node) (op : OperationStart)
    (h : n.attacks.get? op.AttackID = none) :
    ((n.StartAttack op).1.StopAttack { AttackID := op.AttackID, IncrementID := none }).1
      = { n with
          opQueue := n.opQueue.map (node.unshare op.AttackID none)
            ++ [{ op := if op.Scenarios.all (fun e => n.scenarios.contains e.1)
                        then Operation.Start op else Operation.Kill,
                  shared := false },
                { op := Operation.Stop { AttackID := op.AttackID, IncrementID := none },
                  shared := false }] } := by
  have hm : node.updateMirror n op
      = n.attacks.set op.AttackID
          { ID := op.AttackID, Name := "", WaitTimeSec := 0, CreatedAt := 0, DurationSec := none,
            ConstConfig := none, LinearConfig := none,
            Increments := [{ ID := op.IncrementID, AttackID := op.AttackID,
                             Scenarios := op.Scenarios }] } := by
    unfold node.updateMirror
    rw [h]
  have hk : op.AttackID ∉ GoMap.keys n.attacks := (GoMap.get?_eq_none_iff _ _).1 h
  have hf : node.found n op = false := by
    unfold node.found
    rw [h]
  have hq : n.afterUpdate op = n.opQueue := by
    unfold node.afterUpdate
    rw [hf]
    rfl
  unfold node.StartAttack
  dsimp only
  rw [hm, hq, hf]
  split
  · unfold node.StopAttack
    dsimp only
    rw [GoMap.get?_set_self]
    dsimp only
    rw [GoMap.delete_set_of_not_mem _ _ _ hk]
    simp [node.unshare]
  · unfold node.StopAttack
    dsimp only
    rw [GoMap.get?_set_self]
    dsimp only
    rw [GoMap.delete_set_of_not_mem _ _ _ hk]
    simp [node.unshare]

/-- In a queue whose sharing marks are sound no waiting start shares a map
with an attack the mirror does not hold. -/
theorem unshare_of_queueOK (n : node) (attackID : Int) (hok : n.queueOK)
    (h : n.attacks.get? attackID = none) :
    n.opQueue.map (node.unshare attackID none) = n.opQueue := by
  have key : ∀ q ∈ n.opQueue, node.unshare attackID none q = q := by
    intro q hq
    obtain ⟨o, sh⟩ := q
    cases o with
    | Start old =>
      by_cases hm : old.AttackID = attackID
      · cases sh with
        | false =>
          simp only [node.unshare]
          split <;> rfl
        | true =>
          obtain ⟨start, e1, inc, e2, -⟩ := hok _ hq rfl
          cases e1
          unfold node.increments at e2
          rw [hm, h] at e2
          cases e2
      · simp only [node.unshare]
        rw [if_neg (fun hc => hm hc.1)]
    | Stop st => rfl
    | Kill => rfl
  calc n.opQueue.map (node.unshare attackID none)
      = n.opQueue.map id := List.map_congr_left key
    _ = n.opQueue := List.map_id _

/-- The state a successful `StartAttack` followed by `StopAttack` of the
returned id leaves, and what became of each node. -/
theorem StartAttack_StopAttack_shape (s : attackService) (start : LoadGen.StartAttack)
    (now : Nat) (ids : String → String) (ch : Choices) (order : List Nat)
    (o : Outcome AttackDetails) (details : AttackDetails)
    (hnodes : GoMap.WF s.nodes) (hfresh : s.attacks.get? s.attackSeq = none)
    (hmirror : ∀ e ∈ s.nodes, e.2.attacks.get? s.attackSeq = none)
    (h : s.StartAttack start now ids ch = some o) (hok : o.ret = Ret.ok details) :
    details.ID = s.attackSeq ∧
    (o.state.StopAttack s.attackSeq order).ret = Ret.ok () ∧
    (o.state.StopAttack s.attackSeq order).state
      = { s with
          attackSeq := s.attackSeq + 1,
          incrementSeqs :=
            s.incrementSeqs.set s.attackSeq (s.incrementSeqs.getD s.attackSeq 0 + 1),
          nodes := (o.state.StopAttack s.attackSeq order).state.nodes } ∧
    GoMap.keys (o.state.StopAttack s.attackSeq order).state.nodes = GoMap.keys s.nodes ∧
    ∀ nodeName n, s.nodes.get? nodeName = some n →
      ∃ n', (o.state.StopAttack s.attackSeq order).state.nodes.get? nodeName = some n' ∧
        (GoMap.get? (dispatched o.effects) nodeName = none → n' = n) ∧
        (∀ op, GoMap.get? (dispatched o.effects) nodeName = some op →
          op.AttackID = s.attackSeq ∧ op.IncrementID = 0 ∧
          n' = { n with
                 opQueue := n.opQueue.map (node.unshare s.attackSeq none)
                   ++ [{ op := if op.Scenarios.all (fun e => n.scenarios.contains e.1)
                               then Operation.Start op else Operation.Kill,
                         shared := false },
                       { op := Operation.Stop { AttackID := s.attackSeq, IncrementID := none },
                         shared := false }] }) := by
  obtain ⟨op, scenarios, s', effects, hmap, hdist, hdet, hstate, heff⟩ :=
    StartAttack_success_shape s start now ids ch o details h hok
  obtain ⟨hid, hinc, -⟩ := mapStart_ids _ _ _ _ hmap
  have hwfop := mapStartAttack_WF _ _ _ _ hmap
  obtain ⟨hval, hdiv⟩ := distributeStart_ok _ _ _ _ _ _ _ hdist
  obtain ⟨hfil, -, hadv⟩ := validateScenarios_ok s op.Scenarios scenarios ch.validate hwfop hval
  have hadv' : ∀ e ∈ scenarios, ∃ n ∈ s.nodes, supports n.2 e.1 = true := by
    intro e he
    rw [hfil] at he
    exact hadv e (List.mem_filter.1 he).1
  obtain ⟨nodes', hd, hkeys, hget⟩ :=
    divideTasks_spec s { op with Scenarios := scenarios } ids ch hnodes hadv'
  rw [hd] at hdiv
  simp only [Option.some.injEq, Prod.mk.injEq] at hdiv
  obtain ⟨hs', heffects⟩ := hdiv
  subst hs'
  have hdid : details.ID = s.attackSeq := by rw [hdet]; exact hid
  have hwf' : GoMap.WF nodes' := by
    unfold GoMap.WF GoMap.keys at *
    rw [hkeys]
    exact hnodes
  have hdisp : dispatched o.effects
      = (rangeOrder ch.dispatch
            (plannedOperations s { op with Scenarios := scenarios } ids ch)).filter
          (fun e => decide (e.2.Scenarios.length ≠ 0)) := by
    rw [heff, ← heffects, dispatched_append, dispatched_append, dispatched_map]
    have e1 : dispatched (if start.DurationSec.isSome = true then
        [Effect.goHandleDuration { details := details, stopBr := op.AttackID }] else []) = [] := by
      split <;> rfl
    have e2 : dispatched (if start.LinearConfig.isSome = true then
        [Effect.goHandleLinear { details := details, stopBr := op.AttackID }] else []) = [] := by
      split <;> rfl
    rw [e1, e2]
    simp
  have hlive : o.state.attacks.get? s.attackSeq
      = some { details := details, stopBr := op.AttackID } := by
    rw [hstate, ← hid]
    exact GoMap.get?_set_self _ _ _
  have hfr := (distributeStop_frame o.state { AttackID := s.attackSeq, IncrementID := none }
    order).1
  have hns : (distributeStop o.state { AttackID := s.attackSeq, IncrementID := none }
      order).1.nodes
      = nodes'.map (fun e =>
          (e.1, (e.2.StopAttack { AttackID := s.attackSeq, IncrementID := none }).1)) := by
    have := distributeStop_nodes o.state { AttackID := s.attackSeq, IncrementID := none } order
      (by rw [hstate]; exact hwf')
    rw [this, hstate]
  have hfinal : (o.state.StopAttack s.attackSeq order).state
      = { (distributeStop o.state { AttackID := s.attackSeq, IncrementID := none } order).1 with
          attacks := (distributeStop o.state { AttackID := s.attackSeq, IncrementID := none }
            order).1.attacks.delete s.attackSeq } := by
    unfold attackService.StopAttack
    rw [hlive]
  have hret : (o.state.StopAttack s.attackSeq order).ret = Ret.ok () := by
    unfold attackService.StopAttack
    rw [hlive]
  have hfnodes : (o.state.StopAttack s.attackSeq order).state.nodes
      = nodes'.map (fun e =>
          (e.1, (e.2.StopAttack { AttackID := s.attackSeq, IncrementID := none }).1)) := by
    rw [hfinal]
    exact hns
  refine ⟨hdid, hret, ?_, ?_, ?_⟩
  · rw [hfinal, hfr, hstate]
    dsimp only
    rw [hid, GoMap.delete_set_of_not_mem _ _ _ ((GoMap.get?_eq_none_iff _ _).1 hfresh)]
  · rw [hfnodes]
    have := keys_map_entries nodes'
      (fun e => (e.2.StopAttack { AttackID := s.attackSeq, IncrementID := none }).1)
    rw [this, hkeys]
  · intro nodeName n hn
    have hmem : (nodeName, n) ∈ s.nodes := GoMap.mem_of_get? hn
    have hmir := hmirror _ hmem
    have hg := get?_map_entries nodes'
      (fun e => (e.2.StopAttack { AttackID := s.attackSeq, IncrementID := none }).1) nodeName
    rw [hfnodes, hg, hget nodeName, hn, hdisp]
    dsimp only [Option.map_some']
    cases hD : GoMap.get? ((rangeOrder ch.dispatch
        (plannedOperations s { op with Scenarios := scenarios } ids ch)).filter
          (fun e => decide (e.2.Scenarios.length ≠ 0))) nodeName with
    | none =>
      refine ⟨_, rfl, fun _ => ?_, fun op' hop' => (by cases hop')⟩
      exact StopAttack_absent n _ hmir
    | some opk =>
      have hin := GoMap.mem_of_get? hD
      have hin2 := (rangeOrder_perm _ _).mem_iff.1 (List.mem_filter.1 hin).1
      have hida : opk.AttackID = s.attackSeq := by
        rw [(mem_planned _ _ _ _ _ hin2).2.1]
        exact hid
      have hinca : opk.IncrementID = 0 := by
        rw [(mem_planned _ _ _ _ _ hin2).2.2.1]
        exact hinc
      refine ⟨_, rfl, fun hnone => (by cases hnone), fun op' hop' => ?_⟩
      cases hop'
      have := StartAttack_StopAttack_node n opk (by rw [hida]; exact hmir)
      rw [hida] at this
      exact ⟨hida, hinca, this⟩

/-- C11 fails as stated: on `demoService` the request `demoAttack` starts
attack 0, and after `StopAttack 0` the service is not the one before the
start: `attackSeq` is 1 instead of 0 and `incrementSeqs` has an entry for
attack 0. -/
theorem StartAttack_StopAttack_not_equal :
    (∃ o details, demoService.StartAttack demoAttack 100 (fun n => n) demoChoices = some o ∧
      o.ret = Ret.ok details ∧ details.ID = 0 ∧ o.state = demoStarted) ∧
    (demoStarted.StopAttack 0 []).ret = Ret.ok () ∧
    (demoStarted.StopAttack 0 []).state ≠ demoService ∧
    demoService.attackSeq = 0 ∧ (demoStarted.StopAttack 0 []).state.attackSeq = 1 ∧
    demoService.incrementSeqs = [] ∧
    (demoStarted.StopAttack 0 []).state.incrementSeqs = [(0, 1)] := by
  have hsome : (demoService.StartAttack demoAttack 100 (fun n => n) demoChoices).isSome = true := by
    decide
  refine ⟨⟨_, _, (Option.some_get hsome).symm, rfl, rfl, rfl⟩, by decide, by decide, by decide,
    by decide, by decide, by decide⟩

/-- C11, amended.  In a state whose nodes have distinct names and in which the
id about to be given out (`attackSeq`) is held neither by a live attack nor by
the mirror of a node, a successful `StartAttack` followed by `StopAttack` of
the returned id succeeds and leaves `attacks`, `removingCancels`, the recovery
interval and the set of registered nodes as before the start; every node has
its name, advertised scenarios, activity flag and mirror as before.  A node on
which no operation was started is as before altogether.  The queue of a node
on which an operation was started, which is an operation for increment 0 of
the returned id, has gained exactly two operations behind those that waited:
this start operation (`Kill` when the node controller refused it) and the stop
of the attack.  The sequences are not rolled back: `attackSeq` and the
increment counter of the id are each advanced by one. -/
theorem StartAttack_StopAttack_restores (s : attackService) (start : LoadGen.StartAttack)
    (now : Nat) (ids : String → String) (ch : Choices) (order : List Nat)
    (o : Outcome AttackDetails) (details : AttackDetails)
    (hnodes : GoMap.WF s.nodes) (hfresh : s.attacks.get? s.attackSeq = none)
    (hmirror : ∀ e ∈ s.nodes, e.2.attacks.get? s.attackSeq = none)
    (h : s.StartAttack start now ids ch = some o) (hok : o.ret = Ret.ok details) :
    (o.state.StopAttack details.ID order).ret = Ret.ok () ∧
    (o.state.StopAttack details.ID order).state.attacks = s.attacks ∧
    (o.state.StopAttack details.ID order).state.removingCancels = s.removingCancels ∧
    (o.state.StopAttack details.ID order).state.recoveryInterval = s.recoveryInterval ∧
    (o.state.StopAttack details.ID order).state.attackSeq = s.attackSeq + 1 ∧
    (o.state.StopAttack details.ID order).state.incrementSeqs.getD details.ID 0
      = s.incrementSeqs.getD details.ID 0 + 1 ∧
    (∀ k, k ≠ details.ID →
      (o.state.StopAttack details.ID order).state.incrementSeqs.get? k
        = s.incrementSeqs.get? k) ∧
    GoMap.keys (o.state.StopAttack details.ID order).state.nodes = GoMap.keys s.nodes ∧
    ∀ nodeName n, s.nodes.get? nodeName = some n →
      ∃ n', (o.state.StopAttack details.ID order).state.nodes.get? nodeName = some n' ∧
        n'.name = n.name ∧ n'.scenarios = n.scenarios ∧ n'.isActive = n.isActive ∧
        n'.attacks = n.attacks ∧
        (GoMap.get? (dispatched o.effects) nodeName = none → n' = n) ∧
        (∀ op, GoMap.get? (dispatched o.effects) nodeName = some op →
          op.AttackID = details.ID ∧ op.IncrementID = 0 ∧
          n'.pending
            = n.pending
                ++ [if op.Scenarios.all (fun e => n.scenarios.contains e.1)
                    then Operation.Start op else Operation.Kill,
                    Operation.Stop { AttackID := details.ID, IncrementID := none }] ∧
          (n.queueOK →
            n'.opQueue
              = n.opQueue
                  ++ [{ op := if op.Scenarios.all (fun e => n.scenarios.contains e.1)
                              then Operation.Start op else Operation.Kill,
                        shared := false },
                      { op := Operation.Stop { AttackID := details.ID, IncrementID := none },
                        shared := false }])) := by
  obtain ⟨hid, hret, hstate, hkeys, hnode⟩ :=
    StartAttack_StopAttack_shape s start now ids ch order o details hnodes hfresh hmirror h hok
  rw [hid]
  refine ⟨hret, by rw [hstate], by rw [hstate], by rw [hstate], by rw [hstate], ?_, ?_, hkeys, ?_⟩
  · rw [hstate]
    exact getD_set_self _ _ _ _
  · intro k hk
    rw [hstate]
    exact GoMap.get?_set_ne _ _ hk
  · intro nodeName n hn
    obtain ⟨n', h1, h2, h3⟩ := hnode nodeName n hn
    have hmir := hmirror _ (GoMap.mem_of_get? hn)
    cases hd : GoMap.get? (dispatched o.effects) nodeName with
    | none =>
      refine ⟨n', h1, ?_⟩
      rw [h2 hd]
      exact ⟨rfl, rfl, rfl, rfl, fun _ => rfl, fun op hop => (by cases hop)⟩
    | some op =>
      obtain ⟨i1, i2, i3⟩ := h3 op hd
      refine ⟨n', h1, ?_⟩
      rw [i3]
      refine ⟨rfl, rfl, rfl, rfl, fun hc => (by cases hc), fun op' hop' => ?_⟩
      cases hop'
      refine ⟨i1, i2, ?_, fun hq => ?_⟩
      · unfold node.pending
        dsimp only
        rw [List.map_append, List.map_map]
        have hfun : ((fun q => q.op) ∘ node.unshare s.attackSeq none)
            = (fun q : queued => q.op) := by
          funext q
          exact unshare_op _ _ q
        rw [hfun]
        rfl
      · dsimp only
        rw [unshare_of_queueOK n s.attackSeq hq hmir]

/-- C11, amended, at a concrete state: after `demoAttack` is started on
`demoService` and stopped again no attack is live, `attackSeq` is 1, and the
queue of `n1`, on which two users of `X` were started, holds that start and
the stop. -/
theorem StartAttack_StopAttack_restores_witness :
    (GoMap.WF demoService.nodes ∧ demoService.attacks.get? demoService.attackSeq = none ∧
      ∀ e ∈ demoService.nodes, e.2.attacks.get? demoService.attackSeq = none) ∧
    (∃ o details, demoService.StartAttack demoAttack 100 (fun n => n) demoChoices = some o ∧
      o.ret = Ret.ok details ∧ o.state = demoStarted ∧ details.ID = 0 ∧
      (o.state.StopAttack details.ID [2]).state.attacks = demoService.attacks ∧
      (o.state.StopAttack details.ID [2]).state.attackSeq = demoService.attackSeq + 1) ∧
    (demoStarted.StopAttack 0 [2]).state.nodes.get? "n1"
      = some { handshakeNode "n1" [demoScenario "X"] with
               opQueue :=
                 [{ op := Operation.Start
                      { ID := "n1", AttackID := 0, IncrementID := 0, WaitTimeSec := 1,
                        Scenarios := [("X", 2)] },
                    shared := false },
                  { op := Operation.Stop { AttackID := 0, IncrementID := none },
                    shared := false }] } := by
  have hsome : (demoService.StartAttack demoAttack 100 (fun n => n) demoChoices).isSome = true := by
    decide
  have hres := StartAttack_StopAttack_restores demoService demoAttack 100 (fun n => n)
    demoChoices [2] _ _ (by decide) (by decide) (by decide) (Option.some_get hsome).symm rfl
  exact ⟨⟨by decide, by decide, by decide⟩,
    ⟨_, _, (Option.some_get hsome).symm, rfl, rfl, rfl, hres.2.1, hres.2.2.2.2.1⟩, by decide⟩

/-! ## The replay of operations on a node that reconnects -/

theorem StartAttack_refused (n : node) (op : OperationStart) :
    (n.StartAttack op).2 = (if refused n.scenarios op then some GoError.ErrScenarioNotFound
      else none) ∧
    (n.StartAttack op).1.scenarios = n.scenarios ∧ (n.StartAttack op).1.name = n.name := by
  unfold node.StartAttack refused
  dsimp only
  cases h : op.Scenarios.all (fun e => n.scenarios.contains e.1) <;> simp

theorem compensated_cons (s : attackService) (stopOrders : List (List Nat))
    (op : OperationStart) (ops : List OperationStart) :
    compensated s stopOrders (op :: ops)
      = compensated (attackService.stopIncrement s op.AttackID op.IncrementID
          (stopOrders.headD [])).state stopOrders.tail ops := rfl

theorem replayLoop_spec (ops : List OperationStart) (stopOrders : List (List Nat)) (n : node)
    (s : attackService) :
    (replayLoop ops stopOrders n s).1 = ops.foldl (fun m op => (m.StartAttack op).1) n ∧
    (replayLoop ops stopOrders n s).2.1
      = compensated s stopOrders (ops.filter (fun op => refused n.scenarios op)) ∧
    dispatched (replayLoop ops stopOrders n s).2.2 = ops.map (fun op => (n.name, op)) := by
  induction ops generalizing stopOrders n s with
  | nil => exact ⟨rfl, rfl, rfl⟩
  | cons op rest ih =>
    obtain ⟨h1, h2, h3⟩ := StartAttack_refused n op
    unfold replayLoop
    dsimp only
    cases hr : refused n.scenarios op with
    | true =>
      rw [hr] at h1
      simp only [if_true] at h1
      rw [h1]
      dsimp only
      obtain ⟨i1, i2, i3⟩ := ih stopOrders.tail (n.StartAttack op).1
        (attackService.stopIncrement s op.AttackID op.IncrementID (stopOrders.headD [])).state
      refine ⟨i1, ?_, ?_⟩
      · rw [i2, h2]
        have hf : List.filter (fun op => refused n.scenarios op) (op :: rest)
            = op :: List.filter (fun op => refused n.scenarios op) rest :=
          List.filter_cons_of_pos hr
        rw [hf, compensated_cons]
      · simp only [dispatched, dispatched_append, stopIncrement_dispatched, List.nil_append,
          List.map_cons]
        rw [i3, h3]
    | false =>
      rw [hr] at h1
      simp only [Bool.false_eq_true, if_false] at h1
      rw [h1]
      dsimp only
      obtain ⟨i1, i2, i3⟩ := ih stopOrders (n.StartAttack op).1 s
      refine ⟨i1, ?_, ?_⟩
      · rw [i2, h2]
        have hf : List.filter (fun op => refused n.scenarios op) (op :: rest)
            = List.filter (fun op => refused n.scenarios op) rest :=
          List.filter_cons_of_neg (by simp [hr])
        rw [hf]
      · simp only [dispatched, List.map_cons]
        rw [i3, h3]

theorem retrieveOperations_pending (s : attackService) (nodeName : String)
    (mirrorOrder : List Nat) (old : node) (cancel : Nat)
    (hreg : s.nodes.get? nodeName = some old)
    (hpending : s.removingCancels.get? nodeName = some cancel)
    (hopen : cancel ∉ s.closedChans) :
    retrieveOperations s nodeName mirrorOrder
      = some (mirrorOperations s ((rangeOrder mirrorOrder old.attacks).map Prod.snd),
          { s with closedChans := cancel :: s.closedChans, nodes := s.nodes.delete nodeName },
          [Effect.closeChan cancel]) := by
  unfold retrieveOperations
  rw [hreg]
  dsimp only
  rw [hpending]
  dsimp only
  rw [if_neg hopen]
  rfl

theorem mirrorOperations_perm (s : attackService) (l₁ l₂ : List AttackDetails)
    (h : l₁.Perm l₂) : (mirrorOperations s l₁).Perm (mirrorOperations s l₂) :=
  List.Perm.flatMap_right _ h

theorem distributeStop_keys (s : attackService) (stop : OperationStop) (order : List Nat) :
    GoMap.keys (distributeStop s stop order).1.nodes = GoMap.keys s.nodes := by
  unfold distributeStop
  dsimp only
  rw [foldl_nodes_frame]
  exact foldl_set_keys (fun (n : node) => (n.StopAttack stop).1) (rangeOrder order s.nodes)
    s.nodes (fun k hk => (rangeOrder_keys_mem _ _ _).1 hk)

theorem stopIncrement_frame (s : attackService) (attackID incrementID : Int)
    (order : List Nat) :
    (s.stopIncrement attackID incrementID order).state.closedChans = s.closedChans ∧
    (s.stopIncrement attackID incrementID order).state.removingCancels = s.removingCancels ∧
    (s.stopIncrement attackID incrementID order).state.chanSeq = s.chanSeq ∧
    (s.stopIncrement attackID incrementID order).state.recoveryInterval = s.recoveryInterval ∧
    GoMap.keys (s.stopIncrement attackID incrementID order).state.nodes = GoMap.keys s.nodes := by
  have hf := (distributeStop_frame s { AttackID := attackID, IncrementID := some incrementID }
    order).1
  have hk := distributeStop_keys s { AttackID := attackID, IncrementID := some incrementID } order
  have h1 := congrArg attackService.closedChans hf
  have h2 := congrArg attackService.removingCancels hf
  have h3 := congrArg attackService.chanSeq hf
  have h4 := congrArg attackService.recoveryInterval hf
  dsimp only at h1 h2 h3 h4
  unfold attackService.stopIncrement
  cases s.attacks.get? attackID with
  | none => exact ⟨rfl, rfl, rfl, rfl, rfl⟩
  | some a =>
    dsimp only
    cases (incrementPositions a.details.Increments 0 []).get? incrementID with
    | none => exact ⟨rfl, rfl, rfl, rfl, rfl⟩
    | some i =>
      dsimp only
      split
      · exact ⟨h1, h2, h3, h4, hk⟩
      · exact ⟨h1, h2, h3, h4, hk⟩

theorem compensated_frame (s : attackService) (stopOrders : List (List Nat))
    (ops : List OperationStart) :
    (compensated s stopOrders ops).closedChans = s.closedChans ∧
    (compensated s stopOrders ops).removingCancels = s.removingCancels ∧
    (compensated s stopOrders ops).chanSeq = s.chanSeq ∧
    (compensated s stopOrders ops).recoveryInterval = s.recoveryInterval ∧
    GoMap.keys (compensated s stopOrders ops).nodes = GoMap.keys s.nodes := by
  induction ops generalizing s stopOrders with
  | nil => exact ⟨rfl, rfl, rfl, rfl, rfl⟩
  | cons op rest ih =>
    rw [compensated_cons]
    obtain ⟨i1, i2, i3, i4, i5⟩ :=
      ih (attackService.stopIncrement s op.AttackID op.IncrementID (stopOrders.headD [])).state
        stopOrders.tail
    obtain ⟨j1, j2, j3, j4, j5⟩ :=
      stopIncrement_frame s op.AttackID op.IncrementID (stopOrders.headD [])
    exact ⟨i1.trans j1, i2.trans j2, i3.trans j3, i4.trans j4, i5.trans j5⟩

theorem stopIncrement_records_sub (s : attackService) (attackID incrementID : Int)
    (order : List Nat) (a' i' : Int)
    (h : (s.stopIncrement attackID incrementID order).state.records a' i' = true) :
    s.records a' i' = true := by
  have hf := congrArg attackService.attacks
    (distributeStop_frame s { AttackID := attackID, IncrementID := some incrementID } order).1
  dsimp only at hf
  unfold attackService.stopIncrement at h
  cases hg : s.attacks.get? attackID with
  | none => rw [hg] at h; exact h
  | some a =>
    rw [hg] at h
    dsimp only at h
    cases hp : (incrementPositions a.details.Increments 0 []).get? incrementID with
    | none => rw [hp] at h; exact h
    | some i =>
      rw [hp] at h
      dsimp only at h
      unfold attackService.records at h ⊢
      by_cases hlen : a.details.Increments.length > 1
      · rw [if_pos hlen] at h
        dsimp only at h
        by_cases ha : a' = attackID
        · subst ha
          rw [hg]
          rw [GoMap.get?_set_self] at h
          dsimp only at h
          have hm : i' ∈ (a.details.Increments.eraseIdx i).map (fun inc => inc.ID) := by
            simpa using h
          obtain ⟨inc, hinc, rfl⟩ := List.mem_map.1 hm
          have : inc ∈ a.details.Increments := List.mem_of_mem_eraseIdx hinc
          simpa using ⟨inc, this, rfl⟩
        · rw [GoMap.get?_set_ne _ _ ha, hf] at h
          exact h
      · rw [if_neg hlen] at h
        dsimp only at h
        by_cases ha : a' = attackID
        · subst ha
          rw [GoMap.get?_delete_self] at h
          cases h
        · rw [GoMap.get?_delete_ne _ ha, hf] at h
          exact h

theorem stopIncrement_removes (s : attackService) (attackID incrementID : Int)
    (order : List Nat) (hinv : s.Inv) :
    (s.stopIncrement attackID incrementID order).state.records attackID incrementID = false := by
  unfold attackService.stopIncrement
  cases hg : s.attacks.get? attackID with
  | none =>
    dsimp only
    unfold attackService.records
    rw [hg]
  | some a =>
    dsimp only
    have hnd := (hinv.2.1 _ (GoMap.mem_of_get? hg)).2.2.1
    rcases incrementPositions_spec a.details.Increments 0 [] incrementID with
      ⟨hno, hpos⟩ | ⟨j, hj, hjid, -, hpos⟩
    · have hp : (incrementPositions a.details.Increments 0 []).get? incrementID = none := by
        rw [hpos]; rfl
      rw [hp]
      dsimp only
      unfold attackService.records
      rw [hg]
      dsimp only
      have : incrementID ∉ a.details.Increments.map (fun inc => inc.ID) := by
        intro hm
        obtain ⟨inc, hinc, hid⟩ := List.mem_map.1 hm
        exact hno inc hinc hid
      simpa using this
    · rw [hpos]
      dsimp only
      unfold attackService.records
      by_cases hlen : a.details.Increments.length > 1
      · rw [if_pos hlen]
        dsimp only
        rw [GoMap.get?_set_self]
        dsimp only
        rw [Nat.zero_add, eraseIdx_eq_filter_of_nodup _ j hj hnd, hjid]
        have : incrementID ∉ (a.details.Increments.filter
            (fun inc => decide (inc.ID ≠ incrementID))).map (fun inc => inc.ID) := by
          intro hm
          obtain ⟨inc, hinc, hid⟩ := List.mem_map.1 hm
          have := (List.mem_filter.1 hinc).2
          simp [hid] at this
        simp
      · rw [if_neg hlen]
        dsimp only
        rw [GoMap.get?_delete_self]

theorem compensated_removes (s : attackService) (stopOrders : List (List Nat))
    (ops : List OperationStart) (hinv : s.Inv) :
    (compensated s stopOrders ops).Inv ∧
    (∀ a' i', (compensated s stopOrders ops).records a' i' = true → s.records a' i' = true) ∧
    ∀ op ∈ ops, (compensated s stopOrders ops).records op.AttackID op.IncrementID = false := by
  induction ops generalizing s stopOrders with
  | nil => exact ⟨hinv, fun _ _ h => h, fun op hop => (by cases hop)⟩
  | cons op rest ih =>
    rw [compensated_cons]
    have hinv' := (stopIncrement_books s op.AttackID op.IncrementID (stopOrders.headD [])).2.2 hinv
    obtain ⟨i1, i2, i3⟩ := ih
      (attackService.stopIncrement s op.AttackID op.IncrementID (stopOrders.headD [])).state
      stopOrders.tail hinv'
    refine ⟨i1, fun a' i' h => stopIncrement_records_sub _ _ _ _ _ _ (i2 a' i' h), ?_⟩
    intro op' hop'
    rcases List.mem_cons.1 hop' with rfl | hmem
    · have hrm := stopIncrement_removes s op'.AttackID op'.IncrementID (stopOrders.headD []) hinv
      cases hc : (compensated
          (attackService.stopIncrement s op'.AttackID op'.IncrementID (stopOrders.headD [])).state
          stopOrders.tail rest).records op'.AttackID op'.IncrementID with
      | false => rfl
      | true =>
        rw [i2 _ _ hc] at hrm
        cases hrm
    · exact i3 op' hmem

theorem AddNode_pending (s s1 : attackService) (n old : node) (cancel : Nat)
    (mirrorOrder : List Nat) (stopOrders : List (List Nat)) (ops : List OperationStart)
    (hreg : s.nodes.get? n.name = some old)
    (hpending : s.removingCancels.get? n.name = some cancel)
    (hopen : cancel ∉ s.closedChans)
    (hops : ops = mirrorOperations s ((rangeOrder mirrorOrder old.attacks).map Prod.snd))
    (hs1 : s1 = { s with closedChans := cancel :: s.closedChans,
                         nodes := s.nodes.delete n.name }) :
    ∃ E, s.AddNode n mirrorOrder stopOrders
        = some
          { ret := Ret.ok (),
            state :=
              { compensated s1 stopOrders (ops.filter (fun op => refused n.scenarios op)) with
                nodes :=
                  (compensated s1 stopOrders
                    (ops.filter (fun op => refused n.scenarios op))).nodes.set n.name
                    (ops.foldl (fun m op => (m.StartAttack op).1) n) },
            effects := Effect.closeChan cancel :: E } ∧
      dispatched E = ops.map (fun op => (n.name, op)) := by
  have hret := retrieveOperations_pending s n.name mirrorOrder old cancel hreg hpending hopen
  rw [← hops, ← hs1] at hret
  obtain ⟨r1, r2, r3⟩ := replayLoop_spec ops stopOrders n s1
  refine ⟨(replayLoop ops stopOrders n s1).2.2, ?_, r3⟩
  unfold attackService.AddNode
  have hc1 : s.nodes.contains n.name = true := by simp [GoMap.contains, hreg]
  have hc2 : s.removingCancels.contains n.name = true := by simp [GoMap.contains, hpending]
  simp only [node.GetDetails, hc1, hc2, Bool.not_true, Bool.and_false, Bool.false_eq_true,
    if_false]
  rw [hret]
  dsimp only
  rw [r1, r2]
  rfl

/-- C13. When a node is registered under the name of the newcomer and its
removal is pending (the name has a recovery channel that is not closed),
`AddNode` succeeds.  It first closes the recovery channel.  The operations it
starts are all started on the newcomer, and they are, in the visiting order
of the old mirror, exactly one per increment of each attack of the old
mirror, with the attack id, the increment id and the scenarios of the mirror
and the wait time of the service's record of the attack: up to order, the
operations of the old mirror and no other.  The newcomer, after these
operations, is registered under the name, where the old controller was.  The
rest of the service is the one obtained by calling `stopIncrement`, in
order, for every replayed operation the newcomer refuses, in the service
without the old controller; when the bookkeeping invariant holds, the record
of the service lists none of these increments afterwards and has gained no
increment. -/
theorem AddNode_replays (s : attackService) (n old : node) (cancel : Nat)
    (mirrorOrder : List Nat) (stopOrders : List (List Nat))
    (hreg : s.nodes.get? n.name = some old)
    (hpending : s.removingCancels.get? n.name = some cancel)
    (hopen : cancel ∉ s.closedChans) :
    ∃ o, s.AddNode n mirrorOrder stopOrders = some o ∧ o.ret = Ret.ok () ∧
      o.effects.head? = some (Effect.closeChan cancel) ∧
      o.state.closedChans = cancel :: s.closedChans ∧
      (∀ x ∈ dispatched o.effects, x.1 = n.name) ∧
      (dispatched o.effects).map Prod.snd
        = mirrorOperations s ((rangeOrder mirrorOrder old.attacks).map Prod.snd) ∧
      ((dispatched o.effects).map Prod.snd).Perm
        (mirrorOperations s (old.attacks.map Prod.snd)) ∧
      o.state.nodes.get? n.name
        = some (((dispatched o.effects).map Prod.snd).foldl
            (fun m op => (m.StartAttack op).1) n) ∧
      (∀ k, k ≠ n.name → (k ∈ GoMap.keys o.state.nodes ↔ k ∈ GoMap.keys s.nodes)) ∧
      o.state
        = { compensated
              { s with closedChans := cancel :: s.closedChans,
                       nodes := s.nodes.delete n.name }
              stopOrders
              (((dispatched o.effects).map Prod.snd).filter (fun op => refused n.scenarios op))
            with nodes := o.state.nodes } ∧
      (s.Inv →
        (∀ x ∈ dispatched o.effects, refused n.scenarios x.2 = true →
          o.state.records x.2.AttackID x.2.IncrementID = false) ∧
        ∀ attackID incrementID, o.state.records attackID incrementID = true →
          s.records attackID incrementID = true) := by
  obtain ⟨E, hadd, hE⟩ := AddNode_pending s _ n old cancel mirrorOrder stopOrders _
    hreg hpending hopen rfl rfl
  have hdisp : dispatched (Effect.closeChan cancel :: E)
      = (mirrorOperations s ((rangeOrder mirrorOrder old.attacks).map Prod.snd)).map
          (fun op => (n.name, op)) := hE
  have hsnd : ((mirrorOperations s ((rangeOrder mirrorOrder old.attacks).map Prod.snd)).map
      (fun op => (n.name, op))).map Prod.snd
      = mirrorOperations s ((rangeOrder mirrorOrder old.attacks).map Prod.snd) := by
    rw [List.map_map]
    exact List.map_id _
  obtain ⟨c1, c2, c3, c4, c5⟩ := compensated_frame
    { s with closedChans := cancel :: s.closedChans, nodes := s.nodes.delete n.name } stopOrders
    ((mirrorOperations s ((rangeOrder mirrorOrder old.attacks).map Prod.snd)).filter
      (fun op => refused n.scenarios op))
  refine ⟨_, hadd, rfl, rfl, c1, ?_, ?_, ?_, ?_, ?_, ?_, ?_⟩
  · intro x hx
    dsimp only at hx
    rw [hdisp] at hx
    obtain ⟨op, -, rfl⟩ := List.mem_map.1 hx
    rfl
  · dsimp only
    rw [hdisp, hsnd]
  · dsimp only
    rw [hdisp, hsnd]
    exact mirrorOperations_perm s _ _ ((rangeOrder_perm mirrorOrder old.attacks).map Prod.snd)
  · dsimp only
    rw [hdisp, hsnd]
    exact GoMap.get?_set_self _ _ _
  · intro k hk
    dsimp only
    rw [GoMap.mem_keys_set, c5]
    dsimp only
    rw [GoMap.mem_keys_delete]
    constructor
    · rintro (h | ⟨-, h⟩)
      · exact absurd h hk
      · exact h
    · exact fun h => Or.inr ⟨hk, h⟩
  · dsimp only
    rw [hdisp, hsnd]
  · intro hinv
    have hinv1 : attackService.Inv
        { s with closedChans := cancel :: s.closedChans, nodes := s.nodes.delete n.name } :=
      Inv_of_books s _ hinv rfl rfl rfl
    obtain ⟨-, k2, k3⟩ := compensated_removes
      { s with closedChans := cancel :: s.closedChans, nodes := s.nodes.delete n.name } stopOrders
      ((mirrorOperations s ((rangeOrder mirrorOrder old.attacks).map Prod.snd)).filter
        (fun op => refused n.scenarios op)) hinv1
    constructor
    · intro x hx href
      dsimp only at hx
      rw [hdisp] at hx
      obtain ⟨op, hop, rfl⟩ := List.mem_map.1 hx
      exact k3 op (List.mem_filter.2 ⟨hop, href⟩)
    · intro attackID incrementID h
      exact k2 attackID incrementID h

theorem demoDropped_Inv : demoDropped.Inv := by
  have hseq : demoDropped.incrementSeqs = [(0, 2)] := by decide
  refine ⟨by decide, by decide, fun k => ?_⟩
  rw [hseq]
  unfold GoMap.getD GoMap.get?
  split
  · simp
  · simp [GoMap.get?]

/-- C13 at a concrete state: the worker `n3`, which held a share of the
increments 0 and 1 of attack 0, reconnects while its removal is pending but
now advertises only `Y`.  Both operations of its old mirror are replayed on
it, it refuses both, and the service drops both increments from its record. -/
theorem AddNode_replays_witness :
    (∃ old, demoDropped.nodes.get? (handshakeNode "n3" [demoScenario "Y"]).name = some old) ∧
    demoDropped.removingCancels.get? (handshakeNode "n3" [demoScenario "Y"]).name = some 0 ∧
    0 ∉ demoDropped.closedChans ∧
    ∃ o, demoDropped.AddNode (handshakeNode "n3" [demoScenario "Y"]) [] [] = some o ∧
      o.ret = Ret.ok () ∧
      o.effects.head? = some (Effect.closeChan 0) ∧
      (dispatched o.effects).map Prod.snd
        = [{ ID := "", AttackID := 0, IncrementID := 0, WaitTimeSec := 1,
             Scenarios := [("X", 2)] },
           { ID := "", AttackID := 0, IncrementID := 1, WaitTimeSec := 1,
             Scenarios := [("X", 1)] }] ∧
      o.state.records 0 0 = false ∧ o.state.records 0 1 = false := by
  have hsome : (demoDropped.nodes.get? (handshakeNode "n3" [demoScenario "Y"]).name).isSome
      = true := by decide
  obtain ⟨o, h1, h2, h3, -, -, h6, -, -, -, -, h11⟩ :=
    AddNode_replays demoDropped (handshakeNode "n3" [demoScenario "Y"]) _ 0 [] []
      (Option.some_get hsome).symm (by decide) (by decide)
  have hd : (dispatched o.effects).map Prod.snd
      = [{ ID := "", AttackID := 0, IncrementID := 0, WaitTimeSec := 1,
           Scenarios := [("X", 2)] },
         { ID := "", AttackID := 0, IncrementID := 1, WaitTimeSec := 1,
           Scenarios := [("X", 1)] }] := h6.trans rfl
  have hmem : ∀ op ∈ (dispatched o.effects).map Prod.snd,
      refused (handshakeNode "n3" [demoScenario "Y"]).scenarios op = true →
      o.state.records op.AttackID op.IncrementID = false := by
    intro op hop href
    obtain ⟨x, hx, rfl⟩ := List.mem_map.1 hop
    exact (h11 demoDropped_Inv).1 x hx href
  rw [hd] at hmem
  exact ⟨⟨_, (Option.some_get hsome).symm⟩, by decide, by decide, o, h1, h2, h3, hd,
    hmem _ (List.mem_cons_self _ _) (by decide),
    hmem _ (List.mem_cons_of_mem _ (List.mem_cons_self _ _)) (by decide)⟩

/-! ## The delivery loop of the node controller -/

theorem emissionOrder_append (l : List Nat) (cur x : Nat) :
    emissionOrder cur (l ++ [x])
      = match emissionOrder cur l with
        | some t => if x + 1 = t then some t else if x = t then some (t + 1) else none
        | none => none := by
  induction l generalizing cur with
  | nil =>
    simp only [List.nil_append, emissionOrder]
  | cons y rest ih =>
    simp only [List.cons_append, emissionOrder]
    split
    · exact ih cur
    · split
      · exact ih (cur + 1)
      · rfl

theorem emissionOrder_bounds (l : List Nat) (cur t : Nat) (h : emissionOrder cur l = some t) :
    cur ≤ t ∧ t ≤ cur + l.length ∧
    (∀ k ∈ l, k < t) ∧ ∀ k, cur ≤ k → k < t → k ∈ l := by
  induction l generalizing cur with
  | nil =>
    simp only [emissionOrder, Option.some.injEq] at h
    subst h
    exact ⟨le_refl _, by simp, fun k hk => (by cases hk), fun k h1 h2 => by omega⟩
  | cons y rest ih =>
    simp only [emissionOrder] at h
    by_cases h1 : y + 1 = cur
    · rw [if_pos h1] at h
      obtain ⟨i1, i2, i3, i4⟩ := ih cur h
      refine ⟨i1, by simp only [List.length_cons]; omega, ?_, ?_⟩
      · intro k hk
        rcases List.mem_cons.1 hk with rfl | hk
        · omega
        · exact i3 k hk
      · intro k hk1 hk2
        exact List.mem_cons_of_mem _ (i4 k hk1 hk2)
    · rw [if_neg h1] at h
      by_cases h2 : y = cur
      · rw [if_pos h2] at h
        obtain ⟨i1, i2, i3, i4⟩ := ih (cur + 1) h
        refine ⟨by omega, by simp only [List.length_cons]; omega, ?_, ?_⟩
        · intro k hk
          rcases List.mem_cons.1 hk with rfl | hk
          · omega
          · exact i3 k hk
        · intro k hk1 hk2
          by_cases hk : k = cur
          · rw [hk, ← h2]
            exact List.mem_cons_self _ _
          · exact List.mem_cons_of_mem _ (i4 k (by omega) hk2)
      · rw [if_neg h2] at h
        cases h

theorem emissionOrder_take (l : List Nat) (cur t r : Nat) (h : emissionOrder cur l = some t) :
    ∃ t', emissionOrder cur (l.take r) = some t' ∧ t' ≤ t ∧
      (l.take r).length + t ≤ l.length + t' := by
  induction l generalizing cur r with
  | nil =>
    simp only [emissionOrder, Option.some.injEq] at h
    subst h
    exact ⟨cur, by simp [emissionOrder], le_refl _, by simp⟩
  | cons y rest ih =>
    cases r with
    | zero =>
      obtain ⟨b1, b2, -, -⟩ := emissionOrder_bounds _ _ _ h
      refine ⟨cur, by simp [emissionOrder], b1, ?_⟩
      simp only [List.take_zero, List.length_nil, List.length_cons] at b2 ⊢
      omega
    | succ r =>
      simp only [emissionOrder] at h
      by_cases h1 : y + 1 = cur
      · rw [if_pos h1] at h
        obtain ⟨t', e1, e2, e3⟩ := ih cur r h
        refine ⟨t', ?_, e2, ?_⟩
        · simp only [List.take_succ_cons, emissionOrder, if_pos h1]
          exact e1
        · simp only [List.take_succ_cons, List.length_cons] at e3 ⊢
          omega
      · rw [if_neg h1] at h
        by_cases h2 : y = cur
        · rw [if_pos h2] at h
          obtain ⟨t', e1, e2, e3⟩ := ih (cur + 1) r h
          refine ⟨t', ?_, e2, ?_⟩
          · simp only [List.take_succ_cons, emissionOrder, if_neg h1, if_pos h2]
            exact e1
          · simp only [List.take_succ_cons, List.length_cons] at e3 ⊢
            omega
        · rw [if_neg h2] at h
          cases h

theorem length_filter_range_not_lt (n m : Nat) (hm : m ≤ n) :
    ((List.range n).filter (fun k => decide (¬ k < m))).length = n - m := by
  induction n with
  | zero => simp
  | succ n ih =>
    rw [List.range_succ, List.filter_append, List.length_append]
    by_cases h : m ≤ n
    · rw [ih h]
      have hn : ¬ n < m := by omega
      have hone : List.filter (fun k => decide (¬ k < m)) [n] = [n] := by simp [h]
      rw [hone, List.length_singleton]
      omega
    · have hmn : m = n + 1 := by omega
      subst hmn
      have hall : (List.range n).filter (fun k => decide (¬ k < n + 1)) = [] := by
        rw [List.filter_eq_nil_iff]
        intro k hk
        have := List.mem_range.1 hk
        simp
        omega
      rw [hall]
      have hone : List.filter (fun k => decide (¬ k < n + 1)) [n] = [] := by simp
      rw [hone]
      simp

theorem Good_init (capacity : Nat) : (pipeline.init capacity).Good := by
  refine ⟨rfl, fun x hx => (by cases hx), Nat.le_refl _, rfl, fun op h => (by cases h), rfl,
    Nat.le_refl _⟩

theorem Good_step (p p' : pipeline) (e : pipelineEvent) (hg : p.Good)
    (h : p.step e = some p') : p'.Good := by
  obtain ⟨g1, g2, g3, g4, g5, g6, g7⟩ := hg
  cases e with
  | enqueue op =>
    simp only [pipeline.step] at h
    split at h
    · simp only [Option.some.injEq] at h
      subst h
      refine ⟨g1, ?_, ?_, ?_, ?_, g6, g7⟩
      · intro x hx
        have := g2 x hx
        dsimp only
        rw [List.get?_append (List.get?_eq_some.1 this).1]
        exact this
      · dsimp only
        rw [List.length_append]
        omega
      · dsimp only
        rw [List.drop_append_of_le_length g3, g4]
      · intro op' hop'
        obtain ⟨c1, c2⟩ := g5 op' hop'
        refine ⟨c1, ?_⟩
        dsimp only
        rw [List.get?_append (List.get?_eq_some.1 c2).1]
        exact c2
    · cases h
  | retryFire =>
    simp only [pipeline.step] at h
    split at h
    · cases h
    · cases hc : p.currentOp with
      | none =>
        rw [hc] at h
        simp only [Option.some.injEq] at h
        subst h
        exact ⟨g1, g2, g3, g4, g5, g6, g7⟩
      | some op =>
        rw [hc] at h
        simp only [Option.some.injEq] at h
        subst h
        obtain ⟨c1, c2⟩ := g5 op hc
        refine ⟨?_, ?_, g3, g4, fun op' hop' => ?_, g6, ?_⟩
        · dsimp only
          rw [List.map_append, List.map_singleton, emissionOrder_append, g1]
          dsimp only
          rw [if_pos (by omega)]
        · intro x hx
          dsimp only at hx
          rcases List.mem_append.1 hx with hx | hx
          · exact g2 x hx
          · rw [List.mem_singleton.1 hx]
            exact c2
        · dsimp only at hop'
          cases hop'
          exact ⟨c1, c2⟩
        · dsimp only
          rw [List.length_append]
          omega
  | ackReceived =>
    simp only [pipeline.step] at h
    split at h
    · cases h
    · rename_i hw
      split at h
      · rename_i hack
        simp only [Option.some.injEq] at h
        subst h
        have hwf : p.waiting = false := by
          cases hwv : p.waiting
          · rfl
          · simp [hwv] at hw
        refine ⟨g1, g2, g3, g4, fun op hop => (by cases hop), ?_, g7⟩
        dsimp only
        rw [hwf] at g6
        simp only [Bool.false_eq_true, if_false, if_true] at g6 ⊢
        omega
      · cases h
  | dequeue =>
    simp only [pipeline.step] at h
    split at h
    · cases h
    · rename_i hw
      have hwt : p.waiting = true := by
        cases hwv : p.waiting
        · simp [hwv] at hw
        · rfl
      cases hq : p.opQueue with
      | nil => rw [hq] at h; cases h
      | cons op rest =>
        rw [hq] at h
        simp only [Option.some.injEq] at h
        subst h
        rw [hq] at g4
        have hlt : p.taken < p.enqueued.length := by
          by_contra hcon
          have : p.enqueued.drop p.taken = [] := List.drop_of_length_le (by omega)
          rw [this] at g4
          cases g4
        have hget : p.enqueued.get? p.taken = some op := by
          have := List.get?_drop p.enqueued p.taken 0
          rw [g4] at this
          simpa using this.symm
        refine ⟨?_, ?_, hlt, ?_, ?_, ?_, ?_⟩
        · dsimp only
          rw [List.map_append, List.map_singleton, emissionOrder_append, g1]
          dsimp only
          rw [if_neg (by omega), if_pos rfl]
        · intro x hx
          dsimp only at hx
          rcases List.mem_append.1 hx with hx | hx
          · exact g2 x hx
          · rw [List.mem_singleton.1 hx]
            exact hget
        · dsimp only
          have := List.drop_drop 1 p.taken p.enqueued
          rw [g4] at this
          simpa using this.symm
        · intro op' hop'
          dsimp only at hop' ⊢
          cases hop'
          exact ⟨Nat.succ_pos _, by simpa using hget⟩
        · dsimp only
          rw [hwt] at g6
          simp only [if_true, Bool.false_eq_true, if_false] at g6 ⊢
          omega
        · dsimp only
          rw [List.length_append]
          omega
  | cancel =>
    simp only [pipeline.step] at h
    split at h
    · cases h
    · simp only [Option.some.injEq] at h
      subst h
      exact ⟨g1, g2, g3, g4, g5, g6, g7⟩
  | workerAck =>
    simp only [pipeline.step] at h
    split at h
    · rename_i hlt
      simp only [Option.some.injEq] at h
      subst h
      refine ⟨g1, g2, g3, g4, g5, ?_, ?_⟩
      · dsimp only
        omega
      · dsimp only
        omega
    · cases h
  | ackOperation =>
    simp only [pipeline.step] at h
    split at h
    · rename_i hlt
      simp only [Option.some.injEq] at h
      subst h
      refine ⟨g1, g2, g3, g4, g5, ?_, g7⟩
      dsimp only
      omega
    · cases h

theorem Good_run (p p' : pipeline) (events : List pipelineEvent) (hg : p.Good)
    (h : p.run events = some p') : p'.Good := by
  induction events generalizing p with
  | nil =>
    simp only [pipeline.run, Option.some.injEq] at h
    subst h
    exact hg
  | cons e rest ih =>
    simp only [pipeline.run] at h
    cases hs : p.step e with
    | none => rw [hs] at h; cases h
    | some p1 =>
      rw [hs] at h
      exact ih p1 (Good_step p p1 e hg hs) h

theorem unacknowledged_length (p : pipeline) (hg : p.Good) :
    p.unacknowledged.length + p.received ≤ p.ops.length ∧
    p.unacknowledged.length + p.taken ≤ 1 + p.ops.length := by
  obtain ⟨g1, -, -, -, -, g6, g7⟩ := hg
  obtain ⟨t', e1, e2, e3⟩ := emissionOrder_take _ 0 _ p.received g1
  obtain ⟨-, -, b3, b4⟩ := emissionOrder_bounds _ _ _ e1
  have hfil : p.unacknowledged
      = (List.range p.taken).filter (fun k => decide (¬ k < t')) := by
    unfold pipeline.unacknowledged
    apply List.filter_congr
    intro k _
    have hiff : k ∈ (p.ops.take p.received).map Prod.fst ↔ k < t' := by
      rw [List.map_take]
      exact ⟨fun hk => b3 k hk, fun hk => b4 k (Nat.zero_le _) hk⟩
    simp only [hiff]
  rw [hfil, length_filter_range_not_lt _ _ e2]
  have hl1 : (List.map Prod.fst p.ops).length = p.ops.length := List.length_map _ _
  have hl2 : (List.take p.received (List.map Prod.fst p.ops)).length = p.received := by
    rw [List.length_take, hl1]
    exact Nat.min_eq_left g7
  rw [hl1, hl2] at e3
  have hw : p.taken ≤ p.received + 1 := by
    split at g6 <;> omega
  constructor <;> omega

/-- C17, at the run `demoEvents`: the retry fires before the worker has
answered, so the first operation is sent twice and the worker acknowledges
both messages.  The loop clears `currentOp` on every acknowledgement, also on
one that answers an earlier copy: the second acknowledgement lets it send the
third operation while the second one, then the current one, has not been
acknowledged.  Two operations are unacknowledged, where the loop is meant to
send the next operation only when the current one has been acknowledged. -/
theorem processOps_two_unacknowledged :
    (pipeline.init 3).run demoEvents = some demoDelivered ∧
    demoDelivered.ops = [(0, demoOpA), (0, demoOpA), (1, demoOpB), (2, demoOpC)] ∧
    demoDelivered.received = 2 ∧ demoDelivered.currentOp = some demoOpC ∧
    demoDelivered.unacknowledged = [1, 2] ∧ ¬ demoDelivered.unacknowledged.length ≤ 1 := by
  decide

/-- What the loop does keep in every run of the delivery of a node controller,
for every capacity of the queue: every message sent on `ops` is the current
operation again or the next operation of the queue, so the operations are
first sent in the order of the queue and only the current one is sent again;
the message numbered `k` carries the `k`-th operation sent into the queue, the
queue holds the operations not yet taken and the current operation is the
last one taken.  An operation is taken from the queue only when the worker
has acknowledged as many messages as operations were taken before, so at most
one more operation has been sent than messages acknowledged.  The operations
the worker has not acknowledged are at most the messages it has not
acknowledged, at most one more than the messages sent again, and at most one
as long as no message has been sent again. -/
theorem processOps_delivery (capacity : Nat) (events : List pipelineEvent) (p : pipeline)
    (h : (pipeline.init capacity).run events = some p) :
    emissionOrder 0 (p.ops.map Prod.fst) = some p.taken ∧
    (∀ x ∈ p.ops, p.enqueued.get? x.1 = some x.2) ∧
    p.enqueued.drop p.taken = p.opQueue ∧
    (∀ op, p.currentOp = some op → 0 < p.taken ∧ p.enqueued.get? (p.taken - 1) = some op) ∧
    (p.waiting = true → p.taken ≤ p.received) ∧
    p.taken ≤ p.received + 1 ∧
    p.unacknowledged.length ≤ p.ops.length - p.received ∧
    p.unacknowledged.length ≤ 1 + (p.ops.length - p.taken) ∧
    (p.ops.length = p.taken → p.unacknowledged.length ≤ 1) := by
  have hg := Good_run _ _ events (Good_init capacity) h
  obtain ⟨u1, u2⟩ := unacknowledged_length p hg
  obtain ⟨g1, g2, -, g4, g5, g6, -⟩ := hg
  refine ⟨g1, g2, g4, g5, fun hw => ?_, ?_, by omega, by omega, fun hl => by omega⟩
  · rw [hw] at g6
    simp only [if_true] at g6
    omega
  · split at g6 <;> omega

/-- The bounds of `processOps_delivery` at the run `demoEvents`: three
operations were taken after two acknowledgements and one message was sent
again. -/
theorem processOps_delivery_witness :
    (pipeline.init 3).run demoEvents = some demoDelivered ∧
    demoDelivered.taken = 3 ∧ demoDelivered.received = 2 ∧ demoDelivered.ops.length = 4 ∧
    demoDelivered.taken ≤ demoDelivered.received + 1 ∧
    demoDelivered.unacknowledged.length ≤ 1 + (demoDelivered.ops.length - demoDelivered.taken) := by
  have hres := processOps_delivery 3 demoEvents demoDelivered (by decide)
  exact ⟨by decide, by decide, by decide, by decide, hres.2.2.2.2.2.1, hres.2.2.2.2.2.2.2.1⟩

/-! ## The redistribution of the operations of a removed node -/

theorem sliceAt_bounds (q r : Int) (actual : List String) (idx : Int) (nm : String)
    (hq : 0 ≤ q) (hidx : 0 ≤ idx) :
    0 ≤ sliceAt q r actual idx nm ∧
    sliceAt q r actual idx nm ≤ (if 0 < r then q + 1 else q) := by
  induction actual generalizing idx with
  | nil =>
    simp only [sliceAt]
    constructor
    · exact le_refl _
    · split <;> omega
  | cons n rest ih =>
    simp only [sliceAt]
    by_cases hn : n = nm
    · rw [if_pos hn]
      by_cases hlt : idx < r
      · rw [if_pos hlt]
        have : 0 < r := by omega
        rw [if_pos this]
        omega
      · rw [if_neg hlt]
        constructor
        · exact hq
        · split <;> omega
    · rw [if_neg hn]
      by_cases hlt : idx < r
      · rw [if_pos hlt]
        exact ih (idx + 1) (by omega)
      · rw [if_neg hlt]
        exact ih idx hidx

/-- A slice of a positive amount is neither negative nor above the amount. -/
theorem slice_le_amount (amount : Int) (actual : List String) (nm : String)
    (hpos : 0 ≤ amount) (hlen : actual.length ≠ 0) :
    0 ≤ sliceAt (Int.tdiv amount actual.length) (Int.tmod amount actual.length) actual 0 nm ∧
    sliceAt (Int.tdiv amount actual.length) (Int.tmod amount actual.length) actual 0 nm
      ≤ amount := by
  have hk : (0 : Int) < actual.length := by
    have : 0 < actual.length := Nat.pos_of_ne_zero hlen
    exact_mod_cast this
  have hr0 : 0 ≤ Int.tmod amount actual.length := Int.tmod_nonneg _ hpos
  have hq0 : 0 ≤ Int.tdiv amount actual.length := Int.tdiv_nonneg hpos (le_of_lt hk)
  have hsum := Int.tdiv_add_tmod amount actual.length
  obtain ⟨b1, b2⟩ := sliceAt_bounds (Int.tdiv amount actual.length)
    (Int.tmod amount actual.length) actual 0 nm hq0 (le_refl _)
  refine ⟨b1, le_trans b2 ?_⟩
  have hmul : Int.tdiv amount actual.length ≤ actual.length * Int.tdiv amount actual.length := by
    nlinarith
  split <;> omega

theorem nodeScenarios_WF (s : attackService) (nodesFor : String → List Nat) (nm : String)
    (L : List (String × Int)) (m : GoMap String Int) (hm : GoMap.WF m) :
    GoMap.WF (nodeScenarios s nodesFor nm L m) := by
  induction L generalizing m with
  | nil => exact hm
  | cons e rest ih =>
    obtain ⟨scenario, amount⟩ := e
    simp only [nodeScenarios]
    split
    · exact ih _ (GoMap.WF_set hm _ _)
    · exact ih _ hm

/-- The counters of a mirror after `StartAttack`, when the additions do not
overflow: the amounts of the operation are added to the counters of its
increment, and nothing else changes. -/
theorem StartAttack_counter_add (n : node) (op : OperationStart) (hwf : GoMap.WF op.Scenarios)
    (attackID incrementID : Int) (scenario : String)
    (hrange : attackID = op.AttackID → incrementID = op.IncrementID →
      -2 ^ 63 ≤ n.counter attackID incrementID scenario + op.Scenarios.getD scenario 0 ∧
      n.counter attackID incrementID scenario + op.Scenarios.getD scenario 0 < 2 ^ 63) :
    (n.StartAttack op).1.counter attackID incrementID scenario
      = n.counter attackID incrementID scenario
        + (if attackID = op.AttackID ∧ incrementID = op.IncrementID
           then op.Scenarios.getD scenario 0 else 0) := by
  obtain ⟨k1, k2, k3, -⟩ := StartAttack_counter_key n op hwf
  by_cases ha : attackID = op.AttackID
  · subst ha
    by_cases hi : incrementID = op.IncrementID
    · subst hi
      rw [if_pos ⟨rfl, rfl⟩]
      by_cases hs : scenario ∈ GoMap.keys op.Scenarios
      · rw [k1 scenario hs]
        split
        · obtain ⟨r1, r2⟩ := hrange rfl rfl
          exact wrap64_of_int64 _ r1 r2
        · rfl
      · rw [k2 scenario hs]
        have hn := (GoMap.get?_eq_none_iff _ _).2 hs
        simp [GoMap.getD, hn]
    · rw [if_neg (fun h => hi h.2), add_zero, counter_eq, counter_eq, k3 incrementID hi]
  · rw [if_neg (fun h => ha h.1), add_zero]
    unfold node.counter
    rw [StartAttack_attacks, updateMirror_get?_ne n op attackID ha]

/-- The share of a node in an operation is between zero and the amount of the
operation. -/
theorem share_bounds (s : attackService) (op : OperationStart) (ch : Choices)
    (hwf : GoMap.WF op.Scenarios) (hpos : ∀ e ∈ op.Scenarios, 0 < e.2)
    (hadv : ∀ e ∈ op.Scenarios, ∃ n ∈ s.nodes, supports n.2 e.1 = true)
    (nm scenario : String) :
    0 ≤ (nodeScenarios s ch.nodesFor nm (rangeOrder ch.scenarios op.Scenarios) []).getD
          scenario 0 ∧
    (nodeScenarios s ch.nodesFor nm (rangeOrder ch.scenarios op.Scenarios) []).getD scenario 0
      ≤ op.Scenarios.getD scenario 0 := by
  rw [planned_amount s op ch hwf]
  cases hg : op.Scenarios.get? scenario with
  | none => simp [GoMap.getD, hg]
  | some amount =>
    have hmem := GoMap.mem_of_get? hg
    have := slice_le_amount amount
      (actualNodes (rangeOrder (ch.nodesFor scenario) s.nodes) scenario) nm
      (le_of_lt (hpos _ hmem)) (actualNodes_ne_nil _ _ _ (hadv _ hmem))
    simpa [GoMap.getD, hg] using this

theorem sum_shares (s : attackService) (op : OperationStart) (ch : Choices)
    (hnodes : GoMap.WF s.nodes) (hwf : GoMap.WF op.Scenarios)
    (hpos : ∀ e ∈ op.Scenarios, 0 < e.2)
    (hadv : ∀ e ∈ op.Scenarios, ∃ n ∈ s.nodes, supports n.2 e.1 = true) (scenario : String) :
    (s.nodes.map (fun e =>
      (nodeScenarios s ch.nodesFor e.1 (rangeOrder ch.scenarios op.Scenarios) []).getD
        scenario 0)).sum
      = op.Scenarios.getD scenario 0 := by
  have hmap : s.nodes.map (fun e =>
      (nodeScenarios s ch.nodesFor e.1 (rangeOrder ch.scenarios op.Scenarios) []).getD
        scenario 0)
      = (GoMap.keys s.nodes).map (fun nm =>
          (nodeScenarios s ch.nodesFor nm (rangeOrder ch.scenarios op.Scenarios) []).getD
            scenario 0) := by
    unfold GoMap.keys
    rw [List.map_map]
    rfl
  rw [hmap]
  simp only [planned_amount s op ch hwf]
  cases hg : op.Scenarios.get? scenario with
  | none =>
    simp only [GoMap.getD, hg, Option.getD_none]
    simp
  | some amount =>
    simp only [GoMap.getD, hg, Option.getD_some]
    have hmem := GoMap.mem_of_get? hg
    exact sum_sliceAt_names (GoMap.keys s.nodes) _ amount hnodes
      (actualNodes_nodup _ (rangeOrder_WF _ _ hnodes) scenario)
      (fun n hn => (rangeOrder_keys_mem _ _ _).1 (actualNodes_subset _ _ _ hn))
      (actualNodes_ne_nil _ _ _ (hadv _ hmem))
      (le_of_lt (hpos _ hmem))

/-- One redistributed operation: it is accepted, the nodes keep their names
and advertised scenarios, the counters of other increments are unchanged on
every node, and the sum over the nodes of the counters of the increment of the
operation grows by the amount of the operation. -/
theorem distributeStart_mirrorSum (s : attackService) (op : OperationStart)
    (ids : String → String) (ch : Choices)
    (hnodes : GoMap.WF s.nodes) (hwf : GoMap.WF op.Scenarios) (hne : op.Scenarios ≠ [])
    (hpos : ∀ e ∈ op.Scenarios, 0 < e.2)
    (hadv : ∀ e ∈ op.Scenarios, ∃ n ∈ s.nodes, supports n.2 e.1 = true)
    (hrange : ∀ e ∈ s.nodes, ∀ scenario,
      -2 ^ 63 ≤ e.2.counter op.AttackID op.IncrementID scenario ∧
      e.2.counter op.AttackID op.IncrementID scenario + op.Scenarios.getD scenario 0 < 2 ^ 63) :
    ∃ s' effects, distributeStart s op ids ch = some (none, op.Scenarios, s', effects) ∧
      s' = { s with nodes := s'.nodes } ∧
      GoMap.keys s'.nodes = GoMap.keys s.nodes ∧
      (∀ e' ∈ s'.nodes, ∃ e ∈ s.nodes, e'.1 = e.1 ∧ e'.2.scenarios = e.2.scenarios ∧
        ∀ attackID incrementID scenario,
          (attackID ≠ op.AttackID ∨ incrementID ≠ op.IncrementID) →
          e'.2.counter attackID incrementID scenario
            = e.2.counter attackID incrementID scenario) ∧
      ∀ attackID incrementID scenario,
        mirrorSum s'.nodes attackID incrementID scenario
          = mirrorSum s.nodes attackID incrementID scenario
            + (if attackID = op.AttackID ∧ incrementID = op.IncrementID
               then op.Scenarios.getD scenario 0 else 0) := by
  have hfil : op.Scenarios.filter (fun e => decide (0 < e.2)) = op.Scenarios := by
    rw [List.filter_eq_self]
    intro e he
    simpa using hpos e he
  have hval : validateScenarios s op.Scenarios ch.validate = (none, op.Scenarios) := by
    rw [validateScenarios_known s op.Scenarios ch.validate hwf hadv, hfil]
    have : op.Scenarios.length ≠ 0 := fun h => hne (List.length_eq_zero.1 h)
    rw [if_neg this]
  obtain ⟨nodes', hd, hkeys, hget⟩ := divideTasks_spec s op ids ch hnodes hadv
  have hwf' : GoMap.WF nodes' := by
    unfold GoMap.WF GoMap.keys at *
    rw [hkeys]
    exact hnodes
  have hdist : distributeStart s op ids ch
      = some (none, op.Scenarios, { s with nodes := nodes' },
          ((rangeOrder ch.dispatch (plannedOperations s op ids ch)).filter
            (fun e => decide (e.2.Scenarios.length ≠ 0))).map
            (fun e => Effect.nodeStartAttack e.1 e.2)) := by
    unfold distributeStart
    rw [hval]
    dsimp only
    have hop : ({ op with Scenarios := op.Scenarios } : OperationStart) = op := rfl
    rw [hop, hd]
  -- what became of each node
  have hnode : ∀ e ∈ s.nodes, ∃ n', nodes'.get? e.1 = some n' ∧
      n'.scenarios = e.2.scenarios ∧
      ∀ attackID incrementID scenario,
        n'.counter attackID incrementID scenario
          = e.2.counter attackID incrementID scenario
            + (if attackID = op.AttackID ∧ incrementID = op.IncrementID
               then (nodeScenarios s ch.nodesFor e.1
                  (rangeOrder ch.scenarios op.Scenarios) []).getD scenario 0 else 0) := by
    intro e he
    have hge : s.nodes.get? e.1 = some e.2 := GoMap.get?_of_mem hnodes he
    have hk : e.1 ∈ GoMap.keys s.nodes := List.mem_map_of_mem Prod.fst he
    have hrec := fun scenario => received_planned s op ids ch hnodes e.1 scenario hk
    unfold received at hrec
    simp only [dispatched_map] at hrec
    rw [hget e.1, hge]
    dsimp only [Option.map_some']
    cases hD : GoMap.get? ((rangeOrder ch.dispatch (plannedOperations s op ids ch)).filter
        (fun e => decide (e.2.Scenarios.length ≠ 0))) e.1 with
    | none =>
      refine ⟨_, rfl, rfl, fun attackID incrementID scenario => ?_⟩
      have := hrec scenario
      rw [hD] at this
      dsimp only at this
      rw [← this]
      simp
    | some opk =>
      have hin := GoMap.mem_of_get? hD
      have hin2 := (rangeOrder_perm _ _).mem_iff.1 (List.mem_filter.1 hin).1
      obtain ⟨p1, p2, p3, -, -, -⟩ := mem_planned _ _ _ _ _ hin2
      dsimp only at p1 p2 p3
      have hwfk : GoMap.WF opk.Scenarios := by
        rw [p1]
        exact nodeScenarios_WF _ _ _ _ _ List.nodup_nil
      refine ⟨_, rfl, (StartAttack_refused e.2 opk).2.1, fun attackID incrementID scenario => ?_⟩
      have hb := share_bounds s op ch hwf hpos hadv e.1 scenario
      rw [← p1] at hb
      rw [StartAttack_counter_add e.2 opk hwfk attackID incrementID scenario
        (fun ha hi => by
          rw [p2] at ha
          rw [p3] at hi
          subst ha hi
          obtain ⟨r1, r2⟩ := hrange e he scenario
          constructor <;> omega)]
      rw [p2, p3, p1]
  have heq : nodes' = s.nodes.map (fun e => (e.1,
      match GoMap.get? ((rangeOrder ch.dispatch (plannedOperations s op ids ch)).filter
          (fun e => decide (e.2.Scenarios.length ≠ 0))) e.1 with
      | some opk => (e.2.StartAttack opk).1
      | none => e.2)) := by
    apply GoMap.eq_of_keys_of_get? _ _ _ hwf'
    · intro k
      rw [hget k, get?_map_entries]
    · rw [hkeys, keys_map_entries]
  refine ⟨_, _, hdist, rfl, hkeys, ?_, ?_⟩
  · intro e' he'
    dsimp only at he'
    have hk' : e'.1 ∈ GoMap.keys s.nodes := by
      rw [← hkeys]
      exact List.mem_map_of_mem Prod.fst he'
    obtain ⟨n, hn⟩ := get?_isSome_of_mem_keys s.nodes e'.1 hk'
    have hmem := GoMap.mem_of_get? hn
    obtain ⟨n', h1, h2, h3⟩ := hnode _ hmem
    dsimp only at h1 h2 h3
    have : e'.2 = n' := by
      have := GoMap.get?_of_mem hwf' he'
      rw [h1] at this
      exact (Option.some.inj this).symm
    refine ⟨_, hmem, rfl, by rw [this]; exact h2, fun attackID incrementID scenario hne' => ?_⟩
    rw [this, h3]
    have : ¬ (attackID = op.AttackID ∧ incrementID = op.IncrementID) := by
      rintro ⟨h4, h5⟩
      rcases hne' with h | h
      · exact h h4
      · exact h h5
    rw [if_neg this, add_zero]
  · intro attackID incrementID scenario
    dsimp only
    have hsum : mirrorSum nodes' attackID incrementID scenario
        = (s.nodes.map (fun e => e.2.counter attackID incrementID scenario
            + (if attackID = op.AttackID ∧ incrementID = op.IncrementID
               then (nodeScenarios s ch.nodesFor e.1
                  (rangeOrder ch.scenarios op.Scenarios) []).getD scenario 0 else 0))).sum := by
      unfold mirrorSum
      conv_lhs => rw [heq]
      rw [List.map_map]
      congr 1
      apply List.map_congr_left
      intro e he
      obtain ⟨n', h1, -, h3⟩ := hnode e he
      have hge : s.nodes.get? e.1 = some e.2 := GoMap.get?_of_mem hnodes he
      rw [hget e.1, hge] at h1
      dsimp only [Option.map_some'] at h1
      dsimp only [Function.comp]
      have h3' := h3 attackID incrementID scenario
      rw [← Option.some.inj h1] at h3'
      exact h3'
    rw [hsum, List.sum_map_add]
    unfold mirrorSum
    congr 1
    by_cases hm : attackID = op.AttackID ∧ incrementID = op.IncrementID
    · simp only [if_pos hm]
      exact sum_shares s op ch hnodes hwf hpos hadv scenario
    · simp only [if_neg hm]
      simp

theorem supports_congr (n n' : node) (h : n'.scenarios = n.scenarios) (k : String) :
    supports n' k = supports n k := by
  unfold supports node.GetDetails
  rw [h]

/-- The loop of the removal goroutine when every operation can be
redistributed: no operation fails, only the nodes change, they keep their
names, and the sum of each counter over the nodes grows by the amounts of the
operations for its increment. -/
theorem redistributeLoop_mirrorSum (ops : List OperationStart) (ids : List (String → String))
    (chs : List Choices) (stopOrders : List (List Nat)) (s : attackService)
    (hnodes : GoMap.WF s.nodes)
    (hnd : (ops.map (fun op => (op.AttackID, op.IncrementID))).Nodup)
    (hops : ∀ op ∈ ops, GoMap.WF op.Scenarios ∧ op.Scenarios ≠ [] ∧
      (∀ e ∈ op.Scenarios, 0 < e.2) ∧
      ∀ e ∈ op.Scenarios, ∃ n ∈ s.nodes, supports n.2 e.1 = true)
    (hrange : ∀ op ∈ ops, ∀ e ∈ s.nodes, ∀ scenario,
      -2 ^ 63 ≤ e.2.counter op.AttackID op.IncrementID scenario ∧
      e.2.counter op.AttackID op.IncrementID scenario + op.Scenarios.getD scenario 0 < 2 ^ 63) :
    ∃ s' effects, redistributeLoop ops ids chs stopOrders s = some (s', effects) ∧
      redistributeFailures ops ids chs stopOrders s = [] ∧
      s' = { s with nodes := s'.nodes } ∧
      GoMap.keys s'.nodes = GoMap.keys s.nodes ∧
      ∀ attackID incrementID scenario,
        mirrorSum s'.nodes attackID incrementID scenario
          = mirrorSum s.nodes attackID incrementID scenario
            + (ops.map (fun op =>
                if attackID = op.AttackID ∧ incrementID = op.IncrementID
                then op.Scenarios.getD scenario 0 else 0)).sum := by
  induction ops generalizing s ids chs stopOrders with
  | nil =>
    refine ⟨s, [], rfl, rfl, rfl, rfl, fun _ _ _ => ?_⟩
    simp
  | cons op rest ih =>
    rw [List.map_cons, List.nodup_cons] at hnd
    obtain ⟨o1, o2, o3, o4⟩ := hops op (List.mem_cons_self _ _)
    obtain ⟨s2, eff, hdist, hfr, hkeys, hback, hsum⟩ :=
      distributeStart_mirrorSum s op (ids.headD (fun _ => ""))
        (chs.headD { validate := [], scenarios := [], nodesFor := fun _ => [], dispatch := [] })
        hnodes o1 o2 o3 o4 (hrange op (List.mem_cons_self _ _))
    have hwf2 : GoMap.WF s2.nodes := by
      unfold GoMap.WF GoMap.keys at *
      rw [hkeys]
      exact hnodes
    -- every node of `s` is still there, with the same scenarios
    have hfwd : ∀ e ∈ s.nodes, ∃ e' ∈ s2.nodes, e'.1 = e.1 ∧ e'.2.scenarios = e.2.scenarios := by
      intro e he
      have hk : e.1 ∈ GoMap.keys s2.nodes := by
        rw [hkeys]
        exact List.mem_map_of_mem Prod.fst he
      obtain ⟨n', hn'⟩ := get?_isSome_of_mem_keys s2.nodes e.1 hk
      have hm' := GoMap.mem_of_get? hn'
      obtain ⟨e0, he0, h1, h2, -⟩ := hback _ hm'
      dsimp only at h1 h2
      have : e0 = e := by
        have g0 := GoMap.get?_of_mem hnodes he0
        have g1 := GoMap.get?_of_mem hnodes he
        rw [← h1, g1] at g0
        have := Option.some.inj g0
        exact Prod.ext h1.symm this.symm
      subst this
      exact ⟨_, hm', rfl, h2⟩
    obtain ⟨s', effects, i1, i2, i3, i4, i5⟩ := ih ids.tail chs.tail stopOrders s2 hwf2 hnd.2
      (fun op' hop' => by
        obtain ⟨p1, p2, p3, p4⟩ := hops op' (List.mem_cons_of_mem _ hop')
        refine ⟨p1, p2, p3, fun e he => ?_⟩
        obtain ⟨n, hn, hs⟩ := p4 e he
        obtain ⟨e', he', -, h2⟩ := hfwd n hn
        exact ⟨e', he', by rw [supports_congr _ _ h2]; exact hs⟩)
      (fun op' hop' e' he' scenario => by
        obtain ⟨e0, he0, -, -, h3⟩ := hback e' he'
        have hne : op'.AttackID ≠ op.AttackID ∨ op'.IncrementID ≠ op.IncrementID := by
          by_contra hcon
          push_neg at hcon
          apply hnd.1
          have : (op.AttackID, op.IncrementID) = (op'.AttackID, op'.IncrementID) := by
            rw [hcon.1, hcon.2]
          rw [this]
          exact List.mem_map_of_mem (fun op => (op.AttackID, op.IncrementID)) hop'
        rw [h3 _ _ _ hne]
        exact hrange op' (List.mem_cons_of_mem _ hop') e0 he0 scenario)
    refine ⟨s', eff ++ effects, ?_, ?_, ?_, i4.trans hkeys, ?_⟩
    · rw [redistributeLoop, hdist]
      dsimp only
      rw [i1]
    · rw [redistributeFailures, hdist]
      dsimp only
      exact i2
    · rw [i3, hfr]
    · intro attackID incrementID scenario
      rw [i5, hsum, List.map_cons, List.sum_cons]
      ring

theorem mirrorOperations_cons (s : attackService) (a : AttackDetails)
    (rest : List AttackDetails) :
    mirrorOperations s (a :: rest)
      = mirrorOperations s [a] ++ mirrorOperations s rest := by
  unfold mirrorOperations
  simp [List.flatMap_cons]

theorem mem_mirrorOperations (s : attackService) (L : List AttackDetails)
    (op : OperationStart) (h : op ∈ mirrorOperations s L) :
    ∃ a ∈ L, ∃ inc ∈ a.Increments,
      op.AttackID = a.ID ∧ op.IncrementID = inc.ID ∧ op.Scenarios = inc.Scenarios := by
  unfold mirrorOperations at h
  obtain ⟨a, ha, hop⟩ := List.mem_flatMap.1 h
  obtain ⟨inc, hinc, rfl⟩ := List.mem_map.1 hop
  exact ⟨a, ha, inc, hinc, rfl, rfl, rfl⟩

theorem mirrorOperations_keys_nodup (s : attackService) (L : List AttackDetails)
    (hL : (L.map (fun a => a.ID)).Nodup)
    (hinc : ∀ a ∈ L, (a.Increments.map (fun inc => inc.ID)).Nodup) :
    ((mirrorOperations s L).map (fun op => (op.AttackID, op.IncrementID))).Nodup := by
  induction L with
  | nil => exact List.nodup_nil
  | cons a rest ih =>
    rw [List.map_cons, List.nodup_cons] at hL
    rw [mirrorOperations_cons, List.map_append, List.nodup_append]
    refine ⟨?_, ih hL.2 (fun b hb => hinc b (List.mem_cons_of_mem _ hb)), ?_⟩
    · have : (mirrorOperations s [a]).map (fun op => (op.AttackID, op.IncrementID))
          = (a.Increments.map (fun inc => inc.ID)).map (fun i => (a.ID, i)) := by
        unfold mirrorOperations
        simp [List.map_map, Function.comp_def]
      rw [this]
      exact (hinc a (List.mem_cons_self _ _)).map (fun x y hxy => (Prod.mk.inj hxy).2)
    · intro x hx1 hx2
      obtain ⟨op1, hop1, rfl⟩ := List.mem_map.1 hx1
      obtain ⟨op2, hop2, heq⟩ := List.mem_map.1 hx2
      obtain ⟨a1, ha1, -, -, e1, -, -⟩ := mem_mirrorOperations _ _ _ hop1
      obtain ⟨a2, ha2, -, -, e2, -, -⟩ := mem_mirrorOperations _ _ _ hop2
      rw [List.mem_singleton] at ha1
      subst ha1
      have hid : a2.ID = a1.ID := by
        have := (Prod.mk.inj heq).1
        rw [e1, e2] at this
        exact this
      exact hL.1 (hid ▸ List.mem_map_of_mem (fun a => a.ID) ha2)

theorem sum_mirrorOperations (s : attackService) (L : List AttackDetails)
    (g : Int → Int → GoMap String Int → Int) :
    ((mirrorOperations s L).map (fun op => g op.AttackID op.IncrementID op.Scenarios)).sum
      = (L.map (fun a =>
          (a.Increments.map (fun inc => g a.ID inc.ID inc.Scenarios)).sum)).sum := by
  induction L with
  | nil => rfl
  | cons a rest ih =>
    rw [mirrorOperations_cons, List.map_append, List.sum_append, ih, List.map_cons, List.sum_cons]
    congr 1
    unfold mirrorOperations
    simp [List.map_map, Function.comp_def]

theorem sum_find_increment (L : List IncrementDetails) (incrementID : Int)
    (g : IncrementDetails → Int) (hnd : (L.map (fun inc => inc.ID)).Nodup) :
    (L.map (fun inc => if incrementID = inc.ID then g inc else 0)).sum
      = match findIncrementDetails incrementID L with
        | none => 0
        | some inc => g inc := by
  induction L with
  | nil => rfl
  | cons a rest ih =>
    rw [List.map_cons, List.nodup_cons] at hnd
    rw [List.map_cons, List.sum_cons]
    unfold findIncrementDetails at ih ⊢
    by_cases h : a.ID = incrementID
    · have hzero : (rest.map (fun inc => if incrementID = inc.ID then g inc else 0)).sum = 0 := by
        apply List.sum_eq_zero
        intro x hx
        obtain ⟨inc, hinc, rfl⟩ := List.mem_map.1 hx
        have : incrementID ≠ inc.ID := by
          intro heq
          apply hnd.1
          rw [h, heq]
          exact List.mem_map_of_mem (fun inc => inc.ID) hinc
        rw [if_neg this]
      rw [hzero, if_pos h.symm]
      simp [List.find?_cons, h]
    · have h' : ¬ incrementID = a.ID := fun e => h e.symm
      rw [if_neg h', zero_add, ih hnd.2]
      simp [List.find?_cons, h]

theorem find_of_mem_nodup (L : List IncrementDetails) (inc : IncrementDetails)
    (hnd : (L.map (fun inc => inc.ID)).Nodup) (h : inc ∈ L) :
    findIncrementDetails inc.ID L = some inc := by
  induction L with
  | nil => cases h
  | cons a rest ih =>
    rw [List.map_cons, List.nodup_cons] at hnd
    unfold findIncrementDetails at ih ⊢
    rcases List.mem_cons.1 h with rfl | hmem
    · simp [List.find?_cons]
    · have : a.ID ≠ inc.ID := by
        intro heq
        apply hnd.1
        rw [heq]
        exact List.mem_map_of_mem (fun inc => inc.ID) hmem
      simp only [List.find?_cons, this, decide_False]
      exact ih hnd.2 hmem

/-- The sum, over the attacks of a sound mirror, of the amounts its increments
hold for an increment id, an attack id and a scenario is the counter of the
mirror. -/
theorem sum_mirror_counter (M : GoMap Int AttackDetails) (attackID incrementID : Int)
    (scenario : String) (hwf : GoMap.WF M) (hok : ∀ e ∈ M, e.2.ID = e.1)
    (hnd : ∀ e ∈ M, (e.2.Increments.map (fun inc => inc.ID)).Nodup) :
    (M.map (fun e =>
        (e.2.Increments.map (fun inc =>
          if attackID = e.2.ID ∧ incrementID = inc.ID
          then inc.Scenarios.getD scenario 0 else 0)).sum)).sum
      = match M.get? attackID with
        | none => 0
        | some a =>
          match findIncrementDetails incrementID a.Increments with
          | none => 0
          | some inc => inc.Scenarios.getD scenario 0 := by
  induction M with
  | nil => rfl
  | cons e rest ih =>
    obtain ⟨k, a⟩ := e
    simp only [GoMap.WF, List.map_cons, List.nodup_cons] at hwf
    have hka : a.ID = k := hok (k, a) (List.mem_cons_self _ _)
    have hrest_ok : ∀ e ∈ rest, e.2.ID = e.1 := fun e he => hok e (List.mem_cons_of_mem _ he)
    have hrest_nd : ∀ e ∈ rest, (e.2.Increments.map (fun inc => inc.ID)).Nodup :=
      fun e he => hnd e (List.mem_cons_of_mem _ he)
    rw [List.map_cons, List.sum_cons]
    by_cases h : k = attackID
    · subst h
      have hzero : (rest.map (fun e =>
          (e.2.Increments.map (fun inc =>
            if k = e.2.ID ∧ incrementID = inc.ID
            then inc.Scenarios.getD scenario 0 else 0)).sum)).sum = 0 := by
        apply List.sum_eq_zero
        intro x hx
        obtain ⟨e, he, rfl⟩ := List.mem_map.1 hx
        apply List.sum_eq_zero
        intro y hy
        obtain ⟨inc, -, rfl⟩ := List.mem_map.1 hy
        have : ¬ (k = e.2.ID ∧ incrementID = inc.ID) := by
          rintro ⟨h1, -⟩
          apply hwf.1
          rw [h1, hrest_ok e he]
          exact List.mem_map_of_mem Prod.fst he
        rw [if_neg this]
      rw [hzero, add_zero]
      have hfst : (a.Increments.map (fun inc =>
          if k = a.ID ∧ incrementID = inc.ID then inc.Scenarios.getD scenario 0 else 0))
          = a.Increments.map (fun inc =>
              if incrementID = inc.ID then inc.Scenarios.getD scenario 0 else 0) := by
        apply List.map_congr_left
        intro inc _
        simp [hka]
      dsimp only
      rw [hfst, sum_find_increment _ _ _ (hnd (k, a) (List.mem_cons_self _ _))]
      have hget : GoMap.get? ((k, a) :: rest) k = some a := by simp [GoMap.get?]
      rw [hget]
    · have hfst : (a.Increments.map (fun inc =>
          if attackID = a.ID ∧ incrementID = inc.ID then inc.Scenarios.getD scenario 0 else 0)).sum
          = 0 := by
        apply List.sum_eq_zero
        intro y hy
        obtain ⟨inc, -, rfl⟩ := List.mem_map.1 hy
        have : ¬ (attackID = a.ID ∧ incrementID = inc.ID) := by
          rintro ⟨h1, -⟩
          exact h (by rw [h1, hka])
        rw [if_neg this]
      dsimp only
      rw [hfst, zero_add, ih hwf.2 hrest_ok hrest_nd]
      have hget : GoMap.get? ((k, a) :: rest) attackID = GoMap.get? rest attackID := by
        simp [GoMap.get?, h]
      rw [hget]

theorem mirrorSum_delete (nodes : GoMap String node) (nodeName : String) (n : node)
    (hwf : GoMap.WF nodes) (h : nodes.get? nodeName = some n)
    (attackID incrementID : Int) (scenario : String) :
    mirrorSum nodes attackID incrementID scenario
      = mirrorSum (nodes.delete nodeName) attackID incrementID scenario
        + n.counter attackID incrementID scenario := by
  induction nodes with
  | nil => cases h
  | cons e rest ih =>
    obtain ⟨k, m⟩ := e
    simp only [GoMap.WF, List.map_cons, List.nodup_cons] at hwf
    unfold mirrorSum at ih ⊢
    by_cases hk : k = nodeName
    · subst hk
      simp only [GoMap.get?, if_true, Option.some.injEq] at h
      subst h
      have hdel : GoMap.delete ((k, m) :: rest) k = rest := by
        have h1 : GoMap.delete ((k, m) :: rest) k = GoMap.delete rest k := by
          unfold GoMap.delete
          exact List.filter_cons_of_neg (by simp)
        rw [h1]
        exact GoMap.delete_of_not_mem rest k hwf.1
      rw [hdel, List.map_cons, List.sum_cons]
      ring
    · simp only [GoMap.get?, hk, if_false] at h
      have hdel : GoMap.delete ((k, m) :: rest) nodeName = (k, m) :: GoMap.delete rest nodeName := by
        unfold GoMap.delete
        exact List.filter_cons_of_pos (by simpa using hk)
      rw [hdel, List.map_cons, List.sum_cons, List.map_cons, List.sum_cons, ih hwf.2 h]
      ring

theorem records_congr (s s' : attackService) (h : s'.attacks = s.attacks)
    (attackID incrementID : Int) :
    s'.records attackID incrementID = s.records attackID incrementID := by
  unfold attackService.records
  rw [h]

/-- The loop of the removal goroutine: the record of the service gains no
increment, and it lists no increment whose redistribution failed. -/
theorem redistributeLoop_failures (ops : List OperationStart) (ids : List (String → String))
    (chs : List Choices) (stopOrders : List (List Nat)) (s s' : attackService)
    (effects : List Effect)
    (h : redistributeLoop ops ids chs stopOrders s = some (s', effects)) (hinv : s.Inv) :
    s'.Inv ∧
    (∀ attackID incrementID, s'.records attackID incrementID = true →
      s.records attackID incrementID = true) ∧
    ∀ op ∈ redistributeFailures ops ids chs stopOrders s,
      s'.records op.AttackID op.IncrementID = false := by
  induction ops generalizing ids chs stopOrders s effects with
  | nil =>
    simp only [redistributeLoop, Option.some.injEq, Prod.mk.injEq] at h
    rw [← h.1]
    exact ⟨hinv, fun _ _ hr => hr, fun op hop => (by cases hop)⟩
  | cons op rest ih =>
    simp only [redistributeLoop] at h
    simp only [redistributeFailures]
    cases hd : distributeStart s op (ids.headD (fun _ => ""))
        (chs.headD { validate := [], scenarios := [], nodesFor := fun _ => [], dispatch := [] }) with
    | none => rw [hd] at h; cases h
    | some r =>
      obtain ⟨e, scenarios, s₁, fx⟩ := r
      rw [hd] at h
      obtain ⟨hfr, -, -⟩ := distributeStart_frame _ _ _ _ _ _ _ _ hd
      have b1 : s₁.attacks = s.attacks := by rw [hfr]
      have b2 : s₁.attackSeq = s.attackSeq := by rw [hfr]
      have b3 : s₁.incrementSeqs = s.incrementSeqs := by rw [hfr]
      have hinv1 : s₁.Inv := Inv_of_books s s₁ hinv b1 b2 b3
      cases e with
      | some err =>
        dsimp only at h ⊢
        cases hrest : redistributeLoop rest ids.tail chs.tail stopOrders.tail
            (s₁.stopIncrement op.AttackID op.IncrementID (stopOrders.headD [])).state with
        | none => rw [hrest] at h; cases h
        | some r' =>
          obtain ⟨s₂, more⟩ := r'
          rw [hrest] at h
          simp only [Option.some.injEq, Prod.mk.injEq] at h
          obtain ⟨hs, -⟩ := h
          subst hs
          have hinv2 := (stopIncrement_books s₁ op.AttackID op.IncrementID
            (stopOrders.headD [])).2.2 hinv1
          obtain ⟨i1, i2, i3⟩ := ih _ _ _ _ _ hrest hinv2
          refine ⟨i1, fun a i hr => ?_, fun op' hop' => ?_⟩
          · have := stopIncrement_records_sub _ _ _ _ _ _ (i2 a i hr)
            rw [records_congr s s₁ b1] at this
            exact this
          · rcases List.mem_cons.1 hop' with rfl | hmem
            · have hrm := stopIncrement_removes s₁ op'.AttackID op'.IncrementID
                (stopOrders.headD []) hinv1
              cases hc : s₂.records op'.AttackID op'.IncrementID with
              | false => rfl
              | true =>
                rw [i2 _ _ hc] at hrm
                cases hrm
            · exact i3 op' hmem
      | none =>
        dsimp only at h ⊢
        cases hrest : redistributeLoop rest ids.tail chs.tail stopOrders s₁ with
        | none => rw [hrest] at h; cases h
        | some r' =>
          obtain ⟨s₂, more⟩ := r'
          rw [hrest] at h
          simp only [Option.some.injEq, Prod.mk.injEq] at h
          obtain ⟨hs, -⟩ := h
          subst hs
          obtain ⟨i1, i2, i3⟩ := ih _ _ _ _ _ hrest hinv1
          refine ⟨i1, fun a i hr => ?_, i3⟩
          have := i2 a i hr
          rw [records_congr s s₁ b1] at this
          exact this

/-- The method `distributeStart` returns (it does not panic) when the nodes
have distinct names and the scenarios map has distinct keys, and it keeps the
names of the nodes. -/
theorem distributeStart_total (s : attackService) (start : OperationStart)
    (ids : String → String) (ch : Choices)
    (hnodes : GoMap.WF s.nodes) (hwf : GoMap.WF start.Scenarios) :
    ∃ e scenarios s' effects,
      distributeStart s start ids ch = some (e, scenarios, s', effects) ∧
      GoMap.keys s'.nodes = GoMap.keys s.nodes := by
  unfold distributeStart
  cases hv : validateScenarios s start.Scenarios ch.validate with
  | mk e m =>
    cases e with
    | some err => exact ⟨some err, m, s, [], rfl, rfl⟩
    | none =>
      obtain ⟨hm, -, hall⟩ := validateScenarios_ok s start.Scenarios m ch.validate hwf hv
      obtain ⟨nodes', hd, hk, -⟩ := divideTasks_spec s { start with Scenarios := m } ids ch hnodes
        (fun e he => hall e (by
          have he' : e ∈ m := he
          rw [hm] at he'
          exact List.mem_of_mem_filter he'))
      dsimp only
      rw [hd]
      exact ⟨none, m, _, _, rfl, hk⟩

/-- The loop of the removal goroutine returns when the nodes have distinct
names and the scenarios maps of the operations have distinct keys, and it
keeps the names of the nodes. -/
theorem redistributeLoop_total (ops : List OperationStart) (ids : List (String → String))
    (chs : List Choices) (stopOrders : List (List Nat)) (s : attackService)
    (hnodes : GoMap.WF s.nodes) (hops : ∀ op ∈ ops, GoMap.WF op.Scenarios) :
    ∃ s' effects, redistributeLoop ops ids chs stopOrders s = some (s', effects) ∧
      GoMap.keys s'.nodes = GoMap.keys s.nodes := by
  induction ops generalizing ids chs stopOrders s with
  | nil => exact ⟨s, [], rfl, rfl⟩
  | cons op rest ih =>
    have hrest : ∀ o ∈ rest, GoMap.WF o.Scenarios := fun o ho => hops o (List.mem_cons_of_mem _ ho)
    obtain ⟨e, scenarios, s₁, fx, hd, hk⟩ := distributeStart_total s op (ids.headD (fun _ => ""))
      (chs.headD { validate := [], scenarios := [], nodesFor := fun _ => [], dispatch := [] })
      hnodes (hops op (List.mem_cons_self _ _))
    have hwf1 : GoMap.WF s₁.nodes := by
      unfold GoMap.WF GoMap.keys at *
      rw [hk]
      exact hnodes
    simp only [redistributeLoop]
    rw [hd]
    cases e with
    | some err =>
      dsimp only
      have hk2 := (stopIncrement_frame s₁ op.AttackID op.IncrementID (stopOrders.headD [])).2.2.2.2
      have hwf2 : GoMap.WF
          (s₁.stopIncrement op.AttackID op.IncrementID (stopOrders.headD [])).state.nodes := by
        unfold GoMap.WF GoMap.keys at *
        rw [hk2]
        exact hwf1
      obtain ⟨s₂, more, hr, hk3⟩ := ih ids.tail chs.tail stopOrders.tail _ hwf2 hrest
      rw [hr]
      exact ⟨s₂, _, rfl, hk3.trans (hk2.trans hk)⟩
    | none =>
      dsimp only
      obtain ⟨s₂, more, hr, hk3⟩ := ih ids.tail chs.tail stopOrders _ hwf1 hrest
      rw [hr]
      exact ⟨s₂, _, rfl, hk3.trans hk⟩

/-- The operations composed from a sound mirror: one per increment, with
pairwise distinct pairs of ids, each with the scenarios map of its increment,
whose amounts are the counters of the mirror. -/
theorem mirrorOperations_sound (s : attackService) (old : node) (hsound : old.mirrorSound)
    (mirrorOrder : List Nat) :
    ((mirrorOperations s ((rangeOrder mirrorOrder old.attacks).map Prod.snd)).map
      (fun op => (op.AttackID, op.IncrementID))).Nodup ∧
    ∀ op ∈ mirrorOperations s ((rangeOrder mirrorOrder old.attacks).map Prod.snd),
      GoMap.WF op.Scenarios ∧ op.Scenarios ≠ [] ∧ (∀ x ∈ op.Scenarios, 0 < x.2) ∧
      (∃ e ∈ old.attacks, ∃ inc ∈ e.2.Increments, op.Scenarios = inc.Scenarios) ∧
      ∀ scenario, op.Scenarios.getD scenario 0
        = old.counter op.AttackID op.IncrementID scenario := by
  obtain ⟨hwf, hok, hinc⟩ := hsound
  have hperm := rangeOrder_perm mirrorOrder old.attacks
  have hmem : ∀ a ∈ (rangeOrder mirrorOrder old.attacks).map Prod.snd,
      (a.ID, a) ∈ old.attacks := by
    intro a ha
    obtain ⟨e, he, rfl⟩ := List.mem_map.1 ha
    have he' := hperm.mem_iff.1 he
    have := hok e he'
    rw [this]
    exact he'
  refine ⟨mirrorOperations_keys_nodup s _ ?_ (fun a ha => (hinc _ (hmem a ha)).1), ?_⟩
  · have hids : ((rangeOrder mirrorOrder old.attacks).map Prod.snd).map (fun a => a.ID)
        = (rangeOrder mirrorOrder old.attacks).map Prod.fst := by
      rw [List.map_map]
      apply List.map_congr_left
      intro e he
      exact hok e (hperm.mem_iff.1 he)
    rw [hids]
    exact ((hperm.map Prod.fst).nodup_iff).2 hwf
  · intro op hop
    obtain ⟨a, ha, inc, hi, h1, h2, h3⟩ := mem_mirrorOperations s _ op hop
    have hain := hmem a ha
    obtain ⟨hnd, hall⟩ := hinc _ hain
    obtain ⟨w1, w2, w3⟩ := hall inc hi
    refine ⟨by rw [h3]; exact w1, by rw [h3]; exact w2, by rw [h3]; exact w3,
      ⟨_, hain, inc, hi, h3⟩, fun scenario => ?_⟩
    unfold node.counter
    rw [h1, GoMap.get?_of_mem hwf hain]
    dsimp only
    rw [h2, find_of_mem_nodup a.Increments inc hnd hi, h3]

/-- The counters of a mirror lie between any two bounds, one at most zero
and one at least zero, that bound every amount the mirror holds. -/
theorem counter_bounds (n : node) (lo hi : Int) (hlo : lo ≤ 0) (hhi : 0 ≤ hi)
    (h : ∀ e ∈ n.attacks, ∀ inc ∈ e.2.Increments, ∀ x ∈ inc.Scenarios, lo ≤ x.2 ∧ x.2 ≤ hi)
    (attackID incrementID : Int) (scenario : String) :
    lo ≤ n.counter attackID incrementID scenario ∧
    n.counter attackID incrementID scenario ≤ hi := by
  unfold node.counter
  cases ha : n.attacks.get? attackID with
  | none => exact ⟨hlo, hhi⟩
  | some a =>
    dsimp only
    cases hf : findIncrementDetails incrementID a.Increments with
    | none => exact ⟨hlo, hhi⟩
    | some inc =>
      dsimp only
      unfold GoMap.getD
      cases hg : inc.Scenarios.get? scenario with
      | none => exact ⟨hlo, hhi⟩
      | some v =>
        unfold findIncrementDetails at hf
        exact h _ (GoMap.mem_of_get? ha) inc (List.mem_of_find?_eq_some hf) _
          (GoMap.mem_of_get? hg)

/-- The amounts of the operations composed from a sound mirror add up, for
every increment and scenario, to the counter of the mirror. -/
theorem sum_mirrorOperations_counter (s : attackService) (old : node)
    (hsound : old.mirrorSound) (mirrorOrder : List Nat) (attackID incrementID : Int)
    (scenario : String) :
    ((mirrorOperations s ((rangeOrder mirrorOrder old.attacks).map Prod.snd)).map
      (fun op => if attackID = op.AttackID ∧ incrementID = op.IncrementID
        then op.Scenarios.getD scenario 0 else 0)).sum
      = old.counter attackID incrementID scenario := by
  obtain ⟨hwf, hok, hinc⟩ := hsound
  have h1 := sum_mirrorOperations s ((rangeOrder mirrorOrder old.attacks).map Prod.snd)
    (fun a i S => if attackID = a ∧ incrementID = i then S.getD scenario 0 else 0)
  have h2 : List.Perm ((rangeOrder mirrorOrder old.attacks).map Prod.snd)
      (old.attacks.map Prod.snd) := (rangeOrder_perm _ _).map _
  have h3 := (h2.map (fun a => (a.Increments.map (fun inc =>
    if attackID = a.ID ∧ incrementID = inc.ID
    then inc.Scenarios.getD scenario 0 else 0)).sum)).sum_eq
  have h3' : (old.attacks.map Prod.snd).map (fun a => (a.Increments.map (fun inc =>
        if attackID = a.ID ∧ incrementID = inc.ID
        then inc.Scenarios.getD scenario 0 else 0)).sum)
      = old.attacks.map (fun e => (e.2.Increments.map (fun inc =>
        if attackID = e.2.ID ∧ incrementID = inc.ID
        then inc.Scenarios.getD scenario 0 else 0)).sum) := by
    rw [List.map_map]
    rfl
  have h4 := sum_mirror_counter old.attacks attackID incrementID scenario hwf hok
    (fun e he => (hinc e he).1)
  rw [h3'] at h3
  exact h1.trans (h3.trans (h4.trans rfl))

/-- C14. When the recovery timer fires for a node `N` whose removal is
pending (no reconnect closed its channel), in a service that satisfies the
bookkeeping invariant, whose nodes have distinct names and where the mirror of
`N` is sound, the timer branch returns, `N` is no longer registered and the
other nodes keep their names; every operation whose redistribution failed
names an increment that the record of the service does not list afterwards.
If moreover every scenario in the mirror of `N` is advertised by at least one
remaining node and no `int64` addition overflows (the counter of each
remaining node plus that of `N` fits), then no redistribution fails, the
record of the service is unchanged and, for every attack, increment and
scenario, the sum of the mirror counters over the remaining nodes afterwards
equals the sum over all nodes, `N` included, before. -/
theorem removingTimerFired_redistributes (s : attackService) (nodeName : String) (old : node)
    (cancel : Nat) (mirrorOrder : List Nat) (ids : List (String → String))
    (chs : List Choices) (stopOrders : List (List Nat))
    (hinv : s.Inv) (hnodes : GoMap.WF s.nodes)
    (hreg : s.nodes.get? nodeName = some old)
    (hpending : s.removingCancels.get? nodeName = some cancel)
    (hopen : cancel ∉ s.closedChans)
    (hsound : old.mirrorSound) :
    ∃ s' effects,
      removingTimerFired s nodeName mirrorOrder ids chs stopOrders = some (s', effects) ∧
      s'.nodes.get? nodeName = none ∧
      GoMap.keys s'.nodes = GoMap.keys (s.nodes.delete nodeName) ∧
      (∀ op ∈ redistributeFailures
          (mirrorOperations s ((rangeOrder mirrorOrder old.attacks).map Prod.snd))
          ids chs stopOrders
          { s with closedChans := cancel :: s.closedChans, nodes := s.nodes.delete nodeName },
        s'.records op.AttackID op.IncrementID = false) ∧
      ((∀ e ∈ old.attacks, ∀ increment ∈ e.2.Increments, ∀ x ∈ increment.Scenarios,
          ∃ n ∈ s.nodes.delete nodeName, supports n.2 x.1 = true) →
        (∀ e ∈ s.nodes.delete nodeName, ∀ attackID incrementID scenario,
          -2 ^ 63 ≤ e.2.counter attackID incrementID scenario ∧
          e.2.counter attackID incrementID scenario
            + old.counter attackID incrementID scenario < 2 ^ 63) →
        redistributeFailures
          (mirrorOperations s ((rangeOrder mirrorOrder old.attacks).map Prod.snd))
          ids chs stopOrders
          { s with closedChans := cancel :: s.closedChans, nodes := s.nodes.delete nodeName }
          = [] ∧
        s'.attacks = s.attacks ∧
        ∀ attackID incrementID scenario,
          mirrorSum s'.nodes attackID incrementID scenario
            = mirrorSum s.nodes attackID incrementID scenario) := by
  obtain ⟨hnd, hall⟩ := mirrorOperations_sound s old hsound mirrorOrder
  have hwfR : GoMap.WF (s.nodes.delete nodeName) := GoMap.WF_delete hnodes nodeName
  have hinvR : attackService.Inv
      { s with closedChans := cancel :: s.closedChans, nodes := s.nodes.delete nodeName } :=
    Inv_of_books s _ hinv rfl rfl rfl
  obtain ⟨s', fx, hr, hk⟩ := redistributeLoop_total
    (mirrorOperations s ((rangeOrder mirrorOrder old.attacks).map Prod.snd)) ids chs stopOrders
    { s with closedChans := cancel :: s.closedChans, nodes := s.nodes.delete nodeName }
    hwfR (fun op hop => (hall op hop).1)
  have hfire : removingTimerFired s nodeName mirrorOrder ids chs stopOrders
      = some (s', [Effect.closeChan cancel] ++ fx) := by
    unfold removingTimerFired
    rw [retrieveOperations_pending s nodeName mirrorOrder old cancel hreg hpending hopen]
    dsimp only
    rw [hr]
  refine ⟨s', _, hfire, ?_, hk, (redistributeLoop_failures _ _ _ _ _ _ _ hr hinvR).2.2, ?_⟩
  · cases hg : s'.nodes.get? nodeName with
    | none => rfl
    | some v =>
      have hmem : nodeName ∈ GoMap.keys s'.nodes :=
        List.mem_map.2 ⟨_, GoMap.mem_of_get? hg, rfl⟩
      rw [hk] at hmem
      exact absurd rfl ((GoMap.mem_keys_delete _ _ _).1 hmem).1
  · intro hadv hrange
    obtain ⟨s₃, fx₃, hr', hfail, hshape, -, hsum⟩ := redistributeLoop_mirrorSum
      (mirrorOperations s ((rangeOrder mirrorOrder old.attacks).map Prod.snd)) ids chs stopOrders
      { s with closedChans := cancel :: s.closedChans, nodes := s.nodes.delete nodeName }
      hwfR hnd
      (fun op hop => by
        obtain ⟨w1, w2, w3, ⟨e, he, inc, hi, hsc⟩, -⟩ := hall op hop
        refine ⟨w1, w2, w3, fun x hx => ?_⟩
        rw [hsc] at hx
        exact hadv e he inc hi x hx)
      (fun op hop e he scenario => by
        rw [(hall op hop).2.2.2.2 scenario]
        exact hrange e he _ _ _)
    rw [hr] at hr'
    simp only [Option.some.injEq, Prod.mk.injEq] at hr'
    obtain ⟨hs, -⟩ := hr'
    subst hs
    refine ⟨hfail, ?_, fun attackID incrementID scenario => ?_⟩
    · have := congrArg attackService.attacks hshape
      exact this
    · rw [hsum, sum_mirrorOperations_counter s old hsound mirrorOrder]
      exact (mirrorSum_delete s.nodes nodeName old hnodes hreg _ _ _).symm

/-- C14 at two concrete states.  In `demoDropped` the worker `n3` holds two
users of `X` in increment 0 and one in increment 1 of attack 0, and the two
other workers advertise `X`: when its timer fires the node is unregistered,
nothing fails, the record is unchanged and every sum of counters is kept.  In
`demoDroppedY` the worker `n3` also holds two users of `Y`, which no other
worker advertises: the redistribution of increment 0 of attack 0 fails and the
record does not list it afterwards. -/
theorem removingTimerFired_redistributes_witness :
    (demoDropped.nodes.get? "n3" = some (demoDropped.nodeOf "n3") ∧
      demoDropped.removingCancels.get? "n3" = some 0 ∧ 0 ∉ demoDropped.closedChans ∧
      ∃ s' effects, removingTimerFired demoDropped "n3" [] [] [] [] = some (s', effects) ∧
        s'.nodes.get? "n3" = none ∧ GoMap.keys s'.nodes = ["n1", "n2"] ∧
        s'.attacks = demoDropped.attacks ∧
        ∀ attackID incrementID scenario,
          mirrorSum s'.nodes attackID incrementID scenario
            = mirrorSum demoDropped.nodes attackID incrementID scenario) ∧
    (demoDroppedY.records 0 0 = true ∧
      ∃ s' effects, removingTimerFired demoDroppedY "n3" [] [] [] [] = some (s', effects) ∧
        s'.nodes.get? "n3" = none ∧ s'.records 0 0 = false) := by
  have hb : ∀ e ∈ demoDropped.nodes, ∀ a ∈ e.2.attacks, ∀ inc ∈ a.2.Increments,
      ∀ x ∈ inc.Scenarios, (0 : Int) ≤ x.2 ∧ x.2 ≤ 100 := by decide
  have hold : ∀ attackID incrementID scenario,
      0 ≤ (demoDropped.nodeOf "n3").counter attackID incrementID scenario ∧
      (demoDropped.nodeOf "n3").counter attackID incrementID scenario ≤ 100 :=
    counter_bounds _ 0 100 (by decide) (by decide) (by decide)
  have hinvY : demoDroppedY.Inv := by
    have hseq : demoDroppedY.incrementSeqs = [(0, 1)] := by decide
    refine ⟨by decide, by decide, fun k => ?_⟩
    rw [hseq]
    unfold GoMap.getD GoMap.get?
    split
    · simp
    · simp [GoMap.get?]
  obtain ⟨s₁, fx₁, a1, a2, a3, -, a5⟩ :=
    removingTimerFired_redistributes demoDropped "n3" (demoDropped.nodeOf "n3") 0 [] [] [] []
      demoDropped_Inv (by decide) (by decide) (by decide) (by decide)
      ⟨by decide, by unfold node.mirrorOK; decide, by decide⟩
  obtain ⟨-, b2, b3⟩ := a5 (by decide)
    (fun e he attackID incrementID scenario => by
      have hm : e ∈ demoDropped.nodes := List.mem_of_mem_filter he
      have h1 := counter_bounds e.2 0 100 (by decide) (by decide) (hb e hm)
        attackID incrementID scenario
      have h2 := hold attackID incrementID scenario
      constructor
      · have : (-2 : Int) ^ 63 ≤ 0 := by decide
        omega
      · have : (100 : Int) + 100 < 2 ^ 63 := by decide
        omega)
  obtain ⟨s₂, fx₂, c1, c2, -, c4, -⟩ :=
    removingTimerFired_redistributes demoDroppedY "n3" (demoDroppedY.nodeOf "n3") 0 [] [] [] []
      hinvY (by decide) (by decide) (by decide) (by decide)
      ⟨by decide, by unfold node.mirrorOK; decide, by decide⟩
  exact ⟨⟨by decide, by decide, by decide, s₁, fx₁, a1, a2, a3.trans (by decide), b2, b3⟩,
    by decide, s₂, fx₂, c1, c2,
    c4 { ID := "", AttackID := 0, IncrementID := 0, WaitTimeSec := 1,
         Scenarios := [("X", 1), ("Y", 2)] } (by decide)⟩

/-! ## The linear ramp -/

theorem linearStart_inv (c : LinearConfig) (hv : linearValid c) :
    ∃ st, linearStart c = some st ∧ rampInv c st ∧ st.currentCounter = c.StartCounter := by
  obtain ⟨h1, h2, h3, hW, hS, hI, hIW, hone⟩ := hv
  unfold linearStart
  cases hw : c.WarmUpSec with
  | none =>
    cases hs : c.CounterStep with
    | none => rcases hone with h | h <;> contradiction
    | some s =>
      refine ⟨_, rfl, ⟨le_refl _, le_of_lt h2, fun _ _ => hS s hs, fun h => ?_⟩, rfl⟩
      rw [hs] at h
      cases h
  | some w =>
    cases hs : c.CounterStep with
    | none =>
      refine ⟨_, rfl, ⟨le_refl _, le_of_lt h2, fun s' h => (by rw [hs] at h; cases h),
        fun _ w' hw' _ => ?_⟩, rfl⟩
      rw [hw] at hw'
      cases hw'
      have hw1 : (1 : ℚ) ≤ (w : ℚ) := by exact_mod_cast hW w hw
      cases hi : c.StepIntervalSec with
      | none =>
        dsimp only
        constructor
        · norm_num
        · linarith
      | some i =>
        dsimp only
        have hi1 : (1 : ℚ) ≤ (i : ℚ) := by exact_mod_cast hI i hi
        have hiw : (i : ℚ) ≤ (w : ℚ) := by exact_mod_cast hIW i w hi hw
        constructor
        · linarith
        · linarith
    | some s =>
      refine ⟨_, rfl, ⟨le_refl _, le_of_lt h2, fun _ _ => hS s hs, fun h => ?_⟩, rfl⟩
      rw [hs] at h
      cases h

/-- One pass through the timer branch before the end counter is reached: the
step lies between one and the remaining range, and the variables after the
pass satisfy the invariant again. -/
theorem linearStep_spec (c : LinearConfig) (hv : linearValid c) (st : linearState)
    (hinv : rampInv c st) (hlt : st.currentCounter < c.EndCounter) :
    ∃ step, linearStep c st = some step ∧
      1 ≤ step ∧ step ≤ c.EndCounter - st.currentCounter ∧
      rampInv c (linearAdvance c st step) ∧
      (linearAdvance c st step).currentCounter = st.currentCounter + step ∧
      (c.CounterStep = none → ∀ w, c.WarmUpSec = some w →
        0 < (w : ℚ) - st.totalElapsedTime ∧
        step = ⌈((c.EndCounter - st.currentCounter : Int) : ℚ) * st.computedInterval
                  / ((w : ℚ) - st.totalElapsedTime)⌉) := by
  obtain ⟨h1, h2, h3, hW, hS, hI, hIW, hone⟩ := hv
  obtain ⟨i1, i2, i3, i4⟩ := hinv
  have hrem : wrap64 (c.EndCounter - st.currentCounter) = c.EndCounter - st.currentCounter :=
    wrap64_of_range _ (by omega) (by omega)
  have hadv : ∀ step : Int, 1 ≤ step → step ≤ c.EndCounter - st.currentCounter →
      wrap64 (st.currentCounter + step) = st.currentCounter + step :=
    fun step a b => wrap64_of_range _ (by omega) (by omega)
  unfold linearStep
  cases hs : c.CounterStep with
  | some s =>
    dsimp only
    have hcs := i3 s hs
    rw [hrem]
    by_cases hgt : st.computedStep > c.EndCounter - st.currentCounter
    · rw [if_pos hgt]
      refine ⟨_, rfl, by omega, le_refl _, ?_, ?_, fun h => by cases h⟩
      · refine ⟨?_, ?_, fun _ _ => ?_, fun h => by rw [hs] at h; cases h⟩
        · show c.StartCounter ≤ wrap64 _
          rw [hadv _ (by omega) (le_refl _)]; omega
        · show wrap64 _ ≤ c.EndCounter
          rw [hadv _ (by omega) (le_refl _)]; omega
        · show 1 ≤ c.EndCounter - st.currentCounter
          omega
      · show wrap64 _ = _
        exact hadv _ (by omega) (le_refl _)
    · rw [if_neg hgt]
      have hle : st.computedStep ≤ c.EndCounter - st.currentCounter := not_lt.1 hgt
      refine ⟨_, rfl, hcs, hle, ?_, ?_, fun h => by cases h⟩
      · refine ⟨?_, ?_, fun _ _ => hcs, fun h => by rw [hs] at h; cases h⟩
        · show c.StartCounter ≤ wrap64 _
          rw [hadv _ hcs hle]; omega
        · show wrap64 _ ≤ c.EndCounter
          rw [hadv _ hcs hle]; omega
      · show wrap64 _ = _
        exact hadv _ hcs hle
  | none =>
    cases hw : c.WarmUpSec with
    | none => rcases hone with h | h <;> contradiction
    | some w =>
      dsimp only
      rw [hrem]
      obtain ⟨hI0, hIT⟩ := i4 hs w hw hlt
      have hT : 0 < (w : ℚ) - st.totalElapsedTime := lt_of_lt_of_le hI0 hIT
      have hremq : (1 : ℚ) ≤ ((c.EndCounter - st.currentCounter : Int) : ℚ) := by
        exact_mod_cast (by omega : (1 : Int) ≤ c.EndCounter - st.currentCounter)
      have hxpos : 0 < ((c.EndCounter - st.currentCounter : Int) : ℚ) * st.computedInterval
          / ((w : ℚ) - st.totalElapsedTime) :=
        div_pos (mul_pos (by linarith) hI0) hT
      have hxle : ((c.EndCounter - st.currentCounter : Int) : ℚ) * st.computedInterval
          / ((w : ℚ) - st.totalElapsedTime) ≤ ((c.EndCounter - st.currentCounter : Int) : ℚ) := by
        rw [div_le_iff₀ hT]
        exact mul_le_mul_of_nonneg_left hIT (by linarith)
      have hs1 : 1 ≤ ⌈((c.EndCounter - st.currentCounter : Int) : ℚ) * st.computedInterval
          / ((w : ℚ) - st.totalElapsedTime)⌉ := by
        have := Int.ceil_pos.2 hxpos
        omega
      have hs2 : ⌈((c.EndCounter - st.currentCounter : Int) : ℚ) * st.computedInterval
          / ((w : ℚ) - st.totalElapsedTime)⌉ ≤ c.EndCounter - st.currentCounter :=
        Int.ceil_le.2 hxle
      refine ⟨_, rfl, hs1, hs2, ?_, ?_, fun _ w' hw' => ?_⟩
      · refine ⟨?_, ?_, fun s h => (by rw [hs] at h; cases h), fun _ w' hw' hlt' => ?_⟩
        · show c.StartCounter ≤ wrap64 _
          rw [hadv _ hs1 hs2]; omega
        · show wrap64 _ ≤ c.EndCounter
          rw [hadv _ hs1 hs2]; omega
        · rw [hw] at hw'
          cases hw'
          have hlt2 : wrap64 (st.currentCounter + ⌈((c.EndCounter - st.currentCounter : Int) : ℚ)
              * st.computedInterval / ((w : ℚ) - st.totalElapsedTime)⌉) < c.EndCounter := hlt'
          rw [hadv _ hs1 hs2] at hlt2
          have hIlt : st.computedInterval < (w : ℚ) - st.totalElapsedTime := by
            by_contra hcon
            have heq : st.computedInterval = (w : ℚ) - st.totalElapsedTime :=
              le_antisymm hIT (not_lt.1 hcon)
            have hx : ((c.EndCounter - st.currentCounter : Int) : ℚ) * st.computedInterval
                / ((w : ℚ) - st.totalElapsedTime)
                = ((c.EndCounter - st.currentCounter : Int) : ℚ) := by
              rw [heq]
              field_simp
            rw [hx, Int.ceil_intCast] at hlt2
            omega
          show 0 < (linearAdvance c st _).computedInterval ∧
            (linearAdvance c st _).computedInterval
              ≤ (w : ℚ) - (linearAdvance c st _).totalElapsedTime
          unfold linearAdvance
          dsimp only
          rw [hw]
          dsimp only
          split
          · constructor <;> linarith
          · rename_i hnot
            have := not_lt.1 hnot
            constructor <;> linarith
      · show wrap64 _ = _
        exact hadv _ hs1 hs2
      · cases hw'
        exact ⟨hT, rfl⟩

/-- The loop of `handleLinear` when no stop is broadcast and every call of
`StartIncrement` succeeds: it does not panic, every step lies between one and
the remaining range, the counter is the start counter plus the steps issued so
far, and the loop has returned, with the counter at the end counter, once it
has met more timer events than the range is wide. -/
theorem linearLoop_spec (attackID : Int) (c : LinearConfig) (hv : linearValid c)
    (events : List linearEvent) (hev : ∀ e ∈ events, e = linearEvent.tick true)
    (st : linearState) (hinv : rampInv c st) :
    ∃ run st', linearLoop attackID c events st = some run ∧ run.final = some st' ∧
      rampInv c st' ∧
      st'.currentCounter = st.currentCounter + (run.issued.map (fun i => i.step)).sum ∧
      (∀ i ∈ run.issued, 1 ≤ i.step ∧ i.step ≤ c.EndCounter - i.current ∧
        i.request = { ID := "", AttackID := attackID, IncrementID := 0, WaitTimeSec := 0,
                      Scenarios := linearScenarios c i.step }) ∧
      (∀ k i, run.issued[k]? = some i →
        i.current = st.currentCounter + ((run.issued.take k).map (fun i => i.step)).sum) ∧
      (c.CounterStep = none → ∀ w, c.WarmUpSec = some w → ∀ i ∈ run.issued,
        0 < (w : ℚ) - i.elapsed ∧
        i.step = ⌈((c.EndCounter - i.current : Int) : ℚ) * i.waited / ((w : ℚ) - i.elapsed)⌉) ∧
      (run.returned = true → st'.currentCounter = c.EndCounter) ∧
      ((c.EndCounter - st.currentCounter).toNat < events.length → run.returned = true) := by
  induction events generalizing st with
  | nil =>
    refine ⟨_, st, rfl, rfl, hinv, (by simp), fun i hi => (by cases hi),
      fun k i h => (by simp at h), fun _ _ _ i hi => (by cases hi), fun h => (by cases h),
      fun h => ?_⟩
    simp at h
  | cons e rest ih =>
    have he := hev e (List.mem_cons_self _ _)
    subst he
    have hrest : ∀ e ∈ rest, e = linearEvent.tick true :=
      fun e h => hev e (List.mem_cons_of_mem _ h)
    simp only [linearLoop]
    by_cases hge : st.currentCounter ≥ c.EndCounter
    · rw [if_pos hge]
      refine ⟨_, st, rfl, rfl, hinv, (by simp), fun i hi => (by cases hi),
        fun k i h => (by simp at h), fun _ _ _ i hi => (by cases hi),
        fun _ => le_antisymm hinv.2.1 hge, fun _ => rfl⟩
    · rw [if_neg hge]
      have hlt : st.currentCounter < c.EndCounter := not_le.1 hge
      obtain ⟨step, hstep, s1, s2, sinv, scur, swarm⟩ := linearStep_spec c hv st hinv hlt
      rw [hstep]
      dsimp only
      obtain ⟨run, st', hrun, hfinal, r1, r2, r3, r4, r5, r6, r7⟩ :=
        ih hrest (linearAdvance c st step) sinv
      rw [hrun]
      dsimp only
      refine ⟨_, st', rfl, hfinal, r1, ?_, ?_, ?_, ?_, r6, ?_⟩
      · rw [r2, scur, List.map_cons, List.sum_cons]
        ring
      · intro i hi
        rcases List.mem_cons.1 hi with rfl | hmem
        · exact ⟨s1, s2, rfl⟩
        · exact r3 i hmem
      · intro k i hk
        cases k with
        | zero =>
          simp only [List.getElem?_cons_zero, Option.some.injEq] at hk
          subst hk
          simp
        | succ k =>
          simp only [List.getElem?_cons_succ] at hk
          rw [r4 k i hk, scur, List.take_succ_cons, List.map_cons, List.sum_cons]
          ring
      · intro hs w hw i hi
        rcases List.mem_cons.1 hi with rfl | hmem
        · exact swarm hs w hw
        · exact r5 hs w hw i hmem
      · intro hlen
        apply r7
        rw [scur]
        simp only [List.length_cons] at hlen
        omega

theorem length_le_sum_of_one_le (l : List Int) (h : ∀ x ∈ l, 1 ≤ x) : (l.length : Int) ≤ l.sum := by
  induction l with
  | nil => simp
  | cons a rest ih =>
    have h1 := h a (List.mem_cons_self _ _)
    have h2 := ih (fun x hx => h x (List.mem_cons_of_mem _ hx))
    simp only [List.length_cons, List.sum_cons]
    push_cast
    omega

/-- C23. For every linear configuration that passes the validation of a
request (`1 ≤ start < end`, an `int64`; warm-up time, step and step interval
at least one where present; step interval at most the warm-up time; a warm-up
time or a step given), with no stop broadcast, every `StartIncrement`
succeeding and the `float64` arithmetic taken over the exact rationals,
`handleLinear` has returned once it has met more timer events than the range
`end - start` is wide: it issues at most `end - start` increments, every step
is at least one and at most `end - current`, the counter at each tick is the
start counter plus the steps issued before, the steps sum to exactly
`end - start`, and the counter ends at the end counter.  When no step is
configured, the step of every tick is
`ceil((end - current) * interval / (warmUpSec - elapsed))` and the divisor
`warmUpSec - elapsed` is strictly positive at that tick. -/
theorem handleLinear_reaches_end (a : attack) (c : LinearConfig) (n : Nat)
    (hc : a.details.LinearConfig = some c) (hv : linearValid c)
    (hn : (c.EndCounter - c.StartCounter).toNat < n) :
    ∃ run st, handleLinear a (List.replicate n (linearEvent.tick true)) = some run ∧
      run.returned = true ∧ run.final = some st ∧ st.currentCounter = c.EndCounter ∧
      (run.issued.length : Int) ≤ c.EndCounter - c.StartCounter ∧
      (∀ i ∈ run.issued, 1 ≤ i.step ∧ i.step ≤ c.EndCounter - i.current) ∧
      (∀ k i, run.issued[k]? = some i →
        i.current = c.StartCounter + ((run.issued.take k).map (fun i => i.step)).sum) ∧
      (run.issued.map (fun i => i.step)).sum = c.EndCounter - c.StartCounter ∧
      (c.CounterStep = none → ∀ w, c.WarmUpSec = some w → ∀ i ∈ run.issued,
        0 < (w : ℚ) - i.elapsed ∧
        i.step = ⌈((c.EndCounter - i.current : Int) : ℚ) * i.waited
                    / ((w : ℚ) - i.elapsed)⌉) := by
  obtain ⟨st₀, hst, hinv, hcur⟩ := linearStart_inv c hv
  obtain ⟨run, st, hrun, hfinal, -, r2, r3, r4, r5, r6, r7⟩ :=
    linearLoop_spec a.details.ID c hv (List.replicate n (linearEvent.tick true))
      (fun e he => List.eq_of_mem_replicate he) st₀ hinv
  have hret : run.returned = true := by
    apply r7
    rw [hcur, List.length_replicate]
    exact hn
  have hend := r6 hret
  have hsum : (run.issued.map (fun i => i.step)).sum = c.EndCounter - c.StartCounter := by
    rw [hcur] at r2
    omega
  have hlen := length_le_sum_of_one_le (run.issued.map (fun i => i.step)) (fun x hx => by
    obtain ⟨i, hi, rfl⟩ := List.mem_map.1 hx
    exact (r3 i hi).1)
  rw [List.length_map, hsum] at hlen
  refine ⟨run, st, ?_, hret, hfinal, hend, hlen, fun i hi => ⟨(r3 i hi).1, (r3 i hi).2.1⟩,
    ?_, hsum, r5⟩
  · unfold handleLinear
    rw [hc]
    dsimp only
    rw [hst]
    exact hrun
  · intro k i hk
    rw [r4 k i hk, hcur]

/-- C23 at a ramp from one to eleven users over seven seconds with a step
every three seconds and no configured step: the steps are 5, 4 and 1, issued
after 3, 3 and 1 seconds. -/
theorem handleLinear_reaches_end_witness :
    linearValid { WarmUpSec := some 7, StartCounter := 1, EndCounter := 11,
                  CounterStep := none, StepIntervalSec := some 3,
                  Scenarios := [{ Name := "http", Counter := none }] } ∧
    ∃ run st, handleLinear demoRampDrift (List.replicate 11 (linearEvent.tick true)) = some run ∧
      run.returned = true ∧ run.final = some st ∧ st.currentCounter = 11 ∧
      run.issued.map (fun i => (i.waited, i.step)) = [(3, 5), (3, 4), (1, 1)] ∧
      (run.issued.map (fun i => i.step)).sum = 10 := by
  have hv : linearValid
      { WarmUpSec := some 7, StartCounter := 1, EndCounter := 11,
        CounterStep := none, StepIntervalSec := some 3,
        Scenarios := [{ Name := "http", Counter := none }] } := by
    refine ⟨by decide, by decide, by decide, ?_, ?_, ?_, ?_, Or.inl (by decide)⟩
    · intro w h; cases h; decide
    · intro s h; cases h
    · intro i h; cases h; decide
    · intro i w h1 h2; cases h1; cases h2; decide
  obtain ⟨run, st, h1, h2, h3, h4, -, -, -, h8, -⟩ :=
    handleLinear_reaches_end demoRampDrift _ 11 rfl hv (by decide)
  have hval : (handleLinear demoRampDrift (List.replicate 11 (linearEvent.tick true))).map
      (fun r => r.issued.map (fun i => (i.waited, i.step))) = some [(3, 5), (3, 4), (1, 1)] := by
    decide!
  rw [h1] at hval
  exact ⟨hv, run, st, h1, h2, h3, h4, Option.some.inj hval, h8⟩

/-- Once the loop of `handleLinear` has returned, further events change
nothing. -/
theorem linearLoop_append (attackID : Int) (c : LinearConfig) (events more : List linearEvent)
    (st : linearState) (run : linearRun)
    (h : linearLoop attackID c events st = some run) (hret : run.returned = true) :
    linearLoop attackID c (events ++ more) st = some run := by
  induction events generalizing st run with
  | nil =>
    simp only [linearLoop, Option.some.injEq] at h
    rw [← h] at hret
    cases hret
  | cons e rest ih =>
    cases e with
    | stop => exact h
    | tick ok =>
      simp only [List.cons_append, linearLoop] at h ⊢
      by_cases hge : st.currentCounter ≥ c.EndCounter
      · rw [if_pos hge] at h ⊢
        exact h
      · rw [if_neg hge] at h ⊢
        cases hs : linearStep c st with
        | none => rw [hs] at h; cases h
        | some step =>
          rw [hs] at h
          dsimp only at h ⊢
          cases ok with
          | false => exact h
          | true =>
            simp only [if_true] at h ⊢
            cases hr : linearLoop attackID c rest (linearAdvance c st step) with
            | none => rw [hr] at h; cases h
            | some run' =>
              rw [hr] at h
              simp only [Option.some.injEq] at h
              have hret' : run'.returned = true := by
                rw [← h] at hret
                exact hret
              have hih : linearLoop attackID c (rest.append more) (linearAdvance c st step)
                  = some run' := ih _ _ hr hret'
              rw [hih]
              exact congrArg some h

theorem handleLinear_append (a : attack) (events more : List linearEvent) (run : linearRun)
    (h : handleLinear a events = some run) (hret : run.returned = true) :
    handleLinear a (events ++ more) = some run := by
  unfold handleLinear at h ⊢
  cases hc : a.details.LinearConfig with
  | none => rw [hc] at h; cases h
  | some c =>
    rw [hc] at h
    dsimp only at h ⊢
    cases hst : linearStart c with
    | none => rw [hst] at h; exact h
    | some st =>
      rw [hst] at h
      exact linearLoop_append _ c events more st run h hret

/-- For the ramp with start counter 1, end counter 10 and step 3 (no warm-up
time), with every `StartIncrement` succeeding, the sizes of the increments
`handleLinear` issues are never 3, 3, 3, 1, however many timer events it
meets. -/
theorem handleLinear_ramp_never_3331 :
    ∀ n, (handleLinear demoRampStep (List.replicate n (linearEvent.tick true))).map
      (fun run => run.issued.map (fun i => i.step)) ≠ some [3, 3, 3, 1] := by
  intro n
  have h4 : ∃ run, handleLinear demoRampStep (List.replicate 4 (linearEvent.tick true))
      = some run ∧ run.returned = true ∧ run.issued.map (fun i => i.step) = [3, 3, 3] := by
    cases h : handleLinear demoRampStep (List.replicate 4 (linearEvent.tick true)) with
    | none => revert h; decide
    | some run =>
      have h1 : (handleLinear demoRampStep (List.replicate 4 (linearEvent.tick true))).map
          (fun run => (run.returned, run.issued.map (fun i => i.step)))
          = some (true, [3, 3, 3]) := by decide
      rw [h] at h1
      simp only [Option.map_some', Option.some.injEq, Prod.mk.injEq] at h1
      exact ⟨run, rfl, h1.1, h1.2⟩
  obtain ⟨run, hrun, hret, hsteps⟩ := h4
  match n with
  | 0 => decide
  | 1 => decide
  | 2 => decide
  | 3 => decide
  | k + 4 =>
    have hsplit : List.replicate (k + 4) (linearEvent.tick true)
        = List.replicate 4 (linearEvent.tick true) ++ List.replicate k (linearEvent.tick true) := by
      rw [← List.replicate_add, Nat.add_comm]
    rw [hsplit, handleLinear_append _ _ _ run hrun hret, Option.map_some', hsteps]
    decide

/-- C21, as stated, fails: for the ramp with start counter 1, end counter 10
and step 3 (no warm-up time), with every `StartIncrement` succeeding,
`handleLinear` has returned at its fourth timer event and the sizes of the
increments it issued are 3, 3, 3, not 3, 3, 3, 1. -/
theorem handleLinear_ramp_not_3331 :
    (handleLinear demoRampStep (List.replicate 4 (linearEvent.tick true))).map
      (fun run => (run.returned, run.issued.map (fun i => i.step))) = some (true, [3, 3, 3]) ∧
    (handleLinear demoRampStep (List.replicate 4 (linearEvent.tick true))).map
      (fun run => run.issued.map (fun i => i.step)) ≠ some [3, 3, 3, 1] := by
  refine ⟨by decide, by decide⟩

/-- C21, amended.  For the ramp with start counter 1, end counter 10 and
step 3 (no warm-up time), with every `StartIncrement` succeeding, increment 0,
which `StartAttack` creates, has size 1 and the increments `handleLinear`
issues have the sizes 3, 3, 3: they are issued at the first three timer
events, at the counters 1, 4 and 7, each for three users of every scenario of
the ramp, and at the fourth timer event the counter is 10 and the goroutine
returns. -/
theorem handleLinear_step_ramp :
    mapStartAttackToOperationStart demoRampStepRequest 0 0
      = some { ID := "", AttackID := 0, IncrementID := 0, WaitTimeSec := 1,
               Scenarios := [("http", 1)] } ∧
    (handleLinear demoRampStep (List.replicate 3 (linearEvent.tick true))).map
      (fun run => (run.issued.map (fun i => i.step), run.returned))
      = some ([3, 3, 3], false) ∧
    ∀ more,
      (handleLinear demoRampStep (List.replicate 4 (linearEvent.tick true) ++ more)).map
        (fun run => run.issued.map (fun i => (i.current, i.step)))
        = some [(1, 3), (4, 3), (7, 3)] ∧
      (handleLinear demoRampStep (List.replicate 4 (linearEvent.tick true) ++ more)).map
        (fun run => run.issued.map (fun i => i.request.Scenarios))
        = some [[("http", 3)], [("http", 3)], [("http", 3)]] ∧
      (handleLinear demoRampStep (List.replicate 4 (linearEvent.tick true) ++ more)).map
        (fun run => (run.returned, run.final.map (fun st => st.currentCounter)))
        = some (true, some 10) := by
  refine ⟨by decide, by decide, fun more => ?_⟩
  have h1 : (handleLinear demoRampStep (List.replicate 4 (linearEvent.tick true))).map
      (fun run => run.issued.map (fun i => (i.current, i.step)))
      = some [(1, 3), (4, 3), (7, 3)] := by decide
  have h2 : (handleLinear demoRampStep (List.replicate 4 (linearEvent.tick true))).map
      (fun run => run.issued.map (fun i => i.request.Scenarios))
      = some [[("http", 3)], [("http", 3)], [("http", 3)]] := by decide
  have h3 : (handleLinear demoRampStep (List.replicate 4 (linearEvent.tick true))).map
      (fun run => (run.returned, run.final.map (fun st => st.currentCounter)))
      = some (true, some 10) := by decide
  cases h : handleLinear demoRampStep (List.replicate 4 (linearEvent.tick true)) with
  | none => rw [h] at h3; cases h3
  | some run =>
    have hret : run.returned = true := by
      rw [h] at h3
      simp only [Option.map_some', Option.some.injEq, Prod.mk.injEq] at h3
      exact h3.1
    rw [handleLinear_append _ _ _ run h hret, ← h]
    exact ⟨h1, h2, h3⟩

/-- C22. For the linear configuration with a warm-up time of 10 seconds, start
counter 2, end counter 12, step 2 and the scenario `http`, the interval
`handleLinear` computes is `10 * 2 / (12 - 2) = 2` seconds and the step is 2.
Increment 0, which `StartAttack` creates, holds `http: 2`.  With every
`StartIncrement` succeeding, `handleLinear` issues an increment with `http: 2`
at each of its first five timer events, each two seconds after the one
before, and it returns at the sixth, with the counter at 12.  Handed to
`StartIncrement` in order, the five requests leave the attack with six
increments, each with `http: 2`. -/
theorem handleLinear_warm_up_ramp :
    linearStart { WarmUpSec := some 10, StartCounter := 2, EndCounter := 12,
                  CounterStep := some 2, StepIntervalSec := none,
                  Scenarios := [{ Name := "http", Counter := none }] }
      = some { computedStep := 2, computedInterval := 2, currentCounter := 2,
               totalElapsedTime := 0 } ∧
    (demoHttpService.StartAttack demoRampRequest 0 (fun n => n) demoChoices).map
      (fun o => o.state.attacks) = some [(0, demoRampWarm)] ∧
    (handleLinear demoRampWarm (List.replicate 5 (linearEvent.tick true))).map
      (fun run => (run.issued.length, run.returned)) = some (5, false) ∧
    (∀ more,
      (handleLinear demoRampWarm (List.replicate 6 (linearEvent.tick true) ++ more)).map
        (fun run => run.issued.map (fun i => (i.waited, i.elapsed, i.current, i.step)))
        = some [(2, 0, 2, 2), (2, 2, 4, 2), (2, 4, 6, 2), (2, 6, 8, 2), (2, 8, 10, 2)] ∧
      (handleLinear demoRampWarm (List.replicate 6 (linearEvent.tick true) ++ more)).map
        (fun run => run.issued.map (fun i => i.request))
        = some (List.replicate 5 { ID := "", AttackID := 0, IncrementID := 0, WaitTimeSec := 0,
                                   Scenarios := [("http", 2)] }) ∧
      (handleLinear demoRampWarm (List.replicate 6 (linearEvent.tick true) ++ more)).map
        (fun run => (run.returned, run.final.map (fun st => st.currentCounter)))
        = some (true, some 12)) ∧
    (startIncrements
        { demoHttpService with
          attacks := [(0, demoRampWarm)], attackSeq := 1, incrementSeqs := [(0, 1)] }
        (List.replicate 5 { ID := "", AttackID := 0, IncrementID := 0, WaitTimeSec := 0,
                            Scenarios := [("http", 2)] })).map
      (fun s => s.attacks.map (fun e => e.2.details.Increments))
      = some [[{ ID := 0, AttackID := 0, Scenarios := [("http", 2)] },
               { ID := 1, AttackID := 0, Scenarios := [("http", 2)] },
               { ID := 2, AttackID := 0, Scenarios := [("http", 2)] },
               { ID := 3, AttackID := 0, Scenarios := [("http", 2)] },
               { ID := 4, AttackID := 0, Scenarios := [("http", 2)] },
               { ID := 5, AttackID := 0, Scenarios := [("http", 2)] }]] := by
  refine ⟨by decide!, by decide, by decide!, fun more => ?_, by decide⟩
  have h1 : (handleLinear demoRampWarm (List.replicate 6 (linearEvent.tick true))).map
      (fun run => run.issued.map (fun i => (i.waited, i.elapsed, i.current, i.step)))
      = some [(2, 0, 2, 2), (2, 2, 4, 2), (2, 4, 6, 2), (2, 6, 8, 2), (2, 8, 10, 2)] := by
    decide!
  have h2 : (handleLinear demoRampWarm (List.replicate 6 (linearEvent.tick true))).map
      (fun run => run.issued.map (fun i => i.request))
      = some (List.replicate 5 { ID := "", AttackID := 0, IncrementID := 0, WaitTimeSec := 0,
                                 Scenarios := [("http", 2)] }) := by decide!
  have h3 : (handleLinear demoRampWarm (List.replicate 6 (linearEvent.tick true))).map
      (fun run => (run.returned, run.final.map (fun st => st.currentCounter)))
      = some (true, some 12) := by decide!
  cases h : handleLinear demoRampWarm (List.replicate 6 (linearEvent.tick true)) with
  | none => rw [h] at h3; cases h3
  | some run =>
    have hret : run.returned = true := by
      rw [h] at h3
      simp only [Option.map_some', Option.some.injEq, Prod.mk.injEq] at h3
      exact h3.1
    rw [handleLinear_append _ _ _ run h hret, ← h]
    exact ⟨h1, h2, h3⟩

/-! ## The REST boundary -/

/-- The truncating `int64` quotient of two positive values is below one
exactly when the exact quotient is. -/
theorem tdiv_lt_one_iff (a d : Int) (ha : 1 ≤ a) (hd : 1 ≤ d) (hmax : a < 2 ^ 63) :
    wrap64 (Int.tdiv a d) < 1 ↔ (a : ℚ) / (d : ℚ) < 1 := by
  have hq0 : 0 ≤ Int.tdiv a d := Int.tdiv_nonneg (by omega) (by omega)
  have hqle : Int.tdiv a d ≤ a := by
    rw [Int.tdiv_eq_ediv (by omega) (by omega)]
    exact Int.ediv_le_self _ (by omega)
  rw [wrap64_of_range _ (by omega) (by omega)]
  have hdq : (0 : ℚ) < (d : ℚ) := by exact_mod_cast (by omega : (0 : Int) < d)
  rw [div_lt_one hdq, Int.tdiv_eq_ediv (by omega) (by omega)]
  constructor
  · intro h
    have h0 : a / d = 0 := by
      have := Int.ediv_nonneg (by omega : (0 : Int) ≤ a) (by omega : (0 : Int) ≤ d)
      omega
    have hlt : a < d := by
      by_contra hcon
      have : 1 ≤ a / d := Int.le_ediv_of_mul_le (by omega) (by omega)
      omega
    exact_mod_cast hlt
  · intro h
    have hlt : a < d := by exact_mod_cast h
    rw [Int.ediv_eq_zero_of_lt (by omega) hlt]
    decide

/-- The core request `ToCore` returns when no cross-field rule is violated. -/
theorem ToCore_shape (b : model.StartAttackRequestBody) (waitTimeInRange : Nat → Bool)
    (constOrder : List Nat) (perIteration : Bool)
    (hfield : b.fieldRules waitTimeInRange = true)
    (hend : ∀ l, b.LinearConfig = some l → l.StartCounter < l.EndCounter)
    (hint : ∀ l, b.LinearConfig = some l → l.EndCounter < 2 ^ 63 ∧
      ∀ w s, l.WarmUpSec = some w → l.CounterStep = some s → w * s < 2 ^ 63) :
    (crossFieldViolated b →
      StartAttackPresenter.ToCore b constOrder perIteration
        = some (Ret.fail GoError.ErrBadConfig)) ∧
    (¬ crossFieldViolated b →
      StartAttackPresenter.ToCore b constOrder perIteration
        = some (Ret.ok
            { Name := b.Name, WaitTimeSec := b.WaitTimeSec, DurationSec := b.DurationSec,
              ConstConfig := b.ConstConfig.map (fun constConfig =>
                { Scenarios := constScenarios perIteration
                    (rangeOrder constOrder (constConfig.Scenarios.getD [])) }),
              LinearConfig := b.LinearConfig.map (fun l =>
                { WarmUpSec := l.WarmUpSec, StartCounter := l.StartCounter,
                  EndCounter := l.EndCounter, CounterStep := l.CounterStep,
                  StepIntervalSec := l.StepIntervalSec,
                  Scenarios := (l.Scenarios.getD []).map (fun scenario =>
                    { Name := scenario, Counter := none }) }) })) := by
  cases hl : b.LinearConfig with
  | none =>
    cases hc : b.ConstConfig with
    | none =>
      constructor
      · intro _
        simp [StartAttackPresenter.ToCore, hl, hc]
      · intro h
        exact absurd (Or.inl ⟨hc, hl⟩) h
    | some cc =>
      constructor
      · intro h
        rcases h with ⟨h1, -⟩ | ⟨l, h1, -⟩
        · rw [hc] at h1; cases h1
        · rw [hl] at h1; cases h1
      · intro _
        simp [StartAttackPresenter.ToCore, hl, hc]
  | some l =>
    have hlt := hend l hl
    obtain ⟨hmax, hprod⟩ := hint l hl
    have hf : l.fieldRules = true := by
      simp only [model.StartAttackRequestBody.fieldRules, hl, Bool.and_eq_true, Option.all_some]
        at hfield
      exact hfield.2
    simp only [model.LinearConfig.fieldRules, Bool.and_eq_true, decide_eq_true_eq] at hf
    obtain ⟨⟨⟨⟨⟨fW, fS0⟩, fE⟩, fS⟩, fI⟩, -⟩ := hf
    have hdiff : wrap64 (l.EndCounter - l.StartCounter) = l.EndCounter - l.StartCounter :=
      wrap64_of_range _ (by omega) (by omega)
    have hquot : ∀ w s, l.WarmUpSec = some w → l.CounterStep = some s →
        (wrap64 (Int.tdiv (wrap64 (w * s)) (wrap64 (l.EndCounter - l.StartCounter))) < 1
          ↔ (w : ℚ) * (s : ℚ) / ((l.EndCounter : ℚ) - (l.StartCounter : ℚ)) < 1) := by
      intro w s hw hs
      rw [hw] at fW
      rw [hs] at fS
      simp only [Option.all_some, decide_eq_true_eq] at fW fS
      have hws : 1 ≤ w * s := by nlinarith
      rw [hdiff, wrap64_of_range _ (by omega) (hprod w s hw hs),
        tdiv_lt_one_iff _ _ hws (by omega) (hprod w s hw hs)]
      push_cast
      rfl
    have hne : ¬ (l.EndCounter ≤ l.StartCounter) := by omega
    have hz : ¬ (wrap64 (l.EndCounter - l.StartCounter) = 0) := by rw [hdiff]; omega
    cases hw : l.WarmUpSec with
    | none =>
      cases hs : l.CounterStep with
      | none =>
        constructor
        · intro _
          simp [StartAttackPresenter.ToCore, hl, hw, hs]
        · intro h
          exact absurd (Or.inr ⟨l, hl, Or.inl ⟨hw, hs⟩⟩) h
      | some s =>
        cases hi : l.StepIntervalSec <;> cases hd : b.DurationSec <;>
          simp [StartAttackPresenter.ToCore, crossFieldViolated, hl, hw, hs, hi, hd, hne]
    | some w =>
      cases hs : l.CounterStep with
      | none =>
        cases hi : l.StepIntervalSec <;> cases hd : b.DurationSec <;>
          simp [StartAttackPresenter.ToCore, crossFieldViolated, hl, hw, hs, hi, hd, hne]
          <;> first
            | done
            | (refine ⟨fun h => ?_, fun _ => ?_⟩ <;> first | omega | (split_ifs <;> first | rfl | omega))
            | (refine ⟨fun h => ?_, fun _ _ => ?_⟩ <;> first | omega | (split_ifs <;> first | rfl | omega))
            | (refine ⟨fun h => ?_, fun _ _ _ => ?_⟩ <;> first | omega | (split_ifs <;> first | rfl | omega))
      | some s =>
        have hq := hquot w s hw hs
        by_cases hQ : wrap64 (Int.tdiv (wrap64 (w * s)) (wrap64 (l.EndCounter - l.StartCounter))) < 1
        · constructor
          · intro _
            simp [StartAttackPresenter.ToCore, hl, hw, hs, hne, hz, hQ]
          · intro h
            exact absurd (Or.inr ⟨l, hl, Or.inr (Or.inl ⟨w, s, hw, hs, hq.1 hQ⟩)⟩) h
        · have hnq : ¬ ((w : ℚ) * (s : ℚ) / ((l.EndCounter : ℚ) - (l.StartCounter : ℚ)) < 1) :=
            fun h => hQ (hq.2 h)
          cases hi : l.StepIntervalSec <;> cases hd : b.DurationSec <;>
            simp [StartAttackPresenter.ToCore, crossFieldViolated, hl, hw, hs, hi, hd, hne, hz,
              hQ, hnq]
            <;> first
              | done
              | (refine ⟨fun h => ?_, fun _ => ?_⟩ <;> first | omega | (split_ifs <;> first | rfl | omega))
              | (refine ⟨fun h => ?_, fun _ _ => ?_⟩ <;> first | omega | (split_ifs <;> first | rfl | omega))
              | (refine ⟨fun h => ?_, fun _ _ _ => ?_⟩ <;> first | omega | (split_ifs <;> first | rfl | omega))

/-- A linear configuration whose end counter is not above its start counter
makes `ToCore` return `ErrBadConfig`. -/
theorem ToCore_descending (b : model.StartAttackRequestBody) (l : model.LinearConfig)
    (constOrder : List Nat) (perIteration : Bool)
    (hl : b.LinearConfig = some l) (hdesc : l.EndCounter ≤ l.StartCounter) :
    StartAttackPresenter.ToCore b constOrder perIteration
      = some (Ret.fail GoError.ErrBadConfig) := by
  unfold StartAttackPresenter.ToCore
  rw [hl]
  simp only [Option.isNone_some, Bool.and_false, Bool.false_eq_true, if_false]
  split
  · rfl
  · rfl

/-- C24. For every start-attack request body that satisfies the field-level
rules and has `endCounter > startCounter` in its linear configuration (the
counters and the product `warmUpSec * counterStep` being `int64` values),
`ToCore` returns `ErrBadConfig` if and only if a cross-field rule is violated:
neither configuration given; a linear configuration with neither warm-up time
nor step; both given and the exact quotient
`warmUpSec * counterStep / (end - start)` below one; the step interval above
the warm-up time; the step interval at least the duration; the warm-up time at
least the duration.  Otherwise it succeeds: the request it returns has the
name, the wait time and the duration of the body, every field of the linear
configuration with one scenario per listed name, and the scenarios of the
constant configuration in the order the map is visited (a permutation of its
entries), each with the counter of its entry when the loop variable is per
iteration. -/
theorem ToCore_bad_config_iff (b : model.StartAttackRequestBody)
    (waitTimeInRange : Nat → Bool) (constOrder : List Nat) (perIteration : Bool)
    (hfield : b.fieldRules waitTimeInRange = true)
    (hend : ∀ l, b.LinearConfig = some l → l.StartCounter < l.EndCounter)
    (hint : ∀ l, b.LinearConfig = some l → l.EndCounter < 2 ^ 63 ∧
      ∀ w s, l.WarmUpSec = some w → l.CounterStep = some s → w * s < 2 ^ 63) :
    (StartAttackPresenter.ToCore b constOrder perIteration = some (Ret.fail GoError.ErrBadConfig)
      ↔ crossFieldViolated b) ∧
    (¬ crossFieldViolated b →
      ∃ start, StartAttackPresenter.ToCore b constOrder perIteration = some (Ret.ok start) ∧
        start.Name = b.Name ∧ start.WaitTimeSec = b.WaitTimeSec ∧
        start.DurationSec = b.DurationSec ∧
        start.LinearConfig = b.LinearConfig.map (fun l =>
          { WarmUpSec := l.WarmUpSec, StartCounter := l.StartCounter,
            EndCounter := l.EndCounter, CounterStep := l.CounterStep,
            StepIntervalSec := l.StepIntervalSec,
            Scenarios := (l.Scenarios.getD []).map (fun scenario =>
              { Name := scenario, Counter := none }) }) ∧
        (start.ConstConfig = none ↔ b.ConstConfig = none) ∧
        ∀ constConfig, b.ConstConfig = some constConfig →
          (rangeOrder constOrder (constConfig.Scenarios.getD [])).Perm
            (constConfig.Scenarios.getD []) ∧
          (start.ConstConfig.map (fun c => c.Scenarios.map (fun scenario => scenario.Name))
            = some ((rangeOrder constOrder (constConfig.Scenarios.getD [])).map Prod.fst)) ∧
          (perIteration = true →
            start.ConstConfig
              = some ⟨(rangeOrder constOrder (constConfig.Scenarios.getD [])).map
                  (fun e => ⟨e.1, some e.2⟩)⟩)) := by
  obtain ⟨h1, h2⟩ := ToCore_shape b waitTimeInRange constOrder perIteration hfield hend hint
  refine ⟨⟨fun h => ?_, h1⟩, fun hn => ⟨_, h2 hn, rfl, rfl, rfl, rfl, ?_, fun cc hcc => ?_⟩⟩
  · by_contra hn
    rw [h2 hn] at h
    cases h
  · cases b.ConstConfig <;> simp
  · refine ⟨rangeOrder_perm _ _, ?_, fun hp => ?_⟩
    · simp [hcc, constScenarios]
    · simp [hcc, constScenarios, hp]

/-- C24 at two requests: `demoBody` violates no cross-field rule and is
converted field by field; with a warm-up time of two seconds for the same ramp
the quotient `2 * 2 / 10` is below one and `ToCore` returns `ErrBadConfig`. -/
theorem ToCore_bad_config_iff_witness :
    demoBody.fieldRules (fun _ => true) = true ∧
    ¬ crossFieldViolated demoBody ∧
    StartAttackPresenter.ToCore demoBody [] true
      = some (Ret.ok
          { Name := "ramp", WaitTimeSec := 1, DurationSec := some 60,
            ConstConfig := some { Scenarios := [{ Name := "http", Counter := some 3 },
                                                { Name := "ftp", Counter := some 1 }] },
            LinearConfig := some { WarmUpSec := some 10, StartCounter := 2, EndCounter := 12,
                                   CounterStep := some 2, StepIntervalSec := none,
                                   Scenarios := [{ Name := "http", Counter := none }] } }) ∧
    crossFieldViolated
      { demoBody with
        LinearConfig := some { WarmUpSec := some 2, StartCounter := 2, EndCounter := 12,
                               CounterStep := some 2, StepIntervalSec := none,
                               Scenarios := some ["http"] } } := by
  have hok : StartAttackPresenter.ToCore demoBody [] true
      = some (Ret.ok
          { Name := "ramp", WaitTimeSec := 1, DurationSec := some 60,
            ConstConfig := some { Scenarios := [{ Name := "http", Counter := some 3 },
                                                { Name := "ftp", Counter := some 1 }] },
            LinearConfig := some { WarmUpSec := some 10, StartCounter := 2, EndCounter := 12,
                                   CounterStep := some 2, StepIntervalSec := none,
                                   Scenarios := [{ Name := "http", Counter := none }] } }) := by
    decide
  have h1 := ToCore_bad_config_iff demoBody (fun _ => true) [] true (by decide)
    (fun l hl => by cases hl; decide)
    (fun l hl => by
      cases hl
      exact ⟨by decide, fun w s hw hs => by cases hw; cases hs; decide⟩)
  have h2 := ToCore_bad_config_iff
    { demoBody with
      LinearConfig := some { WarmUpSec := some 2, StartCounter := 2, EndCounter := 12,
                             CounterStep := some 2, StepIntervalSec := none,
                             Scenarios := some ["http"] } }
    (fun _ => true) [] true (by decide)
    (fun l hl => by cases hl; decide)
    (fun l hl => by
      cases hl
      exact ⟨by decide, fun w s hw hs => by cases hw; cases hs; decide⟩)
  refine ⟨by decide, fun hv => ?_, hok, h2.1.1 (by decide)⟩
  have := h1.1.2 hv
  rw [hok] at this
  cases this

/-- C25, as stated, fails: the request `demoBodyDescending`, whose linear
configuration has the end counter 3 below the start counter 5 and satisfies
every `validate` tag, is answered with status 400, not 422. -/
theorem startAttack_descending_not_422 :
    demoBodyDescending.fieldRules (fun _ => true) = true ∧
    Resolver.startAttack demoService (fun _ => true) demoBodyDescending [] true 0 (fun n => n)
        demoChoices = some (400, demoService, []) ∧
    (Resolver.startAttack demoService (fun _ => true) demoBodyDescending [] true 0 (fun n => n)
        demoChoices).map (fun r => r.1) ≠ some 422 := by
  refine ⟨by decide, by decide, by decide⟩

/-- C25, amended.  A start-attack request whose linear configuration has
`endCounter <= startCounter` is rejected and the service is not called: with
status 400 (`ErrBadConfig`, returned by `ToCore`) when the body satisfies
every `validate` tag, which requires `endCounter >= 1`; and with status 422,
as a violation of the request-body validation, when `endCounter < 1`. -/
theorem startAttack_descending (s : attackService) (waitTimeInRange : Nat → Bool)
    (body : model.StartAttackRequestBody) (l : model.LinearConfig) (constOrder : List Nat)
    (perIteration : Bool) (now : Nat) (ids : String → String) (ch : Choices)
    (hl : body.LinearConfig = some l) (hdesc : l.EndCounter ≤ l.StartCounter) :
    (body.fieldRules waitTimeInRange = true →
      1 ≤ l.EndCounter ∧
      StartAttackPresenter.ToCore body constOrder perIteration
        = some (Ret.fail GoError.ErrBadConfig) ∧
      Resolver.startAttack s waitTimeInRange body constOrder perIteration now ids ch
        = some (400, s, [])) ∧
    (l.EndCounter < 1 →
      Resolver.startAttack s waitTimeInRange body constOrder perIteration now ids ch
        = some (422, s, [])) := by
  have hcore := ToCore_descending body l constOrder perIteration hl hdesc
  constructor
  · intro hfield
    refine ⟨?_, hcore, ?_⟩
    · simp only [model.StartAttackRequestBody.fieldRules, hl, Bool.and_eq_true, Option.all_some,
        model.LinearConfig.fieldRules, decide_eq_true_eq] at hfield
      exact hfield.2.1.1.1.2
    · unfold Resolver.startAttack
      rw [if_pos hfield, hcore]
      rfl
  · intro hlt
    have hfield : ¬ (body.fieldRules waitTimeInRange = true) := by
      intro hfield
      simp only [model.StartAttackRequestBody.fieldRules, hl, Bool.and_eq_true, Option.all_some,
        model.LinearConfig.fieldRules, decide_eq_true_eq] at hfield
      have := hfield.2.1.1.1.2
      omega
    unfold Resolver.startAttack
    rw [if_neg hfield]

/-- C25, amended, at two requests: `demoBodyDescending` (end counter 3, start
counter 5) is answered with 400, and the same request with the end counter 0
with 422. -/
theorem startAttack_descending_witness :
    (demoBodyDescending.fieldRules (fun _ => true) = true ∧
      Resolver.startAttack demoService (fun _ => true) demoBodyDescending [] true 0 (fun n => n)
        demoChoices = some (400, demoService, [])) ∧
    Resolver.startAttack demoService (fun _ => true)
        { demoBody with
          LinearConfig := some { WarmUpSec := some 10, StartCounter := 5, EndCounter := 0,
                                 CounterStep := some 2, StepIntervalSec := none,
                                 Scenarios := some ["http"] } }
        [] true 0 (fun n => n) demoChoices = some (422, demoService, []) :=
  ⟨⟨by decide,
      ((startAttack_descending demoService (fun _ => true) demoBodyDescending _ [] true 0
        (fun n => n) demoChoices rfl (by decide)).1 (by decide)).2.2⟩,
    (startAttack_descending demoService (fun _ => true) _ _ [] true 0
      (fun n => n) demoChoices rfl (by decide)).2 (by decide)⟩

/-! ## The load generator of a worker: starting and stopping -/

/-- The inner loop of `StartAttack` once a client has been made since the
count `c0`: it does not panic for a non-zero `UsersPerClient`, adds one user
per index, with the name built from the scenario and the index, and every
user it adds uses a client made since `c0`. -/
theorem spawnUsers_spec (config : Generator.Config) (name : String)
    (hk : config.UsersPerClient ≠ 0) (l : List Nat) (users : List Generator.user) (stop : Int)
    (clients c0 : Nat) (hc : c0 < clients) :
    ∃ created clients',
      Generator.spawnUsers config name l (users, stop, clients)
        = some (users ++ created, stop + l.length, clients') ∧
      clients ≤ clients' ∧
      created.map (fun u => (u.name, u.scenario))
        = l.map (fun i => ("user for " ++ name ++ " #" ++ toString i, name)) ∧
      ∀ u ∈ created, c0 ≤ u.client ∧ u.client < clients' := by
  induction l generalizing users stop clients with
  | nil => exact ⟨[], clients, by simp [Generator.spawnUsers], le_refl _, rfl,
      fun u hu => by cases hu⟩
  | cons i rest ih =>
    simp only [Generator.spawnUsers, if_neg hk]
    have hc1 : c0 < (if Int.tmod i config.UsersPerClient = 0 then clients + 1 else clients) := by
      split <;> omega
    have hle : clients ≤ (if Int.tmod i config.UsersPerClient = 0 then clients + 1 else clients) := by
      split <;> omega
    obtain ⟨created, clients', h1, h2, h3, h4⟩ := ih
      (users ++ [{ name := "user for " ++ name ++ " #" ++ toString i, scenario := name,
                   client := (if Int.tmod i config.UsersPerClient = 0 then clients + 1
                              else clients) - 1 }])
      (stop + 1) _ hc1
    refine ⟨{ name := "user for " ++ name ++ " #" ++ toString i, scenario := name,
               client := (if Int.tmod i config.UsersPerClient = 0 then clients + 1
                          else clients) - 1 } :: created,
      clients', ?_, le_trans hle h2, ?_, ?_⟩
    · rw [h1]
      simp only [List.append_assoc, List.singleton_append, List.length_cons, Nat.cast_add,
        Nat.cast_one]
      refine congrArg some (Prod.ext rfl (Prod.ext ?_ rfl))
      dsimp only
      omega
    · simp only [List.map_cons, h3]
    · intro u hu
      rcases List.mem_cons.1 hu with rfl | hmem
      · dsimp only
        constructor <;> omega
      · exact h4 u hmem

/-- The inner loop of `StartAttack` for one scenario: every user it adds uses
a client made in the loop. -/
theorem spawnUsers_range (config : Generator.Config) (name : String)
    (hk : config.UsersPerClient ≠ 0) (n : Nat) (users : List Generator.user) (stop : Int)
    (clients : Nat) :
    ∃ created clients',
      Generator.spawnUsers config name (List.range n) (users, stop, clients)
        = some (users ++ created, stop + n, clients') ∧
      clients ≤ clients' ∧
      created.map (fun u => (u.name, u.scenario))
        = (List.range n).map (fun i => ("user for " ++ name ++ " #" ++ toString i, name)) ∧
      ∀ u ∈ created, clients ≤ u.client ∧ u.client < clients' := by
  cases n with
  | zero => exact ⟨[], clients, by simp [Generator.spawnUsers], le_refl _, rfl,
      fun u hu => by cases hu⟩
  | succ m =>
    rw [List.range_succ_eq_map]
    simp only [Generator.spawnUsers, if_neg hk]
    have h0 : Int.tmod ((0 : Nat) : Int) config.UsersPerClient = 0 := by simp
    rw [if_pos h0]
    obtain ⟨created, clients', h1, h2, h3, h4⟩ := spawnUsers_spec config name hk
      ((List.range m).map Nat.succ)
      (users ++ [{ name := "user for " ++ name ++ " #" ++ toString 0, scenario := name,
                   client := clients + 1 - 1 }])
      (stop + 1) (clients + 1) clients (Nat.lt_succ_self _)
    refine ⟨{ name := "user for " ++ name ++ " #" ++ toString 0, scenario := name,
               client := clients + 1 - 1 } :: created,
      clients', ?_, by omega, ?_, ?_⟩
    · rw [h1]
      simp only [List.append_assoc, List.singleton_append, List.length_map, List.length_range,
        Nat.cast_add, Nat.cast_one]
      refine congrArg some (Prod.ext rfl (Prod.ext ?_ rfl))
      dsimp only
      omega
    · simp only [List.map_cons, h3]
    · intro u hu
      rcases List.mem_cons.1 hu with rfl | hmem
      · dsimp only
        constructor <;> omega
      · exact h4 u hmem

/-- The loop of `StartAttack` over the scenarios: it does not panic for a
non-zero `UsersPerClient`, the wait group grows by the number of users added,
the users are those of `createdFor`, and each uses a client made in the
loop. -/
theorem usersLoop_spec (config : Generator.Config) (hk : config.UsersPerClient ≠ 0)
    (visited : List (String × Int)) (users : List Generator.user) (stop : Int) (clients : Nat) :
    ∃ created clients',
      Generator.usersLoop config visited (users, stop, clients)
        = some (users ++ created, stop + created.length, clients') ∧
      clients ≤ clients' ∧
      created.map (fun u => (u.name, u.scenario)) = Generator.createdFor visited ∧
      ∀ u ∈ created, clients ≤ u.client ∧ u.client < clients' := by
  induction visited generalizing users stop clients with
  | nil => exact ⟨[], clients, by simp [Generator.usersLoop], le_refl _, rfl,
      fun u hu => by cases hu⟩
  | cons e rest ih =>
    obtain ⟨name, count⟩ := e
    simp only [Generator.usersLoop]
    by_cases hav : name ∈ scenarios.AvailableScenarios
    · rw [if_pos hav]
      obtain ⟨c1, cl1, h1, h2, h3, h4⟩ :=
        spawnUsers_range config name hk count.toNat users stop clients
      rw [h1]
      dsimp only
      obtain ⟨c2, cl2, g1, g2, g3, g4⟩ := ih (users ++ c1) (stop + count.toNat) cl1
      have hlen : c1.length = count.toNat := by
        have := congrArg List.length h3
        simpa using this
      refine ⟨c1 ++ c2, cl2, ?_, le_trans h2 g2, ?_, ?_⟩
      · rw [g1]
        simp only [List.append_assoc, List.length_append, Nat.cast_add, hlen]
        refine congrArg some (Prod.ext rfl (Prod.ext ?_ rfl))
        dsimp only
        omega
      · simp only [List.map_append, h3, g3, Generator.createdFor, List.flatMap_cons, if_pos hav]
      · intro u hu
        rcases List.mem_append.1 hu with hm | hm
        · exact ⟨(h4 u hm).1, lt_of_lt_of_le (h4 u hm).2 g2⟩
        · exact ⟨le_trans h2 (g4 u hm).1, (g4 u hm).2⟩
    · rw [if_neg hav]
      obtain ⟨c2, cl2, g1, g2, g3, g4⟩ := ih users stop clients
      refine ⟨c2, cl2, g1, g2, ?_, g4⟩
      simp only [g3, Generator.createdFor, List.flatMap_cons, if_neg hav, List.nil_append]

/-- C26. For every generator state in which the increment
`(op.AttackID, op.IncrementID)` exists with an operation id different from
`op.ID`, and with a non-zero `UsersPerClient` (for zero the creation of the
first user panics), `StartAttack op` succeeds and replaces the increment:
afterwards the increment carries `op.ID` and its users are exactly those
created for `op`, in visiting order: for every scenario the worker knows, as
many users as its count (none for a count below one), named after the
scenario and their index, and none for the other names.  The other increments
and attacks are untouched.  Every user created uses an HTTP client made by
this call, so that no user of the replaced increment, whose clients were made
before, is among the users of the increment.  The wait group has grown by the
number of users created. -/
theorem StartAttack_overwrites (g : Generator.generator) (op : OperationStart)
    (jobID : String) (order : List Nat) (att : Generator.attack) (old : Generator.increment)
    (hk : g.config.UsersPerClient ≠ 0)
    (hatt : g.attacks.get? op.AttackID = some att)
    (hinc : att.increments.get? op.IncrementID = some old)
    (hid : old.operationID ≠ op.ID) :
    ∃ g' users att',
      g.StartAttack op jobID order = some (g', none) ∧
      g'.attacks.get? op.AttackID = some att' ∧
      att'.increments.get? op.IncrementID = some { operationID := op.ID, users := users } ∧
      (∀ i, i ≠ op.IncrementID → att'.increments.get? i = att.increments.get? i) ∧
      att'.jobID = att.jobID ∧
      (∀ k, k ≠ op.AttackID → g'.attacks.get? k = g.attacks.get? k) ∧
      users.map (fun u => (u.name, u.scenario))
        = Generator.createdFor (rangeOrder order op.Scenarios) ∧
      (∀ u ∈ users, g.clients ≤ u.client ∧ u.client < g'.clients) ∧
      ((∀ u ∈ old.users, u.client < g.clients) → ∀ u ∈ old.users, u ∉ users) ∧
      g'.stop = g.stop + users.length ∧
      g'.scheduler = g.scheduler ∧ g'.config = g.config := by
  obtain ⟨users, clients', h1, -, h3, h4⟩ :=
    usersLoop_spec g.config hk (rangeOrder order op.Scenarios) [] g.stop g.clients
  rw [List.nil_append] at h1
  have hrun : g.StartAttack op jobID order
      = some ({ g with
                stop := g.stop + users.length, clients := clients',
                attacks := g.attacks.set op.AttackID
                  { att with
                    increments := att.increments.set op.IncrementID
                      { operationID := op.ID, users := users } } }, none) := by
    unfold Generator.generator.StartAttack
    rw [hatt]
    dsimp only
    rw [hinc]
    dsimp only
    rw [if_neg (by simpa using hid), h1]
  refine ⟨_, users, _, hrun, GoMap.get?_set_self _ _ _, GoMap.get?_set_self _ _ _,
    fun i hi => GoMap.get?_set_ne _ _ hi, rfl, fun k hk' => GoMap.get?_set_ne _ _ hk',
    h3, h4, fun hold u hu hmem => ?_, rfl, rfl, rfl⟩
  have := (h4 u hmem).1
  have := hold u hu
  omega

/-- C26 at `demoGenerator`, which holds increment 2 of attack 5 with three
users made for the operation `op-1`: started with `demoGenOp2` (operation
`op-2`, two users of `test_http` and four of an unknown scenario), the
increment carries `op-2` and exactly two users, which use a new client, and
none of the three former users. -/
theorem StartAttack_overwrites_witness :
    demoGenerator.attacks.get? 5 = some demoGenAttack ∧
    demoGenAttack.increments.get? 2 = some demoGenIncrement ∧
    ∃ g' users att',
      demoGenerator.StartAttack demoGenOp2 "job-2" [] = some (g', none) ∧
      g'.attacks.get? 5 = some att' ∧
      att'.increments.get? 2 = some { operationID := "op-2", users := users } ∧
      users.map (fun u => (u.name, u.scenario))
        = [("user for test_http #0", "test_http"), ("user for test_http #1", "test_http")] ∧
      (∀ u ∈ users, 2 ≤ u.client) ∧
      (∀ u ∈ demoGenIncrement.users, u ∉ users) ∧
      g'.stop = 3 + users.length := by
  obtain ⟨g', users, att', h1, h2, h3, -, -, -, h7, h8, h9, h10, -, -⟩ :=
    StartAttack_overwrites demoGenerator demoGenOp2 "job-2" [] demoGenAttack demoGenIncrement
      (by decide) (by decide) (by decide) (by decide)
  exact ⟨by decide, by decide, g', users, att', h1, h2, h3, h7.trans (by decide),
    fun u hu => (h8 u hu).1, h9 (by decide), h10⟩

/-! ## The stream handler and the removal of a node under a shared name -/

/-- C27, evaluated on the code.  When `AddNode` refuses the node built from
the handshake, `StreamAttack` does not return: it goes on exactly as after a
successful registration, defers `RemoveNode` for the refused node, starts the
receiver and runs the sender.  (The two errors before the handshake do make
the handler return at once.) -/
theorem StreamAttack_refused_continues (s : attackService) (nodeName : String)
    (scenarios : List ScenarioDetails) (mirrorOrder : List Nat) (stopOrders : List (List Nat))
    (o : Outcome Unit) (err : GoError)
    (h : s.AddNode (handshakeNode nodeName scenarios) mirrorOrder stopOrders = some o)
    (herr : o.ret = Ret.fail err) :
    Service.StreamAttack s (firstMessage.handshake nodeName scenarios) mirrorOrder stopOrders
      = some (o.state, o.effects,
          [streamStep.nodeStart nodeName, streamStep.addNode (some err),
           streamStep.deferRemoveNode nodeName, streamStep.goRunReceiver,
           streamStep.runSender]) ∧
    Service.StreamAttack s firstMessage.recvError mirrorOrder stopOrders
      = some (s, [], [streamStep.returnError]) ∧
    Service.StreamAttack s firstMessage.notHandshake mirrorOrder stopOrders
      = some (s, [], [streamStep.returnError]) := by
  refine ⟨?_, rfl, rfl⟩
  unfold Service.StreamAttack
  dsimp only
  rw [h]
  dsimp only
  rw [herr]
  rfl

/-- C27 at `demoService`, where `n1` is registered and no removal is pending:
a second stream that hands in the name `n1` is refused with
`ErrNodeAlreadyExists`, and the handler still runs the receiver and the
sender. -/
theorem StreamAttack_refused_continues_witness :
    (demoService.AddNode (handshakeNode "n1" [demoScenario "Z"]) [] []).map (fun o => o.ret)
      = some (Ret.fail GoError.ErrNodeAlreadyExists) ∧
    (Service.StreamAttack demoService (firstMessage.handshake "n1" [demoScenario "Z"]) [] []).map
        (fun r => r.2.2)
      = some [streamStep.nodeStart "n1", streamStep.addNode (some GoError.ErrNodeAlreadyExists),
              streamStep.deferRemoveNode "n1", streamStep.goRunReceiver, streamStep.runSender] := by
  have hsome : (demoService.AddNode (handshakeNode "n1" [demoScenario "Z"]) [] []).isSome
      = true := by decide
  have h := (StreamAttack_refused_continues demoService "n1" [demoScenario "Z"] [] [] _
    GoError.ErrNodeAlreadyExists (Option.some_get hsome).symm (by rfl)).1
  exact ⟨by decide, by rw [h]; rfl⟩

/-- C28, evaluated on the code.  When a controller `a` is registered under a
name (with or without a removal pending), `RemoveNode` for a controller `b`
that declares the same name arms the removal of that name, and when the
recovery interval elapses the timer branch unregisters `a`: it closes the
channel made for `b`, deletes the node registered under the name and hands
the operations of the mirror of `a` to the redistribution loop. -/
theorem RemoveNode_same_name_unregisters (s : attackService) (a b : node)
    (mirrorOrder : List Nat) (ids : List (String → String)) (chs : List Choices)
    (stopOrders : List (List Nat))
    (hnodes : GoMap.WF s.nodes) (hreg : s.nodes.get? b.name = some a)
    (hfresh : s.chanSeq ∉ s.closedChans)
    (hwf : ∀ e ∈ a.attacks, ∀ increment ∈ e.2.Increments, GoMap.WF increment.Scenarios) :
    ∃ s' more,
      removingTimerFired (s.RemoveNode b).state b.name mirrorOrder ids chs stopOrders
        = some (s', Effect.closeChan s.chanSeq :: more) ∧
      s'.nodes.get? b.name = none ∧
      GoMap.keys s'.nodes = GoMap.keys (s.nodes.delete b.name) ∧
      redistributeLoop
          (mirrorOperations s ((rangeOrder mirrorOrder a.attacks).map Prod.snd))
          ids chs stopOrders
          { s with removingCancels := s.removingCancels.set b.name s.chanSeq,
                   chanSeq := s.chanSeq + 1,
                   closedChans := s.chanSeq :: s.closedChans,
                   nodes := s.nodes.delete b.name }
        = some (s', more) := by
  have hret := retrieveOperations_pending
    { s with removingCancels := s.removingCancels.set b.name s.chanSeq,
             chanSeq := s.chanSeq + 1 }
    b.name mirrorOrder a s.chanSeq hreg (GoMap.get?_set_self _ _ _) hfresh
  have hops : ∀ op ∈ mirrorOperations s ((rangeOrder mirrorOrder a.attacks).map Prod.snd),
      GoMap.WF op.Scenarios := by
    intro op hop
    obtain ⟨x, hx, inc, hi, -, -, hsc⟩ := mem_mirrorOperations s _ op hop
    obtain ⟨e, he, rfl⟩ := List.mem_map.1 hx
    rw [hsc]
    exact hwf e ((rangeOrder_perm _ _).mem_iff.1 he) inc hi
  obtain ⟨s', more, hloop, hk⟩ := redistributeLoop_total
    (mirrorOperations s ((rangeOrder mirrorOrder a.attacks).map Prod.snd)) ids chs stopOrders
    { s with removingCancels := s.removingCancels.set b.name s.chanSeq,
             chanSeq := s.chanSeq + 1,
             closedChans := s.chanSeq :: s.closedChans,
             nodes := s.nodes.delete b.name }
    (GoMap.WF_delete hnodes b.name) hops
  refine ⟨s', more, ?_, ?_, hk, hloop⟩
  · unfold removingTimerFired
    have hstate : (s.RemoveNode b).state
        = { s with removingCancels := s.removingCancels.set b.name s.chanSeq,
                   chanSeq := s.chanSeq + 1 } := rfl
    rw [hstate, hret]
    dsimp only
    have hmir : mirrorOperations
          { s with removingCancels := s.removingCancels.set b.name s.chanSeq,
                   chanSeq := s.chanSeq + 1 }
          ((rangeOrder mirrorOrder a.attacks).map Prod.snd)
        = mirrorOperations s ((rangeOrder mirrorOrder a.attacks).map Prod.snd) := rfl
    rw [hmir, hloop]
    rfl
  · cases hg : s'.nodes.get? b.name with
    | none => rfl
    | some v =>
      have hmem : b.name ∈ GoMap.keys s'.nodes :=
        List.mem_map.2 ⟨_, GoMap.mem_of_get? hg, rfl⟩
      rw [hk] at hmem
      exact absurd rfl ((GoMap.mem_keys_delete _ _ _).1 hmem).1

/-- C28 at `demoStarted2`, where the worker `n3` is registered, holds a share
of the increments 0 and 1 of attack 0 and no removal is pending: a second
controller that declares the name `n3` is refused by `AddNode`; `RemoveNode`
for it, followed by the timer, unregisters the worker `n3` and starts its
shares on `n1` and `n2`. -/
theorem RemoveNode_same_name_unregisters_witness :
    demoStarted2.nodes.get? "n3" = some (demoStarted2.nodeOf "n3") ∧
    handshakeNode "n3" [demoScenario "Z"] ≠ demoStarted2.nodeOf "n3" ∧
    demoStarted2.removingCancels.get? "n3" = none ∧
    (demoStarted2.AddNode (handshakeNode "n3" [demoScenario "Z"]) [] []).map (fun o => o.ret)
      = some (Ret.fail GoError.ErrNodeAlreadyExists) ∧
    ∃ s' more,
      removingTimerFired (demoStarted2.RemoveNode (handshakeNode "n3" [demoScenario "Z"])).state
          "n3" [] [] [] []
        = some (s', Effect.closeChan 0 :: more) ∧
      s'.nodes.get? "n3" = none ∧
      GoMap.keys s'.nodes = ["n1", "n2"] ∧
      dispatched more
        = [("n1", { ID := "", AttackID := 0, IncrementID := 0, WaitTimeSec := 1,
                    Scenarios := [("X", 1)] }),
           ("n2", { ID := "", AttackID := 0, IncrementID := 0, WaitTimeSec := 1,
                    Scenarios := [("X", 1)] }),
           ("n1", { ID := "", AttackID := 0, IncrementID := 1, WaitTimeSec := 1,
                    Scenarios := [("X", 1)] })] := by
  obtain ⟨s', more, h1, h2, h3, -⟩ :=
    RemoveNode_same_name_unregisters demoStarted2 (demoStarted2.nodeOf "n3")
      (handshakeNode "n3" [demoScenario "Z"]) [] [] [] []
      (by decide) (by decide) (by decide) (by decide)
  have hval : (removingTimerFired
      (demoStarted2.RemoveNode (handshakeNode "n3" [demoScenario "Z"])).state
      "n3" [] [] [] []).map (fun r => dispatched r.2)
      = some [("n1", { ID := "", AttackID := 0, IncrementID := 0, WaitTimeSec := 1,
                       Scenarios := [("X", 1)] }),
              ("n2", { ID := "", AttackID := 0, IncrementID := 0, WaitTimeSec := 1,
                       Scenarios := [("X", 1)] }),
              ("n1", { ID := "", AttackID := 0, IncrementID := 1, WaitTimeSec := 1,
                       Scenarios := [("X", 1)] })] := by
    decide
  have h1' : removingTimerFired
      (demoStarted2.RemoveNode (handshakeNode "n3" [demoScenario "Z"])).state "n3" [] [] [] []
      = some (s', Effect.closeChan 0 :: more) := h1
  rw [h1'] at hval
  exact ⟨by decide, by decide, by decide, by decide, s', more, h1', h2, h3.trans (by decide),
    Option.some.inj hval⟩

/-- C29, evaluated on the code.  The run `demoRefusal` (three workers connect,
an attack is started, `n3` drops and reconnects within the recovery window
advertising only `Y`) reaches a state in which the mirror of the registered
node `n3` holds increment 0 of attack 0 although the record of the service
holds no attack at all: the replayed operation was refused by the newcomer,
which had already entered it in its mirror, and `stopIncrement` removed the
increment from the record and from the other nodes only. -/
theorem mirrorsLive_broken :
    demoRefused.Reachable ∧
    demoRefused.svc.attacks = [] ∧
    (demoRefused.svc.nodes.map (fun e => (e.1, e.2.hasIncrement 0 0)))
      = [("n1", false), ("n2", false), ("n3", true)] ∧
    demoRefused.svc.records 0 0 = false ∧
    ¬ demoRefused.svc.mirrorsLive := by
  have hsome : ((System.init 60).run demoRefusal).isSome = true := by decide
  have hreach : demoRefused.Reachable :=
    ⟨60, demoRefusal, (((System.init 60).run demoRefusal).get hsome).2,
      (Option.some_get hsome).symm⟩
  refine ⟨hreach, by decide, by decide, by decide, fun h => ?_⟩
  have hmem : ("n3", demoRefused.svc.nodeOf "n3") ∈ demoRefused.svc.nodes := by decide
  have := h _ hmem 0 0 (by decide)
  revert this
  decide

/-- C30, evaluated on the code.  A generator is asked to start increment 2 of
attack 5 twice, by the operations `op-1` (three users) and `op-2` (two users):
the second call replaces the increment, the three users of the first are
neither held nor handed to `Destroy`, and the wait group counts five users
while two are held.  `Stop` then hands the two to `Destroy`, leaves the
counter at three, and its `Wait` does not return. -/
theorem calls_overwrite_leaks :
    ((Generator.New { UsersPerClient := 2, MinIdleConnTimeoutSec := 1,
                      MaxIdleConnTimeoutSec := 2 }).calls
        [Generator.Call.start demoGenOp "job-1" [],
         Generator.Call.start demoGenOp2 "job-2" []]).map
      (fun g => (g.stop, g.heldUsers)) = some (5, 2) ∧
    (((Generator.New { UsersPerClient := 2, MinIdleConnTimeoutSec := 1,
                       MaxIdleConnTimeoutSec := 2 }).calls
        [Generator.Call.start demoGenOp "job-1" [],
         Generator.Call.start demoGenOp2 "job-2" []]).bind
      (fun g => g.Stop)).map (fun r => (r.1.stop, r.2)) = some (3, false) := by
  refine ⟨by decide, by decide⟩

/-- A successful or refused `StartAttack` keeps the configuration, and keeps
every user held on a client made before. -/
theorem StartAttack_clientsBelow (g : Generator.generator) (op : OperationStart)
    (jobID : String) (order : List Nat) (r : Generator.generator × Option Generator.Error)
    (hk : g.config.UsersPerClient ≠ 0)
    (h : g.StartAttack op jobID order = some r) (hP : g.clientsBelow) :
    r.1.clientsBelow ∧ r.1.config = g.config := by
  unfold Generator.generator.StartAttack at h
  have key : ∀ (g₁ : Generator.generator) (att : Generator.attack),
      g₁.clientsBelow → g₁.config = g.config → g₁.clients = g.clients → g₁.stop = g.stop →
      (∀ i ∈ att.increments, ∀ u ∈ i.2.users, u.client < g.clients) →
      (if (match att.increments.get? op.IncrementID with
            | some increment => decide (increment.operationID = op.ID)
            | none => false) = true
        then some (g₁, some Generator.Error.alreadyCreated)
        else
          match Generator.usersLoop g₁.config (rangeOrder order op.Scenarios)
              ([], g₁.stop, g₁.clients) with
          | none => none
          | some (users, stop, clients) =>
            some
              ({ g₁ with
                  stop := stop, clients := clients,
                  attacks :=
                    g₁.attacks.set op.AttackID
                      { att with
                        increments :=
                          att.increments.set op.IncrementID
                            { operationID := op.ID, users := users } } },
                none)) = some r →
      r.1.clientsBelow ∧ r.1.config = g.config := by
    intro g₁ att hP₁ hcfg hcl hst hatt h
    split at h
    · simp only [Option.some.injEq] at h
      rw [← h]
      exact ⟨hP₁, hcfg⟩
    · have hk₁ : g₁.config.UsersPerClient ≠ 0 := by rw [hcfg]; exact hk
      obtain ⟨users, clients', h1, h2, -, h4⟩ :=
        usersLoop_spec g₁.config hk₁ (rangeOrder order op.Scenarios) [] g₁.stop g₁.clients
      rw [List.nil_append] at h1
      rw [h1] at h
      simp only [Option.some.injEq] at h
      rw [← h]
      refine ⟨?_, hcfg⟩
      intro e he i hi u hu
      show u.client < clients'
      rcases mem_set _ _ _ _ he with rfl | hold
      · rcases mem_set _ _ _ _ hi with rfl | hold'
        · exact (h4 u hu).2
        · have := hatt i hold' u hu
          omega
      · have := hP₁ e hold i hi u hu
        omega
  cases hg : g.attacks.get? op.AttackID with
  | some att =>
    rw [hg] at h
    dsimp only at h
    exact key g att hP rfl rfl rfl
      (fun i hi u hu => hP (op.AttackID, att) (GoMap.mem_of_get? hg) i hi u hu) h
  | none =>
    rw [hg] at h
    dsimp only at h
    unfold Generator.Scheduler.NewJob at h
    by_cases hs : g.scheduler.stopped = true
    · rw [if_pos hs] at h
      dsimp only at h
      simp only [Option.some.injEq] at h
      rw [← h]
      exact ⟨hP, rfl⟩
    · rw [if_neg hs] at h
      dsimp only at h
      refine key
        { g with
          scheduler := { g.scheduler with jobs := g.scheduler.jobs.set jobID op.WaitTimeSec },
          attacks := g.attacks.set op.AttackID { increments := [], jobID := jobID } }
        { increments := [], jobID := jobID } ?_ rfl rfl rfl ?_ h
      · intro e he i hi u hu
        show u.client < g.clients
        rcases mem_set _ _ _ _ he with rfl | hold
        · simp at hi
        · exact hP e hold i hi u hu
      · intro i hi
        simp at hi

/-- A call of `StopAttack` keeps the configuration, and keeps every user held
on a client made before. -/
theorem StopAttack_clientsBelow (g : Generator.generator) (stop : OperationStop)
    (r : Generator.generator × Option Generator.StopError)
    (h : g.StopAttack stop = some r) (hP : g.clientsBelow) :
    r.1.clientsBelow ∧ r.1.config = g.config := by
  unfold Generator.generator.StopAttack at h
  cases hg : g.attacks.get? stop.AttackID with
  | none =>
    rw [hg] at h
    simp only [Option.some.injEq] at h
    rw [← h]
    exact ⟨hP, rfl⟩
  | some att =>
    rw [hg] at h
    dsimp only at h
    have hatt := GoMap.mem_of_get? hg
    cases hi : stop.IncrementID with
    | none =>
      rw [hi] at h
      dsimp only at h
      cases hrj : g.scheduler.RemoveJob att.jobID with
      | mk scheduler err =>
        rw [hrj] at h
        cases err with
        | some e =>
          simp only [Option.some.injEq] at h
          rw [← h]
          exact ⟨hP, rfl⟩
        | none =>
          dsimp only at h
          cases hr : Generator.release g.stop att.userCount with
          | none => rw [hr] at h; cases h
          | some count =>
            rw [hr] at h
            simp only [Option.some.injEq] at h
            rw [← h]
            refine ⟨fun e he i hi' u hu => ?_, rfl⟩
            exact hP e (List.mem_of_mem_filter he) i hi' u hu
    | some incrementID =>
      rw [hi] at h
      dsimp only at h
      cases hinc : att.increments.get? incrementID with
      | none =>
        rw [hinc] at h
        simp only [Option.some.injEq] at h
        rw [← h]
        exact ⟨hP, rfl⟩
      | some increment =>
        rw [hinc] at h
        dsimp only at h
        cases hr : Generator.release g.stop increment.users.length with
        | none => rw [hr] at h; cases h
        | some count =>
          rw [hr] at h
          dsimp only at h
          have hP₁ : ∀ e ∈ g.attacks.set stop.AttackID
              { att with increments := att.increments.delete incrementID },
              ∀ i ∈ e.2.increments, ∀ u ∈ i.2.users, u.client < g.clients := by
            intro e he i hi' u hu
            rcases mem_set _ _ _ _ he with rfl | hold
            · exact hP _ hatt i (List.mem_of_mem_filter hi') u hu
            · exact hP e hold i hi' u hu
          by_cases hlen : (att.increments.delete incrementID).length = 0
          · rw [if_pos hlen] at h
            cases hrj : g.scheduler.RemoveJob att.jobID with
            | mk scheduler err =>
              rw [hrj] at h
              cases err with
              | some e =>
                simp only [Option.some.injEq] at h
                rw [← h]
                exact ⟨hP₁, rfl⟩
              | none =>
                simp only [Option.some.injEq] at h
                rw [← h]
                exact ⟨fun e he i hi' u hu => hP₁ e (List.mem_of_mem_filter he) i hi' u hu, rfl⟩
          · rw [if_neg hlen] at h
            simp only [Option.some.injEq] at h
            rw [← h]
            exact ⟨hP₁, rfl⟩

/-- In every generator reached by calls of `StartAttack` and `StopAttack`
from one whose users use clients made before (such as `New`, which holds no
user), with a non-zero `UsersPerClient`, every user held uses a client made
before. -/
theorem calls_clientsBelow (g g' : Generator.generator) (calls : List Generator.Call)
    (hk : g.config.UsersPerClient ≠ 0) (hP : g.clientsBelow)
    (h : g.calls calls = some g') : g'.clientsBelow ∧ g'.config = g.config := by
  induction calls generalizing g with
  | nil =>
    simp only [Generator.generator.calls, Option.some.injEq] at h
    rw [← h]
    exact ⟨hP, rfl⟩
  | cons c rest ih =>
    cases c with
    | start op jobID order =>
      simp only [Generator.generator.calls] at h
      cases hs : g.StartAttack op jobID order with
      | none => rw [hs] at h; cases h
      | some r =>
        rw [hs] at h
        obtain ⟨p1, p2⟩ := StartAttack_clientsBelow g op jobID order r hk hs hP
        obtain ⟨q1, q2⟩ := ih r.1 (by rw [p2]; exact hk) p1 h
        exact ⟨q1, q2.trans p2⟩
    | stop op =>
      simp only [Generator.generator.calls] at h
      cases hs : g.StopAttack op with
      | none => rw [hs] at h; cases h
      | some r =>
        rw [hs] at h
        obtain ⟨p1, p2⟩ := StopAttack_clientsBelow g op r hs hP
        obtain ⟨q1, q2⟩ := ih r.1 (by rw [p2]; exact hk) p1 h
        exact ⟨q1, q2.trans p2⟩

end LoadGen
